import Mathlib

/-! # rushit: script object serializer, worker loop and option validation

A shallow embedding of `serialize.c`, of the worker of `dummy_test.c` and of
`check_options` of `tcp_rr_main.c`.  The Lua C API that `serialize.c` is
written against is an external library; the fragment of it that the file calls
is modelled below as functions on an explicit interpreter state (a value stack
and a heap of tables, closures and upvalue cells).  The functions of the C
files are then transcribed one by one, keeping their names.  The definitions
come first, the theorems about them after.
-/

namespace Rushit

/-! ## Outcomes -/

/-- Ways in which a C call fails to return normally. `fatal`: the process is
aborted (`assert`, or `LOG_FATAL` with a sink that does not return). `api`: the
Lua C API was used outside its contract. `fuel`: the recursion did not finish
within the given bound. -/
inductive Err where
  | fatal
  | api
  | fuel
  deriving DecidableEq, Repr

abbrev Res (α : Type) := Except Err α

deriving instance DecidableEq for Except

/-! ## The interpreter state -/

/-! C pointers (`void *`) are natural numbers; `0` is `NULL`. -/

abbrev Byte := Fin 256

/-- Payload of `lua_Number`. `serialize.c` never computes with numbers: it
copies them, and converts upvalue slot numbers (C `int`) to `lua_Number` and
back, which is exact; a number is represented by an integer code on which
those conversions are the identity. -/
abbrev lua_Number := Int

/-- A live Lua value (`TValue`). Collectable objects are referred to by their
address. -/
inductive TValue where
  | nil
  | boolean (b : Bool)
  | lightuserdata (p : Nat)
  | number (n : lua_Number)
  | string (s : List Byte)
  | table (p : Nat)
  | function (p : Nat)
  | userdata (p : Nat)
  | thread (p : Nat)
  deriving DecidableEq, Repr

/-- A live table: its entries in the order `lua_next` yields them, and the
address of its metatable (`0`: none). -/
structure Table where
  entries : List (TValue × TValue)
  metatable : Nat
  deriving DecidableEq, Repr

/-- A live function: `chunk` is the binary chunk `lua_dump` writes for it
(`none` for a C function, which cannot be dumped); `upvals` are the addresses
of its upvalue cells, slot 1 first (what `lua_upvalueid` returns). -/
structure Closure where
  chunk : Option (List Byte)
  upvals : List Nat
  deriving DecidableEq, Repr

inductive Obj where
  | table (t : Table)
  | closure (c : Closure)
  | upval (v : TValue)
  deriving DecidableEq, Repr

/-- The interpreter state: `stack` has the top of the stack first; the object
at address `p` is `heap[p - 1]`. -/
structure lua_State where
  stack : List TValue
  heap : List Obj
  deriving DecidableEq, Repr

def LUA_TNONE : Int := -1

def LUA_TNIL : Int := 0

def LUA_TBOOLEAN : Int := 1

def LUA_TLIGHTUSERDATA : Int := 2

def LUA_TNUMBER : Int := 3

def LUA_TSTRING : Int := 4

def LUA_TTABLE : Int := 5

def LUA_TFUNCTION : Int := 6

def LUA_TUSERDATA : Int := 7

def LUA_TTHREAD : Int := 8

def TValue.type : TValue → Int
  | .nil => LUA_TNIL
  | .boolean _ => LUA_TBOOLEAN
  | .lightuserdata _ => LUA_TLIGHTUSERDATA
  | .number _ => LUA_TNUMBER
  | .string _ => LUA_TSTRING
  | .table _ => LUA_TTABLE
  | .function _ => LUA_TFUNCTION
  | .userdata _ => LUA_TUSERDATA
  | .thread _ => LUA_TTHREAD

/-- The bytes of a C string: everything before the first NUL. This is what
`strdup` copies and what `lua_pushstring` pushes. -/
def cstr : List Byte → List Byte
  | [] => []
  | b :: bs => if b = 0 then [] else b :: cstr bs

def deref (L : lua_State) (p : Nat) : Option Obj :=
  if p = 0 then none else L.heap[p - 1]?

def getTable (L : lua_State) (p : Nat) : Option Table :=
  match deref L p with
  | some (.table t) => some t
  | _ => none

def getClosure (L : lua_State) (p : Nat) : Option Closure :=
  match deref L p with
  | some (.closure c) => some c
  | _ => none

def getUpval (L : lua_State) (p : Nat) : Option TValue :=
  match deref L p with
  | some (.upval v) => some v
  | _ => none

def store (L : lua_State) (p : Nat) (o : Obj) : lua_State :=
  { L with heap := L.heap.set (p - 1) o }

/-- Allocation: a new object gets the next unused address. -/
def alloc (L : lua_State) (o : Obj) : Nat × lua_State :=
  (L.heap.length + 1, { L with heap := L.heap ++ [o] })

def push (L : lua_State) (v : TValue) : lua_State :=
  { L with stack := v :: L.stack }

/-- Resolution of a stack index to a position counted from the top of the
stack (`0`: the top). Positive indices are absolute (from the bottom),
negative ones relative to the top. -/
def index2adr (L : lua_State) (idx : Int) : Option Nat :=
  if 0 < idx then
    if idx.toNat ≤ L.stack.length then some (L.stack.length - idx.toNat) else none
  else if idx < 0 then
    if (-idx).toNat ≤ L.stack.length then some ((-idx).toNat - 1) else none
  else none

def index (L : lua_State) (idx : Int) : Option TValue :=
  match index2adr L idx with
  | some i => L.stack[i]?
  | none => none

/-! ## The Lua C API fragment used by `serialize.c` -/

def lua_type (L : lua_State) (idx : Int) : Int :=
  match index L idx with
  | some v => v.type
  | none => LUA_TNONE

def lua_isfunction (L : lua_State) (idx : Int) : Bool := lua_type L idx == LUA_TFUNCTION

def lua_istable (L : lua_State) (idx : Int) : Bool := lua_type L idx == LUA_TTABLE

def lua_topointer (L : lua_State) (idx : Int) : Nat :=
  match index L idx with
  | some (.table p) => p
  | some (.function p) => p
  | some (.userdata p) => p
  | some (.thread p) => p
  | some (.lightuserdata p) => p
  | _ => 0

def lua_toboolean (L : lua_State) (idx : Int) : Bool :=
  match index L idx with
  | some .nil => false
  | some (.boolean b) => b
  | some _ => true
  | none => false

/-- `lua_tonumber` on a value of type number (the only use in `serialize.c`). -/
def lua_tonumber (L : lua_State) (idx : Int) : lua_Number :=
  match index L idx with
  | some (.number n) => n
  | _ => 0

/-- `lua_tostring` on a value of type string: a pointer to its bytes (followed
by a NUL), or `NULL`. -/
def lua_tostring (L : lua_State) (idx : Int) : Option (List Byte) :=
  match index L idx with
  | some (.string s) => some s
  | _ => none

def lua_pushnil (L : lua_State) : lua_State := push L .nil

def lua_pushboolean (L : lua_State) (b : Bool) : lua_State := push L (.boolean b)

def lua_pushnumber (L : lua_State) (n : lua_Number) : lua_State := push L (.number n)

/-- `lua_pushstring` takes a C string. -/
def lua_pushstring (L : lua_State) (s : List Byte) : lua_State := push L (.string (cstr s))

def lua_pushlightuserdata (L : lua_State) (p : Nat) : lua_State := push L (.lightuserdata p)

def lua_pushvalue (L : lua_State) (idx : Int) : Res lua_State :=
  match index L idx with
  | some v => .ok (push L v)
  | none => .error .api

def lua_pop (L : lua_State) (n : Nat) : Res lua_State :=
  if n ≤ L.stack.length then .ok { L with stack := L.stack.drop n } else .error .api

def lua_remove (L : lua_State) (idx : Int) : Res lua_State :=
  match index2adr L idx with
  | some i => if i < L.stack.length then .ok { L with stack := L.stack.eraseIdx i } else .error .api
  | none => .error .api

def lua_newtable (L : lua_State) : lua_State :=
  let (p, L1) := alloc L (.table { entries := [], metatable := 0 })
  push L1 (.table p)

/-- Raw lookup in the entries of a table. -/
def rawgetE : List (TValue × TValue) → TValue → TValue
  | [], _ => .nil
  | (k1, v1) :: es, k => if k1 = k then v1 else rawgetE es k

/-- Raw assignment of a non-nil value: an existing key keeps its place, a new
key goes last. -/
def rawputE : List (TValue × TValue) → TValue → TValue → List (TValue × TValue)
  | [], k, v => [(k, v)]
  | (k1, v1) :: es, k, v => if k1 = k then (k1, v) :: es else (k1, v1) :: rawputE es k v

def rawsetE (es : List (TValue × TValue)) (k v : TValue) : List (TValue × TValue) :=
  if v = .nil then es.filter (fun e => e.1 ≠ k) else rawputE es k v

/-- The entries that follow key `k` in iteration order (`none`: no such key). -/
def afterKey : List (TValue × TValue) → TValue → Option (List (TValue × TValue))
  | [], _ => none
  | (k1, _) :: es, k => if k1 = k then some es else afterKey es k

/-- `lua_rawset(L, idx)`: `t[k] = v` for the table at `idx`, `v` on top of the
stack and `k` just below; pops both. -/
def lua_rawset (L : lua_State) (idx : Int) : Res lua_State :=
  match index L idx, L.stack with
  | some (.table p), v :: k :: rest =>
    match getTable L p with
    | some t =>
      if k = .nil then .error .fatal
      else .ok (store { L with stack := rest } p (.table { t with entries := rawsetE t.entries k v }))
    | none => .error .api
  | _, _ => .error .api

/-- `lua_rawget(L, idx)`: replaces the key on top of the stack by `t[k]`. -/
def lua_rawget (L : lua_State) (idx : Int) : Res lua_State :=
  match index L idx, L.stack with
  | some (.table p), k :: rest =>
    match getTable L p with
    | some t => .ok { L with stack := rawgetE t.entries k :: rest }
    | none => .error .api
  | _, _ => .error .api

def lua_rawgeti (L : lua_State) (idx : Int) (n : Int) : Res lua_State :=
  match index L idx with
  | some (.table p) =>
    match getTable L p with
    | some t => .ok (push L (rawgetE t.entries (.number n)))
    | none => .error .api
  | _ => .error .api

/-- `lua_next(L, idx)`: pops a key and pushes the next key-value pair of the
table at `idx` (returning true), or pushes nothing when there is none. An
unknown key raises a Lua error, which is fatal outside a protected call. -/
def lua_next (L : lua_State) (idx : Int) : Res (Bool × lua_State) :=
  match index L idx, L.stack with
  | some (.table p), k :: rest =>
    match getTable L p with
    | some t =>
      match (if k = .nil then some t.entries else afterKey t.entries k) with
      | some ((k1, v1) :: _) => .ok (true, { L with stack := v1 :: k1 :: rest })
      | some [] => .ok (false, { L with stack := rest })
      | none => .error .fatal
    | none => .error .api
  | _, _ => .error .api

/-- The address of the metatable of the value at `idx` (`0`: none). Only
tables carry a metatable of their own in this model. -/
def metatableOf (L : lua_State) (idx : Int) : Nat :=
  match index L idx with
  | some (.table p) =>
    match getTable L p with
    | some t => t.metatable
    | none => 0
  | _ => 0

/-- `luaL_getmetafield(L, idx, e)`: pushes field `e` of the metatable of the
value at `idx` and returns true, or pushes nothing and returns false when
there is no metatable or no such field. -/
def luaL_getmetafield (L : lua_State) (idx : Int) (e : List Byte) : Bool × lua_State :=
  match getTable L (metatableOf L idx) with
  | some mt =>
    match rawgetE mt.entries (.string (cstr e)) with
    | .nil => (false, L)
    | v => (true, push L v)
  | none => (false, L)

def nth1 (l : List Nat) (n : Int) : Option Nat :=
  if 1 ≤ n then l[n.toNat - 1]? else none

/-- `lua_getupvalue(L, funcindex, n)`: pushes the value of upvalue `n` and
returns true (a name), or pushes nothing and returns false (`NULL`). -/
def lua_getupvalue (L : lua_State) (funcindex : Int) (n : Int) : Bool × lua_State :=
  match index L funcindex with
  | some (.function p) =>
    match getClosure L p with
    | some c =>
      match nth1 c.upvals n with
      | some u =>
        match getUpval L u with
        | some v => (true, push L v)
        | none => (false, L)
      | none => (false, L)
    | none => (false, L)
  | _ => (false, L)

/-- `lua_setupvalue(L, funcindex, n)`: pops the top of the stack into upvalue
`n` and returns true (a name), or does nothing and returns false (`NULL`). -/
def lua_setupvalue (L : lua_State) (funcindex : Int) (n : Int) : Bool × lua_State :=
  match index L funcindex, L.stack with
  | some (.function p), v :: rest =>
    match getClosure L p with
    | some c =>
      match nth1 c.upvals n with
      | some u =>
        match getUpval L u with
        | some _ => (true, store { L with stack := rest } u (.upval v))
        | none => (false, L)
      | none => (false, L)
    | none => (false, L)
  | _, _ => (false, L)

def lua_upvalueid (L : lua_State) (funcindex : Int) (n : Int) : Nat :=
  match index L funcindex with
  | some (.function p) =>
    match getClosure L p with
    | some c => (nth1 c.upvals n).getD 0
    | none => 0
  | _ => 0

/-- `lua_upvaluejoin(L, f1, n1, f2, n2)`: makes upvalue `n1` of the closure at
`f1` refer to upvalue `n2` of the closure at `f2`. -/
def lua_upvaluejoin (L : lua_State) (f1 : Int) (n1 : Int) (f2 : Int) (n2 : Int) : Res lua_State :=
  match index L f1, index L f2 with
  | some (.function p1), some (.function p2) =>
    match getClosure L p1, getClosure L p2 with
    | some c1, some c2 =>
      match nth1 c1.upvals n1, nth1 c2.upvals n2 with
      | some _, some u2 =>
        .ok (store L p1 (.closure { c1 with upvals := c1.upvals.set (n1.toNat - 1) u2 }))
      | _, _ => .error .api
    | _, _ => .error .api
  | _, _ => .error .api

/-- `lua_dump` with a writer that appends to a buffer: the status and the
bytes written. Only a Lua function on top of the stack can be dumped. -/
def lua_dump (L : lua_State) : Int × List Byte :=
  match index L (-1) with
  | some (.function p) =>
    match getClosure L p with
    | some c =>
      match c.chunk with
      | some bytes => (0, bytes)
      | none => (1, [])
    | none => (1, [])
  | _ => (1, [])

/-- What the interpreter's loader makes of a binary chunk: a function
prototype with `nups` upvalues, or an error status (`code + 1`, the loader's
statuses being positive) with a message. -/
inductive LoadResult where
  | proto (nups : Nat)
  | failure (code : Nat) (msg : List Byte)
  deriving DecidableEq, Repr

/-- The parts of the environment of `serialize.c` that are not in the file:
the chunk loader of the Lua library and `errno_lua` of `lib.c`, which maps a
Lua error status to an errno value (non-zero for a non-zero status). -/
structure Host where
  load : List Byte → LoadResult
  errno_lua : Int → Int
  errno_lua_ne_zero : ∀ e, e ≠ 0 → errno_lua e ≠ 0

/-- A host whose loader accepts every chunk as a function with `nups` upvalues. -/
def accepting (nups : Nat) : Host := ⟨fun _ => .proto nups, fun e => e, fun _ h => h⟩

/-- A host whose loader rejects every chunk with status 3 and message "e". -/
def rejecting : Host := ⟨fun _ => .failure 2 [101], fun e => e, fun _ h => h⟩

/-- Fresh upvalue cells holding nil, for a newly loaded closure. -/
def allocUpvals : Nat → lua_State → List Nat × lua_State
  | 0, L => ([], L)
  | n + 1, L =>
    let (u, L1) := alloc L (.upval .nil)
    let (us, L2) := allocUpvals n L1
    (u :: us, L2)

/-- `luaL_loadbuffer`: pushes the loaded function (a new closure whose
upvalues are fresh, holding nil) and returns 0, or pushes the error message and
returns the error status. -/
def luaL_loadbuffer (H : Host) (L : lua_State) (bytecode : List Byte) : Int × lua_State :=
  match H.load bytecode with
  | .proto nups =>
    let (us, L1) := allocUpvals nups L
    let (p, L2) := alloc L1 (.closure { chunk := some bytecode, upvals := us })
    (0, push L2 (.function p))
  | .failure code msg => ((code : Int) + 1, push L (.string msg))

/-! ## `serialize.c`: data -/

mutual
/-- `struct svalue`. `other` stands for a type tag without a payload that the
file handles (nil, userdata, ...). -/
inductive svalue where
  | other (type : Int)
  | boolean (b : Bool)
  | number (n : lua_Number)
  | string (s : List Byte)
  | function (f : sfunction)
  | table (t : stable)
/-- A (possibly empty) list of `struct supvalue`, linked through `next`. -/
inductive supvalue where
  | null
  | node (next : supvalue) (id : Nat) (number : Int) (value : svalue) (collector_id : Nat)
/-- A (possibly empty) list of `struct stable_entry`, linked through `next`. -/
inductive stable_entry where
  | null
  | node (next : stable_entry) (key : svalue) (value : svalue) (collector_id : Nat)
/-- `struct stable`. -/
inductive stable where
  | mk (id : Nat) (entries : stable_entry)
/-- `struct sfunction`. -/
inductive sfunction where
  | mk (id : Nat) (code : List Byte) (upvalues : supvalue)
end

deriving instance DecidableEq for svalue, supvalue, stable_entry, stable, sfunction

deriving instance Repr for svalue, supvalue, stable_entry, stable, sfunction

def sfunction.id : sfunction → Nat
  | .mk id _ _ => id

def sfunction.code : sfunction → List Byte
  | .mk _ code _ => code

def sfunction.upvalues : sfunction → supvalue
  | .mk _ _ ups => ups

def stable.id : stable → Nat
  | .mk id _ => id

def stable.entries : stable → stable_entry
  | .mk _ es => es

structure upvalue_mapping where
  key : Nat
  function_id : Nat
  upvalue_num : Int
  deriving DecidableEq, Repr

structure object_mapping where
  key : Nat
  object_id : Nat
  deriving DecidableEq, Repr

structure collector_mapping where
  key : Nat
  object_id : Nat
  value_key : svalue
  deriving DecidableEq, Repr

/-- `struct upvalue_cache`; the three maps are linked lists, newest first. -/
structure upvalue_cache where
  upvalue_map : List upvalue_mapping
  object_map : List object_mapping
  collector_map : List collector_mapping
  object_tbl_idx : Int
  deriving DecidableEq, Repr

/-- `struct callbacks`, of which `serialize.c` uses the `log_fatal` sink (via
`LOG_FATAL`): whether that sink returns to its caller or ends the process. -/
structure callbacks where
  log_fatal_returns : Bool

def LOG_FATAL (cb : callbacks) : Res Unit :=
  if cb.log_fatal_returns then .ok () else .error .fatal

/-! ## `serialize.c`: serialization -/

/-- `dump_function_bytecode`: the function is on top of the stack. -/
def dump_function_bytecode (cb : callbacks) (L : lua_State) : Res (List Byte × lua_State) := do
  let (err, bytes) := lua_dump L
  let _ ← (if err ≠ 0 then LOG_FATAL cb else pure ())
  -- luaL_pushresult, lua_tolstring
  let L1 := push L (.string bytes)
  let _ ← (if bytes.length = 0 then LOG_FATAL cb else pure ())
  -- byte_array_new copies `len` bytes
  let code := bytes
  let L2 ← lua_pop L1 1
  return (code, L2)

/-- `load_function_bytecode`. -/
def load_function_bytecode (cb : callbacks) (H : Host) (L : lua_State) (bytecode : List Byte) :
    Res (Int × lua_State) := do
  let (err, L1) := luaL_loadbuffer H L bytecode
  if err ≠ 0 then
    LOG_FATAL cb
    return (-(H.errno_lua err), L1)
  return (0, L1)

/-- The string "collector". -/
def collector_name : List Byte := [99, 111, 108, 108, 101, 99, 116, 111, 114]

/-- `unwrap_collector_maybe`: returns the collector id (`0`: none). -/
def unwrap_collector_maybe (L : lua_State) : Res (Nat × lua_State) :=
  match luaL_getmetafield L (-1) collector_name with
  | (true, L1) => do
    -- field value doesn't matter
    let L2 ← lua_pop L1 1
    let collector_id := lua_topointer L2 (-1)
    -- push wrapped value
    let L3 ← lua_rawgeti L2 (-1) 1
    -- remove wrapper
    let L4 ← lua_remove L3 (-2)
    return (collector_id, L4)
  | (false, L1) => .ok (0, L1)

/-- `prepend_upvalue`. -/
def prepend_upvalue (head : supvalue) (upvalue : supvalue) : Res supvalue :=
  match upvalue with
  | .null => .error .fatal
  | .node _ id number value collector_id => .ok (.node head id number value collector_id)

mutual
/-- `serialize_object`: the switch on `lua_type(L, -1)`. The first argument
bounds the depth of the recursion. -/
def serialize_object (cb : callbacks) : Nat → lua_State → Res (svalue × lua_State)
  | 0, _ => .error .fuel
  | n + 1, L =>
    match index L (-1) with
    | some .nil => .error .fatal
    | some (.number _) => .ok (.number (lua_tonumber L (-1)), L)
    | some (.boolean _) => .ok (.boolean (lua_toboolean L (-1)), L)
    | some (.string _) =>
      match lua_tostring L (-1) with
      | some s => .ok (.string (cstr s), L)
      | none => .error .api
    | some (.table _) => do
      let (t, L1) ← serialize_table cb n L
      return (.table t, L1)
    | some (.function _) => do
      let (f, L1) ← serialize_function cb n L
      return (.function f, L1)
    | some (.userdata _) => .error .fatal
    | some (.thread _) => .error .fatal
    | some (.lightuserdata _) => .error .fatal
    | none => .error .fatal
/-- `serialize_table`. -/
def serialize_table (cb : callbacks) : Nat → lua_State → Res (stable × lua_State)
  | 0, _ => .error .fuel
  | n + 1, L => do
    let id := lua_topointer L (-1)
    let (entries, L1) ← dump_table_entries cb n L
    return (.mk id entries, L1)
/-- `dump_table_entries`. -/
def dump_table_entries (cb : callbacks) : Nat → lua_State → Res (stable_entry × lua_State)
  | 0, _ => .error .fuel
  | n + 1, L => dump_table_entries_loop cb n .null (lua_pushnil L)
/-- The `while (lua_next(L, -2))` loop of `dump_table_entries`; `head` is the
list built so far. -/
def dump_table_entries_loop (cb : callbacks) :
    Nat → stable_entry → lua_State → Res (stable_entry × lua_State)
  | 0, _, _ => .error .fuel
  | n + 1, head, L => do
    let (more, L1) ← lua_next L (-2)
    if more then
      let (collector_id, L2) ← unwrap_collector_maybe L1
      let (value, L3) ← serialize_object cb n L2
      let L4 ← lua_pop L3 1
      let (key, L5) ← serialize_object cb n L4
      -- leave key on stack
      dump_table_entries_loop cb n (.node head key value collector_id) L5
    else
      return (head, L1)
/-- `serialize_upvalue`: a single record. -/
def serialize_upvalue (cb : callbacks) : Nat → lua_State → Nat → Int → Res (supvalue × lua_State)
  | 0, _, _, _ => .error .fuel
  | n + 1, L, id, number => do
    let (collector_id, L1) ← unwrap_collector_maybe L
    let (value, L2) ← serialize_object cb n L1
    return (.node .null id number value collector_id, L2)
/-- The `for (i = 1; lua_getupvalue(L, -1, i); i++)` loop of
`serialize_upvalues`. -/
def serialize_upvalues_loop (cb : callbacks) :
    Nat → Int → supvalue → lua_State → Res (supvalue × lua_State)
  | 0, _, _, _ => .error .fuel
  | n + 1, i, list, L =>
    match lua_getupvalue L (-1) i with
    | (true, L1) => do
      let v_id := lua_upvalueid L1 (-2) i
      let (v, L2) ← serialize_upvalue cb n L1 v_id i
      let list1 ← prepend_upvalue list v
      let L3 ← lua_pop L2 1
      serialize_upvalues_loop cb n (i + 1) list1 L3
    | (false, L1) => .ok (list, L1)
/-- `serialize_upvalues`. -/
def serialize_upvalues (cb : callbacks) : Nat → lua_State → Res (supvalue × lua_State)
  | 0, _ => .error .fuel
  | n + 1, L => serialize_upvalues_loop cb n 1 .null L
/-- `serialize_function`. -/
def serialize_function (cb : callbacks) : Nat → lua_State → Res (sfunction × lua_State)
  | 0, _ => .error .fuel
  | n + 1, L => do
    let id := lua_topointer L (-1)
    let (code, L1) ← dump_function_bytecode cb L
    let (upvalues, L2) ← serialize_upvalues cb n L1
    return (.mk id code upvalues, L2)
end

/-- `serialize_value`. -/
def serialize_value (cb : callbacks) (fuel : Nat) (L : lua_State) : Res (svalue × lua_State) :=
  serialize_object cb fuel L

/-! ## `serialize.c`: the upvalue cache -/

/-- `upvalue_cache_new`: `calloc`. -/
def upvalue_cache_new : upvalue_cache :=
  { upvalue_map := [], object_map := [], collector_map := [], object_tbl_idx := 0 }

def map_object (cache : upvalue_cache) (key : Nat) (object_id : Nat) : upvalue_cache :=
  { cache with object_map := { key := key, object_id := object_id } :: cache.object_map }

/-- `copy_value`: only booleans, numbers and strings pass its assertion. -/
def copy_value (src : svalue) : Res svalue :=
  match src with
  | .boolean b => .ok (.boolean b)
  | .number n => .ok (.number n)
  | .string s => .ok (.string (cstr s))
  | _ => .error .fatal

def map_collector (cache : upvalue_cache) (key : Nat) (object_id : Nat) (value_key : svalue) :
    Res upvalue_cache := do
  let vk ← copy_value value_key
  return { cache with
    collector_map := { key := key, object_id := object_id, value_key := vk } :: cache.collector_map }

def lookup_object (cache : upvalue_cache) (key : Nat) : Option object_mapping :=
  cache.object_map.find? (fun m => m.key = key)

def cache_object (cache : upvalue_cache) (L : lua_State) : Res (Nat × lua_State) := do
  let id := lua_topointer L (-1)
  let L1 := lua_pushlightuserdata L id
  let L2 ← lua_pushvalue L1 (-2)
  let L3 ← lua_rawset L2 cache.object_tbl_idx
  return (id, L3)

def fetch_object (cache : upvalue_cache) (L : lua_State) (id : Nat) : Res lua_State :=
  lua_rawget (lua_pushlightuserdata L id) cache.object_tbl_idx

def lookup_and_fetch_object (cache : upvalue_cache) (L : lua_State) (key : Nat) :
    Res (Bool × lua_State) :=
  match lookup_object cache key with
  | some m => do
    let L1 ← lua_rawget (lua_pushlightuserdata L m.object_id) cache.object_tbl_idx
    return (true, L1)
  | none => .ok (false, L)

/-- `map_upvalue`, given the `id` and `number` of the upvalue record. -/
def map_upvalue (cache : upvalue_cache) (id : Nat) (number : Int) (function_id : Nat) :
    upvalue_cache :=
  { cache with
    upvalue_map := { key := id, function_id := function_id, upvalue_num := number } ::
      cache.upvalue_map }

def lookup_upvalue (cache : upvalue_cache) (key : Nat) : Option upvalue_mapping :=
  cache.upvalue_map.find? (fun m => m.key = key)

/-! ## `serialize.c`: deserialization -/

/-- `set_upvalue`. The upvalue record enters through its `number` and through
`push_value`, the call `push_object(cb, L, cache, &upvalue->value)`. -/
def set_upvalue (push_value : lua_State → upvalue_cache → Res (lua_State × upvalue_cache))
    (number : Int) (L : lua_State) (cache : upvalue_cache) : Res (lua_State × upvalue_cache) := do
  let (L1, cache1) ← push_value L cache
  let (name, L2) := lua_setupvalue L1 (-2) number
  if name then return (L2, cache1) else .error .fatal

/-- `set_shared_upvalue`. The upvalue record enters through its fields `id`,
`number`, `collector_id` and through `push_value`, the call
`push_object(cb, L, cache, &upvalue->value)` made by `set_upvalue`. -/
def set_shared_upvalue (push_value : lua_State → upvalue_cache → Res (lua_State × upvalue_cache))
    (func_id : Nat) (id : Nat) (number : Int) (collector_id : Nat)
    (L : lua_State) (cache : upvalue_cache) : Res (lua_State × upvalue_cache) :=
  match lookup_upvalue cache id with
  | some m => do
    -- An already seen upvalue, we're sharing
    let L1 ← fetch_object cache L m.function_id
    let L2 ← lua_upvaluejoin L1 (-2) number (-1) m.upvalue_num
    let L3 ← lua_pop L2 1
    return (L3, cache)
  | none => do
    -- Upvalue seen for the first time
    let (L1, cache1) ← set_upvalue push_value number L cache
    let cache2 := map_upvalue cache1 id number func_id
    if collector_id ≠ 0 then
      let cache3 ← map_collector cache2 collector_id func_id (.number number)
      return (L1, cache3)
    else return (L1, cache2)

mutual
/-- `push_object`. -/
def push_object (cb : callbacks) (H : Host) :
    svalue → lua_State → upvalue_cache → Res (lua_State × upvalue_cache)
  | .boolean b, L, cache => .ok (lua_pushboolean L b, cache)
  | .number n, L, cache => .ok (lua_pushnumber L n, cache)
  | .string s, L, cache => .ok (lua_pushstring L s, cache)
  | .function f, L, cache => do
    let (found, L1) ← lookup_and_fetch_object cache L f.id
    if found then return (L1, cache)
    else
      let (_, _, L2, cache2) ← push_function cb H f L1 cache
      return (L2, cache2)
  | .table t, L, cache => do
    let (found, L1) ← lookup_and_fetch_object cache L t.id
    if found then return (L1, cache)
    else push_table cb H t L1 cache
  | .other _, _, _ => .error .fatal
/-- `push_table`. -/
def push_table (cb : callbacks) (H : Host) :
    stable → lua_State → upvalue_cache → Res (lua_State × upvalue_cache)
  | .mk id entries, L, cache => do
    let L1 := lua_newtable L
    let (tid, L2) ← cache_object cache L1
    let cache1 := map_object cache id tid
    push_table_entries cb H entries tid L2 cache1
/-- The `LIST_FOR_EACH (table->entries, e)` loop of `push_table`. -/
def push_table_entries (cb : callbacks) (H : Host) :
    stable_entry → Nat → lua_State → upvalue_cache → Res (lua_State × upvalue_cache)
  | .null, _, L, cache => .ok (L, cache)
  | .node next key value collector_id, tid, L, cache => do
    let (L1, cache1) ← push_object cb H key L cache
    let (L2, cache2) ← push_object cb H value L1 cache1
    let L3 ← lua_rawset L2 (-3)
    let cache3 ← (if collector_id ≠ 0 then map_collector cache2 collector_id tid key
      else pure cache2)
    push_table_entries cb H next tid L3 cache3
/-- The `LIST_FOR_EACH (func->upvalues, v)` loop of `push_function`. -/
def push_function_upvalues (cb : callbacks) (H : Host) (func_id : Nat) :
    supvalue → lua_State → upvalue_cache → Res (lua_State × upvalue_cache)
  | .null, L, cache => .ok (L, cache)
  | .node next id number value collector_id, L, cache => do
    let (L1, cache1) ←
      set_shared_upvalue (push_object cb H value) func_id id number collector_id L cache
    push_function_upvalues cb H func_id next L1 cache1
/-- `push_function`: returns the error code and, on success, the function id
that is stored through `object_key` when that pointer is not `NULL`. -/
def push_function (cb : callbacks) (H : Host) :
    sfunction → lua_State → upvalue_cache → Res (Int × Option Nat × lua_State × upvalue_cache)
  | .mk id code upvalues, L, cache => do
    let (err, L1) ← load_function_bytecode cb H L code
    if err ≠ 0 then return (err, none, L1, cache)
    else
      let (func_id, L2) ← cache_object cache L1
      let cache1 := map_object cache id func_id
      -- Set upvalues
      let (L3, cache3) ← push_function_upvalues cb H func_id upvalues L2 cache1
      return (0, some func_id, L3, cache3)
end

/-- `deserialize_function`. -/
def deserialize_function (cb : callbacks) (H : Host) (L : lua_State) (cache : upvalue_cache)
    (cache_idx : Int) (func : sfunction) : Res (Int × Option Nat × lua_State × upvalue_cache) :=
  push_function cb H func L { cache with object_tbl_idx := cache_idx }

/-- `deserialize_value`. -/
def deserialize_value (cb : callbacks) (H : Host) (L : lua_State) (cache : upvalue_cache)
    (cache_idx : Int) (value : svalue) : Res (lua_State × upvalue_cache) :=
  push_object cb H value L { cache with object_tbl_idx := cache_idx }

/-- The `LIST_FOR_EACH (cache->collector_map, m)` loop of
`push_collected_value`, with the final `lua_pushnil`. -/
def push_collected_value_loop (cb : callbacks) (H : Host) (cache : upvalue_cache)
    (collector_id : Nat) :
    List collector_mapping → lua_State → Res (lua_State × upvalue_cache)
  | [], L => .ok (lua_pushnil L, cache)
  | m :: ms, L =>
    if m.key ≠ collector_id then push_collected_value_loop cb H cache collector_id ms L
    else do
      let L1 ← fetch_object cache L m.object_id
      let (L2, cache2) ←
        if lua_isfunction L1 (-1) then
          match m.value_key with
          | .number n =>
            match lua_getupvalue L1 (-1) n with
            | (true, L2) => pure (L2, cache)
            | (false, _) => .error .fatal
          | _ => .error .api
        else if lua_istable L1 (-1) then do
          let (L2, cache2) ← push_object cb H m.value_key L1 cache
          let L3 ← lua_rawget L2 (-2)
          pure (L3, cache2)
        else do
          LOG_FATAL cb
          pure (L1, cache)
      -- fetched object
      let L3 ← lua_remove L2 (-2)
      return (L3, cache2)

/-- `push_collected_value`. -/
def push_collected_value (cb : callbacks) (H : Host) (L : lua_State) (cache : upvalue_cache)
    (cache_idx : Int) (collector_id : Nat) : Res (lua_State × upvalue_cache) :=
  let cache1 := { cache with object_tbl_idx := cache_idx }
  push_collected_value_loop cb H cache1 collector_id cache1.collector_map L

/-! ## Observations used to state the properties -/

/-- Booleans, numbers and strings. -/
def TValue.isPrimitive : TValue → Bool
  | .boolean _ => true
  | .number _ => true
  | .string _ => true
  | _ => false

/-- A round trip of the value on top of the stack of `Ls` into `Lt`:
`serialize_value` in the source interpreter followed by `deserialize_value`
in the target interpreter. -/
def roundtrip_value (cb : callbacks) (H : Host) (fuel : Nat) (Ls Lt : lua_State)
    (cache : upvalue_cache) (cache_idx : Int) : Res (lua_State × upvalue_cache) := do
  let (sv, _) ← serialize_value cb fuel Ls
  deserialize_value cb H Lt cache cache_idx sv

/-! ## Invariants of a deserialization campaign -/

/-- What `fetch_object` finds in the host-side table `ot` for object id `q`. -/
def Fetch (L : lua_State) (ot q : Nat) : TValue :=
  match getTable L ot with
  | some T => rawgetE T.entries (.lightuserdata q)
  | none => .nil

/-- Upvalue slot `n` of the function at `f` exists and refers to a cell. -/
def SlotOK (L : lua_State) (f : Nat) (n : Int) : Prop :=
  ∃ c u, getClosure L f = some c ∧ nth1 c.upvals n = some u ∧ (getUpval L u).isSome

/-- Object `p` is a live table or function stored under its id in the host-side table. -/
def LiveObj (L : lua_State) (ot p : Nat) : Prop :=
  (Fetch L ot p = .table p ∧ (getTable L p).isSome) ∨
  (Fetch L ot p = .function p ∧ (getClosure L p).isSome)

def svalue.isPrimitive : svalue → Bool
  | .boolean _ => true
  | .number _ => true
  | .string _ => true
  | _ => false

/-- A collector mapping refers to a live function and one of its upvalue
slots, or to a live table and a primitive key. -/
def CollOK (L : lua_State) (ot : Nat) (m : collector_mapping) : Prop :=
  (Fetch L ot m.object_id = .function m.object_id ∧
    ∃ n, m.value_key = .number n ∧ SlotOK L m.object_id n) ∨
  (Fetch L ot m.object_id = .table m.object_id ∧ (getTable L m.object_id).isSome ∧
    m.value_key.isPrimitive = true)

/-- The invariant of a deserialization campaign whose host-side object table
is the table `ot`, found at the absolute stack index `idx`. -/
structure Inv (idx : Int) (ot : Nat) (L : lua_State) (cache : upvalue_cache) : Prop where
  pos : 0 < idx
  le : idx.toNat ≤ L.stack.length
  at_idx : index L idx = some (.table ot)
  host : (getTable L ot).isSome
  cidx : cache.object_tbl_idx = idx
  objs : ∀ m ∈ cache.object_map, LiveObj L ot m.object_id
  upvs : ∀ m ∈ cache.upvalue_map,
    Fetch L ot m.function_id = .function m.function_id ∧ SlotOK L m.function_id m.upvalue_num
  colls : ∀ m ∈ cache.collector_map, CollOK L ot m

/-- The heap only grows and objects keep their kind. -/
structure Mono (ot : Nat) (L L1 : lua_State) : Prop where
  len : L.heap.length ≤ L1.heap.length
  tbl : ∀ p, (getTable L p).isSome → (getTable L1 p).isSome
  clo : ∀ p, (getClosure L p).isSome → (getClosure L1 p).isSome
  upv : ∀ p, (getUpval L p).isSome → (getUpval L1 p).isSome
  slot : ∀ f n, SlotOK L f n → SlotOK L1 f n
  fetch : ∀ q, q ≤ L.heap.length → Fetch L1 ot q = Fetch L ot q

/-- The three maps of the cache are only extended at the front, with entries
for objects that are new or excepted (`ex`), and with upvalue keys that were
not mapped before. -/
structure CacheExt (ex : Nat → Prop) (L : lua_State) (cache cache1 : upvalue_cache) : Prop where
  cidx : cache1.object_tbl_idx = cache.object_tbl_idx
  objs : ∃ pre, cache1.object_map = pre ++ cache.object_map ∧
    ∀ m ∈ pre, ex m.object_id ∨ L.heap.length < m.object_id
  upvs : ∃ pre, cache1.upvalue_map = pre ++ cache.upvalue_map ∧
    ∀ m ∈ pre, lookup_upvalue cache m.key = none ∧
      (ex m.function_id ∨ L.heap.length < m.function_id)
  colls : ∃ pre, cache1.collector_map = pre ++ cache.collector_map ∧
    ∀ m ∈ pre, ex m.object_id ∨ L.heap.length < m.object_id

/-- The effect of a deserialization step on the state: the invariant holds
afterwards, and every table, closure and upvalue cell that existed before and
is not excepted (`exT`, `exC`, `exU`) is unchanged; for upvalue cells this is
under the proviso `nok`. -/
structure Step (idx : Int) (ot : Nat) (exT exC exU : Nat → Prop) (nok : Prop)
    (L : lua_State) (cache : upvalue_cache) (L1 : lua_State) (cache1 : upvalue_cache) : Prop where
  inv : Inv idx ot L1 cache1
  mono : Mono ot L L1
  ext : CacheExt (fun p => exT p ∨ exC p) L cache cache1
  clos : ∀ p, p ≤ L.heap.length → ¬ exC p → getClosure L1 p = getClosure L p
  tbls : ∀ p, p ≤ L.heap.length → ¬ exT p → getTable L1 p = getTable L p
  cells : nok → ∀ p, p ≤ L.heap.length → ¬ exU p → getUpval L1 p = getUpval L p

/-! ## Serialization of a cyclic table -/

/-- A table (at address 1) whose entry `t[1]` is the table itself. -/
def cyclic_heap : List Obj := [.table ⟨[(.number 1, .table 1)], 0⟩]

/-- The slot numbers of the records of an upvalue list. -/
def supvalue.numbers : supvalue → List Int
  | .null => []
  | .node next _ number _ _ => number :: next.numbers

/-- The (upvalue id, slot number) pairs of the records of an upvalue list. -/
def supvalue.slots : supvalue → List (Nat × Int)
  | .null => []
  | .node next id number _ _ => (id, number) :: next.slots

mutual
/-- In every function node of the value tree, no two upvalue records carry
the same slot number. -/
def svalue.numsOK : svalue → Bool
  | .function f => f.numsOK
  | .table t => t.numsOK
  | _ => true
def supvalue.numsOK : supvalue → Bool
  | .null => true
  | .node next _ number value _ =>
    value.numsOK && decide (number ∉ next.numbers) && next.numsOK
def stable_entry.numsOK : stable_entry → Bool
  | .null => true
  | .node next key value _ => key.numsOK && value.numsOK && next.numsOK
def stable.numsOK : stable → Bool
  | .mk _ entries => entries.numsOK
def sfunction.numsOK : sfunction → Bool
  | .mk _ _ upvalues => upvalues.numsOK
end

/-- The cell an upvalue mapping refers to. -/
def cellOf (L : lua_State) (m : upvalue_mapping) : Option Nat :=
  match getClosure L m.function_id with
  | some c => nth1 c.upvals m.upvalue_num
  | none => none

/-- Slot `n` of the live function `fid` refers to the cell that the cache
records for the serialized upvalue id `uid`. -/
def Shares (L : lua_State) (cache : upvalue_cache) (fid : Nat) (n : Int) (uid : Nat) : Prop :=
  ∃ m c u, lookup_upvalue cache uid = some m ∧ cellOf L m = some u ∧
    getClosure L fid = some c ∧ nth1 c.upvals n = some u

def none_excepted : Nat → Prop := fun _ => False

/-! ## Relations between two heaps -/

/-- The object at an address is the same, or a table replaced by a table, or
an upvalue cell replaced by an upvalue cell. -/
def SameOrData (o o1 : Option Obj) : Prop :=
  o1 = o ∨ (∃ T T1, o = some (.table T) ∧ o1 = some (.table T1)) ∨
    (∃ v v1, o = some (.upval v) ∧ o1 = some (.upval v1))

/-! ## What the serializer records about upvalues -/

/-- The (cell, slot number) pairs of a list of upvalue cells whose first
element sits in slot `i`. -/
def slotList : Int → List Nat → List (Nat × Int)
  | _, [] => []
  | i, u :: us => (u, i) :: slotList (i + 1) us

/-- Source interpreter of the counter example: `get` at address 1 and `inc` at
address 2 share the cell at address 3, which holds 0. -/
def counter_source : lua_State :=
  ⟨[], [.closure ⟨some [1], [3]⟩, .closure ⟨some [2], [3]⟩, .upval (.number 0)]⟩

/-- Target interpreter holding only the host-side object table. -/
def counter_target : lua_State := ⟨[.table 1], [.table ⟨[], 0⟩]⟩

/-- Target interpreter after both functions were rebuilt. -/
def counter_rebuilt : lua_State :=
  ⟨[.function 5, .function 3, .table 1],
    [.table ⟨[(.lightuserdata 3, .function 3), (.lightuserdata 5, .function 5)], 0⟩,
      .upval (.number 0), .closure ⟨some [1], [2]⟩, .upval .nil, .closure ⟨some [2], [2]⟩]⟩

/-! ## Plain values of the source interpreter -/

/-- Whether a value carries the collector mark: its metatable has a field
named "collector". -/
def isCollector (h : List Obj) (v : TValue) : Bool :=
  (luaL_getmetafield ⟨[v], h⟩ (-1) collector_name).1

/-- A plain value of nesting depth at most `d` in the heap `h`: a boolean, a
number, a string without a NUL byte, or a table whose keys are pairwise
different and whose keys and values are plain, no value being a collector. -/
def plainTree (h : List Obj) : Nat → TValue → Bool
  | _, .boolean _ => true
  | _, .number _ => true
  | _, .string s => decide ((0 : Byte) ∉ s)
  | d + 1, .table p =>
    match getTable ⟨[], h⟩ p with
    | some t => decide (t.entries.map Prod.fst).Nodup &&
        t.entries.all (fun e => plainTree h d e.1 && plainTree h d e.2 && !isCollector h e.2)
    | none => false
  | _, _ => false

/-- The addresses of the tables met when a value is unfolded to depth `d`,
with repetitions. -/
def tableAddrs (h : List Obj) : Nat → TValue → List Nat
  | d + 1, .table p =>
    p :: (match getTable ⟨[], h⟩ p with
      | some t => (t.entries.map (fun e => tableAddrs h d e.1 ++ tableAddrs h d e.2)).flatten
      | none => [])
  | _, _ => []

/-- The entry list that `dump_table_entries` builds from the entries `es`,
starting from `head`: every entry is put in front of the ones before it. -/
def entriesOf (f : TValue → svalue) : List (TValue × TValue) → stable_entry → stable_entry
  | [], head => head
  | (k, v) :: es, head => entriesOf f es (.node head (f k) (f v) 0)

/-- The value tree of a plain value. -/
def treeOf (h : List Obj) : Nat → TValue → svalue
  | _, .boolean b => .boolean b
  | _, .number n => .number n
  | _, .string s => .string (cstr s)
  | d + 1, .table p =>
    .table (.mk p (entriesOf (treeOf h d)
      (match getTable ⟨[], h⟩ p with
        | some t => t.entries
        | none => []) .null))
  | _, _ => .other 0

/-! ## Plain value trees -/

/-- The live value a primitive node stands for. -/
def svalue.image : svalue → Option TValue
  | .boolean b => some (.boolean b)
  | .number n => some (.number n)
  | .string s => some (.string (cstr s))
  | _ => none

/-- The images of the primitive keys of an entry list. -/
def stable_entry.primKeys : stable_entry → List TValue
  | .null => []
  | .node next key _ _ =>
    (match key.image with
      | some x => [x]
      | none => []) ++ next.primKeys

mutual
/-- A value tree made of booleans, numbers, strings and tables only, without
collector marks, the primitive keys of every table being pairwise different. -/
def svalue.plain : svalue → Bool
  | .boolean _ => true
  | .number _ => true
  | .string _ => true
  | .table t => t.plain
  | _ => false
def stable.plain : stable → Bool
  | .mk _ es => es.plain && decide es.primKeys.Nodup
def stable_entry.plain : stable_entry → Bool
  | .null => true
  | .node next key value collector_id =>
    key.plain && value.plain && decide (collector_id = 0) && next.plain
end

mutual
/-- The ids of the table nodes of a value tree, in the order in which
`push_object` meets them. -/
def svalue.tableIds : svalue → List Nat
  | .table t => t.tableIds
  | _ => []
def stable.tableIds : stable → List Nat
  | .mk id es => id :: es.tableIds
def stable_entry.tableIds : stable_entry → List Nat
  | .null => []
  | .node next key value _ => key.tableIds ++ value.tableIds ++ next.tableIds
end

mutual
/-- The live value `w` of the state `L` is the value tree `sv` rebuilt: equal
to it for a primitive, and for a table a table at an address above `lo` whose
entries are the rebuilt entries, in the order of the tree, under pairwise
different keys. -/
def Built (lo : Nat) (L : lua_State) : svalue → TValue → Prop
  | .boolean b, w => w = .boolean b
  | .number n, w => w = .number n
  | .string s, w => w = .string (cstr s)
  | .table t, w => BuiltTable lo L t w
  | _, _ => False
def BuiltTable (lo : Nat) (L : lua_State) : stable → TValue → Prop
  | .mk _ es, w => ∃ q T, w = .table q ∧ lo < q ∧ getTable L q = some T ∧
      (T.entries.map Prod.fst).Nodup ∧ BuiltEntries lo L es T.entries
def BuiltEntries (lo : Nat) (L : lua_State) : stable_entry → List (TValue × TValue) → Prop
  | .null, l => l = []
  | .node next key value _, l => ∃ kw vw l1, l = (kw, vw) :: l1 ∧
      Built lo L key kw ∧ Built lo L value vw ∧ BuiltEntries lo L next l1
end

/-! ## From the source value to the rebuilt value -/

/-- The live value `w` of the state `Lt` is the same plain value as `v` in the
heap `h`, down to depth `d`: the same primitive, or a table with pairwise
different keys such that every entry of the one has an entry of the other with
the same key and the same value. -/
def SameValue (h : List Obj) (Lt : lua_State) : Nat → TValue → TValue → Prop
  | 0, v, w => v.isPrimitive = true ∧ w = v
  | d + 1, v, w =>
    (v.isPrimitive = true ∧ w = v) ∨
    ∃ p q ts tt, v = .table p ∧ w = .table q ∧
      getTable ⟨[], h⟩ p = some ts ∧ getTable Lt q = some tt ∧
      (tt.entries.map Prod.fst).Nodup ∧
      (∀ e ∈ ts.entries, ∃ e1 ∈ tt.entries,
        SameValue h Lt d e.1 e1.1 ∧ SameValue h Lt d e.2 e1.2) ∧
      (∀ e1 ∈ tt.entries, ∃ e ∈ ts.entries,
        SameValue h Lt d e.1 e1.1 ∧ SameValue h Lt d e.2 e1.2)

/-- Heap of the source interpreter: the table at address 1 has `[1] = true`
and `k` bound to the table at address 2, which has `[2] = 3`. -/
def nested_table_heap : List Obj :=
  [.table ⟨[(.number 1, .boolean true), (.string [107], .table 2)], 0⟩,
    .table ⟨[(.number 2, .number 3)], 0⟩]

/-- Target interpreter holding only the host-side object table. -/
def empty_target : lua_State := ⟨[.table 1], [.table ⟨[], 0⟩]⟩

/-! ## Functions with plain upvalues: serialization -/

/-- The upvalue list that `serialize_upvalues` builds for the cells `us`
(slots `i`, `i + 1`, ...), starting from `list`: every record is put in front
of the ones before it. The function `g` gives the value tree of a cell. -/
def upvaluesOf (g : Nat → svalue) : Int → List Nat → supvalue → supvalue
  | _, [], list => list
  | i, u :: us, list => upvaluesOf g (i + 1) us (.node list u i (g u) 0)

/-- The value held by the cell at address `u` (`nil` when there is none). -/
def cellValue (h : List Obj) (u : Nat) : TValue :=
  (getUpval ⟨[], h⟩ u).getD .nil

/-! ## Functions with plain upvalues: deserialization -/

/-- An upvalue list whose values are plain value trees, without collector
marks. -/
def supvalue.plain : supvalue → Bool
  | .null => true
  | .node next _ _ value collector_id =>
    value.plain && decide (collector_id = 0) && next.plain

/-- The ids of the table nodes in the values of an upvalue list. -/
def supvalue.tableIds : supvalue → List Nat
  | .null => []
  | .node next _ _ value _ => value.tableIds ++ next.tableIds

/-- The (slot number, value) pairs of the records of an upvalue list. -/
def supvalue.records : supvalue → List (Int × svalue)
  | .null => []
  | .node next _ number value _ => (number, value) :: next.records

/-- Heap of the source interpreter: the function at address 1 has two upvalue
cells, the one at address 2 holding the number 0 and the one at address 3
holding the table at address 4, which has `[1] = true`. -/
def function_heap : List Obj :=
  [.closure ⟨some [1], [2, 3]⟩, .upval (.number 0), .upval (.table 4),
    .table ⟨[(.number 1, .boolean true)], 0⟩]

/-- Heap of the source interpreter: the function at address 1 captures itself
through its one upvalue cell (a recursive local function). -/
def self_capture_heap : List Obj := [.closure ⟨some [1], [2]⟩, .upval (.function 1)]

/-! ## Collector ids and upvalue ids of a value tree -/

mutual
/-- The collector ids carried by the records of a value tree, at every depth. -/
def svalue.collectorIds : svalue → List Nat
  | .function f => f.collectorIds
  | .table t => t.collectorIds
  | _ => []
def supvalue.collectorIds : supvalue → List Nat
  | .null => []
  | .node next _ _ value collector_id =>
    collector_id :: (value.collectorIds ++ next.collectorIds)
def stable_entry.collectorIds : stable_entry → List Nat
  | .null => []
  | .node next key value collector_id =>
    collector_id :: (key.collectorIds ++ value.collectorIds ++ next.collectorIds)
def stable.collectorIds : stable → List Nat
  | .mk _ entries => entries.collectorIds
def sfunction.collectorIds : sfunction → List Nat
  | .mk _ _ upvalues => upvalues.collectorIds
end

mutual
/-- The upvalue ids carried by the upvalue records of a value tree, at every
depth. -/
def svalue.upvalueIds : svalue → List Nat
  | .function f => f.upvalueIds
  | .table t => t.upvalueIds
  | _ => []
def supvalue.upvalueIds : supvalue → List Nat
  | .null => []
  | .node next id _ value _ => id :: (value.upvalueIds ++ next.upvalueIds)
def stable_entry.upvalueIds : stable_entry → List Nat
  | .null => []
  | .node next key value _ => key.upvalueIds ++ value.upvalueIds ++ next.upvalueIds
def stable.upvalueIds : stable → List Nat
  | .mk _ entries => entries.upvalueIds
def sfunction.upvalueIds : sfunction → List Nat
  | .mk _ _ upvalues => upvalues.upvalueIds
end

/-- The cache `c1` extends the cache `c` by collector-map entries with keys
among `cids` and by upvalue-map entries with keys among `uids`, put in front. -/
def Tracks (cids uids : List Nat) (c c1 : upvalue_cache) : Prop :=
  (∃ pre, c1.collector_map = pre ++ c.collector_map ∧ ∀ m ∈ pre, m.key ∈ cids) ∧
  (∃ pre, c1.upvalue_map = pre ++ c.upvalue_map ∧ ∀ m ∈ pre, m.key ∈ uids)

/-! ## Collector binding -/

/-- The collector-map entry that `push_collected_value` uses for a collector
id: the newest one with that key. -/
def newest (c : upvalue_cache) (cid : Nat) : Option collector_mapping :=
  c.collector_map.find? (fun m => m.key = cid)

/-- The (upvalue id, slot number, collector id) triples of the records of an
upvalue list. -/
def supvalue.marks : supvalue → List (Nat × Int × Nat)
  | .null => []
  | .node next id number _ collector_id => (id, number, collector_id) :: next.marks

/-- The (key, collector id) pairs of the entries of an entry list. -/
def stable_entry.marks : stable_entry → List (svalue × Nat)
  | .null => []
  | .node next key _ collector_id => (key, collector_id) :: next.marks

/-- The target interpreter after the function with the one collector-marked
upvalue was rebuilt (at address 3, its cell at address 2) and the rebuilt
script has assigned 5 to the variable. -/
def collected_state : lua_State :=
  ⟨[.function 3, .table 1],
    [.table ⟨[(.lightuserdata 3, .function 3)], 0⟩, .upval (.number 5),
      .closure ⟨some [1], [2]⟩]⟩

/-- The cache after that function was rebuilt. -/
def collected_cache : upvalue_cache :=
  { upvalue_map := [{ key := 2, function_id := 3, upvalue_num := 1 }],
    object_map := [{ key := 1, object_id := 3 }],
    collector_map := [{ key := 3, object_id := 3, value_key := .number 1 }],
    object_tbl_idx := 1 }

/-- Source interpreter: the function at address 1 has two upvalue cells that
both hold the collector wrapper at address 4 (payload 0). -/
def twice_wrapped_source : lua_State :=
  ⟨[.function 1],
    [.closure ⟨some [1], [2, 3]⟩, .upval (.table 4), .upval (.table 4),
      .table ⟨[(.number 1, .number 0)], 5⟩,
      .table ⟨[(.string collector_name, .boolean true)], 0⟩]⟩

/-! ## The three relations of the cache only grow -/

/-- The cache `c1` holds every entry of the cache `c`, in each of the three
maps, unchanged and in the same order, behind the entries added since. -/
def Appends (c c1 : upvalue_cache) : Prop :=
  (∃ pre, c1.object_map = pre ++ c.object_map) ∧
  (∃ pre, c1.upvalue_map = pre ++ c.upvalue_map) ∧
  (∃ pre, c1.collector_map = pre ++ c.collector_map)

/-! ## Order of the entries of a table -/

/-- The records of an entry list, first record first. -/
def stable_entry.toList : stable_entry → List (svalue × svalue × Nat)
  | .null => []
  | .node next key value collector_id => (key, value, collector_id) :: next.toList

/-- Heap of the source interpreter: the table at address 1 has `[1] = true`
and then `[2] = false`. -/
def two_entries_heap : List Obj :=
  [.table ⟨[(.number 1, .boolean true), (.number 2, .boolean false)], 0⟩]

/-! ## `dummy_test.c`: the worker of the dummy workload

The worker is observed through the list of the actions it performs: the calls
it makes into the libraries it is linked with, and the branches of its event
dispatch, which in the dummy workload are placeholders for the script hooks. -/

def EPOLLIN : Nat := 1

def EPOLLPRI : Nat := 2

def EPOLLOUT : Nat := 4

def EINTR : Int := 4

/-- `struct flow`, of which the worker reads `fd`. -/
structure flow where
  fd : Int
  deriving DecidableEq, Repr

/-- `struct epoll_event`: the event mask and the flow that `data.ptr` points to. -/
structure epoll_event where
  events : Nat
  data : flow
  deriving DecidableEq, Repr

/-- `struct options`: the fields read by the worker of `dummy_test.c` and by
`check_options` of `tcp_rr_main.c`. A `double` is represented by a rational
number; `local_host` is a C string or `NULL`. -/
structure options where
  test_length : Int
  maxevents : Int
  num_flows : Int
  num_threads : Int
  client : Bool
  request_size : Int
  response_size : Int
  buffer_size : Int
  listen_backlog : Int
  interval : ℚ
  min_rto : Int
  max_pacing_rate : Int
  local_host : Option (List Byte)
  nonblocking : Bool
  deriving DecidableEq, Repr

/-- `struct thread`: the stop eventfd and the stop flag. -/
structure thread where
  stop_efd : Int
  stop : Int
  deriving DecidableEq, Repr

/-- The script hook a branch of the event dispatch stands for. -/
inductive Hook where
  | sendmsg
  | recvmsg
  | recverr
  deriving DecidableEq, Repr

/-- What a `PLOG_FATAL` diagnostic is about. -/
inductive Diag where
  | epoll_create1
  | epoll_wait
  deriving DecidableEq, Repr

/-- The observable actions of a worker. `hook i h`: event `i` of the current
batch was dispatched to the branch `h` (`none`: to no branch). -/
inductive Action where
  | script_init_hook (fd : Int)
  | epoll_create1
  | addflow_lite (epfd : Int) (fd : Int) (events : Nat)
  | calloc_events (n : Int)
  | barrier_wait
  | epoll_wait (maxevents : Int) (timeout : Int)
  | hook (i : Nat) (h : Option Hook)
  | plog_fatal (what : Diag)
  | free_events
  | free_stop_fl
  | do_close (fd : Int)
  deriving DecidableEq, Repr

/-- The branch of `client_events` for an event mask. -/
def client_branch (events : Nat) : Option Hook :=
  if events &&& EPOLLOUT ≠ 0 then some .sendmsg
  else if events &&& EPOLLIN ≠ 0 then some .recvmsg
  else if events &&& EPOLLPRI ≠ 0 then some .recverr
  else none

/-- The branch of `server_events` for an event mask. -/
def server_branch (events : Nat) : Option Hook :=
  if events &&& EPOLLIN ≠ 0 then some .recvmsg
  else if events &&& EPOLLOUT ≠ 0 then some .sendmsg
  else if events &&& EPOLLPRI ≠ 0 then some .recverr
  else none

/-- The `for` loop of `client_events` and `server_events` from index `i` on,
the list holding `events[i]`, ..., `events[nfds - 1]`; `branch` is the chain of
tests on the event mask. -/
def events_from (branch : Nat → Option Hook) (t : thread) :
    Nat → List epoll_event → thread × List Action
  | _, [] => (t, [])
  | i, e :: es =>
    if e.data.fd = t.stop_efd then ({ t with stop := 1 }, [])
    else
      let (t1, tr) := events_from branch t (i + 1) es
      (t1, .hook i (branch e.events) :: tr)

/-- `client_events`: `events` is the array, `nfds` the number of events in it
(a non-positive `nfds` means no iteration). -/
def client_events (t : thread) (events : List epoll_event) (nfds : Int) : thread × List Action :=
  events_from client_branch t 0 (events.take nfds.toNat)

/-- `server_events`. -/
def server_events (t : thread) (events : List epoll_event) (nfds : Int) : thread × List Action :=
  events_from server_branch t 0 (events.take nfds.toNat)

/-- What a call of the multiplexer wait returns: the events it has written to
the front of the array (their number is the return value), or -1 with `errno`. -/
inductive WaitResult where
  | ready (events : List epoll_event)
  | failed (errno : Int)
  deriving DecidableEq, Repr

/-- How a run of a worker ends: the main loop was left with the stop flag
set; the process was ended (`PLOG_FATAL`, `assert`); or the multiplexer wait
did not return. -/
inductive Exit where
  | stopped
  | fatal
  | blocked
  deriving DecidableEq, Repr

/-- A run of a worker: its thread record at the end, its actions, its end. -/
structure Run where
  t : thread
  trace : List Action
  exit : Exit
  deriving DecidableEq, Repr

/-- The actions `tr` followed by the run `r`. -/
def Run.after (tr : List Action) (r : Run) : Run :=
  { r with trace := tr ++ r.trace }

/-- `PLOG_FATAL`: `LOG_FATAL` with the text of `errno` appended. -/
def PLOG_FATAL (cb : callbacks) : Res Unit := LOG_FATAL cb

/-- The array `events` after a wait has written `evs` to its front. -/
def written (events evs : List epoll_event) : List epoll_event :=
  evs ++ events.drop evs.length

/-- The main loop `while (!t->stop)` of `run_client` (`handle` is
`client_events`) and of `run_server` (`handle` is `server_events`). `queue`
holds what the successive calls of `fake_epoll_wait` return, `events` is the
array of events. -/
def main_loop (handle : thread → List epoll_event → Int → thread × List Action)
    (cb : callbacks) (opts : options) :
    List WaitResult → List epoll_event → thread → Run
  | [], _, t =>
    if t.stop ≠ 0 then ⟨t, [], .stopped⟩
    else
      let ms : Int := if opts.nonblocking then 10 else -1
      -- assert(maxevents > 0) in fake_epoll_wait
      if ¬ 0 < opts.maxevents then ⟨t, [.epoll_wait opts.maxevents ms], .fatal⟩
      else ⟨t, [.epoll_wait opts.maxevents ms], .blocked⟩
  | r :: queue, events, t =>
    if t.stop ≠ 0 then ⟨t, [], .stopped⟩
    else
      let ms : Int := if opts.nonblocking then 10 else -1
      if ¬ 0 < opts.maxevents then ⟨t, [.epoll_wait opts.maxevents ms], .fatal⟩
      else
        match r with
        | .failed errno =>
          if errno = EINTR then
            Run.after [.epoll_wait opts.maxevents ms] (main_loop handle cb opts queue events t)
          else
            match PLOG_FATAL cb with
            | .error _ => ⟨t, [.epoll_wait opts.maxevents ms, .plog_fatal .epoll_wait], .fatal⟩
            | .ok _ =>
              let (t1, tr) := handle t events (-1)
              Run.after (.epoll_wait opts.maxevents ms :: .plog_fatal .epoll_wait :: tr)
                (main_loop handle cb opts queue events t1)
        | .ready evs =>
          let events1 := written events evs
          let (t1, tr) := handle t events1 evs.length
          Run.after (.epoll_wait opts.maxevents ms :: tr)
            (main_loop handle cb opts queue events1 t1)

/-- The actions of `run_client` and `run_server` between the creation of the
multiplexer and the main loop, the main loop, and the release of the
resources. -/
def run_worker (handle : thread → List epoll_event → Int → thread × List Action)
    (cb : callbacks) (opts : options) (connects : List Action) (epfd : Int)
    (queue : List WaitResult) (t : thread) : Run :=
  let create : List Action := [.epoll_create1]
  match (if epfd = -1 then PLOG_FATAL cb else pure ()) with
  | .error _ => ⟨t, create ++ [.plog_fatal .epoll_create1], .fatal⟩
  | .ok _ =>
    let diag : List Action := if epfd = -1 then [.plog_fatal .epoll_create1] else []
    let prelude := create ++ diag ++ [.addflow_lite epfd t.stop_efd EPOLLIN] ++ connects ++
      [.calloc_events opts.maxevents, .barrier_wait]
    let r := main_loop handle cb opts queue (List.replicate opts.maxevents.toNat ⟨0, ⟨0⟩⟩) t
    match r.exit with
    | .stopped => Run.after prelude { r with trace := r.trace ++ [.free_events, .free_stop_fl, .do_close epfd] }
    | _ => Run.after prelude r

/-- `run_client`. `flows_in_this_thread` is the result of `flows_in_thread`
(`lib.c`), `epfd` that of `epoll_create1`; `client_connect` runs the init hook
of the script once per flow, with the descriptor -1. -/
def run_client (cb : callbacks) (opts : options) (flows_in_this_thread : Nat) (epfd : Int)
    (queue : List WaitResult) (t : thread) : Run :=
  run_worker client_events cb opts
    (List.replicate flows_in_this_thread (.script_init_hook (-1))) epfd queue t

/-- `run_server`: the assertion on `maxevents` and the init hook on the
listening socket (descriptor -1) come first. -/
def run_server (cb : callbacks) (opts : options) (epfd : Int)
    (queue : List WaitResult) (t : thread) : Run :=
  if ¬ 0 < opts.maxevents then ⟨t, [], .fatal⟩
  else
    Run.after [.script_init_hook (-1)] (run_worker server_events cb opts [] epfd queue t)

/-! ## `tcp_rr_main.c`: validation of the options -/

/-- `CHECK(cb, cond, ...)`: `LOG_FATAL` when the condition does not hold. -/
def CHECK (cb : callbacks) (cond : Bool) : Res Unit :=
  if cond then .ok () else LOG_FATAL cb

def UINT32_MAX : Int := 4294967295

/-- `check_options`. `somaxconn` is the value that `procfile_int` reads from
`PROCFILE_SOMAXCONN`. The `int` `min_rto` is compared with the `unsigned`
value `(1U << 31) / 1000000`, hence converted to `unsigned`; the `long long`
`max_pacing_rate` is compared with `UINT32_MAX` as a `long long`. -/
def check_options (cb : callbacks) (opts : options) (somaxconn : Int) : Res Unit := do
  CHECK cb (decide (opts.test_length ≥ 1))
  CHECK cb (decide (opts.maxevents ≥ 1))
  CHECK cb (decide (opts.num_flows ≥ 1))
  CHECK cb (decide (opts.num_threads ≥ 1))
  let _ ← (if opts.client then CHECK cb (decide (opts.num_flows ≥ opts.num_threads))
    else pure ())
  CHECK cb (decide (opts.request_size > 0))
  CHECK cb (decide (opts.response_size > 0))
  CHECK cb (decide (opts.interval > 0))
  CHECK cb (decide (opts.min_rto ≥ 0))
  CHECK cb (decide (opts.min_rto % 2 ^ 32 < (2 ^ 31 % 2 ^ 32) / 1000000))
  CHECK cb (decide (opts.max_pacing_rate ≥ 0))
  CHECK cb (decide (opts.max_pacing_rate ≤ UINT32_MAX))
  CHECK cb (decide (opts.buffer_size > 0))
  CHECK cb (opts.client || opts.local_host.isNone)
  CHECK cb (decide (opts.listen_backlog ≤ somaxconn))

/-- The validation rules, in the words of the messages, other than the three
that the properties below single out. -/
def other_rules (opts : options) : Prop :=
  opts.test_length ≥ 1 ∧ opts.maxevents ≥ 1 ∧ opts.num_flows ≥ 1 ∧ opts.num_threads ≥ 1 ∧
  opts.request_size > 0 ∧ opts.response_size > 0 ∧ opts.interval > 0 ∧
  opts.min_rto ≥ 0 ∧ opts.min_rto < 2147 ∧
  opts.buffer_size > 0 ∧ (opts.client = true ∨ opts.local_host = none)

/-- A client has no fewer flows than threads. -/
def flows_rule (opts : options) : Prop :=
  opts.client = true → opts.num_flows ≥ opts.num_threads

/-- The backlog does not exceed the system's `SOMAXCONN`. -/
def backlog_rule (opts : options) (somaxconn : Int) : Prop :=
  opts.listen_backlog ≤ somaxconn

/-- The pacing rate fits 32 bits. -/
def pacing_rule (opts : options) : Prop :=
  0 ≤ opts.max_pacing_rate ∧ opts.max_pacing_rate ≤ 2 ^ 32 - 1

/-- A record is valid when every validation rule holds. -/
def options_valid (opts : options) (somaxconn : Int) : Prop :=
  other_rules opts ∧ flows_rule opts ∧ backlog_rule opts somaxconn ∧ pacing_rule opts

/-- The flag defaults defined in `main` (`DEFINE_FLAG`), with `client` as
given. -/
def default_options (client : Bool) : options :=
  { test_length := 10, maxevents := 1000, num_flows := 1, num_threads := 1, client := client,
    request_size := 1, response_size := 1, buffer_size := 65536, listen_backlog := 128,
    interval := 1, min_rto := 0, max_pacing_rate := 0, local_host := none,
    nonblocking := false }

/-- Modelled from the spec: the event kinds, one slave hook each. -/
inductive script_hook_id where
  | socket
  | close
  | sendmsg
  | recvmsg
  | recverr
  deriving DecidableEq, Repr

/-- Modelled from the spec: the registration functions exposed to the script,
`client_<kind>` and `server_<kind>`. -/
structure hook_name where
  client : Bool
  kind : script_hook_id
  deriving DecidableEq, Repr

/-- Modelled from the spec: a closure handed to a registration function, as
the integer it returns when called for a descriptor. -/
structure script_closure where
  call : Int → Int

/-- Modelled from the spec: the query functions of the script surface. -/
inductive script_query where
  | is_client
  | is_server
  | tid_iter
  deriving DecidableEq, Repr

/-- Modelled from the spec: a script is a sequence of statements: calls of a
registration function with a closure, calls of a query function, and
statements whose evaluation fails with an error code. -/
inductive statement where
  | register (name : hook_name) (f : script_closure)
  | query (q : script_query)
  | raise (err : Nat)

/-- Modelled from the spec: the engine holds the list of named hook
registrations (newest first) and the role flag. -/
structure script_engine where
  is_client : Bool
  hooks : List (hook_name × script_closure)

/-- Modelled from the spec: `script_engine_create`. -/
def script_engine_create (is_client : Bool) : script_engine :=
  { is_client := is_client, hooks := [] }

/-- Modelled from the spec: what a run of a script does, in order: the
evaluation of statement `i`, the call of the wait callback. -/
inductive script_event where
  | evaluated (i : Nat)
  | wait
  deriving DecidableEq, Repr

/-- Modelled from the spec: a registration function records its closure under
the corresponding slot. -/
def register_hook (se : script_engine) (name : hook_name) (f : script_closure) :
    script_engine :=
  { se with hooks := (name, f) :: se.hooks }

/-- Modelled from the spec: evaluation of one statement. -/
def eval_statement (se : script_engine) : statement → Except Nat script_engine
  | .register name f => .ok (register_hook se name f)
  | .query _ => .ok se
  | .raise err => .error err

/-- Modelled from the spec: evaluation of a script from statement number
`i` on, with the log of what was evaluated. -/
def evaluate (se : script_engine) (i : Nat) :
    List statement → Except Nat (script_engine × List script_event)
  | [] => .ok (se, [])
  | s :: rest =>
    match eval_statement se s with
    | .error err => .error err
    | .ok se1 =>
      match evaluate se1 (i + 1) rest with
      | .error err => .error err
      | .ok (se2, log) => .ok (se2, .evaluated i :: log)

/-- Modelled from the spec: the outcome of a run: the return code, the engine,
the caller's state and the log of events. -/
structure script_run (σ : Type) where
  ret : Int
  se : script_engine
  world : σ
  log : List script_event

/-- Modelled from the spec: the wait callback is invoked with the caller's
argument; a null callback is skipped, as in the tests that pass `NULL`. -/
def call_wait {α σ : Type} (wait_func : Option (α → σ → σ)) (wait_data : α) (w : σ) : σ :=
  match wait_func with
  | some f => f wait_data w
  | none => w

/-- Modelled from the spec: `script_engine_run_string` evaluates the script
and, after evaluation completes, invokes the wait callback once before
returning. A script that fails to evaluate yields the negated error code. -/
def script_engine_run_string {α σ : Type} (se : script_engine) (script : List statement)
    (wait_func : Option (α → σ → σ)) (wait_data : α) (w : σ) : script_run σ :=
  match evaluate se 0 script with
  | .error err => { ret := - (err : Int), se := se, world := w, log := [] }
  | .ok (se1, log) =>
    { ret := 0, se := se1, world := call_wait wait_func wait_data w,
      log := log ++ [.wait] }

def ENOENT : Nat := 2

/-- Modelled from the spec: `script_engine_run_file` loads the script from a
file (`files` maps a path to the script stored there) and runs it as
`script_engine_run_string` does. -/
def script_engine_run_file {α σ : Type} (files : List Byte → Option (List statement))
    (se : script_engine) (path : List Byte)
    (wait_func : Option (α → σ → σ)) (wait_data : α) (w : σ) : script_run σ :=
  match files path with
  | none => { ret := - (ENOENT : Int), se := se, world := w, log := [] }
  | some script => script_engine_run_string se script wait_func wait_data w

/-- The callback `wait_func` of `t_script.c`: it sets the flag it is given. -/
def wait_func (_ : Unit) (_ : Bool) : Bool := true

/-! ## The bound on `min_rto` -/

/-- The validation rules other than the two on `min_rto`. -/
def rules_besides_min_rto (opts : options) (somaxconn : Int) : Prop :=
  opts.test_length ≥ 1 ∧ opts.maxevents ≥ 1 ∧ opts.num_flows ≥ 1 ∧ opts.num_threads ≥ 1 ∧
  opts.request_size > 0 ∧ opts.response_size > 0 ∧ opts.interval > 0 ∧
  opts.buffer_size > 0 ∧ (opts.client = true ∨ opts.local_host = none) ∧
  flows_rule opts ∧ backlog_rule opts somaxconn ∧ pacing_rule opts

/-- The defaults with `min_rto` set to 2147. -/
def min_rto_2147 : options := { default_options true with min_rto := 2147 }

/-! ## Collector wrappers met by the serializer -/

/-- What the claim says `unwrap_collector_maybe` makes of the value `v` on top
of the stack: for a value carrying the collector mark, the address of the
wrapper table and the wrapper's first indexed cell; otherwise no collector id
(`0`) and the value itself. -/
def unwrapped (h : List Obj) (v : TValue) : Nat × TValue :=
  if isCollector h v then
    match v with
    | .table p =>
      match getTable ⟨[], h⟩ p with
      | some T => (p, rawgetE T.entries (.number 1))
      | none => (0, v)
    | _ => (0, v)
  else (0, v)

/-- Source interpreter whose function at address 1 has one upvalue, which
holds nil. -/
def nil_upvalue_heap : List Obj := [.closure ⟨some [1], [2]⟩, .upval .nil]

/-- Source interpreter with the collector wrapper at address 3 (its metatable,
at address 4, has the field "collector"), whose first cell holds 7. The
wrapper is the value of the one upvalue of the function at address 1 and of
the entry `[1]` of the table at address 5. -/
def wrapped_heap : List Obj :=
  [.closure ⟨some [1], [2]⟩, .upval (.table 3), .table ⟨[(.number 1, .number 7)], 4⟩,
    .table ⟨[(.string collector_name, .boolean true)], 0⟩,
    .table ⟨[(.number 1, .table 3)], 0⟩]

/-! ## Keys of a serialized table -/

/-- The live key that a serialized key records: the payload of a boolean, a
number or a string, the address of a table or of a function. -/
def svalue.keyOf : svalue → Option TValue
  | .boolean b => some (.boolean b)
  | .number n => some (.number n)
  | .string s => some (.string s)
  | .table t => some (.table t.id)
  | .function f => some (.function f.id)
  | .other _ => none

/-- A live key as `strdup` leaves it: a string is cut at its first NUL byte. -/
def cutKey : TValue → TValue
  | .string s => .string (cstr s)
  | v => v

/-- Source interpreter whose table at address 1 has the two keys "a\0" and
"a". -/
def nul_keys_heap : List Obj :=
  [.table ⟨[(.string [97, 0], .number 1), (.string [97], .number 2)], 0⟩]

/-! ## Upvalue records and the slots they name -/

/-- An upvalue list that `push_function` can rebuild whatever its order, for a
function with `nups` upvalues whose own id is `id`, starting from `cache`: the
values are plain, the slot numbers are pairwise different and within
`1..nups`, the upvalue ids are pairwise different and not in the cache, and so
are the ids of the tables in the values. -/
def supvalue.rebuildable (cache : upvalue_cache) (nups : Nat) (id : Nat) (ups : supvalue) :
    Prop :=
  ups.plain = true ∧ ups.numbers.Nodup ∧ (∀ n ∈ ups.numbers, 1 ≤ n ∧ n ≤ nups) ∧
  (ups.slots.map Prod.fst).Nodup ∧
  (∀ i ∈ ups.slots.map Prod.fst, lookup_upvalue cache i = none) ∧
  ups.tableIds.Nodup ∧ (∀ i ∈ ups.tableIds, lookup_object cache i = none) ∧
  id ∉ ups.tableIds

/-- Two records, for the slots 1 and 2. -/
def two_records : supvalue := .node (.node .null 8 2 (.number 5) 0) 7 1 (.number 4) 0

/-- The records of `two_records` in the other order. -/
def two_records_swapped : supvalue := .node (.node .null 7 1 (.number 4) 0) 8 2 (.number 5) 0

/-- The cache of a fresh deserialization campaign whose object table is at
stack index 1. -/
def fresh_cache : upvalue_cache := { upvalue_cache_new with object_tbl_idx := 1 }

/-- Target interpreter after the function with the records `two_records` was
rebuilt. -/
def two_records_rebuilt : lua_State :=
  ⟨[.function 4, .table 1],
    [.table ⟨[(.lightuserdata 4, .function 4)], 0⟩, .upval (.number 4), .upval (.number 5),
      .closure ⟨some [1], [2, 3]⟩]⟩

/-- The cache after the function with the records `two_records` was rebuilt. -/
def two_records_cache : upvalue_cache :=
  { upvalue_map := [{ key := 8, function_id := 4, upvalue_num := 2 },
      { key := 7, function_id := 4, upvalue_num := 1 }],
    object_map := [{ key := 1, object_id := 4 }],
    collector_map := [], object_tbl_idx := 1 }

/-! ## Collector ids on table entries -/

/-- An entry list whose keys are booleans, numbers or strings and whose values
are plain value trees; the entries may carry collector ids. -/
def stable_entry.marked : stable_entry → Bool
  | .null => true
  | .node next key value _ => key.isPrimitive && value.plain && next.marked

/-- What `copy_value` stores for a boolean, a number or a string. -/
def svalue.copied : svalue → svalue
  | .string s => .string (cstr s)
  | v => v

/-- The collector mappings that go with the entries of an entry list that
carry a collector id, in the order of the list, for the live table `tid`. -/
def stable_entry.collected (tid : Nat) : stable_entry → List collector_mapping
  | .null => []
  | .node next key _ cid =>
    (if cid ≠ 0 then [⟨cid, tid, key.copied⟩] else []) ++ next.collected tid

/-- Two entries: `[1] = 5`, which carries the collector id 7, and
`["b"] = 6`, which carries none. -/
def marked_entries : stable_entry :=
  .node (.node .null (.string [98]) (.number 6) 0) (.number 1) (.number 5) 7

/-! ## Upvalue records with equal ids -/

/-- A function record whose one upvalue, of id 9, holds 0. -/
def nested_inner : sfunction := .mk 6 [2] (.node .null 9 1 (.number 0) 0)

/-- A function record whose one upvalue, of id 9 too, holds the function
`nested_inner`: the second record with the id 9 lies inside the value of the
first, which holds another value. -/
def nested_outer : sfunction := .mk 5 [1] (.node .null 9 1 (.function nested_inner) 0)

mutual
/-- The table and function records of a value tree at every depth, each as a
value, a record before the records inside it. -/
def svalue.objects : svalue → List svalue
  | .function f => f.objects
  | .table t => t.objects
  | _ => []
def supvalue.objects : supvalue → List svalue
  | .null => []
  | .node next _ _ value _ => value.objects ++ next.objects
def stable_entry.objects : stable_entry → List svalue
  | .null => []
  | .node next key value _ => key.objects ++ value.objects ++ next.objects
def stable.objects : stable → List svalue
  | .mk id entries => .table (.mk id entries) :: entries.objects
def sfunction.objects : sfunction → List svalue
  | .mk id code upvalues => .function (.mk id code upvalues) :: upvalues.objects
end

/-- The serialized id of a table or function record. -/
def svalue.objId : svalue → Nat
  | .function f => f.id
  | .table t => t.id
  | _ => 0

mutual
/-- The (upvalue id, value) pairs of the upvalue records of a value tree, at
every depth. -/
def svalue.cells : svalue → List (Nat × svalue)
  | .function f => f.cells
  | .table t => t.cells
  | _ => []
def supvalue.cells : supvalue → List (Nat × svalue)
  | .null => []
  | .node next id _ value _ => (id, value) :: (value.cells ++ next.cells)
def stable_entry.cells : stable_entry → List (Nat × svalue)
  | .null => []
  | .node next key value _ => key.cells ++ value.cells ++ next.cells
def stable.cells : stable → List (Nat × svalue)
  | .mk _ entries => entries.cells
def sfunction.cells : sfunction → List (Nat × svalue)
  | .mk _ _ upvalues => upvalues.cells
end

mutual
/-- No record lies inside a record with the same id: the value of an upvalue
record holds no upvalue record with the id of that record, and a table or
function record holds no table or function record with its own id. -/
def svalue.unnested : svalue → Bool
  | .function f => f.unnested
  | .table t => t.unnested
  | _ => true
def supvalue.unnested : supvalue → Bool
  | .null => true
  | .node next id _ value _ =>
    decide (id ∉ value.upvalueIds) && value.unnested && next.unnested
def stable_entry.unnested : stable_entry → Bool
  | .null => true
  | .node next key value _ => key.unnested && value.unnested && next.unnested
def stable.unnested : stable → Bool
  | .mk id entries => decide (id ∉ entries.objects.map svalue.objId) && entries.unnested
def sfunction.unnested : sfunction → Bool
  | .mk id _ upvalues => decide (id ∉ upvalues.objects.map svalue.objId) && upvalues.unnested
end

/-- The table and function records of the value trees of a campaign. -/
def campaign_objects (trees : List svalue) : List svalue := trees.flatMap svalue.objects

/-- The (upvalue id, value) pairs of the upvalue records of the value trees of
a campaign. -/
def campaign_cells (trees : List svalue) : List (Nat × svalue) := trees.flatMap svalue.cells

/-- In the value trees of a campaign, records with one id are copies of one
another: two table or function records with the same id are equal, and two
upvalue records with the same id hold equal values. -/
def campaign_consistent (trees : List svalue) : Prop :=
  (∀ a ∈ campaign_objects trees, ∀ b ∈ campaign_objects trees, a.objId = b.objId → a = b) ∧
  (∀ r ∈ campaign_cells trees, ∀ s ∈ campaign_cells trees, r.1 = s.1 → r.2 = s.2)

/-- The object map of `c1` extends that of `c` at the front, by entries
whose keys were not mapped. -/
def ObjExt (c c1 : upvalue_cache) : Prop :=
  ∃ pre, c1.object_map = pre ++ c.object_map ∧ ∀ m ∈ pre, lookup_object c m.key = none

/-- What the deserializations of a campaign have achieved for its value trees, the records
with an id in `opn` being under construction: live objects are mapped under
one id of these trees only; every slot of a function that is mapped and not under
construction refers to the cell that the cache records for the upvalue id of
its record; the records inside a mapped record are mapped; and so are those in
the value of an upvalue record whose id is mapped. -/
structure Joins (trees : List svalue) (opn : List Nat) (L : lua_State) (c : upvalue_cache) : Prop where
  inj : ∀ m1 ∈ c.object_map, ∀ m2 ∈ c.object_map,
    m1.key ∈ (campaign_objects trees).map svalue.objId → m2.key ∈ (campaign_objects trees).map svalue.objId →
    m1.object_id = m2.object_id → m1.key = m2.key
  done : ∀ f : sfunction, svalue.function f ∈ campaign_objects trees → f.id ∉ opn →
    ∀ m, lookup_object c f.id = some m →
    ∀ s ∈ f.upvalues.slots, Shares L c m.object_id s.2 s.1
  sub : ∀ a ∈ campaign_objects trees, a.objId ∉ opn → (lookup_object c a.objId).isSome →
    ∀ b ∈ a.objects, (lookup_object c b.objId).isSome
  vals : ∀ r ∈ campaign_cells trees, (lookup_upvalue c r.1).isSome →
    ∀ b ∈ r.2.objects, (lookup_object c b.objId).isSome

@[simp] theorem index_m1 (v : TValue) (s : List TValue) (h : List Obj) :
    index ⟨v :: s, h⟩ (-1) = some v := by
  simp [index, index2adr]

@[simp] theorem index_m2 (a v : TValue) (s : List TValue) (h : List Obj) :
    index ⟨a :: v :: s, h⟩ (-2) = some v := by
  simp [index, index2adr]

@[simp] theorem index_m3 (a b v : TValue) (s : List TValue) (h : List Obj) :
    index ⟨a :: b :: v :: s, h⟩ (-3) = some v := by
  simp [index, index2adr]

theorem index_abs_cons (a : TValue) (s : List TValue) (h : List Obj) (idx : Int)
    (h0 : 0 < idx) (h1 : idx.toNat ≤ s.length) :
    index ⟨a :: s, h⟩ idx = index ⟨s, h⟩ idx := by
  simp only [index, index2adr, h0, if_true, h1, List.length_cons]
  have : idx.toNat ≤ s.length + 1 := by omega
  simp only [this, if_true]
  have h2 : s.length + 1 - idx.toNat = (s.length - idx.toNat) + 1 := by omega
  rw [h2]; simp

theorem cstr_of_not_mem (s : List Byte) (h : (0 : Byte) ∉ s) : cstr s = s := by
  induction s with
  | nil => rfl
  | cons b bs ih =>
    have hb : b ≠ 0 := fun e => h (by simp [e])
    have hbs : (0 : Byte) ∉ bs := fun e => h (by simp [e])
    simp [cstr, hb, ih hbs]

/-! ## Round trip of primitive values -/

/-- C2 (as amended): for every boolean, every number and every string without
an embedded NUL byte, `serialize_value` followed by `deserialize_value` pushes
that same value onto the target stack (and nothing else changes). -/
theorem roundtrip_primitive (cb : callbacks) (H : Host) (n : Nat) (Ls Lt : lua_State)
    (cache : upvalue_cache) (cache_idx : Int) (v : TValue)
    (hv : v.isPrimitive = true) (hnul : ∀ s, v = .string s → (0 : Byte) ∉ s) :
    roundtrip_value cb H (n + 1) (push Ls v) Lt cache cache_idx =
      .ok (push Lt v, { cache with object_tbl_idx := cache_idx }) := by
  cases Ls
  cases v <;> simp [TValue.isPrimitive] at hv
  · simp [roundtrip_value, serialize_value, serialize_object, push, lua_toboolean,
      deserialize_value, push_object, lua_pushboolean, bind, Except.bind]
  · simp [roundtrip_value, serialize_value, serialize_object, push, lua_tonumber,
      deserialize_value, push_object, lua_pushnumber, bind, Except.bind]
  · rename_i s
    have h := cstr_of_not_mem s (hnul s rfl)
    simp [roundtrip_value, serialize_value, serialize_object, push, lua_tostring,
      deserialize_value, push_object, lua_pushstring, bind, Except.bind, h]

/-- Witness for `roundtrip_primitive`: the string "ab". -/
theorem roundtrip_primitive_witness :
    roundtrip_value ⟨false⟩ (accepting 0) 1
        (push ⟨[], []⟩ (.string [97, 98])) ⟨[], []⟩ upvalue_cache_new 1 =
      .ok (push ⟨[], []⟩ (.string [97, 98]), { upvalue_cache_new with object_tbl_idx := 1 }) :=
  roundtrip_primitive ⟨false⟩ (accepting 0) 0 ⟨[], []⟩ ⟨[], []⟩
    upvalue_cache_new 1 (.string [97, 98]) rfl
    (by intro s hs; cases hs; decide)

/-- C2 (counterexample): the byte string `a NUL b` comes back as `a`: `strdup`
and `lua_pushstring` stop at the first NUL byte. -/
theorem roundtrip_string_with_nul :
    roundtrip_value ⟨false⟩ (accepting 0) 1
        (push ⟨[], []⟩ (.string [97, 0, 98])) ⟨[], []⟩ upvalue_cache_new 1 =
      .ok (push ⟨[], []⟩ (.string [97]), { upvalue_cache_new with object_tbl_idx := 1 }) ∧
    TValue.string [97] ≠ TValue.string [97, 0, 98] := by
  decide

/-! ## Collector retrieval: unknown collector -/

theorem push_collected_value_loop_unknown (cb : callbacks) (H : Host) (cache : upvalue_cache)
    (collector_id : Nat) (ms : List collector_mapping) (L : lua_State)
    (h : ∀ m ∈ ms, m.key ≠ collector_id) :
    push_collected_value_loop cb H cache collector_id ms L = .ok (lua_pushnil L, cache) := by
  induction ms with
  | nil => rfl
  | cons m ms ih =>
    have hm : m.key ≠ collector_id := h m (by simp)
    have hms : ∀ m1 ∈ ms, m1.key ≠ collector_id := fun m1 h1 => h m1 (by simp [h1])
    simp [push_collected_value_loop, hm, ih hms]

/-- C9: for every upvalue cache and every collector id that is not a key of
its collector-map, `push_collected_value` returns normally, the stack is the
old stack with one nil on top, the heap is untouched, and the cache's three
maps are unchanged (only `object_tbl_idx` is set to `cache_idx`). -/
theorem push_collected_value_unknown (cb : callbacks) (H : Host) (L : lua_State)
    (cache : upvalue_cache) (cache_idx : Int) (collector_id : Nat)
    (h : ∀ m ∈ cache.collector_map, m.key ≠ collector_id) :
    push_collected_value cb H L cache cache_idx collector_id =
      .ok ({ stack := .nil :: L.stack, heap := L.heap },
           { upvalue_map := cache.upvalue_map, object_map := cache.object_map,
             collector_map := cache.collector_map, object_tbl_idx := cache_idx }) := by
  unfold push_collected_value
  exact push_collected_value_loop_unknown cb H _ collector_id _ L h

/-- Witness for `push_collected_value_unknown`: a cache that knows collector 7
is asked for collector 9. -/
theorem push_collected_value_unknown_witness :
    push_collected_value ⟨false⟩ (accepting 0) ⟨[.boolean true], []⟩
        { upvalue_map := [], object_map := [],
          collector_map := [{ key := 7, object_id := 1, value_key := .number 1 }],
          object_tbl_idx := 0 } 1 9 =
      .ok ({ stack := [.nil, .boolean true], heap := [] },
           { upvalue_map := [], object_map := [],
             collector_map := [{ key := 7, object_id := 1, value_key := .number 1 }],
             object_tbl_idx := 1 }) :=
  push_collected_value_unknown ⟨false⟩ (accepting 0) ⟨[.boolean true], []⟩
    { upvalue_map := [], object_map := [],
      collector_map := [{ key := 7, object_id := 1, value_key := .number 1 }],
      object_tbl_idx := 0 } 1 9 (by decide)

/-! ## Bytecode load failure -/

theorem luaL_loadbuffer_failure (H : Host) (L : lua_State) (code : List Byte) (c : Nat)
    (msg : List Byte) (h : H.load code = .failure c msg) :
    luaL_loadbuffer H L code = ((c : Int) + 1, push L (.string msg)) := by
  simp [luaL_loadbuffer, h]

theorem luaL_loadbuffer_proto (H : Host) (L : lua_State) (code : List Byte) (n : Nat)
    (h : H.load code = .proto n) :
    (luaL_loadbuffer H L code).1 = 0 := by
  simp [luaL_loadbuffer, h]

theorem load_function_bytecode_failure (cb : callbacks) (H : Host) (L : lua_State)
    (code : List Byte) (c : Nat) (msg : List Byte) (h : H.load code = .failure c msg) :
    load_function_bytecode cb H L code =
      if cb.log_fatal_returns then .ok (-(H.errno_lua ((c : Int) + 1)), push L (.string msg))
      else .error .fatal := by
  have hc : ((c : Int) + 1 ≠ 0) := by omega
  cases hr : cb.log_fatal_returns <;>
    simp [load_function_bytecode, luaL_loadbuffer_failure H _ code c msg h, LOG_FATAL, hr, hc,
      bind, Except.bind, pure, Except.pure]

theorem load_function_bytecode_proto (cb : callbacks) (H : Host) (L : lua_State)
    (code : List Byte) (n : Nat) (h : H.load code = .proto n) :
    load_function_bytecode cb H L code = .ok (0, (luaL_loadbuffer H L code).2) := by
  have h0 := luaL_loadbuffer_proto H L code n h
  rcases hlb : luaL_loadbuffer H L code with ⟨e, L2⟩
  rw [hlb] at h0
  simp only at h0
  subst h0
  simp [load_function_bytecode, hlb, bind, Except.bind, pure, Except.pure]

/-- C10 (as amended): when the loader rejects the bytecode, `deserialize_function`
raises `LOG_FATAL`; if that sink returns, the call returns the negated
`errno_lua` of the loader's status (a non-zero value), with the loader's message
pushed, no heap object (hence no upvalue) touched and the three maps unchanged;
if the sink does not return, the call does not return either. Whenever the call
does return, the returned code is 0 exactly when the bytecode loaded. -/
theorem deserialize_function_load_failure (cb : callbacks) (H : Host) (L : lua_State)
    (cache : upvalue_cache) (cache_idx : Int) (func : sfunction) :
    (∀ c msg, H.load func.code = .failure c msg →
      H.errno_lua ((c : Int) + 1) ≠ 0 ∧
      deserialize_function cb H L cache cache_idx func =
        if cb.log_fatal_returns then
          .ok (-(H.errno_lua ((c : Int) + 1)), none,
               { stack := .string msg :: L.stack, heap := L.heap },
               { upvalue_map := cache.upvalue_map, object_map := cache.object_map,
                 collector_map := cache.collector_map, object_tbl_idx := cache_idx })
        else .error .fatal) ∧
    (∀ r key L1 cache1,
      deserialize_function cb H L cache cache_idx func = .ok (r, key, L1, cache1) →
      (r = 0 ↔ ∃ n, H.load func.code = .proto n)) := by
  have herr : ∀ c msg, H.load func.code = .failure c msg → H.errno_lua ((c : Int) + 1) ≠ 0 :=
    fun c _ _ => H.errno_lua_ne_zero _ (by omega)
  obtain ⟨id, code, ups⟩ := func
  simp only [sfunction.code] at herr ⊢
  constructor
  · intro c msg h
    have he := herr c msg h
    refine ⟨he, ?_⟩
    cases hr : cb.log_fatal_returns <;>
      simp [deserialize_function, push_function, load_function_bytecode_failure cb H _ code c msg h,
        hr, he, bind, Except.bind, push, pure, Except.pure]
  · intro r key L1 cache1 hres
    cases hl : H.load code with
    | proto n =>
      simp only [deserialize_function, push_function,
        load_function_bytecode_proto cb H _ code n hl, bind, Except.bind,
        pure, Except.pure, ne_eq, not_true_eq_false, if_false] at hres
      revert hres
      split
      · intro h; cases h
      · split
        · intro h; cases h
        · intro h
          simp only [Except.ok.injEq, Prod.mk.injEq] at h
          simp [← h.1]
    | failure c msg =>
      have he := herr c msg hl
      cases hr : cb.log_fatal_returns <;>
        simp [deserialize_function, push_function,
          load_function_bytecode_failure cb H _ code c msg hl, hr, he, bind, Except.bind, push,
          pure, Except.pure] at hres
      obtain ⟨h1, -⟩ := hres
      constructor
      · intro h; rw [h] at h1; simp at h1; exact absurd h1 he
      · rintro ⟨n, hn⟩; cases hn

/-- Witness for `deserialize_function_load_failure`: a loader that rejects
every chunk with status 3, and a `LOG_FATAL` sink that returns. -/
theorem deserialize_function_load_failure_witness :
    (3 : Int) ≠ 0 ∧
    deserialize_function ⟨true⟩ rejecting ⟨[.table 1], [.table ⟨[], 0⟩]⟩
        upvalue_cache_new 1 (.mk 5 [1, 2] (.node .null 9 1 (.number 0) 0)) =
      .ok (-3, none, { stack := [.string [101], .table 1], heap := [.table ⟨[], 0⟩] },
           { upvalue_map := [], object_map := [], collector_map := [], object_tbl_idx := 1 }) :=
  (deserialize_function_load_failure ⟨true⟩ rejecting
    ⟨[.table 1], [.table ⟨[], 0⟩]⟩ upvalue_cache_new 1
    (.mk 5 [1, 2] (.node .null 9 1 (.number 0) 0))).1 2 [101] rfl

/-- C10 (counterexample): with a `LOG_FATAL` sink that ends the process, a
failed bytecode load makes `deserialize_function` not return at all: no negated
errno reaches the caller. -/
theorem deserialize_function_load_failure_is_fatal :
    deserialize_function ⟨false⟩ rejecting ⟨[.table 1], [.table ⟨[], 0⟩]⟩
        upvalue_cache_new 1 (.mk 5 [1, 2] (.node .null 9 1 (.number 0) 0)) = .error .fatal := by
  decide

@[simp] theorem lua_pop_one (v : TValue) (s : List TValue) (h : List Obj) :
    lua_pop ⟨v :: s, h⟩ 1 = .ok ⟨s, h⟩ := by
  simp [lua_pop]

theorem luaL_getmetafield_cases (L : lua_State) (idx : Int) (e : List Byte) :
    luaL_getmetafield L idx e = (false, L) ∨ ∃ v, luaL_getmetafield L idx e = (true, push L v) := by
  unfold luaL_getmetafield
  split
  · split
    · exact Or.inl rfl
    · exact Or.inr ⟨_, rfl⟩
  · exact Or.inl rfl

@[simp] theorem lua_remove_m2 (a b : TValue) (s : List TValue) (h : List Obj) :
    lua_remove ⟨a :: b :: s, h⟩ (-2) = .ok ⟨a :: s, h⟩ := by
  simp [lua_remove, index2adr]

theorem lua_rawgeti_m1 (x : TValue) (s : List TValue) (h : List Obj) (n : Int) (L1 : lua_State)
    (hr : lua_rawgeti ⟨x :: s, h⟩ (-1) n = .ok L1) : ∃ w, L1 = ⟨w :: x :: s, h⟩ := by
  unfold lua_rawgeti at hr
  simp only [index_m1] at hr
  split at hr
  · split at hr
    · simp only [Except.ok.injEq] at hr
      exact ⟨_, hr.symm⟩
    · cases hr
  · cases hr

theorem unwrap_collector_maybe_stack (x : TValue) (rest : List TValue) (h : List Obj)
    (cid : Nat) (L1 : lua_State)
    (hu : unwrap_collector_maybe ⟨x :: rest, h⟩ = .ok (cid, L1)) :
    ∃ x1, L1 = ⟨x1 :: rest, h⟩ := by
  unfold unwrap_collector_maybe at hu
  rcases luaL_getmetafield_cases ⟨x :: rest, h⟩ (-1) collector_name with hm | ⟨v, hm⟩
  · rw [hm] at hu
    simp only [Except.ok.injEq, Prod.mk.injEq] at hu
    exact ⟨x, hu.2.symm⟩
  · rw [hm] at hu
    simp only [push, lua_pop_one, bind, Except.bind, pure, Except.pure] at hu
    cases hr : lua_rawgeti ⟨x :: rest, h⟩ (-1) 1 with
    | error e => rw [hr] at hu; cases hu
    | ok L3 =>
      obtain ⟨w, rfl⟩ := lua_rawgeti_m1 x rest h 1 L3 hr
      rw [hr] at hu
      simp only [lua_remove_m2, Except.ok.injEq, Prod.mk.injEq] at hu
      exact ⟨w, hu.2.symm⟩

theorem lua_next_m2 (L : lua_State) (b : Bool) (L1 : lua_State)
    (hn : lua_next L (-2) = .ok (b, L1)) :
    ∃ k p rest, L.stack = k :: .table p :: rest ∧ L1.heap = L.heap ∧
      ((b = true ∧ ∃ k1 v1, L1.stack = v1 :: k1 :: .table p :: rest) ∨
       (b = false ∧ L1.stack = .table p :: rest)) := by
  obtain ⟨stack, heap⟩ := L
  unfold lua_next at hn
  split at hn
  · rename_i p k rest hidx hst
    simp only at hst
    subst hst
    cases rest with
    | nil => simp [index, index2adr] at hidx
    | cons t rest =>
      simp only [index_m2, Option.some.injEq] at hidx
      subst hidx
      refine ⟨k, p, rest, rfl, ?_⟩
      split at hn
      · split at hn
        · simp only [Except.ok.injEq, Prod.mk.injEq] at hn
          obtain ⟨rfl, rfl⟩ := hn
          exact ⟨rfl, Or.inl ⟨rfl, _, _, rfl⟩⟩
        · simp only [Except.ok.injEq, Prod.mk.injEq] at hn
          obtain ⟨rfl, rfl⟩ := hn
          exact ⟨rfl, Or.inr ⟨rfl, rfl⟩⟩
        · cases hn
      · cases hn
  · cases hn

theorem bind_ok {α β : Type} (x : Res α) (f : α → Res β) (b : β) :
    (x >>= f) = .ok b ↔ ∃ a, x = .ok a ∧ f a = .ok b := by
  cases x with
  | error e => simp [bind, Except.bind]
  | ok a => simp [bind, Except.bind]

theorem pure_ok {α : Type} (a b : α) : (pure a : Res α) = .ok b ↔ a = b := by
  simp [pure, Except.pure]

theorem lua_getupvalue_true (L : lua_State) (f : Int) (i : Int) (L2 : lua_State)
    (hg : lua_getupvalue L f i = (true, L2)) : ∃ w, L2 = push L w := by
  unfold lua_getupvalue at hg
  repeat' split at hg
  all_goals simp only [Prod.mk.injEq, Bool.false_eq_true, false_and, true_and] at hg
  exact ⟨_, hg.symm⟩

theorem lua_getupvalue_false (L : lua_State) (f : Int) (i : Int) (L2 : lua_State)
    (hg : lua_getupvalue L f i = (false, L2)) : L = L2 := by
  unfold lua_getupvalue at hg
  repeat' split at hg
  all_goals simp only [Prod.mk.injEq, Bool.true_eq_false, false_and, true_and] at hg
  all_goals exact hg

theorem dump_function_bytecode_state (cb : callbacks) (L : lua_State) (code : List Byte)
    (L2 : lua_State) (h : dump_function_bytecode cb L = .ok (code, L2)) :
    L2 = L ∧ code = (lua_dump L).2 := by
  obtain ⟨stack, heap⟩ := L
  simp only [dump_function_bytecode, bind_ok, pure_ok, push, lua_pop_one] at h
  obtain ⟨_, -, _, -, L3, h3, h4⟩ := h
  simp only [Except.ok.injEq] at h3
  subst h3
  simp only [Prod.mk.injEq] at h4
  exact ⟨h4.2.symm, h4.1.symm⟩

theorem serialize_neutral (cb : callbacks) : ∀ n : Nat,
    (∀ L sv L1, serialize_object cb n L = .ok (sv, L1) → L1 = L) ∧
    (∀ L t L1, serialize_table cb n L = .ok (t, L1) → L1 = L) ∧
    (∀ L es L1, dump_table_entries cb n L = .ok (es, L1) → L1 = L) ∧
    (∀ head L es L1, dump_table_entries_loop cb n head L = .ok (es, L1) →
      L1 = ⟨L.stack.tail, L.heap⟩) ∧
    (∀ L id num v L1, serialize_upvalue cb n L id num = .ok (v, L1) →
      ∃ x1, L1 = ⟨x1 :: L.stack.tail, L.heap⟩) ∧
    (∀ i list L l1 L1, serialize_upvalues_loop cb n i list L = .ok (l1, L1) → L1 = L) ∧
    (∀ L l1 L1, serialize_upvalues cb n L = .ok (l1, L1) → L1 = L) ∧
    (∀ L f L1, serialize_function cb n L = .ok (f, L1) → L1 = L) := by
  intro n
  induction n with
  | zero =>
    refine ⟨?_, ?_, ?_, ?_, ?_, ?_, ?_, ?_⟩ <;> intros <;> rename_i h <;>
      simp [serialize_object, serialize_table, dump_table_entries, dump_table_entries_loop,
        serialize_upvalue, serialize_upvalues_loop, serialize_upvalues, serialize_function] at h
  | succ n ih =>
    obtain ⟨ihO, ihT, ihD, ihDL, ihU, ihUL, ihUs, ihF⟩ := ih
    refine ⟨?_, ?_, ?_, ?_, ?_, ?_, ?_, ?_⟩
    · intro L sv L1 h
      simp only [serialize_object] at h
      split at h
      · cases h
      · simp only [Except.ok.injEq, Prod.mk.injEq] at h; exact h.2.symm
      · simp only [Except.ok.injEq, Prod.mk.injEq] at h; exact h.2.symm
      · split at h
        · simp only [Except.ok.injEq, Prod.mk.injEq] at h; exact h.2.symm
        · cases h
      · simp only [bind_ok, pure_ok] at h
        obtain ⟨⟨t, L2⟩, h1, h2⟩ := h
        simp only [Prod.mk.injEq] at h2
        rw [← h2.2]; exact ihT _ _ _ h1
      · simp only [bind_ok, pure_ok] at h
        obtain ⟨⟨t, L2⟩, h1, h2⟩ := h
        simp only [Prod.mk.injEq] at h2
        rw [← h2.2]; exact ihF _ _ _ h1
      all_goals cases h
    · intro L t L1 h
      simp only [serialize_table, bind_ok, pure_ok] at h
      obtain ⟨⟨es, L2⟩, h1, h2⟩ := h
      simp only [Prod.mk.injEq] at h2
      rw [← h2.2]; exact ihD _ _ _ h1
    · intro L es L1 h
      simp only [dump_table_entries] at h
      have := ihDL _ _ _ _ h
      simpa [lua_pushnil, push] using this
    · intro head L es L1 h
      simp only [dump_table_entries_loop, bind_ok] at h
      obtain ⟨⟨more, L2⟩, h1, h2⟩ := h
      obtain ⟨k, p, rest, hst, hheap, hc⟩ := lua_next_m2 _ _ _ h1
      rcases hc with ⟨rfl, k1, v1, hst2⟩ | ⟨rfl, hst2⟩
      · simp only [if_true, bind_ok] at h2
        obtain ⟨⟨cid, L3⟩, h3, ⟨value, L4⟩, h4, L5, h5, ⟨key, L6⟩, h6, h7⟩ := h2
        obtain ⟨stack2, heap2⟩ := L2
        simp only at hst2 hheap
        subst hst2
        obtain ⟨x1, rfl⟩ := unwrap_collector_maybe_stack _ _ _ _ _ h3
        have e4 := ihO _ _ _ h4
        subst e4
        simp only [lua_pop_one, Except.ok.injEq] at h5
        subst h5
        have e6 := ihO _ _ _ h6
        subst e6
        have e7 := ihDL _ _ _ _ h7
        simp only [List.tail_cons] at e7
        rw [e7, hst, hheap]; rfl
      · simp only [Bool.false_eq_true, if_false, pure_ok, Prod.mk.injEq] at h2
        obtain ⟨stack2, heap2⟩ := L2
        simp only at hst2 hheap
        rw [← h2.2, hst, hst2, hheap]; rfl
    · intro L id num v L1 h
      simp only [serialize_upvalue, bind_ok, pure_ok] at h
      obtain ⟨⟨cid, L2⟩, h1, ⟨value, L3⟩, h2, h3⟩ := h
      simp only [Prod.mk.injEq] at h3
      have e2 := ihO _ _ _ h2
      subst e2
      obtain ⟨stack, heap⟩ := L
      cases stack with
      | nil =>
        exfalso
        simp [unwrap_collector_maybe, luaL_getmetafield, metatableOf, index, index2adr,
          getTable, deref] at h1
        obtain ⟨-, rfl⟩ := h1
        cases n <;> simp [serialize_object, index, index2adr] at h2
      | cons x rest =>
        obtain ⟨x1, rfl⟩ := unwrap_collector_maybe_stack _ _ _ _ _ h1
        exact ⟨x1, h3.2.symm⟩
    · intro i list L l1 L1 h
      simp only [serialize_upvalues_loop] at h
      split at h
      · rename_i L2 hg
        simp only [bind_ok] at h
        obtain ⟨⟨v, L3⟩, h1, list1, h2, L4, h3, h4⟩ := h
        obtain ⟨w, rfl⟩ := lua_getupvalue_true _ _ _ _ hg
        obtain ⟨x1, rfl⟩ := ihU _ _ _ _ _ h1
        simp only [push, List.tail_cons, lua_pop_one, Except.ok.injEq] at h3
        subst h3
        exact ihUL _ _ _ _ _ h4
      · rename_i L2 hg
        simp only [Except.ok.injEq, Prod.mk.injEq] at h
        rw [← h.2]
        exact (lua_getupvalue_false _ _ _ _ hg).symm
    · intro L l1 L1 h
      simp only [serialize_upvalues] at h
      exact ihUL _ _ _ _ _ h
    · intro L f L1 h
      simp only [serialize_function, bind_ok, pure_ok] at h
      obtain ⟨⟨code, L2⟩, h1, ⟨ups, L3⟩, h2, h3⟩ := h
      simp only [Prod.mk.injEq] at h3
      have e2 := ihUs _ _ _ h2
      subst e2
      rw [← h3.2]
      exact (dump_function_bytecode_state cb _ _ _ h1).1

/-! ## Basic facts about the heap -/

theorem deref_some_bounds (L : lua_State) (p : Nat) (o : Obj) (h : deref L p = some o) :
    p ≠ 0 ∧ p ≤ L.heap.length := by
  unfold deref at h
  split at h
  · cases h
  · rename_i hp
    have := List.getElem?_eq_some.mp h
    obtain ⟨hlt, -⟩ := this
    exact ⟨hp, by omega⟩

theorem deref_none_of_gt (L : lua_State) (p : Nat) (h : L.heap.length < p) : deref L p = none := by
  unfold deref
  split
  · rfl
  · exact List.getElem?_eq_none (by omega)

@[simp] theorem store_stack (L : lua_State) (p : Nat) (o : Obj) : (store L p o).stack = L.stack := rfl
@[simp] theorem store_heap_length (L : lua_State) (p : Nat) (o : Obj) :
    (store L p o).heap.length = L.heap.length := by
  simp [store]

theorem deref_store (L : lua_State) (p : Nat) (o o1 : Obj) (hp : deref L p = some o1) (q : Nat) :
    deref (store L p o) q = if q = p then some o else deref L q := by
  obtain ⟨hp0, hple⟩ := deref_some_bounds L p o1 hp
  unfold deref store
  by_cases hq0 : q = 0
  · subst hq0
    simp [Ne.symm hp0]
  · simp only [hq0, if_false]
    by_cases hqp : q = p
    · subst hqp
      simp only [if_true]
      rw [List.getElem?_set_self]
      omega
    · simp only [hqp, if_false]
      rw [List.getElem?_set_ne]
      omega

@[simp] theorem alloc_stack (L : lua_State) (o : Obj) : (alloc L o).2.stack = L.stack := rfl
@[simp] theorem alloc_fst (L : lua_State) (o : Obj) : (alloc L o).1 = L.heap.length + 1 := rfl
@[simp] theorem alloc_heap_length (L : lua_State) (o : Obj) :
    (alloc L o).2.heap.length = L.heap.length + 1 := by
  simp [alloc]

theorem deref_alloc (L : lua_State) (o : Obj) (q : Nat) :
    deref (alloc L o).2 q = if q = L.heap.length + 1 then some o else deref L q := by
  unfold deref alloc
  by_cases hq0 : q = 0
  · subst hq0; simp
  · simp only [hq0, if_false]
    by_cases hq : q = L.heap.length + 1
    · subst hq
      simp
    · simp only [hq, if_false]
      by_cases hlt : q - 1 < L.heap.length
      · rw [List.getElem?_append_left hlt]
      · rw [List.getElem?_eq_none (by simp; omega), List.getElem?_eq_none (by omega)]

@[simp] theorem push_stack (L : lua_State) (v : TValue) : (push L v).stack = v :: L.stack := rfl
@[simp] theorem push_heap (L : lua_State) (v : TValue) : (push L v).heap = L.heap := rfl
@[simp] theorem deref_push (L : lua_State) (v : TValue) (q : Nat) :
    deref (push L v) q = deref L q := rfl

theorem index_congr (L L1 : lua_State) (idx : Int) (h : L1.stack = L.stack) :
    index L1 idx = index L idx := by
  simp [index, index2adr, h]

theorem index_neg_one (L : lua_State) (v : TValue) (rest : List TValue) (h : L.stack = v :: rest) :
    index L (-1) = some v := by
  obtain ⟨s, hp⟩ := L
  simp only at h
  subst h
  simp

theorem index_neg_two (L : lua_State) (a v : TValue) (rest : List TValue)
    (h : L.stack = a :: v :: rest) : index L (-2) = some v := by
  obtain ⟨s, hp⟩ := L
  simp only at h
  subst h
  simp

theorem index_neg_three (L : lua_State) (a b v : TValue) (rest : List TValue)
    (h : L.stack = a :: b :: v :: rest) : index L (-3) = some v := by
  obtain ⟨s, hp⟩ := L
  simp only at h
  subst h
  simp

/-- An absolute index sees through anything pushed above it. -/
theorem index_abs_append (L L1 : lua_State) (idx : Int) (xs : List TValue)
    (h0 : 0 < idx) (h1 : idx.toNat ≤ L.stack.length) (h : L1.stack = xs ++ L.stack) :
    index L1 idx = index L idx := by
  induction xs generalizing L1 with
  | nil => exact index_congr _ _ _ (by simpa using h)
  | cons x xs ih =>
    obtain ⟨s1, hp1⟩ := L1
    simp only at h
    subst h
    have hlen : idx.toNat ≤ (xs ++ L.stack).length := by simp; omega
    have := index_abs_cons x (xs ++ L.stack) hp1 idx h0 hlen
    simp only [List.cons_append] at this ⊢
    rw [this]
    exact ih ⟨xs ++ L.stack, hp1⟩ rfl

theorem getTable_eq_of_deref (L L1 : lua_State) (p : Nat) (h : deref L1 p = deref L p) :
    getTable L1 p = getTable L p := by
  simp [getTable, h]

theorem getClosure_eq_of_deref (L L1 : lua_State) (p : Nat) (h : deref L1 p = deref L p) :
    getClosure L1 p = getClosure L p := by
  simp [getClosure, h]

theorem getUpval_eq_of_deref (L L1 : lua_State) (p : Nat) (h : deref L1 p = deref L p) :
    getUpval L1 p = getUpval L p := by
  simp [getUpval, h]

theorem getTable_some (L : lua_State) (p : Nat) (t : Table) :
    getTable L p = some t ↔ deref L p = some (.table t) := by
  unfold getTable
  split <;> simp_all

theorem getClosure_some (L : lua_State) (p : Nat) (c : Closure) :
    getClosure L p = some c ↔ deref L p = some (.closure c) := by
  unfold getClosure
  split <;> simp_all

theorem getUpval_some (L : lua_State) (p : Nat) (v : TValue) :
    getUpval L p = some v ↔ deref L p = some (.upval v) := by
  unfold getUpval
  split <;> simp_all

theorem Mono_refl (ot : Nat) (L : lua_State) : Mono ot L L :=
  ⟨le_refl _, fun _ h => h, fun _ h => h, fun _ h => h, fun _ _ h => h, fun _ _ => rfl⟩

theorem Mono_trans {ot : Nat} {L L1 L2 : lua_State} (h1 : Mono ot L L1) (h2 : Mono ot L1 L2) :
    Mono ot L L2 :=
  ⟨le_trans h1.len h2.len, fun p h => h2.tbl p (h1.tbl p h), fun p h => h2.clo p (h1.clo p h),
    fun p h => h2.upv p (h1.upv p h), fun f n h => h2.slot f n (h1.slot f n h),
    fun q hq => by rw [h2.fetch q (le_trans hq h1.len), h1.fetch q hq]⟩

theorem lookup_upvalue_append_none (pre old : List upvalue_mapping) (i o : Int) (k : Nat)
    (h : lookup_upvalue ⟨pre ++ old, [], [], i⟩ k = none) :
    lookup_upvalue ⟨old, [], [], o⟩ k = none := by
  simp only [lookup_upvalue, List.find?_eq_none, List.mem_append] at h ⊢
  intro m hm
  exact h m (Or.inr hm)

theorem lookup_upvalue_congr (c1 c2 : upvalue_cache) (k : Nat)
    (h : c1.upvalue_map = c2.upvalue_map) : lookup_upvalue c1 k = lookup_upvalue c2 k := by
  simp [lookup_upvalue, h]

theorem CacheExt_refl (ex : Nat → Prop) (L : lua_State) (cache : upvalue_cache) :
    CacheExt ex L cache cache :=
  ⟨rfl, ⟨[], rfl, by simp⟩, ⟨[], rfl, by simp⟩, ⟨[], rfl, by simp⟩⟩

theorem CacheExt_trans {ex : Nat → Prop} {L L1 : lua_State} {c c1 c2 : upvalue_cache}
    (hlen : L.heap.length ≤ L1.heap.length)
    (h1 : CacheExt ex L c c1) (h2 : CacheExt ex L1 c1 c2) : CacheExt ex L c c2 := by
  obtain ⟨i1, ⟨po1, ho1, hpo1⟩, ⟨pu1, hu1, hpu1⟩, ⟨pc1, hc1, hpc1⟩⟩ := h1
  obtain ⟨i2, ⟨po2, ho2, hpo2⟩, ⟨pu2, hu2, hpu2⟩, ⟨pc2, hc2, hpc2⟩⟩ := h2
  refine ⟨i2.trans i1, ⟨po2 ++ po1, by rw [ho2, ho1, List.append_assoc], ?_⟩,
    ⟨pu2 ++ pu1, by rw [hu2, hu1, List.append_assoc], ?_⟩,
    ⟨pc2 ++ pc1, by rw [hc2, hc1, List.append_assoc], ?_⟩⟩
  · intro m hm
    rcases List.mem_append.mp hm with h | h
    · rcases hpo2 m h with h | h
      · exact Or.inl h
      · exact Or.inr (lt_of_le_of_lt hlen h)
    · exact hpo1 m h
  · intro m hm
    rcases List.mem_append.mp hm with h | h
    · obtain ⟨ha, hb⟩ := hpu2 m h
      constructor
      · simp only [lookup_upvalue, List.find?_eq_none] at ha ⊢
        intro m1 hm1
        exact ha m1 (by rw [hu1]; exact List.mem_append.mpr (Or.inr hm1))
      · rcases hb with h | h
        · exact Or.inl h
        · exact Or.inr (lt_of_le_of_lt hlen h)
    · exact hpu1 m h
  · intro m hm
    rcases List.mem_append.mp hm with h | h
    · rcases hpc2 m h with h | h
      · exact Or.inl h
      · exact Or.inr (lt_of_le_of_lt hlen h)
    · exact hpc1 m h

theorem CacheExt_weaken {ex ex1 : Nat → Prop} {L : lua_State} {c c1 : upvalue_cache}
    (h : CacheExt ex L c c1) (hex : ∀ p, ex p → ex1 p) : CacheExt ex1 L c c1 := by
  obtain ⟨i1, ⟨po1, ho1, hpo1⟩, ⟨pu1, hu1, hpu1⟩, ⟨pc1, hc1, hpc1⟩⟩ := h
  refine ⟨i1, ⟨po1, ho1, fun m hm => (hpo1 m hm).imp (hex _) id⟩,
    ⟨pu1, hu1, fun m hm => ⟨(hpu1 m hm).1, (hpu1 m hm).2.imp (hex _) id⟩⟩,
    ⟨pc1, hc1, fun m hm => (hpc1 m hm).imp (hex _) id⟩⟩

theorem Step_trans {idx : Int} {ot : Nat} {exT exC exU : Nat → Prop} {nok : Prop}
    {L L1 L2 : lua_State} {c c1 c2 : upvalue_cache}
    (h1 : Step idx ot exT exC exU nok L c L1 c1) (h2 : Step idx ot exT exC exU nok L1 c1 L2 c2) :
    Step idx ot exT exC exU nok L c L2 c2 :=
  ⟨h2.inv, Mono_trans h1.mono h2.mono, CacheExt_trans h1.mono.len h1.ext h2.ext,
    fun p hp hex => by rw [h2.clos p (le_trans hp h1.mono.len) hex, h1.clos p hp hex],
    fun p hp hex => by rw [h2.tbls p (le_trans hp h1.mono.len) hex, h1.tbls p hp hex],
    fun hn p hp hex => by
      rw [h2.cells hn p (le_trans hp h1.mono.len) hex, h1.cells hn p hp hex]⟩

theorem Step_weaken {idx : Int} {ot : Nat} {exT exC exU exT1 exC1 exU1 : Nat → Prop}
    {nok nok1 : Prop} {L L1 : lua_State} {c c1 : upvalue_cache}
    (h : Step idx ot exT exC exU nok L c L1 c1) (hT : ∀ p, exT p → exT1 p)
    (hC : ∀ p, exC p → exC1 p) (hU : nok1 → ∀ p, exU p → exU1 p) (hn : nok1 → nok) :
    Step idx ot exT1 exC1 exU1 nok1 L c L1 c1 :=
  ⟨h.inv, h.mono, CacheExt_weaken h.ext (fun p hp => hp.imp (hT p) (hC p)),
    fun p hp he => h.clos p hp (fun e => he (hC p e)),
    fun p hp he => h.tbls p hp (fun e => he (hT p e)),
    fun hn1 p hp he => h.cells (hn hn1) p hp (fun e => he (hU hn1 p e))⟩

/-- The same as `Step_weaken`, with the weaker exceptions given explicitly. -/
theorem Step_weaken_to {idx : Int} {ot : Nat} {exT exC exU : Nat → Prop}
    (exT1 exC1 exU1 : Nat → Prop) {nok : Prop} (nok1 : Prop) {L L1 : lua_State}
    {c c1 : upvalue_cache}
    (h : Step idx ot exT exC exU nok L c L1 c1) (hT : ∀ p, exT p → exT1 p)
    (hC : ∀ p, exC p → exC1 p) (hU : nok1 → ∀ p, exU p → exU1 p) (hn : nok1 → nok) :
    Step idx ot exT1 exC1 exU1 nok1 L c L1 c1 :=
  Step_weaken h hT hC hU hn

@[simp] theorem deref_with_stack (L : lua_State) (s : List TValue) (q : Nat) :
    deref { L with stack := s } q = deref L q := rfl

theorem lua_rawset_m3_inv (L L1 : lua_State) (v k t : TValue) (rest : List TValue)
    (hs : L.stack = v :: k :: t :: rest) (h : lua_rawset L (-3) = .ok L1) :
    ∃ tid T, t = .table tid ∧ getTable L tid = some T ∧ k ≠ .nil ∧
      L1.stack = t :: rest ∧ L1.heap.length = L.heap.length ∧
      ∀ q, deref L1 q =
        if q = tid then some (.table { T with entries := rawsetE T.entries k v }) else deref L q := by
  unfold lua_rawset at h
  rw [index_neg_three L v k t rest hs, hs] at h
  split at h
  · rename_i p v1 k1 rest1 hidx hst
    simp only [Option.some.injEq] at hidx
    simp only [List.cons.injEq] at hst
    obtain ⟨rfl, rfl, rfl⟩ := hst
    split at h
    · rename_i T hT
      split at h
      · cases h
      · rename_i hk
        simp only [Except.ok.injEq] at h
        subst h
        refine ⟨p, T, hidx, hT, hk, rfl, by simp, ?_⟩
        intro q
        have hd : deref { L with stack := t :: rest } p = some (.table T) := by
          rw [deref_with_stack]; exact (getTable_some L p T).mp hT
        rw [deref_store _ p _ _ hd q, deref_with_stack]
    · cases h
  · rename_i hno
    exfalso
    cases t
    all_goals first | exact hno _ _ _ _ rfl rfl | cases h

theorem lua_rawset_m3_ok (L : lua_State) (v k : TValue) (tid : Nat) (T : Table)
    (rest : List TValue) (hs : L.stack = v :: k :: .table tid :: rest)
    (hT : getTable L tid = some T) (hk : k ≠ .nil) : ∃ L1, lua_rawset L (-3) = .ok L1 := by
  unfold lua_rawset
  rw [index_neg_three L v k _ rest hs, hs]
  simp [hT, hk]

theorem lua_rawset_eq (L : lua_State) (idx : Int) (ot : Nat) (T : Table) (v k : TValue)
    (rest : List TValue) (hidx : index L idx = some (.table ot)) (hs : L.stack = v :: k :: rest)
    (hT : getTable L ot = some T) (hk : k ≠ .nil) :
    lua_rawset L idx =
      .ok (store { L with stack := rest } ot (.table { T with entries := rawsetE T.entries k v })) := by
  unfold lua_rawset
  rw [hidx, hs]
  simp [hT, hk]

theorem lua_rawget_eq (L : lua_State) (idx : Int) (ot : Nat) (T : Table) (k : TValue)
    (rest : List TValue) (hidx : index L idx = some (.table ot)) (hs : L.stack = k :: rest)
    (hT : getTable L ot = some T) :
    lua_rawget L idx = .ok { L with stack := rawgetE T.entries k :: rest } := by
  unfold lua_rawget
  rw [hidx, hs]
  simp [hT]

theorem Fetch_eq (L : lua_State) (ot q : Nat) (T : Table) (hT : getTable L ot = some T) :
    Fetch L ot q = rawgetE T.entries (.lightuserdata q) := by
  simp [Fetch, hT]

theorem fetch_object_eq (cache : upvalue_cache) (L : lua_State) (idx : Int) (ot id : Nat)
    (hc : cache.object_tbl_idx = idx) (h0 : 0 < idx) (hle : idx.toNat ≤ L.stack.length)
    (hidx : index L idx = some (.table ot)) (hT : (getTable L ot).isSome) :
    fetch_object cache L id = .ok (push L (Fetch L ot id)) := by
  obtain ⟨T, hT⟩ := Option.isSome_iff_exists.mp hT
  unfold fetch_object
  have h1 : index (lua_pushlightuserdata L id) cache.object_tbl_idx = some (.table ot) := by
    rw [hc, index_abs_append L _ idx [.lightuserdata id] h0 hle rfl, hidx]
  rw [lua_rawget_eq _ _ ot T (.lightuserdata id) L.stack h1 rfl (by simpa [lua_pushlightuserdata, getTable] using hT)]
  simp [Fetch_eq L ot id T hT, push, lua_pushlightuserdata]

theorem lookup_and_fetch_object_eq (cache : upvalue_cache) (L : lua_State) (idx : Int)
    (ot key : Nat) (hc : cache.object_tbl_idx = idx) (h0 : 0 < idx)
    (hle : idx.toNat ≤ L.stack.length) (hidx : index L idx = some (.table ot))
    (hT : (getTable L ot).isSome) :
    lookup_and_fetch_object cache L key =
      match lookup_object cache key with
      | some m => .ok (true, push L (Fetch L ot m.object_id))
      | none => .ok (false, L) := by
  unfold lookup_and_fetch_object
  split
  · rename_i m hm
    have := fetch_object_eq cache L idx ot m.object_id hc h0 hle hidx hT
    unfold fetch_object at this
    simp [this, bind, Except.bind, pure, Except.pure]
  · rfl

theorem cache_object_eq (cache : upvalue_cache) (L : lua_State) (x : TValue)
    (rest : List TValue) (idx : Int) (ot : Nat) (T : Table) (hs : L.stack = x :: rest)
    (hc : cache.object_tbl_idx = idx) (h0 : 0 < idx) (hle : idx.toNat ≤ L.stack.length)
    (hidx : index L idx = some (.table ot)) (hT : getTable L ot = some T) :
    ∃ L1, cache_object cache L = .ok (lua_topointer L (-1), L1) ∧ L1.stack = L.stack ∧
      L1.heap.length = L.heap.length ∧
      ∀ q, deref L1 q =
        if q = ot then
          some (.table { T with
            entries := rawsetE T.entries (.lightuserdata (lua_topointer L (-1))) x })
        else deref L q := by
  unfold cache_object
  have hpv : lua_pushvalue (lua_pushlightuserdata L (lua_topointer L (-1))) (-2) =
      .ok (push (lua_pushlightuserdata L (lua_topointer L (-1))) x) := by
    unfold lua_pushvalue
    rw [index_neg_two _ (.lightuserdata (lua_topointer L (-1))) x rest
      (by simp [lua_pushlightuserdata, hs])]
  have h1 : index (push (lua_pushlightuserdata L (lua_topointer L (-1))) x) cache.object_tbl_idx =
      some (.table ot) := by
    rw [hc, index_abs_append L _ idx [x, .lightuserdata (lua_topointer L (-1))] h0 hle rfl, hidx]
  have hrs := lua_rawset_eq (push (lua_pushlightuserdata L (lua_topointer L (-1))) x)
    cache.object_tbl_idx ot T x (.lightuserdata (lua_topointer L (-1))) L.stack h1 rfl
    (by simpa [getTable, lua_pushlightuserdata] using hT) (by simp)
  refine ⟨store L ot (.table { T with
      entries := rawsetE T.entries (.lightuserdata (lua_topointer L (-1))) x }), ?_, rfl,
    by simp, ?_⟩
  · simp only [hpv, hrs, bind, Except.bind, pure, Except.pure]
    rfl
  · intro q
    exact deref_store _ ot _ (.table T) ((getTable_some L ot T).mp hT) q

theorem lua_setupvalue_m2_inv (L L1 : lua_State) (v f : TValue) (rest : List TValue) (n : Int)
    (hs : L.stack = v :: f :: rest) (h : lua_setupvalue L (-2) n = (true, L1)) :
    ∃ fid c u w, f = .function fid ∧ getClosure L fid = some c ∧ nth1 c.upvals n = some u ∧
      getUpval L u = some w ∧ L1.stack = f :: rest ∧ L1.heap.length = L.heap.length ∧
      ∀ q, deref L1 q = if q = u then some (.upval v) else deref L q := by
  unfold lua_setupvalue at h
  rw [index_neg_two L v f rest hs, hs] at h
  split at h
  · rename_i p v1 rest1 hidx hst
    simp only [Option.some.injEq] at hidx
    simp only [List.cons.injEq] at hst
    obtain ⟨rfl, rfl⟩ := hst
    split at h
    · rename_i c hc
      split at h
      · rename_i u hu
        split at h
        · rename_i w hw
          simp only [Prod.mk.injEq, true_and] at h
          subst h
          refine ⟨p, c, u, w, hidx, hc, hu, hw, rfl, by simp, ?_⟩
          intro q
          rw [deref_store _ u _ (.upval w) (by
            rw [deref_with_stack]; exact (getUpval_some L u w).mp hw) q, deref_with_stack]
        · simp at h
      · simp at h
    · simp at h
  · simp at h

theorem lua_setupvalue_m2_ok (L : lua_State) (v : TValue) (fid : Nat) (rest : List TValue)
    (n : Int) (hs : L.stack = v :: .function fid :: rest) (hslot : SlotOK L fid n) :
    ∃ L1, lua_setupvalue L (-2) n = (true, L1) := by
  obtain ⟨c, u, hc, hu, hw⟩ := hslot
  obtain ⟨w, hw⟩ := Option.isSome_iff_exists.mp hw
  unfold lua_setupvalue
  rw [index_neg_two L v _ rest hs, hs]
  simp [hc, hu, hw]

theorem lua_upvaluejoin_inv (L L1 : lua_State) (g f : TValue) (rest : List TValue) (n n2 : Int)
    (hs : L.stack = g :: f :: rest) (h : lua_upvaluejoin L (-2) n (-1) n2 = .ok L1) :
    ∃ fid gid c c2 u u2, f = .function fid ∧ g = .function gid ∧ getClosure L fid = some c ∧
      getClosure L gid = some c2 ∧ nth1 c.upvals n = some u ∧ nth1 c2.upvals n2 = some u2 ∧
      L1.stack = L.stack ∧ L1.heap.length = L.heap.length ∧
      ∀ q, deref L1 q =
        if q = fid then some (.closure { c with upvals := c.upvals.set (n.toNat - 1) u2 })
        else deref L q := by
  unfold lua_upvaluejoin at h
  rw [index_neg_two L g f rest hs, index_neg_one L g (f :: rest) hs] at h
  split at h
  · rename_i p1 p2 hf hg
    simp only [Option.some.injEq] at hf hg
    split at h
    · rename_i c1 c2 hc1 hc2
      split at h
      · rename_i u1 u2 hu1 hu2
        simp only [Except.ok.injEq] at h
        subst h
        refine ⟨p1, p2, c1, c2, u1, u2, hf, hg, hc1, hc2, hu1, hu2, rfl, by simp, ?_⟩
        intro q
        exact deref_store _ p1 _ (.closure c1) ((getClosure_some L p1 c1).mp hc1) q
      · cases h
    · cases h
  · cases h

theorem lua_upvaluejoin_ok (L : lua_State) (fid gid : Nat) (rest : List TValue) (n n2 : Int)
    (c c2 : Closure) (u u2 : Nat)
    (hs : L.stack = .function gid :: .function fid :: rest)
    (hc : getClosure L fid = some c) (hc2 : getClosure L gid = some c2)
    (hu : nth1 c.upvals n = some u) (hu2 : nth1 c2.upvals n2 = some u2) :
    ∃ L1, lua_upvaluejoin L (-2) n (-1) n2 = .ok L1 := by
  unfold lua_upvaluejoin
  rw [index_neg_two L _ _ rest hs, index_neg_one L _ _ hs]
  simp [hc, hc2, hu, hu2]

theorem allocUpvals_spec (n : Nat) (L : lua_State) :
    (allocUpvals n L).2.stack = L.stack ∧
    (allocUpvals n L).2.heap = L.heap ++ List.replicate n (.upval .nil) ∧
    (allocUpvals n L).1 = List.range' (L.heap.length + 1) n := by
  induction n generalizing L with
  | zero => simp [allocUpvals]
  | succ n ih =>
    obtain ⟨h1, h2, h3⟩ := ih (alloc L (.upval .nil)).2
    simp only [allocUpvals]
    refine ⟨by simpa using h1, ?_, ?_⟩
    · rw [h2]
      simp [alloc, List.replicate_succ]
    · rw [h3]
      simp [List.range'_succ]

theorem nth1_range' (b k : Nat) (n : Int) (h1 : 1 ≤ n) (h2 : n ≤ k) :
    nth1 (List.range' (b + 1) k) n = some (b + n.toNat) := by
  unfold nth1
  rw [if_pos h1]
  rw [List.getElem?_eq_getElem (by simp; omega)]
  simp only [List.getElem_range', Option.some.injEq]
  omega

theorem nth1_some_bounds (l : List Nat) (n : Int) (u : Nat) (h : nth1 l n = some u) :
    1 ≤ n ∧ n ≤ l.length := by
  unfold nth1 at h
  split at h
  · rename_i h1
    have := (List.getElem?_eq_some.mp h).1
    exact ⟨h1, by omega⟩
  · cases h

theorem nth1_set (l : List Nat) (n m : Int) (u : Nat) (hn : 1 ≤ n) :
    nth1 (l.set (n.toNat - 1) u) m =
      if n = m then (nth1 l m).map (fun _ => u) else nth1 l m := by
  unfold nth1
  by_cases hm : 1 ≤ m
  · simp only [hm, if_true]
    by_cases hnm : n = m
    · subst hnm
      simp only [if_true]
      by_cases hl : n ≤ l.length
      · rw [List.getElem?_set_self (by omega), List.getElem?_eq_getElem (by omega)]
        rfl
      · rw [List.getElem?_eq_none (by simp; omega), List.getElem?_eq_none (by omega)]
        rfl
    · simp only [hnm, if_false]
      rw [List.getElem?_set_ne]
      omega
  · simp [hm]

theorem luaL_loadbuffer_proto_spec (H : Host) (L : lua_State) (code : List Byte) (n : Nat)
    (h : H.load code = .proto n) :
    ∃ L1, luaL_loadbuffer H L code = (0, L1) ∧
      L1.stack = .function (L.heap.length + n + 1) :: L.stack ∧
      L1.heap.length = L.heap.length + n + 1 ∧
      (∀ q, q ≤ L.heap.length → deref L1 q = deref L q) ∧
      (∀ q, L.heap.length < q → q ≤ L.heap.length + n → deref L1 q = some (.upval .nil)) ∧
      deref L1 (L.heap.length + n + 1) =
        some (.closure ⟨some code, List.range' (L.heap.length + 1) n⟩) := by
  obtain ⟨hs, hh, hu⟩ := allocUpvals_spec n L
  have hlen : (allocUpvals n L).2.heap.length = L.heap.length + n := by simp [hh]
  refine ⟨push (alloc (allocUpvals n L).2 (.closure ⟨some code, (allocUpvals n L).1⟩)).2
    (.function ((allocUpvals n L).2.heap.length + 1)), ?_, ?_, ?_, ?_, ?_, ?_⟩
  · simp [luaL_loadbuffer, h]
  · simp [hs, hlen]
  · simp [hlen]
  · intro q hq
    rw [deref_push, deref_alloc, if_neg (by omega)]
    unfold deref
    split
    · rfl
    · rw [hh, List.getElem?_append_left (by omega)]
  · intro q h1 h2
    rw [deref_push, deref_alloc, if_neg (by omega)]
    unfold deref
    rw [if_neg (by omega), hh, List.getElem?_append_right (by omega)]
    rw [List.getElem?_replicate]
    simp
    omega
  · rw [deref_push, deref_alloc, hlen, if_pos rfl, hu]

theorem lua_newtable_spec (L : lua_State) :
    (lua_newtable L).stack = .table (L.heap.length + 1) :: L.stack ∧
    (lua_newtable L).heap.length = L.heap.length + 1 ∧
    ∀ q, deref (lua_newtable L) q =
      if q = L.heap.length + 1 then some (.table ⟨[], 0⟩) else deref L q := by
  refine ⟨rfl, by simp [lua_newtable], ?_⟩
  intro q
  exact deref_alloc L _ q

/-! ## Transport of the invariants -/

theorem SlotOK_le (L : lua_State) (f : Nat) (n : Int) (h : SlotOK L f n) :
    f ≤ L.heap.length := by
  obtain ⟨c, u, hc, -, -⟩ := h
  exact (deref_some_bounds L f _ ((getClosure_some L f c).mp hc)).2

theorem getTable_isSome_le (L : lua_State) (p : Nat) (h : (getTable L p).isSome) :
    p ≤ L.heap.length := by
  obtain ⟨T, hT⟩ := Option.isSome_iff_exists.mp h
  exact (deref_some_bounds L p _ ((getTable_some L p T).mp hT)).2

theorem getClosure_isSome_le (L : lua_State) (p : Nat) (h : (getClosure L p).isSome) :
    p ≤ L.heap.length := by
  obtain ⟨T, hT⟩ := Option.isSome_iff_exists.mp h
  exact (deref_some_bounds L p _ ((getClosure_some L p T).mp hT)).2

theorem getUpval_isSome_le (L : lua_State) (p : Nat) (h : (getUpval L p).isSome) :
    p ≤ L.heap.length := by
  obtain ⟨T, hT⟩ := Option.isSome_iff_exists.mp h
  exact (deref_some_bounds L p _ ((getUpval_some L p T).mp hT)).2

theorem LiveObj_le (L : lua_State) (ot p : Nat) (h : LiveObj L ot p) : p ≤ L.heap.length := by
  rcases h with ⟨-, h⟩ | ⟨-, h⟩
  · exact getTable_isSome_le L p h
  · exact getClosure_isSome_le L p h

theorem LiveObj_mono {ot : Nat} {L L1 : lua_State} (hm : Mono ot L L1) (p : Nat)
    (h : LiveObj L ot p) : LiveObj L1 ot p := by
  have hle := LiveObj_le L ot p h
  rcases h with ⟨h1, h2⟩ | ⟨h1, h2⟩
  · exact Or.inl ⟨by rw [hm.fetch p hle]; exact h1, hm.tbl p h2⟩
  · exact Or.inr ⟨by rw [hm.fetch p hle]; exact h1, hm.clo p h2⟩

theorem CollOK_mono {ot : Nat} {L L1 : lua_State} (hm : Mono ot L L1) (m : collector_mapping)
    (h : CollOK L ot m) : CollOK L1 ot m := by
  rcases h with ⟨h1, n, hn, hs⟩ | ⟨h1, h2, h3⟩
  · exact Or.inl ⟨by rw [hm.fetch _ (SlotOK_le L _ _ hs)]; exact h1, n, hn, hm.slot _ _ hs⟩
  · exact Or.inr ⟨by rw [hm.fetch _ (getTable_isSome_le L _ h2)]; exact h1, hm.tbl _ h2, h3⟩

/-- The invariant survives any step that is monotone on the heap and leaves
the stack with the old stack at its bottom. -/
theorem Inv_mono {idx : Int} {ot : Nat} {L L1 : lua_State} {cache : upvalue_cache}
    (h : Inv idx ot L cache) (hm : Mono ot L L1) (xs : List TValue)
    (hs : L1.stack = xs ++ L.stack) : Inv idx ot L1 cache :=
  ⟨h.pos, by rw [hs]; simp; have := h.le; omega,
    by rw [index_abs_append L L1 idx xs h.pos h.le hs]; exact h.at_idx,
    hm.tbl ot h.host, h.cidx,
    fun m hmem => LiveObj_mono hm _ (h.objs m hmem),
    fun m hmem => ⟨by rw [hm.fetch _ (SlotOK_le L _ _ (h.upvs m hmem).2)]; exact (h.upvs m hmem).1,
      hm.slot _ _ (h.upvs m hmem).2⟩,
    fun m hmem => CollOK_mono hm m (h.colls m hmem)⟩

/-! ## Object identity across calls of `deserialize_function` -/

/-- C4 (failing input): the same serialized function (id 7) is handed twice to
`deserialize_function` within one campaign (one cache, one host-side table at
stack index 1). The second call does not consult the object-map: it loads the
bytecode again, so the two calls yield two different live functions (addresses
2 and 3) and the object-map holds two entries for id 7. -/
theorem deserialize_function_twice_two_objects :
    (do
      let (_, key1, L1, cache1) ←
        deserialize_function ⟨false⟩ (accepting 0)
          ⟨[.table 1], [.table ⟨[], 0⟩]⟩ upvalue_cache_new 1 (.mk 7 [27] .null)
      let (_, key2, L2, cache2) ←
        deserialize_function ⟨false⟩ (accepting 0) L1 cache1 1 (.mk 7 [27] .null)
      pure (key1, key2, L2.stack, cache2.object_map)) =
    .ok (some 2, some 3, [.function 3, .function 2, .table 1],
      [{ key := 7, object_id := 3 }, { key := 7, object_id := 2 }]) := by
  decide

/-- The sibling path: the same function node handed twice to
`deserialize_value` is built once and fetched the second time. -/
theorem deserialize_value_twice_one_object :
    (do
      let (L1, cache1) ←
        deserialize_value ⟨false⟩ (accepting 0)
          ⟨[.table 1], [.table ⟨[], 0⟩]⟩ upvalue_cache_new 1 (.function (.mk 7 [27] .null))
      let (L2, cache2) ←
        deserialize_value ⟨false⟩ (accepting 0) L1 cache1 1
          (.function (.mk 7 [27] .null))
      pure (L2.stack, cache2.object_map)) =
    .ok ([.function 2, .function 2, .table 1], [{ key := 7, object_id := 2 }]) := by
  decide

theorem serialize_object_cyclic (cb : callbacks) (n : Nat) :
    ∀ rest : List TValue, serialize_object cb n ⟨.table 1 :: rest, cyclic_heap⟩ = .error .fuel := by
  induction n using Nat.strong_induction_on with
  | _ n ih =>
    intro rest
    match n with
    | 0 => rfl
    | 1 => simp [serialize_object, serialize_table, bind, Except.bind]
    | 2 => simp [serialize_object, serialize_table, dump_table_entries, bind, Except.bind]
    | 3 =>
      simp [serialize_object, serialize_table, dump_table_entries, dump_table_entries_loop,
        bind, Except.bind]
    | k + 4 =>
      have h := ih k (by omega) (.number 1 :: .table 1 :: rest)
      simp [serialize_object, serialize_table, dump_table_entries, dump_table_entries_loop,
        lua_pushnil, push, lua_next, getTable, deref, cyclic_heap, unwrap_collector_maybe,
        luaL_getmetafield, metatableOf, bind, Except.bind]
      simp [cyclic_heap] at h
      rw [h]

/-- C6 (failing input): for the table `t` with `t[1] = t`, `serialize_value`
does not finish within any recursion bound: `serialize_object` enters
`serialize_table`, whose `dump_table_entries` calls `serialize_object` on the
same table again, and no id is ever checked. -/
theorem serialize_value_cyclic_diverges (cb : callbacks) (fuel : Nat) :
    serialize_value cb fuel ⟨[.table 1], cyclic_heap⟩ = .error .fuel :=
  serialize_object_cyclic cb fuel []

/-! ## Raw table access -/

theorem rawgetE_rawputE_self (es : List (TValue × TValue)) (k v : TValue) :
    rawgetE (rawputE es k v) k = v := by
  induction es with
  | nil => simp [rawputE, rawgetE]
  | cons e es ih =>
    obtain ⟨k1, v1⟩ := e
    by_cases h : k1 = k
    · simp [rawputE, rawgetE, h]
    · simp [rawputE, rawgetE, h, ih]

theorem rawgetE_rawputE_ne (es : List (TValue × TValue)) (k v k2 : TValue) (hne : k ≠ k2) :
    rawgetE (rawputE es k v) k2 = rawgetE es k2 := by
  induction es with
  | nil => simp [rawputE, rawgetE, hne]
  | cons e es ih =>
    obtain ⟨k1, v1⟩ := e
    by_cases h : k1 = k
    · subst h
      simp [rawputE, rawgetE, hne]
    · by_cases h2 : k1 = k2
      · subst h2
        simp [rawputE, rawgetE, h]
      · simp [rawputE, rawgetE, h, h2, ih]

theorem rawgetE_filter_ne (es : List (TValue × TValue)) (k k2 : TValue) (hne : k ≠ k2) :
    rawgetE (es.filter (fun e => e.1 ≠ k)) k2 = rawgetE es k2 := by
  induction es with
  | nil => rfl
  | cons e es ih =>
    obtain ⟨k1, v1⟩ := e
    simp only [ne_eq, decide_not] at ih ⊢
    by_cases h : k1 = k
    · subst h
      simp [rawgetE, hne, ih]
    · by_cases h2 : k1 = k2
      · subst h2
        simp [rawgetE, h]
      · simp [rawgetE, h, h2, ih]

theorem rawgetE_rawsetE_self (es : List (TValue × TValue)) (k v : TValue) (hv : v ≠ .nil) :
    rawgetE (rawsetE es k v) k = v := by
  simp [rawsetE, hv, rawgetE_rawputE_self]

theorem rawgetE_rawsetE_ne (es : List (TValue × TValue)) (k v k2 : TValue) (hne : k ≠ k2) :
    rawgetE (rawsetE es k v) k2 = rawgetE es k2 := by
  unfold rawsetE
  split
  · exact rawgetE_filter_ne es k k2 hne
  · exact rawgetE_rawputE_ne es k v k2 hne

theorem Mono_of_frame (ot : Nat) (L L1 : lua_State) (T T1 : Table)
    (hlen : L.heap.length ≤ L1.heap.length)
    (hot : getTable L ot = some T) (hot1 : getTable L1 ot = some T1)
    (hfetch : ∀ q, q ≤ L.heap.length →
      rawgetE T1.entries (.lightuserdata q) = rawgetE T.entries (.lightuserdata q))
    (hsame : ∀ q, q ≤ L.heap.length → q ≠ ot → SameOrData (deref L q) (deref L1 q)) :
    Mono ot L L1 := by
  have htbl : ∀ p, (getTable L p).isSome → (getTable L1 p).isSome := by
    intro p hp
    by_cases hpo : p = ot
    · subst hpo; simp [hot1]
    · obtain ⟨Tp, hTp⟩ := Option.isSome_iff_exists.mp hp
      have hd := (getTable_some L p Tp).mp hTp
      rcases hsame p (deref_some_bounds L p _ hd).2 hpo with h | ⟨T2, T3, h2, h3⟩ | ⟨v, v1, h2, h3⟩
      · rw [getTable_eq_of_deref L L1 p h]; exact hp
      · simp [getTable, h3]
      · rw [hd] at h2; cases h2
  have hclo : ∀ p c, getClosure L p = some c → getClosure L1 p = some c := by
    intro p c hp
    have hd := (getClosure_some L p c).mp hp
    have hpo : p ≠ ot := by
      rintro rfl
      rw [(getTable_some L p T).mp hot] at hd; cases hd
    rcases hsame p (deref_some_bounds L p _ hd).2 hpo with h | ⟨T2, T3, h2, h3⟩ | ⟨v, v1, h2, h3⟩
    · rw [getClosure_eq_of_deref L L1 p h]; exact hp
    · rw [hd] at h2; cases h2
    · rw [hd] at h2; cases h2
  have hupv : ∀ p, (getUpval L p).isSome → (getUpval L1 p).isSome := by
    intro p hp
    obtain ⟨w, hw⟩ := Option.isSome_iff_exists.mp hp
    have hd := (getUpval_some L p w).mp hw
    have hpo : p ≠ ot := by
      rintro rfl
      rw [(getTable_some L p T).mp hot] at hd; cases hd
    rcases hsame p (deref_some_bounds L p _ hd).2 hpo with h | ⟨T2, T3, h2, h3⟩ | ⟨v, v1, h2, h3⟩
    · rw [getUpval_eq_of_deref L L1 p h]; exact hp
    · rw [hd] at h2; cases h2
    · simp [getUpval, h3]
  refine ⟨hlen, htbl, ?_, hupv, ?_, ?_⟩
  · intro p hp
    obtain ⟨c, hc⟩ := Option.isSome_iff_exists.mp hp
    simp [hclo p c hc]
  · rintro f n ⟨c, u, hc, hu, hw⟩
    exact ⟨c, u, hclo f c hc, hu, hupv u hw⟩
  · intro q hq
    rw [Fetch_eq L1 ot q T1 hot1, Fetch_eq L ot q T hot, hfetch q hq]

/-- Nothing that existed before has changed. -/
theorem Mono_of_same (ot : Nat) (L L1 : lua_State) (hlen : L.heap.length ≤ L1.heap.length)
    (hot : (getTable L ot).isSome)
    (hsame : ∀ q, q ≤ L.heap.length → deref L1 q = deref L q) : Mono ot L L1 := by
  obtain ⟨T, hT⟩ := Option.isSome_iff_exists.mp hot
  have hle := getTable_isSome_le L ot hot
  exact Mono_of_frame ot L L1 T T hlen hT
    (by rw [getTable_eq_of_deref L L1 ot (hsame ot hle)]; exact hT) (fun _ _ => rfl)
    (fun q hq _ => Or.inl (hsame q hq))

/-- One upvalue slot of one closure is redirected to an existing cell. -/
theorem Mono_of_join (ot : Nat) (L L1 : lua_State) (fid : Nat) (c : Closure) (n : Int) (u2 : Nat)
    (hlen : L1.heap.length = L.heap.length) (hc : getClosure L fid = some c) (hn : 1 ≤ n)
    (hu2 : (getUpval L u2).isSome)
    (hd : ∀ q, deref L1 q =
      if q = fid then some (.closure { c with upvals := c.upvals.set (n.toNat - 1) u2 })
      else deref L q) : Mono ot L L1 := by
  have hcd := (getClosure_some L fid c).mp hc
  have hne : ∀ p, (getTable L p).isSome ∨ (getUpval L p).isSome → deref L1 p = deref L p := by
    intro p hp
    rw [hd p, if_neg]
    rintro rfl
    rcases hp with hp | hp
    · simp [getTable, hcd] at hp
    · simp [getUpval, hcd] at hp
  have hupv : ∀ p, (getUpval L p).isSome → (getUpval L1 p).isSome := fun p hp => by
    rw [getUpval_eq_of_deref L L1 p (hne p (Or.inr hp))]; exact hp
  refine ⟨le_of_eq hlen.symm, fun p hp => by
      rw [getTable_eq_of_deref L L1 p (hne p (Or.inl hp))]; exact hp, ?_, hupv, ?_, ?_⟩
  · intro p hp
    by_cases hpf : p = fid
    · subst hpf
      simp [getClosure, hd p]
    · rw [getClosure_eq_of_deref L L1 p (by rw [hd p, if_neg hpf])]; exact hp
  · rintro f m ⟨c1, u, hc1, hu, hw⟩
    by_cases hpf : f = fid
    · subst hpf
      rw [hc] at hc1
      cases hc1
      refine ⟨{ c with upvals := c.upvals.set (n.toNat - 1) u2 }, if n = m then u2 else u,
        by simp [getClosure, hd f], ?_, ?_⟩
      · simp only
        rw [nth1_set c.upvals n m u2 hn, hu]
        split <;> rfl
      · split
        · exact hupv u2 hu2
        · exact hupv u hw
    · exact ⟨c1, u, by rw [getClosure_eq_of_deref L L1 f (by rw [hd f, if_neg hpf])]; exact hc1,
        hu, hupv u hw⟩
  · intro q _
    unfold Fetch
    by_cases ho : (getTable L ot).isSome
    · rw [getTable_eq_of_deref L L1 ot (hne ot (Or.inl ho))]
    · have h1 : getTable L ot = none := by simpa using ho
      have h2 : getTable L1 ot = none := by
        by_cases hof : ot = fid
        · subst hof
          simp [getTable, hd ot]
        · rw [getTable_eq_of_deref L L1 ot (by rw [hd ot, if_neg hof])]; exact h1
      rw [h1, h2]

theorem Inv_transfer {idx : Int} {ot : Nat} {L L1 : lua_State} {cache : upvalue_cache}
    (h : Inv idx ot L cache) (hm : Mono ot L L1) (hle : idx.toNat ≤ L1.stack.length)
    (hidx : index L1 idx = some (.table ot)) : Inv idx ot L1 cache :=
  ⟨h.pos, hle, hidx, hm.tbl ot h.host, h.cidx,
    fun m hmem => LiveObj_mono hm _ (h.objs m hmem),
    fun m hmem => ⟨by rw [hm.fetch _ (SlotOK_le L _ _ (h.upvs m hmem).2)]; exact (h.upvs m hmem).1,
      hm.slot _ _ (h.upvs m hmem).2⟩,
    fun m hmem => CollOK_mono hm m (h.colls m hmem)⟩

/-- Composition of two steps; what the second step excepts must be excepted
by the first or be new. -/
theorem Step_comp {idx : Int} {ot : Nat} {exT exC exU exT1 exC1 exU1 : Nat → Prop}
    {nok nok1 : Prop} {L L1 L2 : lua_State} {c c1 c2 : upvalue_cache}
    (h1 : Step idx ot exT exC exU nok L c L1 c1)
    (h2 : Step idx ot exT1 exC1 exU1 nok1 L1 c1 L2 c2)
    (hT : ∀ p, exT1 p → exT p ∨ L.heap.length < p)
    (hC : ∀ p, exC1 p → exC p ∨ L.heap.length < p)
    (hU : nok → ∀ p, exU1 p → exU p ∨ L.heap.length < p)
    (hn : nok → nok1) :
    Step idx ot exT exC exU nok L c L2 c2 := by
  refine ⟨h2.inv, Mono_trans h1.mono h2.mono, ?_, ?_, ?_, ?_⟩
  · obtain ⟨i1, ⟨po1, ho1, hpo1⟩, ⟨pu1, hu1, hpu1⟩, ⟨pc1, hc1, hpc1⟩⟩ := h1.ext
    obtain ⟨i2, ⟨po2, ho2, hpo2⟩, ⟨pu2, hu2, hpu2⟩, ⟨pc2, hc2, hpc2⟩⟩ := h2.ext
    have key : ∀ p, (exT1 p ∨ exC1 p) ∨ L1.heap.length < p →
        (exT p ∨ exC p) ∨ L.heap.length < p := by
      rintro p ((h | h) | h)
      · exact (hT p h).imp Or.inl id
      · exact (hC p h).imp Or.inr id
      · exact Or.inr (lt_of_le_of_lt h1.mono.len h)
    refine ⟨i2.trans i1, ⟨po2 ++ po1, by rw [ho2, ho1, List.append_assoc], ?_⟩,
      ⟨pu2 ++ pu1, by rw [hu2, hu1, List.append_assoc], ?_⟩,
      ⟨pc2 ++ pc1, by rw [hc2, hc1, List.append_assoc], ?_⟩⟩
    · intro m hm
      rcases List.mem_append.mp hm with h | h
      · exact key _ (hpo2 m h)
      · exact hpo1 m h
    · intro m hm
      rcases List.mem_append.mp hm with h | h
      · obtain ⟨ha, hb⟩ := hpu2 m h
        refine ⟨?_, key _ hb⟩
        simp only [lookup_upvalue, List.find?_eq_none] at ha ⊢
        intro m1 hm1
        exact ha m1 (by rw [hu1]; exact List.mem_append.mpr (Or.inr hm1))
      · exact hpu1 m h
    · intro m hm
      rcases List.mem_append.mp hm with h | h
      · exact key _ (hpc2 m h)
      · exact hpc1 m h
  · intro p hp hex
    rw [h2.clos p (le_trans hp h1.mono.len) (fun e => by
      rcases hC p e with h | h
      · exact hex h
      · omega), h1.clos p hp hex]
  · intro p hp hex
    rw [h2.tbls p (le_trans hp h1.mono.len) (fun e => by
      rcases hT p e with h | h
      · exact hex h
      · omega), h1.tbls p hp hex]
  · intro hnok p hp hex
    rw [h2.cells (hn hnok) p (le_trans hp h1.mono.len) (fun e => by
      rcases hU hnok p e with h | h
      · exact hex h
      · omega), h1.cells hnok p hp hex]

/-- A step that changes neither an existing object nor the cache, and leaves
the old stack at the bottom. -/
theorem Step_of_same {idx : Int} {ot : Nat} (exT exC exU : Nat → Prop) (nok : Prop)
    {L L1 : lua_State} {cache : upvalue_cache} (h : Inv idx ot L cache)
    (hlen : L.heap.length ≤ L1.heap.length)
    (hsame : ∀ q, q ≤ L.heap.length → deref L1 q = deref L q)
    (hle : idx.toNat ≤ L1.stack.length) (hidx : index L1 idx = some (.table ot)) :
    Step idx ot exT exC exU nok L cache L1 cache :=
  ⟨Inv_transfer h (Mono_of_same ot L L1 hlen h.host hsame) hle hidx,
    Mono_of_same ot L L1 hlen h.host hsame, CacheExt_refl _ L cache,
    fun p hp _ => getClosure_eq_of_deref L L1 p (hsame p hp),
    fun p hp _ => getTable_eq_of_deref L L1 p (hsame p hp),
    fun _ p hp _ => getUpval_eq_of_deref L L1 p (hsame p hp)⟩

theorem Step_push {idx : Int} {ot : Nat} (exT exC exU : Nat → Prop) (nok : Prop)
    {L : lua_State} {cache : upvalue_cache} (h : Inv idx ot L cache) (v : TValue) :
    Step idx ot exT exC exU nok L cache (push L v) cache :=
  Step_of_same exT exC exU nok h (le_refl _) (fun _ _ => rfl)
    (by simp; have := h.le; omega)
    (by rw [index_abs_append L (push L v) idx [v] h.pos h.le rfl]; exact h.at_idx)

theorem deref_congr_heap (L L1 : lua_State) (h : L1.heap = L.heap) (q : Nat) :
    deref L1 q = deref L q := by
  simp [deref, h]

theorem lookup_upvalue_mem (cache : upvalue_cache) (uid : Nat) (m : upvalue_mapping)
    (h : lookup_upvalue cache uid = some m) : m ∈ cache.upvalue_map ∧ m.key = uid := by
  unfold lookup_upvalue at h
  exact ⟨List.mem_of_find?_eq_some h, by simpa using List.find?_some h⟩

theorem lookup_object_mem (cache : upvalue_cache) (id : Nat) (m : object_mapping)
    (h : lookup_object cache id = some m) : m ∈ cache.object_map ∧ m.key = id := by
  unfold lookup_object at h
  exact ⟨List.mem_of_find?_eq_some h, by simpa using List.find?_some h⟩

theorem closure_ne_table (L : lua_State) (f ot : Nat) (hc : (getClosure L f).isSome)
    (ht : (getTable L ot).isSome) : f ≠ ot := by
  rintro rfl
  obtain ⟨c, hc⟩ := Option.isSome_iff_exists.mp hc
  obtain ⟨T, hT⟩ := Option.isSome_iff_exists.mp ht
  rw [getClosure_some] at hc
  rw [getTable_some, hc] at hT
  cases hT

theorem copy_value_primitive (k vk : svalue) (h : copy_value k = .ok vk) :
    vk.isPrimitive = true ∧ k.isPrimitive = true := by
  cases k <;> simp [copy_value] at h <;> subst h <;> simp [svalue.isPrimitive]

theorem set_shared_upvalue_found (idx : Int) (ot : Nat) (nokv : Prop)
    (push_value : lua_State → upvalue_cache → Res (lua_State × upvalue_cache))
    (func_id uid : Nat) (number : Int) (cid : Nat) (L : lua_State) (cache : upvalue_cache)
    (La : lua_State) (ca : upvalue_cache) (rest : List TValue) (c : Closure)
    (m : upvalue_mapping) (hm : lookup_upvalue cache uid = some m)
    (hinv : Inv idx ot L cache) (hs : L.stack = .function func_id :: rest)
    (hc : getClosure L func_id = some c)
    (h : set_shared_upvalue push_value func_id uid number cid L cache = .ok (La, ca)) :
    La.stack = L.stack ∧
    Step idx ot (fun p => p = ot) (fun p => p = func_id)
      (fun p => nth1 c.upvals number = some p) nokv L cache La ca ∧
    (∃ c1, getClosure La func_id = some c1 ∧ c1.chunk = c.chunk ∧
      c1.upvals.length = c.upvals.length ∧
      ∀ n, n ≠ number → nth1 c1.upvals n = nth1 c.upvals n) ∧
    Shares La ca func_id number uid ∧
    (∀ m1 ∈ ca.upvalue_map, m1.function_id = func_id →
      m1 ∈ cache.upvalue_map ∨ m1.upvalue_num = number) := by
  obtain ⟨hmem, -⟩ := lookup_upvalue_mem cache uid m hm
  obtain ⟨hfm, c2s, u2s, hc2s, hu2s, hw2s⟩ := hinv.upvs m hmem
  simp only [set_shared_upvalue, hm, bind_ok, pure_ok] at h
  obtain ⟨L1, h1, L2, h2, L3, h3, h4⟩ := h
  rw [fetch_object_eq cache L idx ot m.function_id hinv.cidx hinv.pos hinv.le hinv.at_idx
    hinv.host, hfm] at h1
  simp only [Except.ok.injEq] at h1
  subst h1
  obtain ⟨fid, gid, c1, c2, u, u2, hf, hg, hc1, hc2, hu, hu2, hst2, hlen2, hd2⟩ :=
    lua_upvaluejoin_inv (push L (.function m.function_id)) L2 (.function m.function_id)
      (.function func_id) rest number m.upvalue_num (by simp [hs]) h2
  simp only [TValue.function.injEq] at hf hg
  subst hf hg
  have hc1' : getClosure L func_id = some c1 := hc1
  rw [hc] at hc1'
  cases hc1'
  have hc2' : getClosure L m.function_id = some c2 := hc2
  rw [hc2s] at hc2'
  cases hc2'
  rw [hu2s] at hu2
  cases hu2
  have hn1 := (nth1_some_bounds _ _ _ hu).1
  simp only [Prod.mk.injEq] at h4
  obtain ⟨rfl, rfl⟩ := h4
  have hst3 : L3.stack = L.stack ∧ L3.heap = L2.heap := by
    unfold lua_pop at h3
    split at h3
    · simp only [Except.ok.injEq] at h3
      subst h3
      simp [hst2, hs]
    · cases h3
  obtain ⟨hst3, hheap3⟩ := hst3
  have hd3 : ∀ q, deref L3 q =
      if q = func_id then some (.closure { c with upvals := c.upvals.set (number.toNat - 1) u2s })
      else deref L q := by
    intro q
    rw [deref_congr_heap L2 L3 hheap3 q, hd2 q]
    rfl
  have hlen3 : L3.heap.length = L.heap.length := by rw [hheap3, hlen2]; rfl
  have hmono : Mono ot L L3 := Mono_of_join ot L L3 func_id c number u2s hlen3 hc hn1 hw2s hd3
  have hinv3 : Inv idx ot L3 cache :=
    Inv_transfer hinv hmono (by rw [hst3]; exact hinv.le)
      (by rw [index_congr L L3 idx hst3]; exact hinv.at_idx)
  have hcl3 : getClosure L3 func_id =
      some { c with upvals := c.upvals.set (number.toNat - 1) u2s } := by
    simp [getClosure, hd3 func_id]
  refine ⟨hst3, ⟨hinv3, hmono, CacheExt_refl _ L cache, ?_, ?_, ?_⟩, ?_, ?_, ?_⟩
  · intro p _ hp
    exact getClosure_eq_of_deref L L3 p (by rw [hd3 p, if_neg hp])
  · intro p _ _
    by_cases hp : p = func_id
    · subst hp
      have : getTable L p = none := by simp [getTable, (getClosure_some L p c).mp hc]
      rw [this]
      simp [getTable, hd3 p]
    · exact getTable_eq_of_deref L L3 p (by rw [hd3 p, if_neg hp])
  · intro _ p _ _
    by_cases hp : p = func_id
    · subst hp
      have : getUpval L p = none := by simp [getUpval, (getClosure_some L p c).mp hc]
      rw [this]
      simp [getUpval, hd3 p]
    · exact getUpval_eq_of_deref L L3 p (by rw [hd3 p, if_neg hp])
  · refine ⟨_, hcl3, rfl, by simp, ?_⟩
    intro n hn
    simp only
    rw [nth1_set c.upvals number n u2s hn1, if_neg (Ne.symm hn)]
  · refine ⟨m, _, u2s, hm, ?_, hcl3, ?_⟩
    · unfold cellOf
      by_cases hmf : m.function_id = func_id
      · rw [hmf, hcl3]
        simp only
        rw [nth1_set c.upvals number m.upvalue_num u2s hn1]
        rw [hmf, hc] at hc2s
        cases hc2s
        split
        · rw [hu2s]; rfl
        · exact hu2s
      · rw [getClosure_eq_of_deref L L3 _ (by rw [hd3 _, if_neg hmf]), hc2s]
        exact hu2s
    · simp only
      rw [nth1_set c.upvals number number u2s hn1, if_pos rfl, hu]
      rfl
  · intro m1 hm1 _
    exact Or.inl hm1

theorem set_upvalue_inv (idx : Int) (ot : Nat) (nokv : Prop)
    (push_value : lua_State → upvalue_cache → Res (lua_State × upvalue_cache))
    (hpv : ∀ L cache L1 cache1, Inv idx ot L cache → push_value L cache = .ok (L1, cache1) →
      (∃ v, v ≠ .nil ∧ L1.stack = v :: L.stack) ∧
      Step idx ot (fun p => p = ot) none_excepted none_excepted nokv L cache L1 cache1)
    (func_id : Nat) (number : Int) (L : lua_State) (cache : upvalue_cache)
    (Lb : lua_State) (ca : upvalue_cache) (rest : List TValue) (c : Closure)
    (hinv : Inv idx ot L cache) (hs : L.stack = .function func_id :: rest)
    (hc : getClosure L func_id = some c)
    (h : set_upvalue push_value number L cache = .ok (Lb, ca)) :
    ∃ u v, nth1 c.upvals number = some u ∧ v ≠ .nil ∧ Lb.stack = L.stack ∧
      getUpval Lb u = some v ∧ getClosure Lb func_id = some c ∧
      Step idx ot (fun p => p = ot) none_excepted (fun p => p = u) nokv L cache Lb ca := by
  simp only [set_upvalue, bind_ok] at h
  obtain ⟨⟨La, ca1⟩, h1, h2⟩ := h
  obtain ⟨⟨v, hv, hsa⟩, hstep⟩ := hpv L cache La ca1 hinv h1
  simp only at h2
  rcases hsu : lua_setupvalue La (-2) number with ⟨name, L2⟩
  rw [hsu] at h2
  simp only at h2
  cases name with
  | false => simp at h2
  | true =>
    simp only [if_true, pure_ok, Prod.mk.injEq] at h2
    obtain ⟨rfl, rfl⟩ := h2
    have hfl : func_id ≤ L.heap.length :=
      getClosure_isSome_le L func_id (by simp [hc])
    have hca : getClosure La func_id = some c := by
      rw [hstep.clos func_id hfl (fun e => e)]; exact hc
    obtain ⟨fid, c1, u, w, hf, hc1, hu, hw, hst2, hlen2, hd2⟩ :=
      lua_setupvalue_m2_inv La L2 v (.function func_id) rest number (by rw [hsa, hs]) hsu
    simp only [TValue.function.injEq] at hf
    subst hf
    rw [hca] at hc1
    cases hc1
    have hst : L2.stack = L.stack := by rw [hst2, hs]
    have hTa := hstep.inv.host
    obtain ⟨Ta, hTa⟩ := Option.isSome_iff_exists.mp hTa
    have hune : u ≠ ot := by
      rintro rfl
      rw [getUpval_some] at hw
      rw [getTable_some, hw] at hTa
      cases hTa
    have hmono2 : Mono ot La L2 := by
      refine Mono_of_frame ot La L2 Ta Ta (le_of_eq hlen2.symm) hTa ?_ (fun _ _ => rfl) ?_
      · rw [getTable_eq_of_deref La L2 ot (by rw [hd2 ot, if_neg (Ne.symm hune)])]; exact hTa
      · intro q _ _
        by_cases hq : q = u
        · subst hq
          exact Or.inr (Or.inr ⟨w, v, (getUpval_some La q w).mp hw, by rw [hd2 q, if_pos rfl]⟩)
        · exact Or.inl (by rw [hd2 q, if_neg hq])
    have hinv2 : Inv idx ot L2  ca1 :=
      Inv_transfer hstep.inv hmono2 (by rw [hst]; exact hinv.le)
        (by rw [index_congr L L2 idx hst]; exact hinv.at_idx)
    have hstep2 : Step idx ot (fun p => p = ot) none_excepted (fun p => p = u) nokv
        La  ca1 L2  ca1 := by
      refine ⟨hinv2, hmono2, CacheExt_refl _ La ca1, ?_, ?_, ?_⟩
      · intro p _ _
        by_cases hp : p = u
        · subst hp
          have : getClosure La p = none := by simp [getClosure, (getUpval_some La p w).mp hw]
          rw [this]
          simp [getClosure, hd2 p]
        · exact getClosure_eq_of_deref La L2 p (by rw [hd2 p, if_neg hp])
      · intro p _ _
        by_cases hp : p = u
        · subst hp
          have : getTable La p = none := by simp [getTable, (getUpval_some La p w).mp hw]
          rw [this]
          simp [getTable, hd2 p]
        · exact getTable_eq_of_deref La L2 p (by rw [hd2 p, if_neg hp])
      · intro _ p _ hp
        exact getUpval_eq_of_deref La L2 p (by rw [hd2 p, if_neg hp])
    refine ⟨u, v, hu, hv, hst, by simp [getUpval, hd2 u], ?_, ?_⟩
    · rw [hstep2.clos func_id (le_trans hfl hstep.mono.len) (fun e => e)]; exact hca
    · exact Step_comp (Step_weaken hstep (fun _ h => h) (fun _ h => h)
        (fun _ _ h => False.elim h) (fun h => h)) hstep2
        (fun _ h => Or.inl h) (fun _ h => Or.inl h) (fun _ _ h => Or.inl h) (fun h => h)

theorem Inv_map_upvalue {idx : Int} {ot : Nat} {L : lua_State} {cache : upvalue_cache}
    (h : Inv idx ot L cache) (uid : Nat) (n : Int) (fid : Nat)
    (hf : Fetch L ot fid = .function fid) (hslot : SlotOK L fid n) :
    Inv idx ot L (map_upvalue cache uid n fid) :=
  ⟨h.pos, h.le, h.at_idx, h.host, h.cidx, h.objs,
    fun m hm => by
      simp only [map_upvalue, List.mem_cons] at hm
      rcases hm with rfl | hm
      · exact ⟨hf, hslot⟩
      · exact h.upvs m hm,
    h.colls⟩

theorem Inv_map_object {idx : Int} {ot : Nat} {L : lua_State} {cache : upvalue_cache}
    (h : Inv idx ot L cache) (key oid : Nat) (hlive : LiveObj L ot oid) :
    Inv idx ot L (map_object cache key oid) :=
  ⟨h.pos, h.le, h.at_idx, h.host, h.cidx,
    fun m hm => by
      simp only [map_object, List.mem_cons] at hm
      rcases hm with rfl | hm
      · exact hlive
      · exact h.objs m hm,
    h.upvs, h.colls⟩

theorem map_collector_inv {idx : Int} {ot : Nat} {L : lua_State} {cache cache1 : upvalue_cache}
    (h : Inv idx ot L cache) (key oid : Nat) (vk : svalue)
    (hm : map_collector cache key oid vk = .ok cache1)
    (hok : ∀ vk1, copy_value vk = .ok vk1 → CollOK L ot ⟨key, oid, vk1⟩) :
    Inv idx ot L cache1 ∧ cache1.upvalue_map = cache.upvalue_map ∧
      cache1.object_map = cache.object_map ∧ cache1.object_tbl_idx = cache.object_tbl_idx ∧
      ∃ vk1, copy_value vk = .ok vk1 ∧ cache1.collector_map = ⟨key, oid, vk1⟩ :: cache.collector_map := by
  simp only [map_collector, bind_ok, pure_ok] at hm
  obtain ⟨vk1, h1, rfl⟩ := hm
  refine ⟨⟨h.pos, h.le, h.at_idx, h.host, h.cidx, h.objs, h.upvs, ?_⟩, rfl, rfl, rfl, vk1, h1, rfl⟩
  intro m hm
  simp only [List.mem_cons] at hm
  rcases hm with rfl | hm
  · exact hok vk1 h1
  · exact h.colls m hm

theorem set_shared_upvalue_new (idx : Int) (ot : Nat) (nokv : Prop)
    (push_value : lua_State → upvalue_cache → Res (lua_State × upvalue_cache))
    (hpv : ∀ L cache L1 cache1, Inv idx ot L cache → push_value L cache = .ok (L1, cache1) →
      (∃ v, v ≠ .nil ∧ L1.stack = v :: L.stack) ∧
      Step idx ot (fun p => p = ot) none_excepted none_excepted nokv L cache L1 cache1)
    (func_id uid : Nat) (number : Int) (cid : Nat) (L : lua_State) (cache : upvalue_cache)
    (La : lua_State) (ca : upvalue_cache) (rest : List TValue) (c : Closure)
    (hm : lookup_upvalue cache uid = none)
    (hinv : Inv idx ot L cache) (hs : L.stack = .function func_id :: rest)
    (hc : getClosure L func_id = some c) (hf : Fetch L ot func_id = .function func_id)
    (h : set_shared_upvalue push_value func_id uid number cid L cache = .ok (La, ca)) :
    La.stack = L.stack ∧
    Step idx ot (fun p => p = ot) (fun p => p = func_id)
      (fun p => nth1 c.upvals number = some p) nokv L cache La ca ∧
    (∃ c1, getClosure La func_id = some c1 ∧ c1.chunk = c.chunk ∧
      c1.upvals.length = c.upvals.length ∧
      ∀ n, n ≠ number → nth1 c1.upvals n = nth1 c.upvals n) ∧
    Shares La ca func_id number uid ∧
    (∀ m1 ∈ ca.upvalue_map, m1.function_id = func_id →
      m1 ∈ cache.upvalue_map ∨ m1.upvalue_num = number) := by
  simp only [set_shared_upvalue, hm, bind_ok] at h
  obtain ⟨⟨L1, c1⟩, h1, h2⟩ := h
  obtain ⟨u, v, hu, hv, hst, hw, hcl, hstep⟩ :=
    set_upvalue_inv idx ot nokv push_value hpv func_id number L cache L1 c1 rest c hinv hs hc h1
  simp only at h2
  have hfl : func_id ≤ L.heap.length := getClosure_isSome_le L func_id (by simp [hc])
  have hf1 : Fetch L1 ot func_id = .function func_id := by
    rw [hstep.mono.fetch func_id hfl]; exact hf
  have hslot : SlotOK L1 func_id number := ⟨c, u, hcl, hu, by simp [hw]⟩
  have hfo : func_id ≠ ot := closure_ne_table L func_id ot (by simp [hc]) hinv.host
  have hinv2 := Inv_map_upvalue hstep.inv uid number func_id hf1 hslot
  -- facts about the cache after `map_upvalue`
  have hext2 : CacheExt (fun p => p = ot ∨ p = func_id) L cache
      (map_upvalue c1 uid number func_id) := by
    obtain ⟨i1, ⟨po1, ho1, hpo1⟩, ⟨pu1, hu1, hpu1⟩, ⟨pc1, hc1, hpc1⟩⟩ := hstep.ext
    refine ⟨i1, ⟨po1, ho1, fun m hm1 => (hpo1 m hm1).imp (fun e => e.imp id False.elim) id⟩,
      ⟨⟨uid, func_id, number⟩ :: pu1, by simp [map_upvalue, hu1], ?_⟩,
      ⟨pc1, hc1, fun m hm1 => (hpc1 m hm1).imp (fun e => e.imp id False.elim) id⟩⟩
    intro m hm1
    simp only [List.mem_cons] at hm1
    rcases hm1 with rfl | hm1
    · exact ⟨hm, Or.inl (Or.inr rfl)⟩
    · exact ⟨(hpu1 m hm1).1, (hpu1 m hm1).2.imp (fun e => e.imp id False.elim) id⟩
  have hmaps : ∀ m1 ∈ (map_upvalue c1 uid number func_id).upvalue_map,
      m1.function_id = func_id → m1 ∈ cache.upvalue_map ∨ m1.upvalue_num = number := by
    intro m1 hm1 hm1f
    obtain ⟨_, _, ⟨pu1, hu1, hpu1⟩, _⟩ := hstep.ext
    simp only [map_upvalue, List.mem_cons, hu1, List.mem_append] at hm1
    rcases hm1 with rfl | hm1 | hm1
    · exact Or.inr rfl
    · exfalso
      rcases (hpu1 m1 hm1).2 with (e | e) | e
      · exact hfo (hm1f ▸ e)
      · exact e
      · omega
    · exact Or.inl hm1
  have hshare : ∀ c2 : upvalue_cache,
      c2.upvalue_map = (map_upvalue c1 uid number func_id).upvalue_map →
      Shares L1 c2 func_id number uid := by
    intro c2 hc2
    refine ⟨⟨uid, func_id, number⟩, c, u, ?_, ?_, hcl, hu⟩
    · simp [lookup_upvalue, hc2, map_upvalue]
    · simp [cellOf, hcl, hu]
  have hclos : ∃ c1, getClosure L1 func_id = some c1 ∧ c1.chunk = c.chunk ∧
      c1.upvals.length = c.upvals.length ∧
      ∀ n, n ≠ number → nth1 c1.upvals n = nth1 c.upvals n :=
    ⟨c, hcl, rfl, rfl, fun _ _ => rfl⟩
  have hstepw : ∀ c2, Inv idx ot L1 c2 → CacheExt (fun p => p = ot ∨ p = func_id) L cache c2 →
      Step idx ot (fun p => p = ot) (fun p => p = func_id)
        (fun p => nth1 c.upvals number = some p) nokv L cache L1 c2 := by
    intro c2 hi he
    refine ⟨hi, hstep.mono, he, fun p hp _ => hstep.clos p hp (fun e => e), hstep.tbls, ?_⟩
    intro hn p hp hex
    exact hstep.cells hn p hp (fun e => hex (by rw [hu, e]))
  by_cases hcid : cid = 0
  · simp only [hcid, ne_eq, not_true_eq_false, if_false, pure_ok, Prod.mk.injEq] at h2
    obtain ⟨rfl, rfl⟩ := h2
    exact ⟨hst, hstepw _ hinv2 hext2, hclos, hshare _ rfl, hmaps⟩
  · simp only [hcid, ne_eq, not_false_eq_true, if_true, bind_ok, pure_ok, Prod.mk.injEq] at h2
    obtain ⟨c3, h3, rfl, rfl⟩ := h2
    obtain ⟨hinv3, hum, hom, hidx3, vk1, hvk, hcm⟩ :=
      map_collector_inv hinv2 cid func_id (.number number) h3 (by
        intro vk1 hvk1
        simp only [copy_value, Except.ok.injEq] at hvk1
        subst hvk1
        exact Or.inl ⟨hf1, number, rfl, hslot⟩)
    refine ⟨hst, hstepw _ hinv3 ?_, hclos, hshare _ hum, ?_⟩
    · obtain ⟨i1, ⟨po1, ho1, hpo1⟩, ⟨pu1, hu1, hpu1⟩, ⟨pc1, hc1, hpc1⟩⟩ := hext2
      refine ⟨hidx3.trans i1, ⟨po1, hom.trans ho1, hpo1⟩, ⟨pu1, hum.trans hu1, hpu1⟩,
        ⟨⟨cid, func_id, vk1⟩ :: pc1, by rw [hcm, hc1]; rfl, ?_⟩⟩
      intro m hm1
      simp only [List.mem_cons] at hm1
      rcases hm1 with rfl | hm1
      · exact Or.inl (Or.inr rfl)
      · exact hpc1 m hm1
    · intro m1 hm1
      rw [hum] at hm1
      exact hmaps m1 hm1

theorem set_shared_upvalue_inv (idx : Int) (ot : Nat) (nokv : Prop)
    (push_value : lua_State → upvalue_cache → Res (lua_State × upvalue_cache))
    (hpv : ∀ L cache L1 cache1, Inv idx ot L cache → push_value L cache = .ok (L1, cache1) →
      (∃ v, v ≠ .nil ∧ L1.stack = v :: L.stack) ∧
      Step idx ot (fun p => p = ot) none_excepted none_excepted nokv L cache L1 cache1)
    (func_id uid : Nat) (number : Int) (cid : Nat) (L : lua_State) (cache : upvalue_cache)
    (La : lua_State) (ca : upvalue_cache) (rest : List TValue) (c : Closure)
    (hinv : Inv idx ot L cache) (hs : L.stack = .function func_id :: rest)
    (hc : getClosure L func_id = some c) (hf : Fetch L ot func_id = .function func_id)
    (h : set_shared_upvalue push_value func_id uid number cid L cache = .ok (La, ca)) :
    La.stack = L.stack ∧
    Step idx ot (fun p => p = ot) (fun p => p = func_id)
      (fun p => nth1 c.upvals number = some p) nokv L cache La ca ∧
    (∃ c1, getClosure La func_id = some c1 ∧ c1.chunk = c.chunk ∧
      c1.upvals.length = c.upvals.length ∧
      ∀ n, n ≠ number → nth1 c1.upvals n = nth1 c.upvals n) ∧
    Shares La ca func_id number uid ∧
    (∀ m1 ∈ ca.upvalue_map, m1.function_id = func_id →
      m1 ∈ cache.upvalue_map ∨ m1.upvalue_num = number) := by
  cases hm : lookup_upvalue cache uid with
  | none =>
    exact set_shared_upvalue_new idx ot nokv push_value hpv func_id uid number cid L cache La ca
      rest c hm hinv hs hc hf h
  | some m =>
    exact set_shared_upvalue_found idx ot nokv push_value func_id uid number cid L cache La ca
      rest c m hm hinv hs hc h

theorem lookup_upvalue_ext (c c1 : upvalue_cache) (pre : List upvalue_mapping)
    (h : c1.upvalue_map = pre ++ c.upvalue_map)
    (hpre : ∀ m ∈ pre, lookup_upvalue c m.key = none) (uid : Nat) (m : upvalue_mapping)
    (hm : lookup_upvalue c uid = some m) : lookup_upvalue c1 uid = some m := by
  unfold lookup_upvalue at hm ⊢
  rw [h, List.find?_append]
  have : List.find? (fun m => decide (m.key = uid)) pre = none := by
    rw [List.find?_eq_none]
    intro m1 hm1 hk
    simp only [decide_eq_true_eq] at hk
    have := hpre m1 hm1
    rw [hk] at this
    unfold lookup_upvalue at this
    rw [this] at hm
    cases hm
  rw [this]
  exact hm

/-- Sharing is kept by a step that extends the cache and keeps the cells of
the slot itself and of every mapped slot. -/
theorem Shares_stable {L L1 : lua_State} {c c1 : upvalue_cache} {fid uid : Nat} {n : Int}
    (h : Shares L c fid n uid)
    (hext : ∃ pre, c1.upvalue_map = pre ++ c.upvalue_map ∧
      ∀ m ∈ pre, lookup_upvalue c m.key = none)
    (hself : ∀ cl u, getClosure L fid = some cl → nth1 cl.upvals n = some u →
      ∃ cl1, getClosure L1 fid = some cl1 ∧ nth1 cl1.upvals n = some u)
    (hmapped : ∀ m ∈ c.upvalue_map, ∀ cl u, getClosure L m.function_id = some cl →
      nth1 cl.upvals m.upvalue_num = some u →
      ∃ cl1, getClosure L1 m.function_id = some cl1 ∧ nth1 cl1.upvals m.upvalue_num = some u) :
    Shares L1 c1 fid n uid := by
  obtain ⟨m, cl, u, hm, hcell, hcl, hu⟩ := h
  obtain ⟨pre, hpre, hnone⟩ := hext
  obtain ⟨cl1, hcl1, hu1⟩ := hself cl u hcl hu
  refine ⟨m, cl1, u, lookup_upvalue_ext c c1 pre hpre hnone uid m hm, ?_, hcl1, hu1⟩
  unfold cellOf at hcell ⊢
  split at hcell
  · rename_i cm hcm
    obtain ⟨cm1, hcm1, hum1⟩ := hmapped m (lookup_upvalue_mem c uid m hm).1 cm u hcm hcell
    rw [hcm1]
    exact hum1
  · cases hcell

theorem supvalue_slots_numbers :
    ∀ (ups : supvalue) (s : Nat × Int), s ∈ ups.slots → s.2 ∈ ups.numbers
  | .null, s, h => by simp [supvalue.slots] at h
  | .node next id number value cid, s, h => by
    simp only [supvalue.slots, List.mem_cons] at h
    rcases h with rfl | h
    · simp [supvalue.numbers]
    · simp [supvalue.numbers, supvalue_slots_numbers next s h]

/-- A freshly allocated table or function `x` (address `p`) is on top of the
stack; `cache_object` stores it in the host-side table and `map_object` records
it. -/
theorem cache_new_object {idx : Int} {ot : Nat} {L : lua_State} {cache : upvalue_cache}
    (nok : Prop) (hinv : Inv idx ot L cache) (L0 : lua_State) (x : TValue) (p : Nat)
    (hx : (x = .table p ∧ (getTable L0 p).isSome) ∨ (x = .function p ∧ (getClosure L0 p).isSome))
    (hp : L.heap.length < p) (hst : L0.stack = x :: L.stack)
    (hlen : L.heap.length ≤ L0.heap.length)
    (hsame : ∀ q, q ≤ L.heap.length → deref L0 q = deref L q) (id : Nat) :
    ∃ L2, cache_object cache L0 = .ok (p, L2) ∧ L2.stack = L0.stack ∧
      L2.heap.length = L0.heap.length ∧ (∀ q, q ≠ ot → deref L2 q = deref L0 q) ∧
      Fetch L2 ot p = x ∧
      Step idx ot (fun q => q = ot) none_excepted none_excepted nok L cache L2
        (map_object cache id p) := by
  obtain ⟨T, hT⟩ := Option.isSome_iff_exists.mp hinv.host
  have hotle := getTable_isSome_le L ot hinv.host
  have hT0 : getTable L0 ot = some T := by
    rw [getTable_eq_of_deref L L0 ot (hsame ot hotle)]; exact hT
  have hle0 : idx.toNat ≤ L0.stack.length := by rw [hst]; simp; have := hinv.le; omega
  have hidx0 : index L0 idx = some (.table ot) := by
    rw [index_abs_append L L0 idx [x] hinv.pos hinv.le hst]; exact hinv.at_idx
  have hptr : lua_topointer L0 (-1) = p := by
    unfold lua_topointer
    rw [index_neg_one L0 x L.stack hst]
    rcases hx with ⟨rfl, -⟩ | ⟨rfl, -⟩ <;> rfl
  have hxnil : x ≠ .nil := by rcases hx with ⟨rfl, -⟩ | ⟨rfl, -⟩ <;> simp
  obtain ⟨L2, h2, hst2, hlen2, hd2⟩ :=
    cache_object_eq cache L0 x L.stack idx ot T hst hinv.cidx hinv.pos hle0 hidx0 hT0
  rw [hptr] at h2 hd2
  have hT2 : getTable L2 ot =
      some { T with entries := rawsetE T.entries (.lightuserdata p) x } := by
    simp [getTable, hd2 ot]
  have hne : ∀ q, q ≠ ot → deref L2 q = deref L0 q := fun q hq => by rw [hd2 q, if_neg hq]
  have hpo : p ≠ ot := by omega
  have hfetch : Fetch L2 ot p = x := by
    rw [Fetch_eq L2 ot p _ hT2]
    exact rawgetE_rawsetE_self _ _ _ hxnil
  have hmono : Mono ot L L2 := by
    refine Mono_of_frame ot L L2 T _ (by omega) hT hT2 ?_ ?_
    · intro q hq
      exact rawgetE_rawsetE_ne _ _ _ _ (by simp; omega)
    · intro q hq hqo
      exact Or.inl (by rw [hne q hqo, hsame q hq])
  have hinv2 : Inv idx ot L2 cache :=
    Inv_transfer hinv hmono (by rw [hst2]; exact hle0)
      (by rw [index_congr L0 L2 idx hst2]; exact hidx0)
  have hlive : LiveObj L2 ot p := by
    rcases hx with ⟨rfl, h⟩ | ⟨rfl, h⟩
    · exact Or.inl ⟨hfetch, by rw [getTable_eq_of_deref L0 L2 p (hne p hpo)]; exact h⟩
    · exact Or.inr ⟨hfetch, by rw [getClosure_eq_of_deref L0 L2 p (hne p hpo)]; exact h⟩
  refine ⟨L2, h2, hst2, hlen2, hne, hfetch, Inv_map_object hinv2 id p hlive, hmono, ?_, ?_, ?_, ?_⟩
  · exact ⟨rfl, ⟨[⟨id, p⟩], rfl, by simp; omega⟩, ⟨[], rfl, by simp⟩, ⟨[], rfl, by simp⟩⟩
  · intro q hq _
    by_cases hqo : q = ot
    · subst hqo
      simp [getClosure, hd2 q, (getTable_some L q T).mp hT]
    · exact getClosure_eq_of_deref L L2 q (by rw [hne q hqo, hsame q hq])
  · intro q hq hqo
    exact getTable_eq_of_deref L L2 q (by rw [hne q hqo, hsame q hq])
  · intro _ q hq _
    by_cases hqo : q = ot
    · subst hqo
      simp [getUpval, hd2 q, (getTable_some L q T).mp hT]
    · exact getUpval_eq_of_deref L L2 q (by rw [hne q hqo, hsame q hq])

/-- The end of one iteration of the loop of `push_table`: `lua_rawset` into the
table under construction, then `map_collector` when the entry carries a
collector id. -/
theorem entry_commit {idx : Int} {ot : Nat} (nok : Prop) {Lb Lc : lua_State}
    {cb1 cd : upvalue_cache} (v k : TValue) (tid : Nat) (rest : List TValue)
    (key : svalue) (cid : Nat)
    (hinv : Inv idx ot Lb cb1) (hs : Lb.stack = v :: k :: .table tid :: rest)
    (hne : tid ≠ ot) (hf : Fetch Lb ot tid = .table tid)
    (hle : idx.toNat ≤ (TValue.table tid :: rest).length)
    (hidx : ∀ L1 : lua_State, L1.stack = .table tid :: rest → index L1 idx = some (.table ot))
    (h1 : lua_rawset Lb (-3) = .ok Lc)
    (h2 : (if cid ≠ 0 then map_collector cb1 cid tid key else pure cb1) = .ok cd) :
    Lc.stack = .table tid :: rest ∧ k ≠ .nil ∧
    (∃ T, getTable Lb tid = some T ∧
      getTable Lc tid = some { T with entries := rawsetE T.entries k v }) ∧
    (cid ≠ 0 → key.isPrimitive = true) ∧
    Step idx ot (fun p => p = ot ∨ p = tid) none_excepted none_excepted nok Lb cb1 Lc cd := by
  obtain ⟨tid1, T, ht, hT, hk, hst, hlen, hd⟩ := lua_rawset_m3_inv Lb Lc v k _ rest hs h1
  simp only [TValue.table.injEq] at ht
  subst ht
  obtain ⟨To, hTo⟩ := Option.isSome_iff_exists.mp hinv.host
  have hTc : getTable Lc tid = some { T with entries := rawsetE T.entries k v } := by
    simp [getTable, hd tid]
  have hmono : Mono ot Lb Lc := by
    refine Mono_of_frame ot Lb Lc To To (le_of_eq hlen.symm) hTo ?_ (fun _ _ => rfl) ?_
    · rw [getTable_eq_of_deref Lb Lc ot (by rw [hd ot, if_neg (Ne.symm hne)])]; exact hTo
    · intro q _ _
      by_cases hq : q = tid
      · subst hq
        exact Or.inr (Or.inl ⟨T, _, (getTable_some Lb q T).mp hT, by rw [hd q, if_pos rfl]⟩)
      · exact Or.inl (by rw [hd q, if_neg hq])
  have hinvc : Inv idx ot Lc cb1 :=
    Inv_transfer hinv hmono (by rw [hst]; exact hle) (hidx Lc hst)
  have hfc : Fetch Lc ot tid = .table tid := by
    rw [hmono.fetch tid (getTable_isSome_le Lb tid (by simp [hT]))]; exact hf
  have hstep : ∀ cd1, Inv idx ot Lc cd1 →
      CacheExt (fun p => (p = ot ∨ p = tid) ∨ none_excepted p) Lb cb1 cd1 →
      Step idx ot (fun p => p = ot ∨ p = tid) none_excepted none_excepted nok Lb cb1 Lc cd1 := by
    intro cd1 hi he
    refine ⟨hi, hmono, he, ?_, ?_, ?_⟩
    · intro p _ _
      by_cases hp : p = tid
      · subst hp
        have : getClosure Lb p = none := by simp [getClosure, (getTable_some Lb p T).mp hT]
        rw [this]
        simp [getClosure, hd p]
      · exact getClosure_eq_of_deref Lb Lc p (by rw [hd p, if_neg hp])
    · intro p _ hp
      exact getTable_eq_of_deref Lb Lc p (by rw [hd p, if_neg (fun e => hp (Or.inr e))])
    · intro _ p _ _
      by_cases hp : p = tid
      · subst hp
        have : getUpval Lb p = none := by simp [getUpval, (getTable_some Lb p T).mp hT]
        rw [this]
        simp [getUpval, hd p]
      · exact getUpval_eq_of_deref Lb Lc p (by rw [hd p, if_neg hp])
  by_cases hcid : cid = 0
  · simp only [hcid, ne_eq, not_true_eq_false, if_false, pure_ok] at h2
    subst h2
    exact ⟨hst, hk, ⟨T, hT, hTc⟩, fun h => absurd hcid h,
      hstep _ hinvc (CacheExt_refl _ Lb cb1)⟩
  · simp only [hcid, ne_eq, not_false_eq_true, if_true] at h2
    obtain ⟨hinvd, hum, hom, hix, vk1, hvk, hcm⟩ :=
      map_collector_inv hinvc cid tid key h2 (by
        intro vk1 hvk1
        exact Or.inr ⟨hfc, by simp [hTc], (copy_value_primitive key vk1 hvk1).1⟩)
    refine ⟨hst, hk, ⟨T, hT, hTc⟩, fun _ => (copy_value_primitive key vk1 hvk).2,
      hstep _ hinvd ?_⟩
    exact ⟨hix, ⟨[], hom, by simp⟩, ⟨[], hum, by simp⟩,
      ⟨[⟨cid, tid, vk1⟩], hcm, by simp⟩⟩

/-! ## The deserializer keeps the invariant -/

theorem nth1_range'_gt (b k : Nat) (n : Int) (p : Nat)
    (h : nth1 (List.range' (b + 1) k) n = some p) : b < p := by
  obtain ⟨h1, h2⟩ := nth1_some_bounds _ _ _ h
  simp only [List.length_range'] at h2
  rw [nth1_range' b k n h1 h2] at h
  simp only [Option.some.injEq] at h
  omega

mutual
theorem push_object_inv (cb : callbacks) (H : Host) (idx : Int) (ot : Nat) :
    ∀ (sv : svalue) (L : lua_State) (cache : upvalue_cache) (L1 : lua_State)
      (cache1 : upvalue_cache),
      Inv idx ot L cache → push_object cb H sv L cache = .ok (L1, cache1) →
      (∃ v, v ≠ .nil ∧ L1.stack = v :: L.stack) ∧
      Step idx ot (fun p => p = ot) none_excepted none_excepted (sv.numsOK = true)
        L cache L1 cache1
  | .other _, L, cache, L1, cache1, hinv, h => by
    simp [push_object] at h
  | .boolean b, L, cache, L1, cache1, hinv, h => by
    simp only [push_object, Except.ok.injEq, Prod.mk.injEq] at h
    obtain ⟨rfl, rfl⟩ := h
    exact ⟨⟨_, by simp, rfl⟩, Step_push _ _ _ _ hinv _⟩
  | .number n, L, cache, L1, cache1, hinv, h => by
    simp only [push_object, Except.ok.injEq, Prod.mk.injEq] at h
    obtain ⟨rfl, rfl⟩ := h
    exact ⟨⟨_, by simp, rfl⟩, Step_push _ _ _ _ hinv _⟩
  | .string s, L, cache, L1, cache1, hinv, h => by
    simp only [push_object, Except.ok.injEq, Prod.mk.injEq] at h
    obtain ⟨rfl, rfl⟩ := h
    exact ⟨⟨_, by simp, rfl⟩, Step_push _ _ _ _ hinv _⟩
  | .function f, L, cache, L1, cache1, hinv, h => by
    simp only [push_object, bind_ok] at h
    obtain ⟨⟨found, La⟩, h1, h2⟩ := h
    rw [lookup_and_fetch_object_eq cache L idx ot f.id hinv.cidx hinv.pos hinv.le hinv.at_idx
      hinv.host] at h1
    cases hl : lookup_object cache f.id with
    | some m =>
      rw [hl] at h1
      simp only [Except.ok.injEq, Prod.mk.injEq] at h1
      obtain ⟨rfl, rfl⟩ := h1
      simp only [if_true, pure_ok, Prod.mk.injEq] at h2
      obtain ⟨rfl, rfl⟩ := h2
      refine ⟨⟨_, ?_, rfl⟩, Step_push _ _ _ _ hinv _⟩
      rcases hinv.objs m (lookup_object_mem cache f.id m hl).1 with ⟨e, -⟩ | ⟨e, -⟩ <;>
        rw [e] <;> simp
    | none =>
      rw [hl] at h1
      simp only [Except.ok.injEq, Prod.mk.injEq] at h1
      obtain ⟨rfl, rfl⟩ := h1
      simp only [Bool.false_eq_true, if_false, bind_ok, pure_ok] at h2
      obtain ⟨⟨r, key, L2, c2⟩, h3, h4⟩ := h2
      simp only [Prod.mk.injEq] at h4
      obtain ⟨rfl, rfl⟩ := h4
      obtain ⟨hst, hstep, -⟩ := push_function_inv cb H idx ot f L cache r key L2 c2 hinv h3
      exact ⟨hst, hstep⟩
  | .table t, L, cache, L1, cache1, hinv, h => by
    simp only [push_object, bind_ok] at h
    obtain ⟨⟨found, La⟩, h1, h2⟩ := h
    rw [lookup_and_fetch_object_eq cache L idx ot t.id hinv.cidx hinv.pos hinv.le hinv.at_idx
      hinv.host] at h1
    cases hl : lookup_object cache t.id with
    | some m =>
      rw [hl] at h1
      simp only [Except.ok.injEq, Prod.mk.injEq] at h1
      obtain ⟨rfl, rfl⟩ := h1
      simp only [if_true, pure_ok, Prod.mk.injEq] at h2
      obtain ⟨rfl, rfl⟩ := h2
      refine ⟨⟨_, ?_, rfl⟩, Step_push _ _ _ _ hinv _⟩
      rcases hinv.objs m (lookup_object_mem cache t.id m hl).1 with ⟨e, -⟩ | ⟨e, -⟩ <;>
        rw [e] <;> simp
    | none =>
      rw [hl] at h1
      simp only [Except.ok.injEq, Prod.mk.injEq] at h1
      obtain ⟨rfl, rfl⟩ := h1
      simp only [Bool.false_eq_true, if_false] at h2
      exact push_table_inv cb H idx ot t L cache L1 cache1 hinv h2
theorem push_table_inv (cb : callbacks) (H : Host) (idx : Int) (ot : Nat) :
    ∀ (t : stable) (L : lua_State) (cache : upvalue_cache) (L1 : lua_State)
      (cache1 : upvalue_cache),
      Inv idx ot L cache → push_table cb H t L cache = .ok (L1, cache1) →
      (∃ v, v ≠ .nil ∧ L1.stack = v :: L.stack) ∧
      Step idx ot (fun p => p = ot) none_excepted none_excepted (t.numsOK = true)
        L cache L1 cache1
  | .mk tbl_id entries, L, cache, L1, cache1, hinv, h => by
    simp only [push_table, bind_ok] at h
    obtain ⟨⟨tid, L2⟩, h1, h2⟩ := h
    simp only at h2
    obtain ⟨hs0, hlen0, hd0⟩ := lua_newtable_spec L
    obtain ⟨L2', h1', hst2, hlen2, hne2, hfetch2, hstep2⟩ :=
      cache_new_object (stable.numsOK (.mk tbl_id entries) = true) hinv (lua_newtable L)
        (.table (L.heap.length + 1)) (L.heap.length + 1)
        (Or.inl ⟨rfl, by simp [getTable, hd0]⟩) (by omega) hs0 (by omega)
        (fun q hq => by rw [hd0 q, if_neg (by omega)]) tbl_id
    rw [h1'] at h1
    simp only [Except.ok.injEq, Prod.mk.injEq] at h1
    obtain ⟨rfl, rfl⟩ := h1
    have hto : L.heap.length + 1 ≠ ot := by
      have := getTable_isSome_le L ot hinv.host
      omega
    have htl : (getTable L2' (L.heap.length + 1)).isSome := by
      rw [getTable_eq_of_deref _ L2' _ (hne2 _ hto)]
      simp [getTable, hd0]
    obtain ⟨hst1, hstep1⟩ := push_table_entries_inv cb H idx ot entries (L.heap.length + 1)
      L2' (map_object cache tbl_id (L.heap.length + 1)) L1 cache1 L.stack hstep2.inv
      (by rw [hst2, hs0]) hto hfetch2 htl h2
    refine ⟨⟨.table (L.heap.length + 1), by simp, by rw [hst1, hst2, hs0]⟩, ?_⟩
    exact Step_comp hstep2 hstep1
      (fun p hp => hp.imp (fun e => e) (fun e => by omega)) (fun p hp => Or.inl hp)
      (fun _ p hp => Or.inl hp) (fun hn => by simpa [stable.numsOK] using hn)
theorem push_table_entries_inv (cb : callbacks) (H : Host) (idx : Int) (ot : Nat) :
    ∀ (es : stable_entry) (tid : Nat) (L : lua_State) (cache : upvalue_cache) (L1 : lua_State)
      (cache1 : upvalue_cache) (rest : List TValue),
      Inv idx ot L cache → L.stack = .table tid :: rest → tid ≠ ot →
      Fetch L ot tid = .table tid → (getTable L tid).isSome →
      push_table_entries cb H es tid L cache = .ok (L1, cache1) →
      L1.stack = L.stack ∧
      Step idx ot (fun p => p = ot ∨ p = tid) none_excepted none_excepted (es.numsOK = true)
        L cache L1 cache1
  | .null, tid, L, cache, L1, cache1, rest, hinv, hs, hne, hf, htl, h => by
    simp only [push_table_entries, Except.ok.injEq, Prod.mk.injEq] at h
    obtain ⟨rfl, rfl⟩ := h
    exact ⟨rfl, Step_of_same _ _ _ _ hinv (le_refl _) (fun _ _ => rfl) hinv.le hinv.at_idx⟩
  | .node next key value cid, tid, L, cache, L1, cache1, rest, hinv, hs, hne, hf, htl, h => by
    simp only [push_table_entries, bind_ok] at h
    obtain ⟨⟨La, ca⟩, h1, ⟨Lb, cb1⟩, h2, Lc, h3, cd, h4, h5⟩ := h
    have hN : (stable_entry.node next key value cid).numsOK = true →
        key.numsOK = true ∧ value.numsOK = true ∧ next.numsOK = true := by
      intro hn
      simpa [stable_entry.numsOK, and_assoc] using hn
    obtain ⟨⟨k, hk, hsa⟩, hstepa⟩ := push_object_inv cb H idx ot key L cache La ca hinv h1
    obtain ⟨⟨v, hv, hsb⟩, hstepb⟩ :=
      push_object_inv cb H idx ot value La ca Lb cb1 hstepa.inv h2
    have hsb1 : Lb.stack = v :: k :: .table tid :: rest := by rw [hsb, hsa, hs]
    have htle := getTable_isSome_le L tid htl
    have hfb : Fetch Lb ot tid = .table tid := by
      rw [hstepb.mono.fetch tid (le_trans htle hstepa.mono.len), hstepa.mono.fetch tid htle]
      exact hf
    obtain ⟨hsc, -, ⟨T, hT, hTc⟩, -, hstepc⟩ :=
      entry_commit ((stable_entry.node next key value cid).numsOK = true) v k tid rest key cid
        hstepb.inv hsb1 hne hfb (by rw [← hs]; exact hinv.le)
        (fun L2 h2 => by rw [index_congr L L2 idx (by rw [h2, hs])]; exact hinv.at_idx) h3 h4
    have hfc : Fetch Lc ot tid = .table tid := by
      rw [hstepc.mono.fetch tid (getTable_isSome_le Lb tid (by simp [hT]))]; exact hfb
    obtain ⟨hs1, hstepn⟩ := push_table_entries_inv cb H idx ot next tid Lc cd L1 cache1 rest
      hstepc.inv hsc hne hfc (by simp [hTc]) h5
    refine ⟨by rw [hs1, hsc, hs], ?_⟩
    have wa := Step_weaken_to (fun p => p = ot ∨ p = tid) (none_excepted)
      (none_excepted) ((stable_entry.node next key value cid).numsOK = true)
      hstepa (fun _ h => Or.inl h) (fun _ h => h) (fun _ _ h => h) (fun h => (hN h).1)
    have wb := Step_weaken_to (fun p => p = ot ∨ p = tid) (none_excepted)
      (none_excepted) ((stable_entry.node next key value cid).numsOK = true)
      hstepb (fun _ h => Or.inl h) (fun _ h => h) (fun _ _ h => h) (fun h => (hN h).2.1)
    have wn := Step_weaken_to (fun p => p = ot ∨ p = tid) (none_excepted)
      (none_excepted) ((stable_entry.node next key value cid).numsOK = true)
      hstepn (fun _ h => h) (fun _ h => h) (fun _ _ h => h) (fun h => (hN h).2.2)
    exact Step_trans (Step_trans (Step_trans wa wb) hstepc) wn
theorem push_function_inv (cb : callbacks) (H : Host) (idx : Int) (ot : Nat) :
    ∀ (f : sfunction) (L : lua_State) (cache : upvalue_cache) (r : Int) (key : Option Nat)
      (L1 : lua_State) (cache1 : upvalue_cache),
      Inv idx ot L cache → push_function cb H f L cache = .ok (r, key, L1, cache1) →
      (∃ v, v ≠ .nil ∧ L1.stack = v :: L.stack) ∧
      Step idx ot (fun p => p = ot) none_excepted none_excepted (f.numsOK = true)
        L cache L1 cache1 ∧
      ((r = 0 → ∃ nups fid c1, H.load f.code = .proto nups ∧ key = some fid ∧
        fid = L.heap.length + nups + 1 ∧ L1.stack = .function fid :: L.stack ∧
        getClosure L1 fid = some c1 ∧ c1.chunk = some f.code ∧ c1.upvals.length = nups ∧
        (f.upvalues.numbers.Nodup → ∀ s ∈ f.upvalues.slots, Shares L1 cache1 fid s.2 s.1)) ∧
       (r ≠ 0 → key = none ∧ cache1 = cache ∧ L1.heap = L.heap))
  | .mk fn_id code upvalues, L, cache, r, key, L1, cache1, hinv, h => by
    simp only [push_function, bind_ok] at h
    obtain ⟨⟨err, La⟩, h1, h2⟩ := h
    simp only [sfunction.code, sfunction.upvalues]
    cases hl : H.load code with
    | failure c msg =>
      have he : H.errno_lua ((c : Int) + 1) ≠ 0 := H.errno_lua_ne_zero _ (by omega)
      rw [load_function_bytecode_failure cb H L code c msg hl] at h1
      cases hr : cb.log_fatal_returns with
      | false => simp [hr] at h1
      | true =>
        simp only [hr, if_true, Except.ok.injEq, Prod.mk.injEq] at h1
        obtain ⟨rfl, rfl⟩ := h1
        simp only [ne_eq, neg_eq_zero, he, not_false_eq_true, if_true, pure_ok,
          Prod.mk.injEq] at h2
        obtain ⟨rfl, rfl, rfl, rfl⟩ := h2
        refine ⟨⟨_, by simp, rfl⟩, Step_push _ _ _ _ hinv _, ?_, ?_⟩
        · intro h0
          simp [he] at h0
        · intro _
          exact ⟨rfl, rfl, rfl⟩
    | proto nups =>
      rw [load_function_bytecode_proto cb H L code nups hl] at h1
      obtain ⟨L0, hlb, hs0, hlen0, hsame0, hcells0, hcl0⟩ :=
        luaL_loadbuffer_proto_spec H L code nups hl
      rw [hlb] at h1
      simp only [Except.ok.injEq, Prod.mk.injEq] at h1
      obtain ⟨rfl, rfl⟩ := h1
      simp only [ne_eq, not_true_eq_false, if_false, bind_ok, pure_ok, Prod.mk.injEq] at h2
      obtain ⟨⟨func_id, Lb⟩, h3, ⟨Lc, cc⟩, h4, rfl, rfl, rfl, rfl⟩ := h2
      simp only at h4
      obtain ⟨Lb1, h3a, hstb, hlenb, hneb, hfetchb, hstepb⟩ :=
        cache_new_object (sfunction.numsOK (.mk fn_id code upvalues) = true) hinv L0
          (.function (L.heap.length + nups + 1)) (L.heap.length + nups + 1)
          (Or.inr ⟨rfl, by simp [getClosure, hcl0]⟩) (by omega) hs0 (by omega) hsame0 fn_id
      rw [h3a] at h3
      simp only [Except.ok.injEq, Prod.mk.injEq] at h3
      obtain ⟨rfl, rfl⟩ := h3
      have hfo : L.heap.length + nups + 1 ≠ ot := by
        have := getTable_isSome_le L ot hinv.host
        omega
      have hclb : getClosure Lb1 (L.heap.length + nups + 1) =
          some ⟨some code, List.range' (L.heap.length + 1) nups⟩ := by
        rw [getClosure_eq_of_deref L0 Lb1 _ (hneb _ hfo)]
        simp [getClosure, hcl0]
      obtain ⟨hsc, hstepc, ⟨c1, hc1, hchunk, hlen1, -⟩, hshare, -⟩ :=
        push_function_upvalues_inv cb H idx ot upvalues (L.heap.length + nups + 1) Lb1
          (map_object cache fn_id (L.heap.length + nups + 1)) Lc cc L.stack _ hstepb.inv
          (by rw [hstb, hs0]) hclb hfetchb h4
      refine ⟨⟨.function (L.heap.length + nups + 1), by simp, by rw [hsc, hstb, hs0]⟩, ?_, ?_, ?_⟩
      · refine Step_comp hstepb hstepc (fun p hp => Or.inl hp) (fun p hp => Or.inr (by omega))
          ?_ (fun hn => by simpa [sfunction.numsOK] using hn)
        rintro _ p ⟨n, -, hn⟩
        exact Or.inr (nth1_range'_gt _ _ _ _ hn)
      · intro _
        refine ⟨nups, _, c1, rfl, rfl, rfl, by rw [hsc, hstb, hs0], hc1, hchunk, ?_, ?_⟩
        · rw [hlen1]; simp
        · intro hnd
          refine hshare hnd ?_
          intro m hm hmf
          exfalso
          have := SlotOK_le L _ _ (hinv.upvs m hm).2
          omega
      · intro h0
        exact absurd rfl h0
theorem push_function_upvalues_inv (cb : callbacks) (H : Host) (idx : Int) (ot : Nat) :
    ∀ (ups : supvalue) (func_id : Nat) (L : lua_State) (cache : upvalue_cache) (L1 : lua_State)
      (cache1 : upvalue_cache) (rest : List TValue) (c : Closure),
      Inv idx ot L cache → L.stack = .function func_id :: rest →
      getClosure L func_id = some c → Fetch L ot func_id = .function func_id →
      push_function_upvalues cb H func_id ups L cache = .ok (L1, cache1) →
      L1.stack = L.stack ∧
      Step idx ot (fun p => p = ot) (fun p => p = func_id)
        (fun p => ∃ n ∈ ups.numbers, nth1 c.upvals n = some p) (ups.numsOK = true)
        L cache L1 cache1 ∧
      (∃ c1, getClosure L1 func_id = some c1 ∧ c1.chunk = c.chunk ∧
        c1.upvals.length = c.upvals.length ∧
        ∀ n, n ∉ ups.numbers → nth1 c1.upvals n = nth1 c.upvals n) ∧
      (ups.numbers.Nodup →
        (∀ m ∈ cache.upvalue_map, m.function_id = func_id → m.upvalue_num ∉ ups.numbers) →
        ∀ s ∈ ups.slots, Shares L1 cache1 func_id s.2 s.1) ∧
      (∀ m ∈ cache1.upvalue_map, m.function_id = func_id →
        m ∈ cache.upvalue_map ∨ m.upvalue_num ∈ ups.numbers)
  | .null, func_id, L, cache, L1, cache1, rest, c, hinv, hs, hc, hf, h => by
    simp only [push_function_upvalues, Except.ok.injEq, Prod.mk.injEq] at h
    obtain ⟨rfl, rfl⟩ := h
    refine ⟨rfl, Step_of_same _ _ _ _ hinv (le_refl _) (fun _ _ => rfl) hinv.le hinv.at_idx,
      ⟨c, hc, rfl, rfl, fun _ _ => rfl⟩, ?_, fun m hm _ => Or.inl hm⟩
    intro _ _ s hs
    simp [supvalue.slots] at hs
  | .node next uid number value cid, func_id, L, cache, L1, cache1, rest, c, hinv, hs, hc, hf,
      h => by
    simp only [push_function_upvalues, bind_ok] at h
    obtain ⟨⟨La, ca⟩, h1, h2⟩ := h
    simp only at h2
    have hN : (supvalue.node next uid number value cid).numsOK = true →
        value.numsOK = true ∧ number ∉ next.numbers ∧ next.numsOK = true := by
      intro hn
      simpa [supvalue.numsOK, and_assoc] using hn
    obtain ⟨hsa, hstepa, ⟨ca1, hca1, hchunka, hlena, hslotsa⟩, hsharea, hmapsa⟩ :=
      set_shared_upvalue_inv idx ot (value.numsOK = true) (push_object cb H value)
        (fun L cache L1 cache1 hi hp => push_object_inv cb H idx ot value L cache L1 cache1 hi hp)
        func_id uid number cid L cache La ca rest c hinv hs hc hf h1
    have hfl : func_id ≤ L.heap.length := getClosure_isSome_le L func_id (by simp [hc])
    have hfa : Fetch La ot func_id = .function func_id := by
      rw [hstepa.mono.fetch func_id hfl]; exact hf
    obtain ⟨hs1, hstepn, ⟨c1, hc1, hchunk1, hlen1, hslots1⟩, hsharen, hmapsn⟩ :=
      push_function_upvalues_inv cb H idx ot next func_id La ca L1 cache1 rest ca1 hstepa.inv
        (by rw [hsa, hs]) hca1 hfa h2
    have hmaps : ∀ m ∈ ca.upvalue_map, m.function_id = func_id → number ∉ next.numbers →
        (∀ m ∈ cache.upvalue_map, m.function_id = func_id →
          m.upvalue_num ∉ (supvalue.node next uid number value cid).numbers) →
        m.upvalue_num ∉ next.numbers := by
      intro m hm hmf hnn hnomap
      rcases hmapsa m hm hmf with h | h
      · have := hnomap m h hmf
        simp only [supvalue.numbers, List.mem_cons, not_or] at this
        exact this.2
      · rw [h]; exact hnn
    refine ⟨by rw [hs1, hsa], ?_, ⟨c1, hc1, hchunk1.trans hchunka, hlen1.trans hlena, ?_⟩, ?_, ?_⟩
    · have wa := Step_weaken_to (fun p => p = ot) (fun p => p = func_id)
        (fun p => ∃ n ∈ (supvalue.node next uid number value cid).numbers,
          nth1 c.upvals n = some p)
        ((supvalue.node next uid number value cid).numsOK = true)
        hstepa (fun _ h => h) (fun _ h => h)
        (fun _ p h => ⟨number, by simp [supvalue.numbers], h⟩) (fun h => (hN h).1)
      have wn := Step_weaken_to (fun p => p = ot) (fun p => p = func_id)
        (fun p => ∃ n ∈ (supvalue.node next uid number value cid).numbers,
          nth1 c.upvals n = some p)
        ((supvalue.node next uid number value cid).numsOK = true)
        hstepn (fun _ h => h) (fun _ h => h)
        (fun hn p ⟨n, hmem, hnp⟩ => ⟨n, by simp [supvalue.numbers, hmem], by
          rw [← hslotsa n (fun e => (hN hn).2.1 (e ▸ hmem))]; exact hnp⟩)
        (fun h => (hN h).2.2)
      exact Step_trans wa wn
    · intro n hn
      simp only [supvalue.numbers, List.mem_cons, not_or] at hn
      rw [hslots1 n hn.2, hslotsa n hn.1]
    · intro hnd hnomap s hs
      simp only [supvalue.numbers, List.nodup_cons] at hnd
      obtain ⟨hnn, hnd1⟩ := hnd
      simp only [supvalue.slots, List.mem_cons] at hs
      rcases hs with rfl | hs
      · refine Shares_stable hsharea ?_ ?_ ?_
        · obtain ⟨pre, hpre, hp⟩ := hstepn.ext.upvs
          exact ⟨pre, hpre, fun m hm => (hp m hm).1⟩
        · intro cl u hcl hu
          rw [hca1] at hcl
          cases hcl
          exact ⟨c1, hc1, by rw [hslots1 number hnn]; exact hu⟩
        · intro m hm cl u hcl hu
          by_cases hmf : m.function_id = func_id
          · rw [hmf] at hcl ⊢
            rw [hca1] at hcl
            cases hcl
            exact ⟨c1, hc1, by rw [hslots1 _ (hmaps m hm hmf hnn hnomap)]; exact hu⟩
          · exact ⟨cl, by
              rw [hstepn.clos _ (getClosure_isSome_le La _ (by simp [hcl])) hmf]; exact hcl, hu⟩
      · exact hsharen hnd1 (fun m hm hmf => hmaps m hm hmf hnn hnomap) s hs
    · intro m hm hmf
      rcases hmapsn m hm hmf with h | h
      · rcases hmapsa m h hmf with h | h
        · exact Or.inl h
        · exact Or.inr (by simp [supvalue.numbers, h])
      · exact Or.inr (by simp [supvalue.numbers, h])
end

theorem supvalue_numbers_eq : ∀ ups : supvalue, ups.numbers = ups.slots.map Prod.snd
  | .null => rfl
  | .node next _ _ _ _ => by
    simp [supvalue.numbers, supvalue.slots, supvalue_numbers_eq next]

theorem slotList_snd_ge (i : Int) (us : List Nat) : ∀ s ∈ slotList i us, i ≤ s.2 := by
  induction us generalizing i with
  | nil => simp [slotList]
  | cons u us ih =>
    intro s hs
    simp only [slotList, List.mem_cons] at hs
    rcases hs with rfl | hs
    · exact le_refl _
    · have := ih (i + 1) s hs
      omega

theorem slotList_nodup (i : Int) (us : List Nat) : ((slotList i us).map Prod.snd).Nodup := by
  induction us generalizing i with
  | nil => simp [slotList]
  | cons u us ih =>
    simp only [slotList, List.map_cons, List.nodup_cons, List.mem_map, not_exists, not_and]
    refine ⟨?_, ih (i + 1)⟩
    intro s hs hsi
    have := slotList_snd_ge (i + 1) us s hs
    omega

theorem mem_slotList (us : List Nat) (i : Int) (k : Nat) (u : Nat) (h : us[k]? = some u) :
    (u, i + k) ∈ slotList i us := by
  induction us generalizing i k with
  | nil => simp at h
  | cons x us ih =>
    cases k with
    | zero =>
      simp only [List.getElem?_cons_zero, Option.some.injEq] at h
      subst h
      simp [slotList]
    | succ k =>
      simp only [List.getElem?_cons_succ] at h
      have := ih (i + 1) k h
      simp only [slotList, List.mem_cons]
      right
      have e : i + ((k + 1 : Nat) : Int) = i + 1 + (k : Int) := by push_cast; ring
      rw [e]
      exact this

theorem mem_slotList_one (us : List Nat) (n : Int) (u : Nat) (h : nth1 us n = some u) :
    (u, n) ∈ slotList 1 us := by
  have hb := (nth1_some_bounds us n u h).1
  unfold nth1 at h
  rw [if_pos hb] at h
  have := mem_slotList us 1 (n.toNat - 1) u h
  have e : (1 : Int) + ((n.toNat - 1 : Nat) : Int) = n := by omega
  rw [e] at this
  exact this

theorem lua_getupvalue_top (L : lua_State) (p : Nat) (rest : List TValue) (c : Closure)
    (i : Int) (hs : L.stack = .function p :: rest) (hc : getClosure L p = some c) :
    lua_getupvalue L (-1) i =
      match nth1 c.upvals i with
      | some u =>
        match getUpval L u with
        | some v => (true, push L v)
        | none => (false, L)
      | none => (false, L) := by
  unfold lua_getupvalue
  rw [index_neg_one L _ rest hs]
  simp only [hc]

theorem serialize_upvalues_loop_slots (cb : callbacks) : ∀ (n : Nat) (i : Int) (list : supvalue)
    (L : lua_State) (p : Nat) (rest : List TValue) (c : Closure) (pre us : List Nat)
    (l1 : supvalue) (L1 : lua_State),
    L.stack = .function p :: rest → getClosure L p = some c → c.upvals = pre ++ us →
    (pre.length : Int) + 1 = i → (∀ u ∈ us, (getUpval L u).isSome) →
    serialize_upvalues_loop cb n i list L = .ok (l1, L1) →
    l1.slots = (slotList i us).reverse ++ list.slots := by
  intro n
  induction n with
  | zero =>
    intro i list L p rest c pre us l1 L1 _ _ _ _ _ h
    simp [serialize_upvalues_loop] at h
  | succ n ih =>
    intro i list L p rest c pre us l1 L1 hs hc hups hi hcells h
    simp only [serialize_upvalues_loop] at h
    rw [lua_getupvalue_top L p rest c i hs hc] at h
    have hnth : nth1 c.upvals i = us.head? := by
      unfold nth1
      rw [if_pos (by omega), hups]
      have e : i.toNat - 1 = pre.length := by omega
      rw [e]
      cases us with
      | nil => simp
      | cons u us =>
        rw [List.getElem?_append_right (le_refl _)]
        simp
    rw [hnth] at h
    cases us with
    | nil =>
      simp only [List.head?_nil, Except.ok.injEq, Prod.mk.injEq] at h
      simp [slotList, ← h.1]
    | cons u us =>
      obtain ⟨v, hv⟩ := Option.isSome_iff_exists.mp (hcells u (by simp))
      simp only [List.head?_cons, hv, bind_ok] at h
      obtain ⟨⟨rec, L2⟩, h1, list1, h2, L3, h3, h4⟩ := h
      have hid : lua_upvalueid (push L v) (-2) i = u := by
        unfold lua_upvalueid
        rw [index_neg_two (push L v) v (.function p) rest (by simp [hs])]
        have : getClosure (push L v) p = some c := hc
        simp only [this]
        rw [hnth]
        rfl
      rw [hid] at h1
      obtain ⟨x1, hx1⟩ := (serialize_neutral cb n).2.2.2.2.1 _ _ _ _ _ h1
      cases n with
      | zero => simp [serialize_upvalue] at h1
      | succ n1 =>
        simp only [serialize_upvalue, bind_ok, pure_ok] at h1
        obtain ⟨⟨cid, La⟩, -, ⟨value, Lb⟩, -, h1c⟩ := h1
        simp only [Prod.mk.injEq] at h1c
        obtain ⟨rfl, -⟩ := h1c
        simp only [prepend_upvalue, Except.ok.injEq] at h2
        subst h2
        subst hx1
        simp only [push_stack, List.tail_cons, lua_pop_one, Except.ok.injEq] at h3
        subst h3
        have := ih (i + 1) _ ⟨L.stack, (push L v).heap⟩ p rest c (pre ++ [u]) us l1 L1 hs hc
          (by simp [hups]) (by simp; omega) (fun w hw => hcells w (by simp [hw])) h4
        rw [this]
        simp [slotList, supvalue.slots]

theorem lua_dump_top (L : lua_State) (p : Nat) (rest : List TValue) (c : Closure)
    (hs : L.stack = .function p :: rest) (hc : getClosure L p = some c) :
    lua_dump L = match c.chunk with
      | some bytes => (0, bytes)
      | none => (1, []) := by
  unfold lua_dump
  rw [index_neg_one L _ rest hs]
  simp only [hc]

/-- What `serialize_function` records: the function's address, its dump, and
one upvalue record per slot, last slot first, each with the slot's number and
the address of the slot's cell. -/
theorem serialize_function_slots (cb : callbacks) (n : Nat) (L : lua_State) (p : Nat)
    (rest : List TValue) (c : Closure) (f : sfunction) (L1 : lua_State)
    (hs : L.stack = .function p :: rest) (hc : getClosure L p = some c)
    (hcells : ∀ u ∈ c.upvals, (getUpval L u).isSome)
    (h : serialize_function cb n L = .ok (f, L1)) :
    f.id = p ∧ f.code = (c.chunk.getD []) ∧
      f.upvalues.slots = (slotList 1 c.upvals).reverse := by
  cases n with
  | zero => simp [serialize_function] at h
  | succ n =>
    simp only [serialize_function, bind_ok, pure_ok] at h
    obtain ⟨⟨code, L2⟩, h1, ⟨ups, L3⟩, h2, h3⟩ := h
    simp only [Prod.mk.injEq] at h3
    obtain ⟨rfl, -⟩ := h3
    obtain ⟨rfl, hcode⟩ := dump_function_bytecode_state cb L code L2 h1
    refine ⟨?_, ?_, ?_⟩
    · simp only [sfunction.id]
      unfold lua_topointer
      rw [index_neg_one L2 _ rest hs]
    · simp only [sfunction.code, hcode]
      rw [lua_dump_top L2 p rest c hs hc]
      cases c.chunk <;> rfl
    · simp only [sfunction.upvalues]
      cases n with
      | zero => simp [serialize_upvalues] at h2
      | succ n =>
        simp only [serialize_upvalues] at h2
        have := serialize_upvalues_loop_slots cb n 1 .null L2 p rest c [] c.upvals ups L3 hs hc
          rfl rfl hcells h2
        simpa [supvalue.slots] using this

/-! ## Shared upvalues stay shared -/

theorem Inv_new (idx : Int) (ot : Nat) (L : lua_State) (h0 : 0 < idx)
    (hle : idx.toNat ≤ L.stack.length) (hidx : index L idx = some (.table ot))
    (hT : (getTable L ot).isSome) :
    Inv idx ot L { upvalue_cache_new with object_tbl_idx := idx } :=
  ⟨h0, hle, hidx, hT, rfl, by simp [upvalue_cache_new], by simp [upvalue_cache_new],
    by simp [upvalue_cache_new]⟩

theorem cache_with_idx (c : upvalue_cache) (idx : Int) (h : c.object_tbl_idx = idx) :
    { c with object_tbl_idx := idx } = c := by
  cases c
  simp only at h
  subst h
  rfl

/-- Writing through slot `i` of one closure and reading through slot `j` of
another, when both slots refer to the cell `u`. -/
theorem set_then_get (L : lua_State) (pf pg : Nat) (cf cg : Closure) (i j : Int) (u : Nat)
    (hf : getClosure L pf = some cf) (hg : getClosure L pg = some cg)
    (hi : nth1 cf.upvals i = some u) (hj : nth1 cg.upvals j = some u)
    (hu : (getUpval L u).isSome) (v : TValue) :
    ∃ La, lua_setupvalue (push (push L (.function pf)) v) (-2) i = (true, La) ∧
      La.stack = .function pf :: L.stack ∧
      lua_getupvalue (push La (.function pg)) (-1) j =
        (true, push (push La (.function pg)) v) := by
  obtain ⟨La, hLa⟩ := lua_setupvalue_m2_ok (push (push L (.function pf)) v) v pf L.stack i rfl
    ⟨cf, u, hf, hi, hu⟩
  obtain ⟨fid, c1, u1, w, hfid, hc1, hu1, hw, hst, hlen, hd⟩ :=
    lua_setupvalue_m2_inv _ La v (.function pf) L.stack i rfl hLa
  simp only [TValue.function.injEq] at hfid
  subst hfid
  have hc1' : getClosure L pf = some c1 := hc1
  rw [hf] at hc1'
  cases hc1'
  rw [hi] at hu1
  cases hu1
  refine ⟨La, hLa, hst, ?_⟩
  have hgu : pg ≠ u := by
    rintro rfl
    obtain ⟨w1, hw1⟩ := Option.isSome_iff_exists.mp hu
    rw [getUpval_some] at hw1
    rw [getClosure_some, hw1] at hg
    cases hg
  have hga : getClosure (push La (.function pg)) pg = some cg := by
    have : deref (push La (.function pg)) pg = deref L pg := by
      rw [deref_push, hd pg, if_neg hgu]; rfl
    rw [getClosure_eq_of_deref L _ pg this]; exact hg
  rw [lua_getupvalue_top (push La (.function pg)) pg La.stack cg j rfl hga, hj]
  have : getUpval (push La (.function pg)) u = some v := by
    simp [getUpval, hd u]
  simp only [this]

/-- C1: two closures of the source interpreter share the cell `u` (slot `i` of
`f`, slot `j` of `g`). Both are serialized and then rebuilt by
`deserialize_function` with one upvalue cache (and one host-side table `ot` at
stack index `idx`). Then slot `i` of the rebuilt `f` and slot `j` of the rebuilt
`g` refer to one and the same cell of the target interpreter, and a value
written through the one is the value read through the other. -/
theorem shared_upvalue_roundtrip (cb : callbacks) (H : Host) (fuel : Nat) (Ls : lua_State)
    (pf pg : Nat) (cf cg : Closure) (i j : Int) (u : Nat)
    (hf : getClosure Ls pf = some cf) (hg : getClosure Ls pg = some cg)
    (hcf : ∀ x ∈ cf.upvals, (getUpval Ls x).isSome)
    (hcg : ∀ x ∈ cg.upvals, (getUpval Ls x).isSome)
    (hi : nth1 cf.upvals i = some u) (hj : nth1 cg.upvals j = some u)
    (sf sg : sfunction) (Lf Lg : lua_State)
    (hsf : serialize_function cb fuel (push Ls (.function pf)) = .ok (sf, Lf))
    (hsg : serialize_function cb fuel (push Ls (.function pg)) = .ok (sg, Lg))
    (Lt : lua_State) (idx : Int) (ot : Nat) (cache0 : upvalue_cache)
    (hinv : Inv idx ot Lt { cache0 with object_tbl_idx := idx })
    (kf kg : Option Nat) (L1 L2 : lua_State) (c1 c2 : upvalue_cache)
    (hdf : deserialize_function cb H Lt cache0 idx sf = .ok (0, kf, L1, c1))
    (hdg : deserialize_function cb H L1 c1 idx sg = .ok (0, kg, L2, c2)) :
    ∃ qf qg df dg cell, kf = some qf ∧ kg = some qg ∧
      getClosure L2 qf = some df ∧ getClosure L2 qg = some dg ∧
      nth1 df.upvals i = some cell ∧ nth1 dg.upvals j = some cell ∧
      (getUpval L2 cell).isSome ∧
      ∀ v, ∃ La, lua_setupvalue (push (push L2 (.function qf)) v) (-2) i = (true, La) ∧
        La.stack = .function qf :: L2.stack ∧
        lua_getupvalue (push La (.function qg)) (-1) j =
          (true, push (push La (.function qg)) v) := by
  obtain ⟨-, -, hslf⟩ := serialize_function_slots cb fuel (push Ls (.function pf)) pf Ls.stack cf
    sf Lf rfl hf hcf hsf
  obtain ⟨-, -, hslg⟩ := serialize_function_slots cb fuel (push Ls (.function pg)) pg Ls.stack cg
    sg Lg rfl hg hcg hsg
  have hmemf : (u, i) ∈ sf.upvalues.slots := by
    rw [hslf]; exact List.mem_reverse.mpr (mem_slotList_one cf.upvals i u hi)
  have hmemg : (u, j) ∈ sg.upvalues.slots := by
    rw [hslg]; exact List.mem_reverse.mpr (mem_slotList_one cg.upvals j u hj)
  have hndf : sf.upvalues.numbers.Nodup := by
    rw [supvalue_numbers_eq, hslf, List.map_reverse]
    exact List.nodup_reverse.mpr (slotList_nodup 1 cf.upvals)
  have hndg : sg.upvalues.numbers.Nodup := by
    rw [supvalue_numbers_eq, hslg, List.map_reverse]
    exact List.nodup_reverse.mpr (slotList_nodup 1 cg.upvals)
  unfold deserialize_function at hdf hdg
  obtain ⟨-, hstep1, h01, -⟩ := push_function_inv cb H idx ot sf Lt _ 0 kf L1 c1 hinv hdf
  obtain ⟨n1, qf, df1, -, hkf, -, -, hdf1, -, -, hsh1⟩ := h01 rfl
  rw [cache_with_idx c1 idx hstep1.inv.cidx] at hdg
  obtain ⟨-, hstep2, h02, -⟩ := push_function_inv cb H idx ot sg L1 c1 0 kg L2 c2 hstep1.inv hdg
  obtain ⟨n2, qg, dg, -, hkg, -, -, hdg2, -, -, hsh2⟩ := h02 rfl
  have hshf := hsh1 hndf (u, i) hmemf
  have hshg := hsh2 hndg (u, j) hmemg
  have hkeep : ∀ p cl k w, getClosure L1 p = some cl → nth1 cl.upvals k = some w →
      ∃ cl1, getClosure L2 p = some cl1 ∧ nth1 cl1.upvals k = some w := by
    intro p cl k w hcl hw
    exact ⟨cl, by
      rw [hstep2.clos p (getClosure_isSome_le L1 p (by simp [hcl])) (fun e => e)]; exact hcl, hw⟩
  have hshf2 : Shares L2 c2 qf i u := by
    refine Shares_stable hshf ?_ (fun cl w => hkeep qf cl i w)
      (fun m _ cl w => hkeep m.function_id cl m.upvalue_num w)
    obtain ⟨pre, hpre, hp⟩ := hstep2.ext.upvs
    exact ⟨pre, hpre, fun m hm => (hp m hm).1⟩
  obtain ⟨mf, df, cellf, hlf, hcellf, hdf2, hnf⟩ := hshf2
  obtain ⟨mg, dg1, cellg, hlg, hcellg, hdg2', hng⟩ := hshg
  rw [hlf] at hlg
  cases hlg
  rw [hcellf] at hcellg
  cases hcellg
  rw [hdg2] at hdg2'
  cases hdg2'
  have hvalid : (getUpval L2 cellf).isSome := by
    obtain ⟨-, cm, um, hcm, hum, hwm⟩ := hstep2.inv.upvs mf (lookup_upvalue_mem c2 u mf hlf).1
    simp only [cellOf, hcm, hum, Option.some.injEq] at hcellf
    rw [← hcellf]
    exact hwm
  exact ⟨qf, qg, df, dg, cellf, hkf, hkg, hdf2, hdg2, hnf, hng, hvalid,
    fun v => set_then_get L2 qf qg df dg i j cellf hdf2 hdg2 hnf hng hvalid v⟩

theorem shared_upvalue_roundtrip_witness :
    ∃ qf qg df dg cell, some 3 = some qf ∧ some 5 = some qg ∧
      getClosure counter_rebuilt qf = some df ∧ getClosure counter_rebuilt qg = some dg ∧
      nth1 df.upvals 1 = some cell ∧ nth1 dg.upvals 1 = some cell ∧
      (getUpval counter_rebuilt cell).isSome ∧
      ∀ v, ∃ La, lua_setupvalue (push (push counter_rebuilt (.function qf)) v) (-2) 1 = (true, La) ∧
        La.stack = .function qf :: counter_rebuilt.stack ∧
        lua_getupvalue (push La (.function qg)) (-1) 1 =
          (true, push (push La (.function qg)) v) :=
  shared_upvalue_roundtrip ⟨false⟩ (accepting 1) 5 counter_source 1 2
    ⟨some [1], [3]⟩ ⟨some [2], [3]⟩ 1 1 3 (by decide) (by decide) (by decide) (by decide)
    (by decide) (by decide)
    (.mk 1 [1] (.node .null 3 1 (.number 0) 0)) (.mk 2 [2] (.node .null 3 1 (.number 0) 0))
    (push counter_source (.function 1)) (push counter_source (.function 2))
    (by decide) (by decide)
    counter_target 1 1 upvalue_cache_new
    (Inv_new 1 1 counter_target (by decide) (by decide) (by decide) (by decide))
    (some 3) (some 5)
    ⟨[.function 3, .table 1],
      [.table ⟨[(.lightuserdata 3, .function 3)], 0⟩, .upval (.number 0),
        .closure ⟨some [1], [2]⟩]⟩
    counter_rebuilt
    { upvalue_map := [{ key := 3, function_id := 3, upvalue_num := 1 }],
      object_map := [{ key := 1, object_id := 3 }],
      collector_map := [], object_tbl_idx := 1 }
    { upvalue_map := [{ key := 3, function_id := 3, upvalue_num := 1 }],
      object_map := [{ key := 2, object_id := 5 }, { key := 1, object_id := 3 }],
      collector_map := [], object_tbl_idx := 1 }
    (by decide) (by decide)

theorem afterKey_of_split (pre suf : List (TValue × TValue)) (k v : TValue)
    (hnd : ((pre ++ (k, v) :: suf).map Prod.fst).Nodup) :
    afterKey (pre ++ (k, v) :: suf) k = some suf := by
  induction pre with
  | nil => simp [afterKey]
  | cons e pre ih =>
    obtain ⟨k1, v1⟩ := e
    simp only [List.cons_append, List.map_cons, List.nodup_cons] at hnd
    have hne : k1 ≠ k := by
      rintro rfl
      exact hnd.1 (by simp)
    simp only [List.cons_append, afterKey, if_neg hne]
    exact ih hnd.2

theorem lua_next_top (h : List Obj) (kprev : TValue) (p : Nat) (rest : List TValue) (t : Table)
    (suf : List (TValue × TValue)) (ht : getTable ⟨[], h⟩ p = some t)
    (hn : (if kprev = .nil then some t.entries else afterKey t.entries kprev) = some suf) :
    lua_next ⟨kprev :: .table p :: rest, h⟩ (-2) =
      match suf with
      | (k1, v1) :: _ => .ok (true, ⟨v1 :: k1 :: .table p :: rest, h⟩)
      | [] => .ok (false, ⟨.table p :: rest, h⟩) := by
  have ht1 : getTable ⟨kprev :: .table p :: rest, h⟩ p = some t := ht
  unfold lua_next
  simp only [index_m2, ht1, hn]
  cases suf with
  | nil => rfl
  | cons e suf => rfl

theorem unwrap_collector_maybe_plain (h : List Obj) (v : TValue) (rest : List TValue)
    (hc : isCollector h v = false) :
    unwrap_collector_maybe ⟨v :: rest, h⟩ = .ok (0, ⟨v :: rest, h⟩) := by
  have h1 : (luaL_getmetafield ⟨v :: rest, h⟩ (-1) collector_name).1 =
      (luaL_getmetafield ⟨[v], h⟩ (-1) collector_name).1 := by
    unfold luaL_getmetafield metatableOf
    simp only [index_m1]
    have e1 : ∀ q, getTable ⟨v :: rest, h⟩ q = getTable ⟨[v], h⟩ q := fun _ => rfl
    cases v <;> simp only [e1] <;> (repeat' split) <;> simp_all
  unfold isCollector at hc
  rw [← h1] at hc
  unfold unwrap_collector_maybe
  rcases luaL_getmetafield_cases ⟨v :: rest, h⟩ (-1) collector_name with hm | ⟨w, hm⟩
  · rw [hm]
  · rw [hm] at hc; cases hc

theorem plainTree_ne_nil (h : List Obj) (d : Nat) (v : TValue) (hp : plainTree h d v = true) :
    v ≠ .nil := by
  rintro rfl
  cases d <;> simp [plainTree] at hp

theorem treeOf_table (h : List Obj) (d p : Nat) (t : Table) (ht : getTable ⟨[], h⟩ p = some t) :
    treeOf h (d + 1) (.table p) = .table (.mk p (entriesOf (treeOf h d) t.entries .null)) := by
  simp only [treeOf, ht]

theorem plainTree_table (h : List Obj) (d p : Nat) (hp : plainTree h (d + 1) (.table p) = true) :
    ∃ t, getTable ⟨[], h⟩ p = some t ∧ (t.entries.map Prod.fst).Nodup ∧
      ∀ e ∈ t.entries, plainTree h d e.1 = true ∧ plainTree h d e.2 = true ∧
        isCollector h e.2 = false := by
  simp only [plainTree] at hp
  cases ht : getTable ⟨[], h⟩ p with
  | none => rw [ht] at hp; cases hp
  | some t =>
    rw [ht] at hp
    simp only [Bool.and_eq_true, decide_eq_true_eq, List.all_eq_true, Bool.not_eq_true'] at hp
    exact ⟨t, rfl, hp.1, fun e he => ⟨(hp.2 e he).1.1, (hp.2 e he).1.2, (hp.2 e he).2⟩⟩

theorem serialize_object_primitive (cb : callbacks) (h : List Obj) (d : Nat) (v : TValue)
    (hv : v.isPrimitive = true) (n : Nat) (rest : List TValue) :
    serialize_object cb (n + 1) ⟨v :: rest, h⟩ = .ok (treeOf h d v, ⟨v :: rest, h⟩) := by
  cases v <;> simp [TValue.isPrimitive] at hv
  · cases d <;> simp [serialize_object, treeOf, lua_toboolean]
  · cases d <;> simp [serialize_object, treeOf, lua_tonumber]
  · cases d <;> simp [serialize_object, treeOf, lua_tostring]

/-- The loop of `dump_table_entries` on the remaining entries `suf` of a table
whose entries serialize. -/
theorem dump_table_entries_loop_plain (cb : callbacks) (h : List Obj) (f : TValue → svalue)
    (p : Nat) (t : Table) (ht : getTable ⟨[], h⟩ p = some t)
    (hnd : (t.entries.map Prod.fst).Nodup) :
    ∀ (suf pre : List (TValue × TValue)) (head : stable_entry) (kprev : TValue),
      t.entries = pre ++ suf →
      (if kprev = .nil then some t.entries else afterKey t.entries kprev) = some suf →
      (∀ e ∈ suf, e.1 ≠ .nil ∧ isCollector h e.2 = false ∧
        (∃ N, ∀ fuel, N ≤ fuel → ∀ rest,
          serialize_object cb fuel ⟨e.1 :: rest, h⟩ = .ok (f e.1, ⟨e.1 :: rest, h⟩)) ∧
        (∃ N, ∀ fuel, N ≤ fuel → ∀ rest,
          serialize_object cb fuel ⟨e.2 :: rest, h⟩ = .ok (f e.2, ⟨e.2 :: rest, h⟩))) →
      ∃ N, ∀ fuel, N ≤ fuel → ∀ rest,
        dump_table_entries_loop cb fuel head ⟨kprev :: .table p :: rest, h⟩ =
          .ok (entriesOf f suf head, ⟨.table p :: rest, h⟩) := by
  intro suf
  induction suf with
  | nil =>
    intro pre head kprev _ hn _
    refine ⟨1, fun fuel hf rest => ?_⟩
    obtain ⟨n, rfl⟩ : ∃ n, fuel = n + 1 := ⟨fuel - 1, by omega⟩
    simp only [dump_table_entries_loop, lua_next_top h kprev p rest t [] ht hn, bind, Except.bind,
      entriesOf]
    rfl
  | cons e suf ih =>
    intro pre head kprev hsplit hn hall
    obtain ⟨k, v⟩ := e
    obtain ⟨hk, hc, ⟨Nk, hNk⟩, ⟨Nv, hNv⟩⟩ := hall (k, v) (by simp)
    have hn1 : (if k = .nil then some t.entries else afterKey t.entries k) = some suf := by
      rw [if_neg hk, hsplit]
      exact afterKey_of_split pre suf k v (by rw [← hsplit]; exact hnd)
    obtain ⟨N, hN⟩ := ih (pre ++ [(k, v)]) (.node head (f k) (f v) 0) k
      (by rw [hsplit]; simp) hn1 (fun e he => hall e (by simp [he]))
    refine ⟨1 + (Nk + Nv + N), fun fuel hf rest => ?_⟩
    obtain ⟨n, rfl⟩ : ∃ n, fuel = n + 1 := ⟨fuel - 1, by omega⟩
    simp only [dump_table_entries_loop, lua_next_top h kprev p rest t ((k, v) :: suf) ht hn, bind,
      Except.bind, if_true, unwrap_collector_maybe_plain h v _ hc,
      hNv n (by omega), lua_pop_one, hNk n (by omega), hN n (by omega), entriesOf]

theorem serialize_object_plain (cb : callbacks) (h : List Obj) :
    ∀ (d : Nat) (v : TValue), plainTree h d v = true →
      ∃ N, ∀ fuel, N ≤ fuel → ∀ rest,
        serialize_object cb fuel ⟨v :: rest, h⟩ = .ok (treeOf h d v, ⟨v :: rest, h⟩) := by
  intro d
  induction d with
  | zero =>
    intro v hp
    have hv : v.isPrimitive = true := by cases v <;> simp_all [plainTree, TValue.isPrimitive]
    refine ⟨1, fun fuel hf rest => ?_⟩
    obtain ⟨n, rfl⟩ : ∃ n, fuel = n + 1 := ⟨fuel - 1, by omega⟩
    exact serialize_object_primitive cb h 0 v hv n rest
  | succ d ih =>
    intro v hp
    by_cases hv : v.isPrimitive = true
    · refine ⟨1, fun fuel hf rest => ?_⟩
      obtain ⟨n, rfl⟩ : ∃ n, fuel = n + 1 := ⟨fuel - 1, by omega⟩
      exact serialize_object_primitive cb h (d + 1) v hv n rest
    · obtain ⟨p, rfl⟩ : ∃ p, v = .table p := by
        cases v <;> simp_all [plainTree, TValue.isPrimitive]
      obtain ⟨t, ht, hnd, hall⟩ := plainTree_table h d p hp
      obtain ⟨N, hN⟩ := dump_table_entries_loop_plain cb h (treeOf h d) p t ht hnd t.entries []
        .null .nil rfl (by simp) (fun e he =>
          ⟨plainTree_ne_nil h d e.1 (hall e he).1, (hall e he).2.2, ih e.1 (hall e he).1,
            ih e.2 (hall e he).2.1⟩)
      refine ⟨N + 3, fun fuel hf rest => ?_⟩
      obtain ⟨n, rfl⟩ : ∃ n, fuel = n + 3 := ⟨fuel - 3, by omega⟩
      rw [treeOf_table h d p t ht]
      simp only [serialize_object, index_m1, serialize_table, dump_table_entries, lua_pushnil, push,
        hN n (by omega), bind, Except.bind, lua_topointer, pure, Except.pure]

mutual
theorem Built_stable (lo : Nat) (L L1 : lua_State)
    (hf : ∀ q, lo < q → q ≤ L.heap.length → getTable L1 q = getTable L q) :
    ∀ (sv : svalue) (w : TValue), Built lo L sv w → Built lo L1 sv w
  | .boolean _, _, h => by simpa [Built] using h
  | .number _, _, h => by simpa [Built] using h
  | .string _, _, h => by simpa [Built] using h
  | .table t, w, h => by
    simp only [Built] at h ⊢
    exact BuiltTable_stable lo L L1 hf t w h
  | .other _, _, h => by simp [Built] at h
  | .function _, _, h => by simp [Built] at h
theorem BuiltTable_stable (lo : Nat) (L L1 : lua_State)
    (hf : ∀ q, lo < q → q ≤ L.heap.length → getTable L1 q = getTable L q) :
    ∀ (t : stable) (w : TValue), BuiltTable lo L t w → BuiltTable lo L1 t w
  | .mk _ es, w, h => by
    simp only [BuiltTable] at h ⊢
    obtain ⟨q, T, hw, hq, hT, hnd, he⟩ := h
    refine ⟨q, T, hw, hq, ?_, hnd, BuiltEntries_stable lo L L1 hf es T.entries he⟩
    rw [hf q hq (getTable_isSome_le L q (by simp [hT]))]; exact hT
theorem BuiltEntries_stable (lo : Nat) (L L1 : lua_State)
    (hf : ∀ q, lo < q → q ≤ L.heap.length → getTable L1 q = getTable L q) :
    ∀ (es : stable_entry) (l : List (TValue × TValue)),
      BuiltEntries lo L es l → BuiltEntries lo L1 es l
  | .null, _, h => by simpa [BuiltEntries] using h
  | .node next key value _, l, h => by
    simp only [BuiltEntries] at h ⊢
    obtain ⟨kw, vw, l1, hl, hk, hv, hn⟩ := h
    exact ⟨kw, vw, l1, hl, Built_stable lo L L1 hf key kw hk, Built_stable lo L L1 hf value vw hv,
      BuiltEntries_stable lo L L1 hf next l1 hn⟩
end

mutual
theorem Built_lower (lo lo1 : Nat) (L : lua_State) (hlo : lo1 ≤ lo) :
    ∀ (sv : svalue) (w : TValue), Built lo L sv w → Built lo1 L sv w
  | .boolean _, _, h => by simpa [Built] using h
  | .number _, _, h => by simpa [Built] using h
  | .string _, _, h => by simpa [Built] using h
  | .table t, w, h => by
    simp only [Built] at h ⊢
    exact BuiltTable_lower lo lo1 L hlo t w h
  | .other _, _, h => by simp [Built] at h
  | .function _, _, h => by simp [Built] at h
theorem BuiltTable_lower (lo lo1 : Nat) (L : lua_State) (hlo : lo1 ≤ lo) :
    ∀ (t : stable) (w : TValue), BuiltTable lo L t w → BuiltTable lo1 L t w
  | .mk _ es, w, h => by
    simp only [BuiltTable] at h ⊢
    obtain ⟨q, T, hw, hq, hT, hnd, he⟩ := h
    exact ⟨q, T, hw, by omega, hT, hnd, BuiltEntries_lower lo lo1 L hlo es T.entries he⟩
theorem BuiltEntries_lower (lo lo1 : Nat) (L : lua_State) (hlo : lo1 ≤ lo) :
    ∀ (es : stable_entry) (l : List (TValue × TValue)),
      BuiltEntries lo L es l → BuiltEntries lo1 L es l
  | .null, _, h => by simpa [BuiltEntries] using h
  | .node next key value _, l, h => by
    simp only [BuiltEntries] at h ⊢
    obtain ⟨kw, vw, l1, hl, hk, hv, hn⟩ := h
    exact ⟨kw, vw, l1, hl, Built_lower lo lo1 L hlo key kw hk, Built_lower lo lo1 L hlo value vw hv,
      BuiltEntries_lower lo lo1 L hlo next l1 hn⟩
end

/-- A rebuilt plain value is a primitive (the image of its node) or a table
above `lo`. -/
theorem Built_cases (lo : Nat) (L : lua_State) (sv : svalue) (w : TValue) (h : Built lo L sv w) :
    (sv.image = some w ∧ w.isPrimitive = true) ∨
    (sv.image = none ∧ ∃ q, w = .table q ∧ lo < q ∧ (getTable L q).isSome) := by
  cases sv with
  | boolean b => simp only [Built] at h; subst h; exact Or.inl ⟨rfl, rfl⟩
  | number n => simp only [Built] at h; subst h; exact Or.inl ⟨rfl, rfl⟩
  | string s => simp only [Built] at h; subst h; exact Or.inl ⟨rfl, rfl⟩
  | table t =>
    cases t with
    | mk id es =>
      simp only [Built, BuiltTable] at h
      obtain ⟨q, T, hw, hq, hT, -, -⟩ := h
      exact Or.inr ⟨rfl, q, hw, hq, by simp [hT]⟩
  | other _ => simp [Built] at h
  | function _ => simp [Built] at h

theorem Built_ne_nil (lo : Nat) (L : lua_State) (sv : svalue) (w : TValue) (h : Built lo L sv w) :
    w ≠ .nil := by
  rcases Built_cases lo L sv w h with ⟨-, hp⟩ | ⟨-, q, rfl, -, -⟩
  · rintro rfl; cases hp
  · simp

/-! ## Deserialization of plain value trees -/

theorem rawputE_fresh (es : List (TValue × TValue)) (k v : TValue)
    (hk : k ∉ es.map Prod.fst) : rawputE es k v = es ++ [(k, v)] := by
  induction es with
  | nil => rfl
  | cons e es ih =>
    obtain ⟨k1, v1⟩ := e
    simp only [List.map_cons, List.mem_cons, not_or] at hk
    simp only [rawputE, if_neg (Ne.symm hk.1), ih hk.2, List.cons_append]

theorem rawsetE_fresh (es : List (TValue × TValue)) (k v : TValue)
    (hk : k ∉ es.map Prod.fst) (hv : v ≠ .nil) : rawsetE es k v = es ++ [(k, v)] := by
  simp only [rawsetE, if_neg hv, rawputE_fresh es k v hk]

theorem lookup_object_map_object_ne (cache : upvalue_cache) (id p key : Nat) (hne : key ≠ id)
    (h : lookup_object cache key = none) : lookup_object (map_object cache id p) key = none := by
  unfold lookup_object map_object at *
  simp only [List.find?_cons]
  have : decide (id = key) = false := by simp [Ne.symm hne]
  simp only [this]
  exact h

theorem stable_id_mem (t : stable) : t.id ∈ t.tableIds := by
  cases t
  simp [stable.id, stable.tableIds]

theorem primKeys_primitive (es : stable_entry) : ∀ x ∈ es.primKeys, x.isPrimitive = true := by
  match es with
  | .null => simp [stable_entry.primKeys]
  | .node next key value cid =>
    intro x hx
    simp only [stable_entry.primKeys, List.mem_append] at hx
    rcases hx with hx | hx
    · cases key <;> simp [svalue.image] at hx <;> subst hx <;> rfl
    · exact primKeys_primitive next x hx

theorem Step_frame {idx : Int} {ot : Nat} {exT exC exU : Nat → Prop} {nok : Prop}
    {L L1 : lua_State} {c c1 : upvalue_cache} (hs : Step idx ot exT exC exU nok L c L1 c1)
    (lo : Nat) (hex : ∀ q, exT q → q ≤ lo) :
    ∀ q, lo < q → q ≤ L.heap.length → getTable L1 q = getTable L q :=
  fun q hq hle => hs.tbls q hle (fun h => by have := hex q h; omega)

mutual
theorem push_object_plain (cb : callbacks) (H : Host) (idx : Int) (ot : Nat) :
    ∀ (sv : svalue) (L : lua_State) (cache : upvalue_cache),
      Inv idx ot L cache → sv.plain = true → sv.tableIds.Nodup →
      (∀ i ∈ sv.tableIds, lookup_object cache i = none) →
      ∃ L1 c1 w, push_object cb H sv L cache = .ok (L1, c1) ∧ L1.stack = w :: L.stack ∧
        Built L.heap.length L1 sv w ∧
        (∀ key, key ∉ sv.tableIds → lookup_object cache key = none →
          lookup_object c1 key = none) ∧
        c1.upvalue_map = cache.upvalue_map ∧ c1.collector_map = cache.collector_map
  | .boolean b, L, cache, _, _, _, _ =>
    ⟨_, _, _, rfl, rfl, by simp [Built], fun _ _ h => h, rfl, rfl⟩
  | .number n, L, cache, _, _, _, _ =>
    ⟨_, _, _, rfl, rfl, by simp [Built], fun _ _ h => h, rfl, rfl⟩
  | .string s, L, cache, _, _, _, _ =>
    ⟨_, _, _, rfl, rfl, by simp [Built, lua_pushstring, push], fun _ _ h => h, rfl, rfl⟩
  | .other _, _, _, _, hp, _, _ => by simp [svalue.plain] at hp
  | .function _, _, _, _, hp, _, _ => by simp [svalue.plain] at hp
  | .table t, L, cache, hinv, hp, hnd, hl => by
    simp only [svalue.plain] at hp
    simp only [svalue.tableIds] at hnd hl
    obtain ⟨L1, c1, w, h1, hs1, hB, hc, hum, hcm⟩ :=
      push_table_plain cb H idx ot t L cache hinv hp hnd hl
    refine ⟨L1, c1, w, ?_, hs1, by simpa only [Built] using hB,
      by simpa only [svalue.tableIds] using hc, hum, hcm⟩
    simp only [push_object, lookup_and_fetch_object_eq cache L idx ot t.id hinv.cidx hinv.pos
      hinv.le hinv.at_idx hinv.host, hl t.id (stable_id_mem t), bind, Except.bind]
    exact h1
theorem push_table_plain (cb : callbacks) (H : Host) (idx : Int) (ot : Nat) :
    ∀ (t : stable) (L : lua_State) (cache : upvalue_cache),
      Inv idx ot L cache → t.plain = true → t.tableIds.Nodup →
      (∀ i ∈ t.tableIds, lookup_object cache i = none) →
      ∃ L1 c1 w, push_table cb H t L cache = .ok (L1, c1) ∧ L1.stack = w :: L.stack ∧
        BuiltTable L.heap.length L1 t w ∧
        (∀ key, key ∉ t.tableIds → lookup_object cache key = none →
          lookup_object c1 key = none) ∧
        c1.upvalue_map = cache.upvalue_map ∧ c1.collector_map = cache.collector_map
  | .mk tbl_id es, L, cache, hinv, hp, hnd, hl => by
    simp only [stable.plain, Bool.and_eq_true, decide_eq_true_eq] at hp
    simp only [stable.tableIds, List.nodup_cons] at hnd
    simp only [stable.tableIds, List.mem_cons, forall_eq_or_imp] at hl
    obtain ⟨hs0, hlen0, hd0⟩ := lua_newtable_spec L
    have hT0 : getTable (lua_newtable L) (L.heap.length + 1) = some ⟨[], 0⟩ := by
      simp [getTable, hd0]
    obtain ⟨L2, h1, hst2, hlen2, hne2, hfetch2, hstep2⟩ :=
      cache_new_object (stable.numsOK (.mk tbl_id es) = true) hinv (lua_newtable L)
        (.table (L.heap.length + 1)) (L.heap.length + 1)
        (Or.inl ⟨rfl, by simp [hT0]⟩) (by omega) hs0 (by omega)
        (fun q hq => by rw [hd0 q, if_neg (by omega)]) tbl_id
    have hotle := getTable_isSome_le L ot hinv.host
    have hne : L.heap.length + 1 ≠ ot := by omega
    have hT2 : getTable L2 (L.heap.length + 1) = some ⟨[], 0⟩ := by
      rw [getTable_eq_of_deref (lua_newtable L) L2 _ (hne2 _ hne)]; exact hT0
    obtain ⟨L1, c1, new, h2, hT1, hnd1, hB, hc, hum, hcm⟩ :=
      push_table_entries_plain cb H idx ot es (L.heap.length + 1) L2
        (map_object cache tbl_id (L.heap.length + 1)) L.stack [] 0 hstep2.inv
        (by rw [hst2, hs0]) hne hfetch2 hT2 (by simp) hp.1 hnd.2
        (fun i hi => lookup_object_map_object_ne cache tbl_id _ i
          (fun e => hnd.1 (e ▸ hi)) (hl.2 i hi))
        hp.2 (by simp) (by simp)
    obtain ⟨hs1, -⟩ := push_table_entries_inv cb H idx ot es (L.heap.length + 1) L2
      (map_object cache tbl_id (L.heap.length + 1)) L1 c1 L.stack hstep2.inv
      (by rw [hst2, hs0]) hne hfetch2 (by simp [hT2]) h2
    refine ⟨L1, c1, .table (L.heap.length + 1), ?_, by rw [hs1, hst2, hs0], ?_, ?_, hum, hcm⟩
    · simp only [push_table, h1, bind, Except.bind]
      exact h2
    · simp only [BuiltTable]
      simp only [List.nil_append] at hT1 hnd1
      exact ⟨_, _, rfl, by omega, hT1, hnd1,
        BuiltEntries_lower _ _ L1 (by omega) es new hB⟩
    · intro key hk hkc
      simp only [stable.tableIds, List.mem_cons, not_or] at hk
      exact hc key hk.2 (lookup_object_map_object_ne cache tbl_id _ key hk.1 hkc)
theorem push_table_entries_plain (cb : callbacks) (H : Host) (idx : Int) (ot : Nat) :
    ∀ (es : stable_entry) (tid : Nat) (L : lua_State) (cache : upvalue_cache)
      (rest : List TValue) (acc : List (TValue × TValue)) (mt : Nat),
      Inv idx ot L cache → L.stack = .table tid :: rest → tid ≠ ot →
      Fetch L ot tid = .table tid → getTable L tid = some ⟨acc, mt⟩ →
      (acc.map Prod.fst).Nodup → es.plain = true → es.tableIds.Nodup →
      (∀ i ∈ es.tableIds, lookup_object cache i = none) →
      es.primKeys.Nodup → (∀ x ∈ es.primKeys, x ∉ acc.map Prod.fst) →
      (∀ q, TValue.table q ∈ acc.map Prod.fst → q ≤ L.heap.length) →
      ∃ L1 c1 new, push_table_entries cb H es tid L cache = .ok (L1, c1) ∧
        getTable L1 tid = some ⟨acc ++ new, mt⟩ ∧ ((acc ++ new).map Prod.fst).Nodup ∧
        BuiltEntries L.heap.length L1 es new ∧
        (∀ key, key ∉ es.tableIds → lookup_object cache key = none →
          lookup_object c1 key = none) ∧
        c1.upvalue_map = cache.upvalue_map ∧ c1.collector_map = cache.collector_map
  | .null, tid, L, cache, rest, acc, mt, _, _, _, _, hT, hacc, _, _, _, _, _, _ =>
    ⟨L, cache, [], rfl, by simpa using hT, by simpa using hacc, by simp [BuiltEntries],
      fun _ _ h => h, rfl, rfl⟩
  | .node next key value cid, tid, L, cache, rest, acc, mt, hinv, hs, hne, hf, hT, hacc, hp,
      hnd, hl, hpk, hfresh, hbound => by
    simp only [stable_entry.plain, Bool.and_eq_true, decide_eq_true_eq] at hp
    obtain ⟨⟨⟨hpk1, hpv⟩, hcid⟩, hpn⟩ := hp
    subst hcid
    simp only [stable_entry.tableIds, List.nodup_append, List.mem_append] at hnd hl
    obtain ⟨⟨hndk, hndv, hdkv⟩, hndn, hdn⟩ := hnd
    have hotle := getTable_isSome_le L ot hinv.host
    have htle := getTable_isSome_le L tid (by simp [hT])
    -- the key
    obtain ⟨La, ca, kw, hk, hsa, hBk, hck, huk, hlk⟩ := push_object_plain cb H idx ot key L cache hinv hpk1
      hndk (fun i hi => hl i (Or.inl (Or.inl hi)))
    obtain ⟨-, stA⟩ := push_object_inv cb H idx ot key L cache La ca hinv hk
    -- the value
    obtain ⟨Lb, cb1, vw, hv, hsb, hBv, hcv, huv, hlv⟩ := push_object_plain cb H idx ot value La ca stA.inv
      hpv hndv (fun i hi => hck i (fun hik => hdkv hik hi) (hl i (Or.inl (Or.inr hi))))
    obtain ⟨-, stB⟩ := push_object_inv cb H idx ot value La ca Lb cb1 stA.inv hv
    have hlenA := stA.mono.len
    have hlenB := stB.mono.len
    have hTb : getTable Lb tid = some ⟨acc, mt⟩ := by
      rw [stB.tbls tid (by omega) hne, stA.tbls tid htle hne]; exact hT
    have hsb2 : Lb.stack = vw :: kw :: .table tid :: rest := by rw [hsb, hsa, hs]
    obtain ⟨Lc, hr⟩ := lua_rawset_m3_ok Lb vw kw tid _ rest hsb2 hTb
      (Built_ne_nil _ _ key kw hBk)
    have hfb : Fetch Lb ot tid = .table tid := by
      rw [stB.mono.fetch tid (by omega), stA.mono.fetch tid htle]; exact hf
    have hle : idx.toNat ≤ (TValue.table tid :: rest).length := by rw [← hs]; exact hinv.le
    have hidx : ∀ L1 : lua_State, L1.stack = .table tid :: rest →
        index L1 idx = some (.table ot) := fun L1 h1 => by
      rw [index_congr L L1 idx (by rw [h1, hs])]; exact hinv.at_idx
    obtain ⟨hsc, -, ⟨T, hTb1, hTc⟩, -, stC⟩ := entry_commit (stable_entry.numsOK next = true) vw kw
      tid rest key 0 stB.inv hsb2 hne hfb hle hidx hr
      (show (if (0 : Nat) ≠ 0 then map_collector cb1 0 tid key else pure cb1) = Except.ok cb1 from
        by simp [pure, Except.pure])
    rw [hTb] at hTb1
    cases hTb1
    have hkfresh : kw ∉ acc.map Prod.fst := by
      rcases Built_cases _ _ key kw hBk with ⟨him, -⟩ | ⟨-, q, rfl, hq, -⟩
      · exact hfresh kw (by simp [stable_entry.primKeys, him])
      · intro hmem
        have := hbound q hmem
        omega
    have hTc1 : getTable Lc tid = some ⟨acc ++ [(kw, vw)], mt⟩ := by
      rw [hTc]
      simp only [rawsetE_fresh acc kw vw hkfresh (Built_ne_nil _ _ value vw hBv)]
    have hlenC := stC.mono.len
    have hfc : Fetch Lc ot tid = .table tid := by
      rw [stC.mono.fetch tid (by omega)]; exact hfb
    have hpkn : next.primKeys.Nodup := by
      simp only [stable_entry.primKeys] at hpk
      exact (List.nodup_append.mp hpk).2.1
    obtain ⟨L1, c1, new, hn, hT1, hnd1, hBn, hcn, hun, hln⟩ :=
      push_table_entries_plain cb H idx ot next tid Lc cb1 rest (acc ++ [(kw, vw)]) mt stC.inv
        hsc hne hfc hTc1
        (by
          rw [List.map_append, List.nodup_append]
          refine ⟨hacc, by simp, ?_⟩
          intro a ha hb
          simp only [List.map_cons, List.map_nil, List.mem_singleton] at hb
          subst hb
          exact hkfresh ha)
        hpn hndn
        (fun i hi => hcv i (fun hiv => hdn (List.mem_append.mpr (Or.inr hiv)) hi)
          (hck i (fun hik => hdn (List.mem_append.mpr (Or.inl hik)) hi) (hl i (Or.inr hi))))
        hpkn
        (by
          intro x hx hmem
          simp only [List.map_append, List.mem_append, List.map_cons, List.map_nil,
            List.mem_singleton] at hmem
          rcases hmem with hmem | rfl
          · exact hfresh x (by simp [stable_entry.primKeys, hx]) hmem
          · rcases Built_cases _ _ key x hBk with ⟨him, -⟩ | ⟨-, q, rfl, -, -⟩
            · simp only [stable_entry.primKeys, him] at hpk
              exact (List.nodup_cons.mp hpk).1 hx
            · have := primKeys_primitive next _ hx
              cases this)
        (by
          intro q hq
          simp only [List.map_append, List.mem_append, List.map_cons, List.map_nil,
            List.mem_singleton] at hq
          rcases hq with hq | hq
          · have := hbound q hq; omega
          · rcases Built_cases _ _ key kw hBk with ⟨-, hprim⟩ | ⟨-, q1, rfl, -, hq1⟩
            · rw [← hq] at hprim; cases hprim
            · simp only [TValue.table.injEq] at hq
              subst hq
              have := getTable_isSome_le La q hq1
              omega)
    obtain ⟨-, stN⟩ := push_table_entries_inv cb H idx ot next tid Lc cb1 L1 c1 rest stC.inv hsc
      hne hfc (by simp [hTc1]) hn
    have frB := Step_frame stB L.heap.length (fun q hq => by subst hq; exact hotle)
    have frC := Step_frame stC L.heap.length
      (fun q hq => by rcases hq with rfl | rfl <;> assumption)
    have frN := Step_frame stN L.heap.length
      (fun q hq => by rcases hq with rfl | rfl <;> assumption)
    have frCN : ∀ q, L.heap.length < q → q ≤ Lb.heap.length → getTable L1 q = getTable Lb q :=
      fun q h1 h2 => by rw [frN q h1 (by omega), frC q h1 h2]
    refine ⟨L1, c1, (kw, vw) :: new, ?_, ?_, ?_, ?_, ?_, by rw [hun, huv, huk],
      by rw [hln, hlv, hlk]⟩
    · simp only [push_table_entries, hk, hv, hr, bind, Except.bind, ne_eq, not_true_eq_false,
        if_false, pure, Except.pure]
      exact hn
    · rw [hT1]; simp
    · simpa using hnd1
    · simp only [BuiltEntries]
      refine ⟨kw, vw, new, rfl, ?_, ?_, BuiltEntries_lower _ _ L1 (by omega) next new hBn⟩
      · refine Built_stable _ La L1 (fun q h1 h2 => ?_) key kw hBk
        rw [frCN q h1 (by omega), frB q h1 h2]
      · exact Built_stable _ Lb L1 frCN value vw (Built_lower _ _ Lb hlenA value vw hBv)
    · intro i hi hci
      simp only [stable_entry.tableIds, List.mem_append, not_or] at hi
      exact hcn i hi.2 (hcv i hi.1.2 (hck i hi.1.1 hci))
end

theorem entriesOf_plain (f : TValue → svalue) :
    ∀ (es : List (TValue × TValue)) (head : stable_entry),
      head.plain = true → (∀ e ∈ es, (f e.1).plain = true ∧ (f e.2).plain = true) →
      (entriesOf f es head).plain = true := by
  intro es
  induction es with
  | nil => intro head hh _; exact hh
  | cons e es ih =>
    intro head hh hall
    obtain ⟨k, v⟩ := e
    simp only [entriesOf]
    refine ih _ ?_ (fun e he => hall e (by simp [he]))
    have := hall (k, v) (by simp)
    simp [stable_entry.plain, this.1, this.2, hh]

theorem entriesOf_primKeys (f : TValue → svalue) :
    ∀ (es : List (TValue × TValue)) (head : stable_entry),
      (entriesOf f es head).primKeys =
        ((es.map Prod.fst).filterMap (fun k => (f k).image)).reverse ++ head.primKeys := by
  intro es
  induction es with
  | nil => intro head; simp [entriesOf]
  | cons e es ih =>
    intro head
    obtain ⟨k, v⟩ := e
    simp only [entriesOf, ih, stable_entry.primKeys, List.map_cons, List.filterMap_cons]
    cases (f k).image <;> simp

theorem filterMap_nodup_of_id {α : Type} (g : α → Option α) :
    ∀ l : List α, (∀ a ∈ l, g a = some a ∨ g a = none) → l.Nodup →
      (l.filterMap g).Nodup ∧ ∀ b ∈ l.filterMap g, b ∈ l := by
  intro l
  induction l with
  | nil => intro _ _; simp
  | cons a l ih =>
    intro hg hnd
    obtain ⟨hn, hm⟩ := ih (fun a ha => hg a (by simp [ha])) (List.nodup_cons.mp hnd).2
    rcases hg a (by simp) with h1 | h1
    · simp only [List.filterMap_cons, h1, List.nodup_cons, List.mem_cons]
      refine ⟨⟨fun hmem => (List.nodup_cons.mp hnd).1 (hm a hmem), hn⟩, ?_⟩
      intro b hb
      rcases hb with rfl | hb
      · exact Or.inl rfl
      · exact Or.inr (hm b hb)
    · simp only [List.filterMap_cons, h1]
      exact ⟨hn, fun b hb => List.mem_cons_of_mem _ (hm b hb)⟩

theorem treeOf_image (h : List Obj) (d : Nat) (k : TValue) (hp : plainTree h d k = true) :
    (treeOf h d k).image = some k ∨ (treeOf h d k).image = none := by
  cases k with
  | boolean b => cases d <;> exact Or.inl rfl
  | number n => cases d <;> exact Or.inl rfl
  | string s =>
    have hs : (0 : Byte) ∉ s := by cases d <;> simpa [plainTree] using hp
    have := cstr_of_not_mem s hs
    cases d <;> simp [treeOf, svalue.image, this]
  | table p => cases d <;> simp [treeOf, svalue.image]
  | nil => cases d <;> simp [plainTree] at hp
  | lightuserdata _ => cases d <;> simp [plainTree] at hp
  | function _ => cases d <;> simp [plainTree] at hp
  | userdata _ => cases d <;> simp [plainTree] at hp
  | thread _ => cases d <;> simp [plainTree] at hp

theorem treeOf_plain (h : List Obj) : ∀ (d : Nat) (v : TValue), plainTree h d v = true →
    (treeOf h d v).plain = true := by
  intro d
  induction d with
  | zero =>
    intro v hp
    cases v <;> simp_all [plainTree, treeOf, svalue.plain]
  | succ d ih =>
    intro v hp
    by_cases hv : v.isPrimitive = true
    · cases v <;> simp_all [treeOf, svalue.plain, TValue.isPrimitive]
    · obtain ⟨p, rfl⟩ : ∃ p, v = .table p := by
        cases v <;> simp_all [plainTree, TValue.isPrimitive]
      obtain ⟨t, ht, hnd, hall⟩ := plainTree_table h d p hp
      rw [treeOf_table h d p t ht]
      simp only [svalue.plain, stable.plain, Bool.and_eq_true, decide_eq_true_eq]
      refine ⟨entriesOf_plain _ _ _ rfl (fun e he => ⟨ih _ (hall e he).1, ih _ (hall e he).2.1⟩), ?_⟩
      rw [entriesOf_primKeys]
      simp only [stable_entry.primKeys, List.append_nil, List.nodup_reverse]
      refine (filterMap_nodup_of_id _ _ ?_ hnd).1
      intro k hk
      obtain ⟨e, he, rfl⟩ := List.mem_map.mp hk
      exact treeOf_image h d e.1 (hall e he).1

theorem flatten_perm {α β : Type} (A B : α → List β) :
    ∀ es : List α, (∀ e ∈ es, (A e).Perm (B e)) →
      ((es.map A).flatten).Perm ((es.map B).flatten) := by
  intro es
  induction es with
  | nil => intro _; simp
  | cons e es ih =>
    intro hall
    simp only [List.map_cons, List.flatten_cons]
    exact List.Perm.append (hall e (by simp)) (ih (fun e he => hall e (by simp [he])))

theorem entriesOf_tableIds (f : TValue → svalue) :
    ∀ (es : List (TValue × TValue)) (head : stable_entry),
      ((entriesOf f es head).tableIds).Perm
        ((es.map (fun e => (f e.1).tableIds ++ (f e.2).tableIds)).flatten ++ head.tableIds) := by
  intro es
  induction es with
  | nil => intro head; simp [entriesOf]
  | cons e es ih =>
    intro head
    obtain ⟨k, v⟩ := e
    simp only [entriesOf, List.map_cons, List.flatten_cons]
    refine (ih _).trans ?_
    simp only [stable_entry.tableIds]
    rw [← List.append_assoc]
    exact List.Perm.append_right _ List.perm_append_comm

theorem treeOf_tableIds (h : List Obj) : ∀ (d : Nat) (v : TValue),
    ((treeOf h d v).tableIds).Perm (tableAddrs h d v) := by
  intro d
  induction d with
  | zero => intro v; cases v <;> simp [treeOf, tableAddrs, svalue.tableIds]
  | succ d ih =>
    intro v
    cases v with
    | table p =>
      simp only [treeOf, tableAddrs, svalue.tableIds, stable.tableIds]
      refine List.Perm.cons _ ?_
      cases getTable ⟨[], h⟩ p with
      | none => simp [entriesOf, stable_entry.tableIds]
      | some t =>
        refine (entriesOf_tableIds _ _ _).trans ?_
        simp only [stable_entry.tableIds, List.append_nil]
        exact flatten_perm _ _ _ (fun e _ => List.Perm.append (ih e.1) (ih e.2))
    | _ => simp [treeOf, tableAddrs, svalue.tableIds]

theorem BuiltEntries_entriesOf (lo : Nat) (L : lua_State) (f : TValue → svalue) :
    ∀ (es : List (TValue × TValue)) (head : stable_entry) (l : List (TValue × TValue)),
      BuiltEntries lo L (entriesOf f es head) l →
      ∃ l1 l2, l = l1 ++ l2 ∧ BuiltEntries lo L head l2 ∧
        (∀ e ∈ es, ∃ e1 ∈ l1, Built lo L (f e.1) e1.1 ∧ Built lo L (f e.2) e1.2) ∧
        (∀ e1 ∈ l1, ∃ e ∈ es, Built lo L (f e.1) e1.1 ∧ Built lo L (f e.2) e1.2) := by
  intro es
  induction es with
  | nil =>
    intro head l hb
    exact ⟨[], l, rfl, hb, by simp, by simp⟩
  | cons e es ih =>
    intro head l hb
    obtain ⟨k, v⟩ := e
    obtain ⟨l1, l2, hl, hh, hf, hbk⟩ := ih _ l hb
    simp only [BuiltEntries] at hh
    obtain ⟨kw, vw, l3, hl2, hk, hv, hn⟩ := hh
    refine ⟨l1 ++ [(kw, vw)], l3, by rw [hl, hl2]; simp, hn, ?_, ?_⟩
    · intro e he
      rcases List.mem_cons.mp he with rfl | he
      · exact ⟨(kw, vw), by simp, hk, hv⟩
      · obtain ⟨e1, he1, h1⟩ := hf e he
        exact ⟨e1, by simp [he1], h1⟩
    · intro e1 he1
      rcases List.mem_append.mp he1 with he1 | he1
      · obtain ⟨e, he, h1⟩ := hbk e1 he1
        exact ⟨e, by simp [he], h1⟩
      · simp only [List.mem_singleton] at he1
        subst he1
        exact ⟨(k, v), by simp, hk, hv⟩

theorem Built_treeOf (lo : Nat) (h : List Obj) (Lt : lua_State) :
    ∀ (d : Nat) (v w : TValue), plainTree h d v = true → Built lo Lt (treeOf h d v) w →
      SameValue h Lt d v w := by
  intro d
  induction d with
  | zero =>
    intro v w hp hb
    cases v <;> simp [plainTree] at hp
    · simp only [treeOf, Built] at hb; exact ⟨rfl, hb⟩
    · simp only [treeOf, Built] at hb; exact ⟨rfl, hb⟩
    · simp only [treeOf, Built, cstr_of_not_mem _ hp] at hb; exact ⟨rfl, hb⟩
  | succ d ih =>
    intro v w hp hb
    by_cases hv : v.isPrimitive = true
    · refine Or.inl ⟨hv, ?_⟩
      cases v <;> simp [TValue.isPrimitive] at hv
      · simpa only [treeOf, Built] using hb
      · simpa only [treeOf, Built] using hb
      · simp only [plainTree, decide_eq_true_eq] at hp
        simpa only [treeOf, Built, cstr_of_not_mem _ hp] using hb
    · obtain ⟨p, rfl⟩ : ∃ p, v = .table p := by
        cases v <;> simp_all [plainTree, TValue.isPrimitive]
      obtain ⟨t, ht, hnd, hall⟩ := plainTree_table h d p hp
      rw [treeOf_table h d p t ht] at hb
      simp only [Built, BuiltTable] at hb
      obtain ⟨q, T, rfl, -, hT, hndT, he⟩ := hb
      obtain ⟨l1, l2, hl, hh, hf, hbk⟩ := BuiltEntries_entriesOf lo Lt _ _ _ _ he
      simp only [BuiltEntries] at hh
      subst hh
      simp only [List.append_nil] at hl
      subst hl
      refine Or.inr ⟨p, q, t, T, rfl, rfl, ht, hT, hndT, ?_, ?_⟩
      · intro e he
        obtain ⟨e1, he1, h1, h2⟩ := hf e he
        exact ⟨e1, he1, ih _ _ (hall e he).1 h1, ih _ _ (hall e he).2.1 h2⟩
      · intro e1 he1
        obtain ⟨e, he, h1, h2⟩ := hbk e1 he1
        exact ⟨e, he, ih _ _ (hall e he).1 h1, ih _ _ (hall e he).2.1 h2⟩

/-! ## Round trip of tables -/

/-- C3 (as amended): a live table `p` of the source interpreter that is plain
(its keys and values, at every level, are booleans, numbers, strings without a
NUL byte or again such tables; keys of one table pairwise different; no value
carrying the collector mark) and tree-shaped (no table address met twice) is
given to `serialize_value`, and the tree to `deserialize_value` in a campaign
whose object-map has no entry for the addresses of the tables. With enough
recursion depth the round trip returns and pushes a table `q` that is the same
value: every entry of `p` has an entry of `q` with the same key and the same
value, every entry of `q` comes from an entry of `p`, and the keys of `q` are
pairwise different; likewise, recursively, for the nested tables. -/
theorem roundtrip_table (cb : callbacks) (H : Host) (hs : List Obj) (rest : List TValue)
    (d p : Nat) (hplain : plainTree hs (d + 1) (.table p) = true)
    (htree : (tableAddrs hs (d + 1) (.table p)).Nodup)
    (Lt : lua_State) (cache : upvalue_cache) (idx : Int) (ot : Nat)
    (hinv : Inv idx ot Lt { cache with object_tbl_idx := idx })
    (hnew : ∀ i ∈ tableAddrs hs (d + 1) (.table p), lookup_object cache i = none) :
    ∃ N, ∀ fuel, N ≤ fuel → ∃ L1 c1 q,
      roundtrip_value cb H fuel ⟨.table p :: rest, hs⟩ Lt cache idx = .ok (L1, c1) ∧
      L1.stack = .table q :: Lt.stack ∧
      SameValue hs L1 (d + 1) (.table p) (.table q) := by
  obtain ⟨N, hN⟩ := serialize_object_plain cb hs (d + 1) (.table p) hplain
  refine ⟨N, fun fuel hf => ?_⟩
  have hperm := treeOf_tableIds hs (d + 1) (.table p)
  obtain ⟨L1, c1, w, h1, hs1, hB, -⟩ := push_object_plain cb H idx ot
    (treeOf hs (d + 1) (.table p)) Lt { cache with object_tbl_idx := idx } hinv
    (treeOf_plain hs _ _ hplain) (hperm.nodup_iff.mpr htree)
    (fun i hi => hnew i (hperm.mem_iff.mp hi))
  have hsame := Built_treeOf _ hs L1 _ _ w hplain hB
  have hw : ∃ q, w = .table q := by
    rcases hsame with ⟨hprim, -⟩ | ⟨_, q, _, _, _, hq, _⟩
    · cases hprim
    · exact ⟨q, hq⟩
  obtain ⟨q, rfl⟩ := hw
  refine ⟨L1, c1, q, ?_, hs1, hsame⟩
  simp only [roundtrip_value, serialize_value, hN fuel hf rest, deserialize_value, bind,
    Except.bind]
  exact h1

theorem roundtrip_table_witness :
    ∃ N, ∀ fuel, N ≤ fuel → ∃ L1 c1 q,
      roundtrip_value ⟨false⟩ (accepting 0) fuel ⟨.table 1 :: [], nested_table_heap⟩
        empty_target upvalue_cache_new 1 = .ok (L1, c1) ∧
      L1.stack = .table q :: empty_target.stack ∧
      SameValue nested_table_heap L1 (1 + 1) (.table 1) (.table q) :=
  roundtrip_table ⟨false⟩ (accepting 0) nested_table_heap [] 1 1 (by decide) (by decide)
    empty_target upvalue_cache_new 1 1
    (Inv_new 1 1 empty_target (by decide) (by decide) (by decide) (by decide))
    (by decide)

/-- C3 (as stated) fails on strings with a NUL byte: the table with the two
keys "a\0" (bound to 1) and "a" (bound to 2) comes back with the single key
"a", bound to 1. -/
theorem roundtrip_table_nul_key_lost :
    roundtrip_value ⟨false⟩ (accepting 0) 10
      ⟨[.table 1], [.table ⟨[(.string [97, 0], .number 1), (.string [97], .number 2)], 0⟩]⟩
      empty_target upvalue_cache_new 1 =
    .ok (⟨[.table 2, .table 1],
        [.table ⟨[(.lightuserdata 2, .table 2)], 0⟩,
          .table ⟨[(.string [97], .number 1)], 0⟩]⟩,
      { upvalue_map := [], object_map := [{ key := 1, object_id := 2 }],
        collector_map := [], object_tbl_idx := 1 }) := by
  decide

theorem nth1_append_length (pre us : List Nat) (u : Nat) :
    nth1 (pre ++ u :: us) ((pre.length : Int) + 1) = some u := by
  unfold nth1
  rw [if_pos (by omega)]
  have : ((pre.length : Int) + 1).toNat - 1 = pre.length := by omega
  rw [this, List.getElem?_append_right (le_refl _)]
  simp

theorem nth1_length_succ (us : List Nat) : nth1 us ((us.length : Int) + 1) = none := by
  unfold nth1
  rw [if_pos (by omega)]
  have : ((us.length : Int) + 1).toNat - 1 = us.length := by omega
  rw [this]
  simp

theorem serialize_upvalue_plain (cb : callbacks) (h : List Obj) (v : TValue) (sv : svalue)
    (hcoll : isCollector h v = false) (N : Nat)
    (hN : ∀ fuel, N ≤ fuel → ∀ rest,
      serialize_object cb fuel ⟨v :: rest, h⟩ = .ok (sv, ⟨v :: rest, h⟩))
    (fuel : Nat) (hf : N + 1 ≤ fuel) (rest : List TValue) (id : Nat) (number : Int) :
    serialize_upvalue cb fuel ⟨v :: rest, h⟩ id number =
      .ok (.node .null id number sv 0, ⟨v :: rest, h⟩) := by
  obtain ⟨n, rfl⟩ : ∃ n, fuel = n + 1 := ⟨fuel - 1, by omega⟩
  simp only [serialize_upvalue, unwrap_collector_maybe_plain h v _ hcoll, hN n (by omega), bind,
    Except.bind, pure, Except.pure]

theorem serialize_upvalues_loop_plain (cb : callbacks) (h : List Obj) (g : Nat → svalue)
    (p : Nat) (c : Closure) (hc : getClosure ⟨[], h⟩ p = some c) :
    ∀ (us pre : List Nat) (list : supvalue),
      c.upvals = pre ++ us →
      (∀ u ∈ us, ∃ v, getUpval ⟨[], h⟩ u = some v ∧ isCollector h v = false ∧
        ∃ N, ∀ fuel, N ≤ fuel → ∀ rest,
          serialize_object cb fuel ⟨v :: rest, h⟩ = .ok (g u, ⟨v :: rest, h⟩)) →
      ∃ N, ∀ fuel, N ≤ fuel → ∀ rest,
        serialize_upvalues_loop cb fuel ((pre.length : Int) + 1) list
            ⟨.function p :: rest, h⟩ =
          .ok (upvaluesOf g ((pre.length : Int) + 1) us list, ⟨.function p :: rest, h⟩) := by
  intro us
  induction us with
  | nil =>
    intro pre list hsplit _
    refine ⟨1, fun fuel hf rest => ?_⟩
    obtain ⟨n, rfl⟩ : ∃ n, fuel = n + 1 := ⟨fuel - 1, by omega⟩
    have hc1 : getClosure ⟨.function p :: rest, h⟩ p = some c := hc
    have hn : nth1 c.upvals ((pre.length : Int) + 1) = none := by
      rw [hsplit, List.append_nil]; exact nth1_length_succ pre
    simp only [serialize_upvalues_loop,
      lua_getupvalue_top ⟨.function p :: rest, h⟩ p rest c _ rfl hc1, hn, upvaluesOf]
  | cons u us ih =>
    intro pre list hsplit hall
    obtain ⟨v, hv, hcoll, Nv, hNv⟩ := hall u (by simp)
    obtain ⟨N, hN⟩ := ih (pre ++ [u]) (.node list u ((pre.length : Int) + 1) (g u) 0)
      (by rw [hsplit]; simp) (fun x hx => hall x (by simp [hx]))
    refine ⟨2 + (Nv + N), fun fuel hf rest => ?_⟩
    obtain ⟨n, rfl⟩ : ∃ n, fuel = n + 1 := ⟨fuel - 1, by omega⟩
    have hc1 : getClosure ⟨.function p :: rest, h⟩ p = some c := hc
    have hn : nth1 c.upvals ((pre.length : Int) + 1) = some u := by
      rw [hsplit]; exact nth1_append_length pre us u
    have hv1 : getUpval ⟨.function p :: rest, h⟩ u = some v := hv
    have hid : lua_upvalueid ⟨v :: .function p :: rest, h⟩ (-2) ((pre.length : Int) + 1) = u := by
      have hc2 : getClosure ⟨v :: .function p :: rest, h⟩ p = some c := hc
      simp [lua_upvalueid, hc2, hn]
    have hN1 := hN n (by omega) rest
    simp only [List.length_append, List.length_singleton, Nat.cast_add, Nat.cast_one] at hN1
    have hsu := serialize_upvalue_plain cb h v (g u) hcoll Nv hNv n (by omega)
      (.function p :: rest) u ((pre.length : Int) + 1)
    simp only [serialize_upvalues_loop,
      lua_getupvalue_top ⟨.function p :: rest, h⟩ p rest c _ rfl hc1, hn, hv1, hid,
      push, hsu, bind, Except.bind, prepend_upvalue, lua_pop_one, upvaluesOf]
    exact hN1

/-- Serialization of a Lua function whose upvalue cells hold plain values. -/
theorem serialize_function_plain (cb : callbacks) (h : List Obj) (d p : Nat) (c : Closure)
    (code : List Byte) (hc : getClosure ⟨[], h⟩ p = some c) (hchunk : c.chunk = some code)
    (hcode : code ≠ [])
    (hvals : ∀ u ∈ c.upvals, (getUpval ⟨[], h⟩ u).isSome ∧
      plainTree h d (cellValue h u) = true ∧ isCollector h (cellValue h u) = false) :
    ∃ N, ∀ fuel, N ≤ fuel → ∀ rest,
      serialize_function cb fuel ⟨.function p :: rest, h⟩ =
        .ok (.mk p code (upvaluesOf (fun u => treeOf h d (cellValue h u)) 1 c.upvals .null),
          ⟨.function p :: rest, h⟩) := by
  obtain ⟨N, hN⟩ := serialize_upvalues_loop_plain cb h
    (fun u => treeOf h d (cellValue h u)) p c hc c.upvals [] .null rfl
    (fun u hu => by
      obtain ⟨hsome, hp, hcl⟩ := hvals u hu
      obtain ⟨v, hv⟩ := Option.isSome_iff_exists.mp hsome
      have hcv : cellValue h u = v := by simp [cellValue, hv]
      rw [hcv] at hp hcl
      refine ⟨v, hv, hcl, ?_⟩
      simp only [hcv]
      exact serialize_object_plain cb h d v hp)
  refine ⟨N + 2, fun fuel hf rest => ?_⟩
  obtain ⟨n, rfl⟩ : ∃ n, fuel = n + 2 := ⟨fuel - 2, by omega⟩
  have hc1 : getClosure ⟨.function p :: rest, h⟩ p = some c := hc
  have hlen : code.length ≠ 0 := fun e => hcode (List.length_eq_zero.mp e)
  have hN1 := hN n (by omega) rest
  simp only [List.length_nil, Nat.cast_zero, zero_add] at hN1
  simp only [serialize_function, dump_function_bytecode,
    lua_dump_top ⟨.function p :: rest, h⟩ p rest c rfl hc1, hchunk, lua_topointer, index_m1,
    bind, Except.bind, pure, Except.pure, ne_eq, not_true_eq_false, if_false, hlen, push,
    lua_pop_one, serialize_upvalues, hN1]

mutual
theorem svalue_plain_numsOK : ∀ sv : svalue, sv.plain = true → sv.numsOK = true
  | .boolean _, _ => rfl
  | .number _, _ => rfl
  | .string _, _ => rfl
  | .other _, _ => rfl
  | .function _, h => by simp [svalue.plain] at h
  | .table t, h => by
    simp only [svalue.plain] at h
    simp only [svalue.numsOK]
    exact stable_plain_numsOK t h
theorem stable_plain_numsOK : ∀ t : stable, t.plain = true → t.numsOK = true
  | .mk _ es, h => by
    simp only [stable.plain, Bool.and_eq_true] at h
    simp only [stable.numsOK]
    exact stable_entry_plain_numsOK es h.1
theorem stable_entry_plain_numsOK : ∀ es : stable_entry, es.plain = true → es.numsOK = true
  | .null, _ => rfl
  | .node next key value _, h => by
    simp only [stable_entry.plain, Bool.and_eq_true] at h
    simp only [stable_entry.numsOK, Bool.and_eq_true]
    exact ⟨⟨svalue_plain_numsOK key h.1.1.1, svalue_plain_numsOK value h.1.1.2⟩,
      stable_entry_plain_numsOK next h.2⟩
end

theorem supvalue_plain_numsOK : ∀ ups : supvalue, ups.plain = true → ups.numbers.Nodup →
    ups.numsOK = true
  | .null, _, _ => rfl
  | .node next _ number value _, h, hn => by
    simp only [supvalue.plain, Bool.and_eq_true] at h
    simp only [supvalue.numbers, List.nodup_cons] at hn
    simp only [supvalue.numsOK, Bool.and_eq_true, decide_eq_true_eq]
    exact ⟨⟨svalue_plain_numsOK value h.1.1, hn.1⟩, supvalue_plain_numsOK next h.2 hn.2⟩

theorem lookup_upvalue_map_upvalue_ne (cache : upvalue_cache) (id : Nat) (n : Int) (f key : Nat)
    (hne : key ≠ id) (h : lookup_upvalue cache key = none) :
    lookup_upvalue (map_upvalue cache id n f) key = none := by
  unfold lookup_upvalue map_upvalue at *
  simp only [List.find?_cons]
  have : decide (id = key) = false := by simp [Ne.symm hne]
  simp only [this]
  exact h

theorem nth1_inj (l : List Nat) (hnd : l.Nodup) (n m : Int) (u : Nat)
    (hn : nth1 l n = some u) (hm : nth1 l m = some u) : n = m := by
  unfold nth1 at hn hm
  split at hn
  · split at hm
    · rename_i h1 h2
      obtain ⟨h3, h4⟩ := List.getElem?_eq_some_iff.mp hn
      obtain ⟨h5, h6⟩ := List.getElem?_eq_some_iff.mp hm
      have := (List.Nodup.getElem_inj_iff hnd).mp (h4.trans h6.symm)
      omega
    · cases hm
  · cases hn

theorem push_function_upvalues_plain (cb : callbacks) (H : Host) (idx : Int) (ot : Nat) :
    ∀ (ups : supvalue) (func_id : Nat) (L : lua_State) (cache : upvalue_cache)
      (rest : List TValue) (c : Closure),
      Inv idx ot L cache → L.stack = .function func_id :: rest →
      getClosure L func_id = some c → Fetch L ot func_id = .function func_id →
      c.upvals.Nodup → ups.plain = true → ups.numbers.Nodup →
      (∀ n ∈ ups.numbers, ∃ u, nth1 c.upvals n = some u ∧ (getUpval L u).isSome) →
      (ups.slots.map Prod.fst).Nodup →
      (∀ i ∈ ups.slots.map Prod.fst, lookup_upvalue cache i = none) →
      ups.tableIds.Nodup → (∀ i ∈ ups.tableIds, lookup_object cache i = none) →
      ∃ L1 c1, push_function_upvalues cb H func_id ups L cache = .ok (L1, c1) ∧
        L1.stack = L.stack ∧ getClosure L1 func_id = some c ∧
        ∀ r ∈ ups.records, ∃ u w, nth1 c.upvals r.1 = some u ∧ getUpval L1 u = some w ∧
          Built L.heap.length L1 r.2 w
  | .null, func_id, L, cache, rest, c, _, _, hc, _, _, _, _, _, _, _, _, _ =>
    ⟨L, cache, rfl, rfl, hc, by simp [supvalue.records]⟩
  | .node next uid number value cid, func_id, L, cache, rest, c, hinv, hs, hc, hf, hcnd, hp, hnn,
      hslots, hids, hlu, htn, hlo => by
    simp only [supvalue.plain, Bool.and_eq_true, decide_eq_true_eq] at hp
    obtain ⟨⟨hpv, hcid⟩, hpn⟩ := hp
    subst hcid
    simp only [supvalue.numbers, List.nodup_cons] at hnn
    simp only [supvalue.slots, List.map_cons, List.nodup_cons] at hids
    simp only [supvalue.tableIds, List.nodup_append] at htn
    obtain ⟨htv, htnn, htd⟩ := htn
    obtain ⟨u, hu, hcell⟩ := hslots number (by simp [supvalue.numbers])
    have hfl : func_id ≤ L.heap.length := getClosure_isSome_le L func_id (by simp [hc])
    have hotle := getTable_isSome_le L ot hinv.host
    -- the value
    obtain ⟨La, ca, w, hpush, hsa, hBw, hck, hum, hcm⟩ := push_object_plain cb H idx ot value L
      cache hinv hpv htv (fun i hi => hlo i (by simp [supvalue.tableIds, hi]))
    obtain ⟨-, stA⟩ := push_object_inv cb H idx ot value L cache La ca hinv hpush
    have hcA : getClosure La func_id = some c := by
      rw [stA.clos func_id hfl (fun e => e)]; exact hc
    have hsa2 : La.stack = w :: .function func_id :: rest := by rw [hsa, hs]
    obtain ⟨Lb, hset⟩ := lua_setupvalue_m2_ok La w func_id rest number hsa2
      ⟨c, u, hcA, hu, stA.mono.upv u hcell⟩
    obtain ⟨fid, c0, u0, w0, hfid, hc0, hu0, hw0, hstb, hlenb, hdb⟩ :=
      lua_setupvalue_m2_inv La Lb w (.function func_id) rest number hsa2 hset
    simp only [TValue.function.injEq] at hfid
    subst hfid
    rw [hcA] at hc0
    cases hc0
    rw [hu] at hu0
    cases hu0
    have hsu : set_upvalue (push_object cb H value) number L cache = .ok (Lb, ca) := by
      simp only [set_upvalue, hpush, hset, bind, Except.bind, if_true, pure, Except.pure]
    have hlook : lookup_upvalue cache uid = none := hlu uid (by simp [supvalue.slots])
    have hssu : set_shared_upvalue (push_object cb H value) func_id uid number 0 L cache =
        .ok (Lb, map_upvalue ca uid number func_id) := by
      simp only [set_shared_upvalue, hlook, hsu, bind, Except.bind, ne_eq, not_true_eq_false,
        if_false, pure, Except.pure]
    obtain ⟨hsb, stS, -, -, -⟩ := set_shared_upvalue_new idx ot (value.numsOK = true)
      (push_object cb H value)
      (fun L cache L1 cache1 hi hp => push_object_inv cb H idx ot value L cache L1 cache1 hi hp)
      func_id uid number 0 L cache Lb (map_upvalue ca uid number func_id) rest c hlook hinv hs hc
      hf hssu
    have hlenA := stA.mono.len
    have hune : func_id ≠ u := by
      rintro rfl
      rw [getClosure_some] at hcA
      rw [getUpval_some, hcA] at hw0
      cases hw0
    have hcB : getClosure Lb func_id = some c := by
      rw [getClosure_eq_of_deref La Lb func_id (by rw [hdb func_id, if_neg hune])]; exact hcA
    have hfB : Fetch Lb ot func_id = .function func_id := by
      rw [stS.mono.fetch func_id hfl]; exact hf
    have hwB : getUpval Lb u = some w := by simp [getUpval, hdb u]
    have hule : u ≤ La.heap.length := getUpval_isSome_le La u (by simp [hw0])
    -- the other records
    obtain ⟨L1, c1, hloop, hs1, hc1, hrec⟩ := push_function_upvalues_plain cb H idx ot next
      func_id Lb (map_upvalue ca uid number func_id) rest c stS.inv (by rw [hsb, hs]) hcB hfB hcnd
      hpn hnn.2
      (fun n hn => by
        obtain ⟨u1, hu1, hcell1⟩ := hslots n (by simp [supvalue.numbers, hn])
        exact ⟨u1, hu1, stS.mono.upv u1 hcell1⟩)
      hids.2
      (fun i hi => lookup_upvalue_map_upvalue_ne ca uid number func_id i
        (fun e => hids.1 (e ▸ hi))
        (by
          have : lookup_upvalue ca i = lookup_upvalue cache i := by
            simp only [lookup_upvalue, hum]
          rw [this]
          exact hlu i (by simp [supvalue.slots, List.mem_map] at hi ⊢; exact Or.inr hi)))
      htnn
      (fun i hi => by
        have h1 := hck i (fun hiv => htd hiv hi) (hlo i (by simp [supvalue.tableIds, hi]))
        exact h1)
    obtain ⟨-, stN, -, -, -⟩ := push_function_upvalues_inv cb H idx ot next func_id Lb
      (map_upvalue ca uid number func_id) L1 c1 rest c stS.inv (by rw [hsb, hs]) hcB hfB hloop
    have hnok : next.numsOK = true := supvalue_plain_numsOK next hpn hnn.2
    refine ⟨L1, c1, ?_, by rw [hs1, hsb], hc1, ?_⟩
    · simp only [push_function_upvalues, hssu, bind, Except.bind]
      exact hloop
    · intro r hr
      simp only [supvalue.records, List.mem_cons] at hr
      rcases hr with rfl | hr
      · refine ⟨u, w, hu, ?_, ?_⟩
        · rw [stN.cells hnok u (by omega) ?_]
          · exact hwB
          · rintro ⟨n, hn, hnu⟩
            have := nth1_inj c.upvals hcnd n number u hnu hu
            subst this
            exact hnn.1 hn
        · refine Built_stable _ La L1 (fun q h1 h2 => ?_) value w hBw
          rw [stN.tbls q (by omega) (fun e => by omega)]
          by_cases hq : q = u
          · subst hq
            have h3 := (getUpval_some La q w0).mp hw0
            have h4 := (getUpval_some Lb q w).mp hwB
            simp [getTable, h3, h4]
          · exact getTable_eq_of_deref La Lb q (by rw [hdb q, if_neg hq])
      · obtain ⟨u1, w1, hu1, hw1, hB1⟩ := hrec r hr
        exact ⟨u1, w1, hu1, hw1, Built_lower _ _ L1 (by omega) r.2 w1 hB1⟩

theorem push_function_plain (cb : callbacks) (H : Host) (idx : Int) (ot : Nat) (id : Nat)
    (code : List Byte) (ups : supvalue) (nups : Nat) (L : lua_State) (cache : upvalue_cache)
    (hinv : Inv idx ot L cache) (hload : H.load code = .proto nups)
    (hp : ups.plain = true) (hnn : ups.numbers.Nodup)
    (hrange : ∀ n ∈ ups.numbers, 1 ≤ n ∧ n ≤ nups)
    (hids : (ups.slots.map Prod.fst).Nodup)
    (hlu : ∀ i ∈ ups.slots.map Prod.fst, lookup_upvalue cache i = none)
    (htn : ups.tableIds.Nodup) (hlo : ∀ i ∈ ups.tableIds, lookup_object cache i = none)
    (hid : id ∉ ups.tableIds) :
    ∃ L1 c1, push_function cb H (.mk id code ups) L cache =
        .ok (0, some (L.heap.length + nups + 1), L1, c1) ∧
      L1.stack = .function (L.heap.length + nups + 1) :: L.stack ∧
      getClosure L1 (L.heap.length + nups + 1) =
        some ⟨some code, List.range' (L.heap.length + 1) nups⟩ ∧
      ∀ r ∈ ups.records, ∃ u w, nth1 (List.range' (L.heap.length + 1) nups) r.1 = some u ∧
        getUpval L1 u = some w ∧ Built L.heap.length L1 r.2 w := by
  have hlfb := load_function_bytecode_proto cb H L code nups hload
  obtain ⟨L0, hl0, hs0, hlen0, hsame0, hcells0, hclo0⟩ :=
    luaL_loadbuffer_proto_spec H L code nups hload
  rw [hl0] at hlfb
  simp only at hlfb
  have hotle := getTable_isSome_le L ot hinv.host
  have hC0 : getClosure L0 (L.heap.length + nups + 1) =
      some ⟨some code, List.range' (L.heap.length + 1) nups⟩ := by
    simp [getClosure, hclo0]
  obtain ⟨L2, h1, hst2, hlen2, hne2, hfetch2, hstep2⟩ :=
    cache_new_object (ups.numsOK = true) hinv L0 (.function (L.heap.length + nups + 1))
      (L.heap.length + nups + 1) (Or.inr ⟨rfl, by simp [hC0]⟩) (by omega) hs0 (by omega)
      hsame0 id
  have hC2 : getClosure L2 (L.heap.length + nups + 1) =
      some ⟨some code, List.range' (L.heap.length + 1) nups⟩ := by
    rw [getClosure_eq_of_deref L0 L2 _ (hne2 _ (by omega))]; exact hC0
  obtain ⟨L1, c1, hloop, hs1, hc1, hrec⟩ := push_function_upvalues_plain cb H idx ot ups
    (L.heap.length + nups + 1) L2 (map_object cache id (L.heap.length + nups + 1)) L.stack
    ⟨some code, List.range' (L.heap.length + 1) nups⟩ hstep2.inv (by rw [hst2, hs0]) hC2 hfetch2
    (List.nodup_range' _ _) hp hnn
    (fun n hn => by
      obtain ⟨h1n, h2n⟩ := hrange n hn
      refine ⟨L.heap.length + n.toNat, nth1_range' L.heap.length nups n h1n h2n, ?_⟩
      have hd : deref L2 (L.heap.length + n.toNat) = some (.upval .nil) := by
        rw [hne2 _ (by omega)]
        exact hcells0 _ (by omega) (by omega)
      simp [getUpval, hd])
    hids (fun i hi => hlu i hi) htn
    (fun i hi => lookup_object_map_object_ne cache id _ i (fun e => hid (e ▸ hi)) (hlo i hi))
  refine ⟨L1, c1, ?_, by rw [hs1, hst2, hs0], hc1, ?_⟩
  · simp only [push_function, hlfb, h1, hloop, bind, Except.bind, ne_eq, not_true_eq_false,
      if_false, pure, Except.pure]
  · intro r hr
    obtain ⟨u, w, hu, hw, hB⟩ := hrec r hr
    exact ⟨u, w, hu, hw, Built_lower _ _ L1 (by omega) r.2 w hB⟩

/-! ## The upvalue list of a function with plain upvalues -/

theorem upvaluesOf_slots (g : Nat → svalue) : ∀ (us : List Nat) (i : Int) (list : supvalue),
    (upvaluesOf g i us list).slots = (slotList i us).reverse ++ list.slots := by
  intro us
  induction us with
  | nil => intro i list; simp [upvaluesOf, slotList]
  | cons u us ih =>
    intro i list
    simp [upvaluesOf, slotList, ih, supvalue.slots]

theorem slotList_fst : ∀ (us : List Nat) (i : Int), (slotList i us).map Prod.fst = us := by
  intro us
  induction us with
  | nil => intro i; rfl
  | cons u us ih => intro i; simp [slotList, ih]

theorem slotList_nth1 : ∀ (us : List Nat) (i : Int) (s : Nat × Int), s ∈ slotList i us →
    i ≤ s.2 ∧ s.2 < i + us.length ∧ us[(s.2 - i).toNat]? = some s.1 := by
  intro us
  induction us with
  | nil => intro i s hs; simp [slotList] at hs
  | cons u us ih =>
    intro i s hs
    simp only [slotList, List.mem_cons] at hs
    rcases hs with rfl | hs
    · simp
    · obtain ⟨h1, h2, h3⟩ := ih (i + 1) s hs
      refine ⟨by omega, by simp only [List.length_cons, Nat.cast_add, Nat.cast_one]; omega, ?_⟩
      have : (s.2 - i).toNat = (s.2 - (i + 1)).toNat + 1 := by omega
      rw [this]
      simpa using h3

theorem upvaluesOf_plain (g : Nat → svalue) : ∀ (us : List Nat) (i : Int) (list : supvalue),
    list.plain = true → (∀ u ∈ us, (g u).plain = true) → (upvaluesOf g i us list).plain = true := by
  intro us
  induction us with
  | nil => intro i list hl _; exact hl
  | cons u us ih =>
    intro i list hl hall
    simp only [upvaluesOf]
    refine ih _ _ ?_ (fun x hx => hall x (by simp [hx]))
    simp [supvalue.plain, hall u (by simp), hl]

theorem upvaluesOf_tableIds (g : Nat → svalue) : ∀ (us : List Nat) (i : Int) (list : supvalue),
    ((upvaluesOf g i us list).tableIds).Perm
      ((us.map (fun u => (g u).tableIds)).flatten ++ list.tableIds) := by
  intro us
  induction us with
  | nil => intro i list; simp [upvaluesOf]
  | cons u us ih =>
    intro i list
    simp only [upvaluesOf, List.map_cons, List.flatten_cons]
    refine (ih _ _).trans ?_
    simp only [supvalue.tableIds]
    rw [← List.append_assoc]
    exact List.Perm.append_right _ List.perm_append_comm

theorem upvaluesOf_records (g : Nat → svalue) : ∀ (us : List Nat) (i : Int) (list : supvalue)
    (s : Nat × Int), s ∈ slotList i us → (s.2, g s.1) ∈ (upvaluesOf g i us list).records := by
  have hmono : ∀ (us : List Nat) (i : Int) (list : supvalue) (r : Int × svalue),
      r ∈ list.records → r ∈ (upvaluesOf g i us list).records := by
    intro us
    induction us with
    | nil => intro i list r hr; exact hr
    | cons u us ih =>
      intro i list r hr
      simp only [upvaluesOf]
      exact ih _ _ r (by simp [supvalue.records, hr])
  intro us
  induction us with
  | nil => intro i list s hs; simp [slotList] at hs
  | cons u us ih =>
    intro i list s hs
    simp only [slotList, List.mem_cons] at hs
    simp only [upvaluesOf]
    rcases hs with rfl | hs
    · exact hmono _ _ _ _ (by simp [supvalue.records])
    · exact ih _ _ s hs

theorem plainTree_tableAddrs (h : List Obj) : ∀ (d : Nat) (v : TValue), plainTree h d v = true →
    ∀ a ∈ tableAddrs h d v, (getTable ⟨[], h⟩ a).isSome := by
  intro d
  induction d with
  | zero => intro v _ a ha; cases v <;> simp [tableAddrs] at ha
  | succ d ih =>
    intro v hp a ha
    cases v with
    | table p =>
      obtain ⟨t, ht, -, hall⟩ := plainTree_table h d p hp
      simp only [tableAddrs, ht, List.mem_cons, List.mem_flatten, List.mem_map] at ha
      rcases ha with rfl | ⟨l, ⟨e, he, rfl⟩, hal⟩
      · simp [ht]
      · rcases List.mem_append.mp hal with h1 | h1
        · exact ih e.1 (hall e he).1 a h1
        · exact ih e.2 (hall e he).2.1 a h1
    | _ => simp [tableAddrs] at ha

/-! ## Round trip of a function -/

/-- Round trip of a function whose upvalues hold plain values, the part of
C7 that is proved of the code. A live Lua function `pf` of the source
interpreter with a non-empty dump `code`, whose upvalue cells are pairwise
different and hold plain values (booleans, numbers, strings without a NUL byte,
tree-shaped tables of these; no collector mark; no table address met twice), is
serialized and rebuilt by `deserialize_function` with a fresh cache, the loader
accepting `code` as a function with as many upvalues as `pf` has. With enough
recursion depth `serialize_function` returns a record whose code is `code`, and
`deserialize_function` returns 0, stores the address `fid` of the rebuilt
function through `object_key` and leaves that function on top of the stack;
the rebuilt function carries the chunk `code`, has as many upvalues as `pf`,
and for every slot `i` of `pf` its slot `i` refers to a cell that holds the
same value as the cell of `pf`. -/
theorem function_roundtrip (cb : callbacks) (H : Host) (hs : List Obj) (rest : List TValue)
    (d pf : Nat) (cf : Closure) (code : List Byte)
    (hc : getClosure ⟨[], hs⟩ pf = some cf) (hchunk : cf.chunk = some code) (hcode : code ≠ [])
    (hcells : cf.upvals.Nodup)
    (hvals : ∀ u ∈ cf.upvals, (getUpval ⟨[], hs⟩ u).isSome ∧
      plainTree hs d (cellValue hs u) = true ∧ isCollector hs (cellValue hs u) = false)
    (htree : ((cf.upvals.map (fun u => tableAddrs hs d (cellValue hs u))).flatten).Nodup)
    (hload : H.load code = .proto cf.upvals.length)
    (Lt : lua_State) (idx : Int) (ot : Nat)
    (hinv : Inv idx ot Lt { upvalue_cache_new with object_tbl_idx := idx }) :
    ∃ N, ∀ fuel, N ≤ fuel → ∃ sf Ls1 fid L1 c1 cr,
      serialize_function cb fuel ⟨.function pf :: rest, hs⟩ = .ok (sf, Ls1) ∧ sf.code = code ∧
      deserialize_function cb H Lt upvalue_cache_new idx sf = .ok (0, some fid, L1, c1) ∧
      L1.stack = .function fid :: Lt.stack ∧
      getClosure L1 fid = some cr ∧ cr.chunk = some code ∧
      cr.upvals.length = cf.upvals.length ∧
      ∀ i u, nth1 cf.upvals i = some u → ∃ u1 w, nth1 cr.upvals i = some u1 ∧
        getUpval L1 u1 = some w ∧ SameValue hs L1 d (cellValue hs u) w := by
  obtain ⟨N, hN⟩ := serialize_function_plain cb hs d pf cf code hc hchunk hcode hvals
  refine ⟨N, fun fuel hf => ?_⟩
  have hslots := upvaluesOf_slots (fun u => treeOf hs d (cellValue hs u)) cf.upvals 1 .null
  simp only [supvalue.slots, List.append_nil] at hslots
  have hperm := upvaluesOf_tableIds (fun u => treeOf hs d (cellValue hs u)) cf.upvals 1 .null
  simp only [supvalue.tableIds, List.append_nil] at hperm
  have hperm2 := hperm.trans (flatten_perm _ (fun u => tableAddrs hs d (cellValue hs u)) cf.upvals
    (fun u _ => treeOf_tableIds hs d (cellValue hs u)))
  obtain ⟨L1, c1, hpush, hs1, hc1, hrec⟩ := push_function_plain cb H idx ot pf code
    (upvaluesOf (fun u => treeOf hs d (cellValue hs u)) 1 cf.upvals .null) cf.upvals.length Lt
    { upvalue_cache_new with object_tbl_idx := idx } hinv hload
    (upvaluesOf_plain _ _ _ _ rfl (fun u hu => treeOf_plain hs d _ (hvals u hu).2.1))
    (by
      rw [supvalue_numbers_eq, hslots, List.map_reverse]
      exact List.nodup_reverse.mpr (slotList_nodup 1 cf.upvals))
    (by
      intro n hn
      rw [supvalue_numbers_eq, hslots, List.map_reverse, List.mem_reverse, List.mem_map] at hn
      obtain ⟨s, hs, rfl⟩ := hn
      obtain ⟨h1, h2, -⟩ := slotList_nth1 cf.upvals 1 s hs
      exact ⟨h1, by omega⟩)
    (by
      rw [hslots, List.map_reverse, slotList_fst]
      exact List.nodup_reverse.mpr hcells)
    (fun i _ => by simp [lookup_upvalue, upvalue_cache_new])
    (hperm2.nodup_iff.mpr htree)
    (fun i _ => by simp [lookup_object, upvalue_cache_new])
    (by
      intro hmem
      have hmem2 := hperm2.mem_iff.mp hmem
      simp only [List.mem_flatten, List.mem_map] at hmem2
      obtain ⟨l, ⟨u, hu, rfl⟩, hpl⟩ := hmem2
      have ht := plainTree_tableAddrs hs d _ (hvals u hu).2.1 pf hpl
      obtain ⟨t, ht⟩ := Option.isSome_iff_exists.mp ht
      rw [getTable_some] at ht
      rw [getClosure_some, ht] at hc
      cases hc)
  refine ⟨_, _, _, L1, c1, _, hN fuel hf rest, rfl, hpush, hs1, hc1, rfl,
    by simp, ?_⟩
  intro i u hi
  have hmem := upvaluesOf_records (fun u => treeOf hs d (cellValue hs u)) cf.upvals 1 .null
    (u, i) (mem_slotList_one cf.upvals i u hi)
  obtain ⟨u1, w, hu1, hw, hB⟩ := hrec _ hmem
  exact ⟨u1, w, hu1, hw,
    Built_treeOf _ hs L1 d _ w (hvals u (by
      unfold nth1 at hi
      split at hi
      · exact List.mem_iff_getElem?.mpr ⟨_, hi⟩
      · cases hi)).2.1 hB⟩

theorem function_roundtrip_witness :
    ∃ N, ∀ fuel, N ≤ fuel → ∃ sf Ls1 fid L1 c1 cr,
      serialize_function ⟨false⟩ fuel ⟨.function 1 :: [], function_heap⟩ = .ok (sf, Ls1) ∧
      sf.code = [1] ∧
      deserialize_function ⟨false⟩ (accepting 2) empty_target upvalue_cache_new 1 sf =
        .ok (0, some fid, L1, c1) ∧
      L1.stack = .function fid :: empty_target.stack ∧
      getClosure L1 fid = some cr ∧ cr.chunk = some [1] ∧
      cr.upvals.length = (Closure.mk (some [1]) [2, 3]).upvals.length ∧
      ∀ i u, nth1 (Closure.mk (some [1]) [2, 3]).upvals i = some u → ∃ u1 w,
        nth1 cr.upvals i = some u1 ∧ getUpval L1 u1 = some w ∧
        SameValue function_heap L1 1 (cellValue function_heap u) w :=
  function_roundtrip ⟨false⟩ (accepting 2) function_heap [] 1 1 ⟨some [1], [2, 3]⟩ [1]
    (by decide) rfl (by decide) (by decide) (by decide) (by decide) rfl
    empty_target 1 1
    (Inv_new 1 1 empty_target (by decide) (by decide) (by decide) (by decide))

theorem serialize_function_self_capture (cb : callbacks) (n : Nat) :
    ∀ rest : List TValue,
      serialize_function cb n ⟨.function 1 :: rest, self_capture_heap⟩ = .error .fuel := by
  induction n using Nat.strong_induction_on with
  | _ n ih =>
    intro rest
    match n with
    | 0 => rfl
    | 1 =>
      simp [serialize_function, dump_function_bytecode, lua_dump, getClosure, deref,
        self_capture_heap, serialize_upvalues, push, lua_pop, bind, Except.bind, pure, Except.pure]
    | 2 =>
      simp [serialize_function, dump_function_bytecode, lua_dump, getClosure, deref,
        self_capture_heap, serialize_upvalues, serialize_upvalues_loop, push, lua_pop, bind,
        Except.bind, pure, Except.pure]
    | 3 =>
      simp [serialize_function, dump_function_bytecode, lua_dump, getClosure, deref,
        self_capture_heap, serialize_upvalues, serialize_upvalues_loop, lua_getupvalue, nth1,
        getUpval, serialize_upvalue, push, lua_pop, bind, Except.bind, pure, Except.pure]
    | 4 =>
      simp [serialize_function, dump_function_bytecode, lua_dump, getClosure, deref,
        self_capture_heap, serialize_upvalues, serialize_upvalues_loop, lua_getupvalue, nth1,
        getUpval, serialize_upvalue, unwrap_collector_maybe, luaL_getmetafield, metatableOf,
        getTable, serialize_object, push, lua_pop, bind, Except.bind, pure, Except.pure]
    | k + 5 =>
      have h := ih k (by omega) (.function 1 :: rest)
      simp [serialize_function, dump_function_bytecode, lua_dump, getClosure, deref,
        self_capture_heap, serialize_upvalues, serialize_upvalues_loop, lua_getupvalue, nth1,
        getUpval, serialize_upvalue, unwrap_collector_maybe, luaL_getmetafield, metatableOf,
        getTable, serialize_object, push, lua_pop, bind, Except.bind, pure, Except.pure]
      simp [self_capture_heap] at h
      rw [h]

/-- C7, the failing input: a function that captures itself through its one
upvalue (a recursive local function). The upvalue holds a function, a supported
kind, but `serialize_function`, which tests no id it has recorded, does not
finish within any recursion bound, so no record is produced and there is
nothing to deserialize. -/
theorem serialize_function_self_capture_diverges :
    getUpval ⟨[.function 1], self_capture_heap⟩ 2 = some (.function 1) ∧
    ∀ (cb : callbacks) (fuel : Nat),
      serialize_function cb fuel ⟨[.function 1], self_capture_heap⟩ = .error .fuel :=
  ⟨by decide, fun cb fuel => serialize_function_self_capture cb fuel []⟩

theorem Tracks_refl (cids uids : List Nat) (c : upvalue_cache) : Tracks cids uids c c :=
  ⟨⟨[], rfl, by simp⟩, ⟨[], rfl, by simp⟩⟩

theorem Tracks_of_eq (cids uids : List Nat) (c c1 : upvalue_cache)
    (h1 : c1.collector_map = c.collector_map) (h2 : c1.upvalue_map = c.upvalue_map) :
    Tracks cids uids c c1 :=
  ⟨⟨[], by simp [h1], by simp⟩, ⟨[], by simp [h2], by simp⟩⟩

theorem Tracks_mono {cids uids cids1 uids1 : List Nat} {c c1 : upvalue_cache}
    (h : Tracks cids1 uids1 c c1) (hc : ∀ x ∈ cids1, x ∈ cids) (hu : ∀ x ∈ uids1, x ∈ uids) :
    Tracks cids uids c c1 := by
  obtain ⟨⟨p1, e1, k1⟩, ⟨q1, f1, l1⟩⟩ := h
  exact ⟨⟨p1, e1, fun m hm => hc _ (k1 m hm)⟩, ⟨q1, f1, fun m hm => hu _ (l1 m hm)⟩⟩

theorem Tracks_comp {cids uids : List Nat} {c c1 c2 : upvalue_cache}
    (h1 : Tracks cids uids c c1) (h2 : Tracks cids uids c1 c2) : Tracks cids uids c c2 := by
  obtain ⟨⟨p1, e1, k1⟩, ⟨q1, f1, l1⟩⟩ := h1
  obtain ⟨⟨p2, e2, k2⟩, ⟨q2, f2, l2⟩⟩ := h2
  refine ⟨⟨p2 ++ p1, by rw [e2, e1, List.append_assoc], ?_⟩,
    ⟨q2 ++ q1, by rw [f2, f1, List.append_assoc], ?_⟩⟩
  · intro m hm
    rcases List.mem_append.mp hm with h | h
    · exact k2 m h
    · exact k1 m h
  · intro m hm
    rcases List.mem_append.mp hm with h | h
    · exact l2 m h
    · exact l1 m h

theorem Tracks_map_collector (c c1 : upvalue_cache) (key oid : Nat) (vk : svalue)
    (h : map_collector c key oid vk = .ok c1) : Tracks [key] [] c c1 := by
  simp only [map_collector, bind_ok, pure_ok] at h
  obtain ⟨v, -, rfl⟩ := h
  exact ⟨⟨[_], rfl, by simp⟩, ⟨[], rfl, by simp⟩⟩

mutual
theorem push_object_tracks (cb : callbacks) (H : Host) :
    ∀ (sv : svalue) (L : lua_State) (c : upvalue_cache) (L1 : lua_State) (c1 : upvalue_cache),
      push_object cb H sv L c = .ok (L1, c1) → Tracks sv.collectorIds sv.upvalueIds c c1
  | .other _, L, c, L1, c1, h => by simp [push_object] at h
  | .boolean _, L, c, L1, c1, h => by
    simp only [push_object, Except.ok.injEq, Prod.mk.injEq] at h
    obtain ⟨-, rfl⟩ := h
    exact Tracks_refl _ _ _
  | .number _, L, c, L1, c1, h => by
    simp only [push_object, Except.ok.injEq, Prod.mk.injEq] at h
    obtain ⟨-, rfl⟩ := h
    exact Tracks_refl _ _ _
  | .string _, L, c, L1, c1, h => by
    simp only [push_object, Except.ok.injEq, Prod.mk.injEq] at h
    obtain ⟨-, rfl⟩ := h
    exact Tracks_refl _ _ _
  | .function f, L, c, L1, c1, h => by
    simp only [push_object, bind_ok] at h
    obtain ⟨⟨found, La⟩, -, h2⟩ := h
    cases found with
    | true =>
      simp only [if_true, pure_ok, Prod.mk.injEq] at h2
      obtain ⟨-, rfl⟩ := h2
      exact Tracks_refl _ _ _
    | false =>
      simp only [Bool.false_eq_true, if_false, bind_ok, pure_ok] at h2
      obtain ⟨⟨r, key, Lb, cb1⟩, h3, h4⟩ := h2
      simp only [Prod.mk.injEq] at h4
      obtain ⟨-, rfl⟩ := h4
      simpa only [svalue.collectorIds, svalue.upvalueIds] using
        push_function_tracks cb H f La c r key Lb cb1 h3
  | .table t, L, c, L1, c1, h => by
    simp only [push_object, bind_ok] at h
    obtain ⟨⟨found, La⟩, -, h2⟩ := h
    cases found with
    | true =>
      simp only [if_true, pure_ok, Prod.mk.injEq] at h2
      obtain ⟨-, rfl⟩ := h2
      exact Tracks_refl _ _ _
    | false =>
      simp only [Bool.false_eq_true, if_false] at h2
      simpa only [svalue.collectorIds, svalue.upvalueIds] using
        push_table_tracks cb H t La c L1 c1 h2
theorem push_table_tracks (cb : callbacks) (H : Host) :
    ∀ (t : stable) (L : lua_State) (c : upvalue_cache) (L1 : lua_State) (c1 : upvalue_cache),
      push_table cb H t L c = .ok (L1, c1) → Tracks t.collectorIds t.upvalueIds c c1
  | .mk tbl_id es, L, c, L1, c1, h => by
    simp only [push_table, bind_ok] at h
    obtain ⟨⟨tid, L2⟩, -, h2⟩ := h
    have := push_table_entries_tracks cb H es tid L2 (map_object c tbl_id tid) L1 c1 h2
    simpa only [stable.collectorIds, stable.upvalueIds] using this
theorem push_table_entries_tracks (cb : callbacks) (H : Host) :
    ∀ (es : stable_entry) (tid : Nat) (L : lua_State) (c : upvalue_cache) (L1 : lua_State)
      (c1 : upvalue_cache),
      push_table_entries cb H es tid L c = .ok (L1, c1) →
      Tracks es.collectorIds es.upvalueIds c c1
  | .null, tid, L, c, L1, c1, h => by
    simp only [push_table_entries, Except.ok.injEq, Prod.mk.injEq] at h
    obtain ⟨-, rfl⟩ := h
    exact Tracks_refl _ _ _
  | .node next key value cid, tid, L, c, L1, c1, h => by
    simp only [push_table_entries, bind_ok] at h
    obtain ⟨⟨La, ca⟩, h1, ⟨Lb, cb1⟩, h2, Lc, -, cd, h4, h5⟩ := h
    have t1 := push_object_tracks cb H key L c La ca h1
    have t2 := push_object_tracks cb H value La ca Lb cb1 h2
    have t3 : Tracks [cid] [] cb1 cd := by
      by_cases hc : cid ≠ 0
      · rw [if_pos hc] at h4
        exact Tracks_map_collector _ _ _ _ _ h4
      · rw [if_neg hc, pure_ok] at h4
        subst h4
        exact Tracks_refl _ _ _
    have t4 := push_table_entries_tracks cb H next tid Lc cd L1 c1 h5
    simp only [stable_entry.collectorIds, stable_entry.upvalueIds]
    exact Tracks_comp (Tracks_comp (Tracks_comp
      (Tracks_mono t1 (by intro x hx; simp [hx]) (by intro x hx; simp [hx]))
      (Tracks_mono t2 (by intro x hx; simp [hx]) (by intro x hx; simp [hx])))
      (Tracks_mono t3 (by intro x hx; simp_all) (by intro x hx; simp at hx)))
      (Tracks_mono t4 (by intro x hx; simp [hx]) (by intro x hx; simp [hx]))
theorem push_function_upvalues_tracks (cb : callbacks) (H : Host) :
    ∀ (ups : supvalue) (fid : Nat) (L : lua_State) (c : upvalue_cache) (L1 : lua_State)
      (c1 : upvalue_cache),
      push_function_upvalues cb H fid ups L c = .ok (L1, c1) →
      Tracks ups.collectorIds ups.upvalueIds c c1
  | .null, fid, L, c, L1, c1, h => by
    simp only [push_function_upvalues, Except.ok.injEq, Prod.mk.injEq] at h
    obtain ⟨-, rfl⟩ := h
    exact Tracks_refl _ _ _
  | .node next uid number value cid, fid, L, c, L1, c1, h => by
    simp only [push_function_upvalues, bind_ok] at h
    obtain ⟨⟨La, ca⟩, h1, h2⟩ := h
    have t2 := push_function_upvalues_tracks cb H next fid La ca L1 c1 h2
    have t1 : Tracks (cid :: value.collectorIds) (uid :: value.upvalueIds) c ca := by
      unfold set_shared_upvalue at h1
      split at h1
      · simp only [bind_ok, pure_ok, Prod.mk.injEq] at h1
        obtain ⟨_, -, _, -, _, -, -, rfl⟩ := h1
        exact Tracks_refl _ _ _
      · simp only [bind_ok] at h1
        obtain ⟨⟨Lb, cb1⟩, h3, h4⟩ := h1
        simp only [set_upvalue, bind_ok] at h3
        obtain ⟨⟨Lc, cc⟩, h5, h6⟩ := h3
        have t0 := push_object_tracks cb H value L c Lc cc h5
        have hcc : cb1 = cc := by
          simp only at h6
          split at h6
          · simp only [pure_ok, Prod.mk.injEq] at h6; exact h6.2.symm
          · cases h6
        subst hcc
        have tm : Tracks [cid] [uid] cb1 (map_upvalue cb1 uid number fid) :=
          ⟨⟨[], rfl, by simp⟩, ⟨[_], rfl, by simp [map_upvalue]⟩⟩
        simp only at h4
        by_cases hc : cid ≠ 0
        · rw [if_pos hc] at h4
          simp only [bind_ok, pure_ok, Prod.mk.injEq] at h4
          obtain ⟨c3, h7, -, rfl⟩ := h4
          have t3 := Tracks_map_collector _ _ _ _ _ h7
          exact Tracks_comp (Tracks_comp
            (Tracks_mono t0 (by intro x hx; simp [hx]) (by intro x hx; simp [hx]))
            (Tracks_mono tm (by intro x hx; simp_all) (by intro x hx; simp_all)))
            (Tracks_mono t3 (by intro x hx; simp_all) (by intro x hx; simp at hx))
        · rw [if_neg hc, pure_ok, Prod.mk.injEq] at h4
          obtain ⟨-, rfl⟩ := h4
          exact Tracks_comp
            (Tracks_mono t0 (by intro x hx; simp [hx]) (by intro x hx; simp [hx]))
            (Tracks_mono tm (by intro x hx; simp_all) (by intro x hx; simp_all))
    simp only [supvalue.collectorIds, supvalue.upvalueIds]
    exact Tracks_comp
      (Tracks_mono t1 (by intro x hx; simp at hx ⊢; tauto) (by intro x hx; simp at hx ⊢; tauto))
      (Tracks_mono t2 (by intro x hx; simp [hx]) (by intro x hx; simp [hx]))
theorem push_function_tracks (cb : callbacks) (H : Host) :
    ∀ (f : sfunction) (L : lua_State) (c : upvalue_cache) (r : Int) (key : Option Nat)
      (L1 : lua_State) (c1 : upvalue_cache),
      push_function cb H f L c = .ok (r, key, L1, c1) →
      Tracks f.collectorIds f.upvalueIds c c1
  | .mk fn_id code ups, L, c, r, key, L1, c1, h => by
    simp only [push_function, bind_ok] at h
    obtain ⟨⟨err, La⟩, -, h2⟩ := h
    simp only at h2
    by_cases he : err ≠ 0
    · rw [if_pos he, pure_ok] at h2
      simp only [Prod.mk.injEq] at h2
      obtain ⟨-, -, -, rfl⟩ := h2
      exact Tracks_refl _ _ _
    · rw [if_neg he] at h2
      simp only [bind_ok, pure_ok, Prod.mk.injEq] at h2
      obtain ⟨⟨fid, Lb⟩, -, ⟨Lc, cc⟩, h4, -, -, -, rfl⟩ := h2
      have := push_function_upvalues_tracks cb H ups fid Lb (map_object c fn_id fid) Lc cc h4
      simpa only [sfunction.collectorIds, sfunction.upvalueIds] using this
end

theorem newest_append (pre : List collector_mapping) (c c1 : upvalue_cache) (cid : Nat)
    (h : c1.collector_map = pre ++ c.collector_map) (hk : ∀ m ∈ pre, m.key ≠ cid) :
    newest c1 cid = newest c cid := by
  unfold newest
  rw [h, List.find?_append]
  have : pre.find? (fun m => decide (m.key = cid)) = none := by
    rw [List.find?_eq_none]
    intro m hm
    simpa using hk m hm
  rw [this]
  rfl

theorem newest_tracks {cids uids : List Nat} {c c1 : upvalue_cache} (h : Tracks cids uids c c1)
    (cid : Nat) (hc : cid ∉ cids) : newest c1 cid = newest c cid := by
  obtain ⟨⟨pre, e, k⟩, -⟩ := h
  exact newest_append pre c c1 cid e (fun m hm hmk => hc (hmk ▸ k m hm))

theorem lookup_upvalue_tracks {cids uids : List Nat} {c c1 : upvalue_cache}
    (h : Tracks cids uids c c1) (id : Nat) (hc : id ∉ uids) :
    lookup_upvalue c1 id = lookup_upvalue c id := by
  obtain ⟨-, ⟨pre, e, k⟩⟩ := h
  unfold lookup_upvalue
  rw [e, List.find?_append]
  have : pre.find? (fun m => decide (m.key = id)) = none := by
    rw [List.find?_eq_none]
    intro m hm
    have : m.key ≠ id := fun hmk => hc (hmk ▸ k m hm)
    simpa using this
  rw [this]
  rfl

theorem supvalue_marks_mem : ∀ (ups : supvalue) (id : Nat) (n : Int) (cid : Nat),
    (id, n, cid) ∈ ups.marks → cid ∈ ups.collectorIds ∧ id ∈ ups.upvalueIds
  | .null, _, _, _, h => by simp [supvalue.marks] at h
  | .node next id1 n1 value cid1, id, n, cid, h => by
    simp only [supvalue.marks, List.mem_cons, Prod.mk.injEq] at h
    simp only [supvalue.collectorIds, supvalue.upvalueIds, List.mem_cons, List.mem_append]
    rcases h with ⟨rfl, -, rfl⟩ | h
    · exact ⟨Or.inl rfl, Or.inl rfl⟩
    · have := supvalue_marks_mem next id n cid h
      exact ⟨Or.inr (Or.inr this.1), Or.inr (Or.inr this.2)⟩

theorem stable_entry_marks_mem : ∀ (es : stable_entry) (key : svalue) (cid : Nat),
    (key, cid) ∈ es.marks → cid ∈ es.collectorIds
  | .null, _, _, h => by simp [stable_entry.marks] at h
  | .node next key1 value cid1, key, cid, h => by
    simp only [stable_entry.marks, List.mem_cons, Prod.mk.injEq] at h
    simp only [stable_entry.collectorIds, List.mem_cons, List.mem_append]
    rcases h with ⟨-, rfl⟩ | h
    · exact Or.inl rfl
    · exact Or.inr (Or.inr (stable_entry_marks_mem next key cid h))

theorem set_shared_upvalue_tracks
    (push_value : lua_State → upvalue_cache → Res (lua_State × upvalue_cache))
    (cv uv : List Nat)
    (hpv : ∀ L c L1 c1, push_value L c = .ok (L1, c1) → Tracks cv uv c c1)
    (fid uid : Nat) (number : Int) (cid : Nat) (L : lua_State) (c : upvalue_cache)
    (La : lua_State) (ca : upvalue_cache)
    (h : set_shared_upvalue push_value fid uid number cid L c = .ok (La, ca)) :
    Tracks (cid :: cv) (uid :: uv) c ca ∧
    (lookup_upvalue c uid = none → cid ≠ 0 →
      newest ca cid = some ⟨cid, fid, .number number⟩) := by
  unfold set_shared_upvalue at h
  split at h
  · rename_i m hm
    simp only [bind_ok, pure_ok, Prod.mk.injEq] at h
    obtain ⟨_, -, _, -, _, -, -, rfl⟩ := h
    exact ⟨Tracks_refl _ _ _, fun hl => by rw [hl] at hm; cases hm⟩
  · simp only [bind_ok] at h
    obtain ⟨⟨Lb, cb1⟩, h3, h4⟩ := h
    simp only [set_upvalue, bind_ok] at h3
    obtain ⟨⟨Lc, cc⟩, h5, h6⟩ := h3
    have t0 := hpv L c Lc cc h5
    have hcc : cb1 = cc := by
      simp only at h6
      split at h6
      · simp only [pure_ok, Prod.mk.injEq] at h6; exact h6.2.symm
      · cases h6
    subst hcc
    have tm : Tracks [cid] [uid] cb1 (map_upvalue cb1 uid number fid) :=
      ⟨⟨[], rfl, by simp⟩, ⟨[_], rfl, by simp [map_upvalue]⟩⟩
    simp only at h4
    by_cases hc : cid ≠ 0
    · rw [if_pos hc] at h4
      simp only [bind_ok, pure_ok, Prod.mk.injEq] at h4
      obtain ⟨c3, h7, -, rfl⟩ := h4
      have t3 := Tracks_map_collector _ _ _ _ _ h7
      refine ⟨Tracks_comp (Tracks_comp
        (Tracks_mono t0 (by intro x hx; simp [hx]) (by intro x hx; simp [hx]))
        (Tracks_mono tm (by intro x hx; simp_all) (by intro x hx; simp_all)))
        (Tracks_mono t3 (by intro x hx; simp_all) (by intro x hx; simp at hx)), ?_⟩
      intro _ _
      simp only [map_collector, copy_value, bind, Except.bind, pure, Except.pure,
        Except.ok.injEq] at h7
      subst h7
      simp [newest]
    · rw [if_neg hc, pure_ok, Prod.mk.injEq] at h4
      obtain ⟨-, rfl⟩ := h4
      exact ⟨Tracks_comp
        (Tracks_mono t0 (by intro x hx; simp [hx]) (by intro x hx; simp [hx]))
        (Tracks_mono tm (by intro x hx; simp_all) (by intro x hx; simp_all)),
        fun _ h0 => absurd h0 hc⟩

theorem count_cons_append_one (x a : Nat) (l1 l2 : List Nat)
    (h : (a :: (l1 ++ l2)).count x = 1) (hx : x ∈ l2) :
    a ≠ x ∧ x ∉ l1 ∧ l2.count x = 1 := by
  have h2 : 0 < l2.count x := List.count_pos_iff.mpr hx
  rw [List.count_cons, List.count_append] at h
  refine ⟨?_, ?_, ?_⟩
  · intro e
    subst e
    simp at h
    omega
  · intro hm
    have := List.count_pos_iff.mpr hm
    split at h <;> omega
  · split at h <;> omega

theorem count_cons_append_head (x : Nat) (l1 l2 : List Nat)
    (h : (x :: (l1 ++ l2)).count x = 1) : x ∉ l1 ∧ x ∉ l2 := by
  rw [List.count_cons, List.count_append] at h
  simp only [beq_self_eq_true, if_true] at h
  constructor
  · intro hm
    have := List.count_pos_iff.mpr hm
    omega
  · intro hm
    have := List.count_pos_iff.mpr hm
    omega

/-- After the upvalue loop of `push_function`, the newest collector-map entry
for a collector id that marks exactly one record, a first-seen upvalue, names
the function and the slot of that record. -/
theorem push_function_upvalues_newest (cb : callbacks) (H : Host) :
    ∀ (ups : supvalue) (fid : Nat) (L : lua_State) (c : upvalue_cache) (L1 : lua_State)
      (c1 : upvalue_cache) (id : Nat) (n : Int) (cid : Nat),
      push_function_upvalues cb H fid ups L c = .ok (L1, c1) →
      (id, n, cid) ∈ ups.marks → cid ≠ 0 → ups.collectorIds.count cid = 1 →
      ups.upvalueIds.count id = 1 → lookup_upvalue c id = none →
      newest c1 cid = some ⟨cid, fid, .number n⟩
  | .null, _, _, _, _, _, _, _, _, _, hm, _, _, _, _ => by simp [supvalue.marks] at hm
  | .node next id1 n1 value cid1, fid, L, c, L1, c1, id, n, cid, h, hm, hc, hcc, hcu, hl => by
    simp only [push_function_upvalues, bind_ok] at h
    obtain ⟨⟨La, ca⟩, h1, h2⟩ := h
    have t2 := push_function_upvalues_tracks cb H next fid La ca L1 c1 h2
    obtain ⟨t1, hnew⟩ := set_shared_upvalue_tracks (push_object cb H value) value.collectorIds
      value.upvalueIds (fun L c L1 c1 hp => push_object_tracks cb H value L c L1 c1 hp)
      fid id1 n1 cid1 L c La ca h1
    simp only [supvalue.marks, List.mem_cons, Prod.mk.injEq] at hm
    simp only [supvalue.collectorIds] at hcc
    simp only [supvalue.upvalueIds] at hcu
    by_cases hin : (id, n, cid) ∈ next.marks
    · obtain ⟨hmc, hmu⟩ := supvalue_marks_mem next id n cid hin
      obtain ⟨hc1, hc2, hc3⟩ := count_cons_append_one cid cid1 _ _ hcc hmc
      obtain ⟨hu1, hu2, hu3⟩ := count_cons_append_one id id1 _ _ hcu hmu
      refine push_function_upvalues_newest cb H next fid La ca L1 c1 id n cid h2 hin hc hc3 hu3 ?_
      rw [lookup_upvalue_tracks t1 id (by
        simp only [List.mem_cons, not_or]
        exact ⟨Ne.symm hu1, hu2⟩)]
      exact hl
    · rcases hm with ⟨rfl, rfl, rfl⟩ | hm
      · obtain ⟨-, hc2⟩ := count_cons_append_head cid _ _ hcc
        rw [newest_tracks t2 cid hc2]
        exact hnew hl hc
      · exact absurd hm hin

theorem push_function_newest (cb : callbacks) (H : Host) (f : sfunction) (L : lua_State)
    (c : upvalue_cache) (r : Int) (fid : Nat) (L1 : lua_State) (c1 : upvalue_cache)
    (id : Nat) (n : Int) (cid : Nat)
    (h : push_function cb H f L c = .ok (r, some fid, L1, c1))
    (hm : (id, n, cid) ∈ f.upvalues.marks) (hc : cid ≠ 0)
    (hcc : f.collectorIds.count cid = 1) (hcu : f.upvalueIds.count id = 1)
    (hl : lookup_upvalue c id = none) :
    newest c1 cid = some ⟨cid, fid, .number n⟩ := by
  cases f with
  | mk fn_id code ups =>
    simp only [push_function, bind_ok] at h
    obtain ⟨⟨err, La⟩, -, h2⟩ := h
    simp only at h2
    by_cases he : err ≠ 0
    · rw [if_pos he, pure_ok] at h2
      simp at h2
    · rw [if_neg he] at h2
      simp only [bind_ok, pure_ok, Prod.mk.injEq, Option.some.injEq] at h2
      obtain ⟨⟨fid1, Lb⟩, -, ⟨Lc, cc⟩, h4, -, rfl, -, rfl⟩ := h2
      exact push_function_upvalues_newest cb H ups fid1 Lb (map_object c fn_id fid1) Lc cc id n
        cid h4 hm hc hcc hcu hl

theorem cstr_cstr (s : List Byte) : cstr (cstr s) = cstr s := by
  induction s with
  | nil => rfl
  | cons b bs ih =>
    by_cases hb : b = 0
    · simp [cstr, hb]
    · simp [cstr, hb, ih]

theorem copy_value_image (key vk : svalue) (h : copy_value key = .ok vk) :
    ∃ k, key.image = some k ∧ vk.image = some k := by
  cases key <;> simp [copy_value] at h <;> subst h
  · exact ⟨_, rfl, rfl⟩
  · exact ⟨_, rfl, rfl⟩
  · exact ⟨_, rfl, by simp [svalue.image, cstr_cstr]⟩

/-- After the entry loop of `push_table`, the newest collector-map entry for a
collector id that marks exactly one entry names the table and a copy of the key
of that entry. -/
theorem push_table_entries_newest (cb : callbacks) (H : Host) :
    ∀ (es : stable_entry) (tid : Nat) (L : lua_State) (c : upvalue_cache) (L1 : lua_State)
      (c1 : upvalue_cache) (key : svalue) (cid : Nat),
      push_table_entries cb H es tid L c = .ok (L1, c1) →
      (key, cid) ∈ es.marks → cid ≠ 0 → es.collectorIds.count cid = 1 →
      ∃ vk, copy_value key = .ok vk ∧ newest c1 cid = some ⟨cid, tid, vk⟩
  | .null, _, _, _, _, _, _, _, _, hm, _, _ => by simp [stable_entry.marks] at hm
  | .node next key1 value cid1, tid, L, c, L1, c1, key, cid, h, hm, hc, hcc => by
    simp only [push_table_entries, bind_ok] at h
    obtain ⟨⟨La, ca⟩, h1, ⟨Lb, cb1⟩, h2, Lc, -, cd, h4, h5⟩ := h
    have t4 := push_table_entries_tracks cb H next tid Lc cd L1 c1 h5
    simp only [stable_entry.marks, List.mem_cons, Prod.mk.injEq] at hm
    simp only [stable_entry.collectorIds] at hcc
    by_cases hin : (key, cid) ∈ next.marks
    · have hmc := stable_entry_marks_mem next key cid hin
      obtain ⟨-, -, hc3⟩ := count_cons_append_one cid cid1 _ _ hcc hmc
      exact push_table_entries_newest cb H next tid Lc cd L1 c1 key cid h5 hin hc hc3
    · rcases hm with ⟨rfl, rfl⟩ | hm
      · obtain ⟨-, hc2⟩ := count_cons_append_head cid _ _ hcc
        rw [if_pos hc] at h4
        simp only [map_collector, bind_ok, pure_ok] at h4
        obtain ⟨vk, hvk, rfl⟩ := h4
        refine ⟨vk, hvk, ?_⟩
        rw [newest_tracks t4 cid hc2]
        simp [newest]
      · exact absurd hm hin

theorem push_table_newest (cb : callbacks) (H : Host) (idx : Int) (ot : Nat) (t : stable)
    (L : lua_State) (c : upvalue_cache) (L1 : lua_State) (c1 : upvalue_cache)
    (key : svalue) (cid : Nat) (hinv : Inv idx ot L c)
    (h : push_table cb H t L c = .ok (L1, c1))
    (hm : (key, cid) ∈ t.entries.marks) (hc : cid ≠ 0) (hcc : t.collectorIds.count cid = 1) :
    ∃ vk, copy_value key = .ok vk ∧ L1.stack = .table (L.heap.length + 1) :: L.stack ∧
      newest c1 cid = some ⟨cid, L.heap.length + 1, vk⟩ := by
  cases t with
  | mk tbl_id es =>
    simp only [push_table, bind_ok] at h
    obtain ⟨⟨tid, L2⟩, h1, h2⟩ := h
    simp only at h2
    obtain ⟨hs0, hlen0, hd0⟩ := lua_newtable_spec L
    have hT0 : getTable (lua_newtable L) (L.heap.length + 1) = some ⟨[], 0⟩ := by
      simp [getTable, hd0]
    obtain ⟨L2a, h1a, hst2, hlen2, hne2, hfetch2, hstep2⟩ :=
      cache_new_object True hinv (lua_newtable L)
        (.table (L.heap.length + 1)) (L.heap.length + 1)
        (Or.inl ⟨rfl, by simp [hT0]⟩) (by omega) hs0 (by omega)
        (fun q hq => by rw [hd0 q, if_neg (by omega)]) tbl_id
    rw [h1a] at h1
    simp only [Except.ok.injEq, Prod.mk.injEq] at h1
    obtain ⟨rfl, rfl⟩ := h1
    have hotle := getTable_isSome_le L ot hinv.host
    have hne : L.heap.length + 1 ≠ ot := by omega
    have hT2 : getTable L2a (L.heap.length + 1) = some ⟨[], 0⟩ := by
      rw [getTable_eq_of_deref (lua_newtable L) L2a _ (hne2 _ hne)]; exact hT0
    obtain ⟨hs1, -⟩ := push_table_entries_inv cb H idx ot es (L.heap.length + 1) L2a
      (map_object c tbl_id (L.heap.length + 1)) L1 c1 L.stack hstep2.inv
      (by rw [hst2, hs0]) hne hfetch2 (by simp [hT2]) h2
    obtain ⟨vk, hvk, hn⟩ := push_table_entries_newest cb H es (L.heap.length + 1) L2a
      (map_object c tbl_id (L.heap.length + 1)) L1 c1 key cid h2 hm hc hcc
    exact ⟨vk, hvk, by rw [hs1, hst2, hs0], hn⟩

theorem push_collected_value_loop_skip (cb : callbacks) (H : Host) (cache : upvalue_cache)
    (cid : Nat) (m : collector_mapping) :
    ∀ (ms : List collector_mapping) (L : lua_State),
      ms.find? (fun m => m.key = cid) = some m →
      push_collected_value_loop cb H cache cid ms L =
        push_collected_value_loop cb H cache cid [m] L ∧ m.key = cid ∧ m ∈ ms := by
  intro ms
  induction ms with
  | nil => intro L h; simp at h
  | cons m1 ms ih =>
    intro L h
    rw [List.find?_cons] at h
    by_cases hk : m1.key = cid
    · simp only [hk, decide_True, Option.some.injEq] at h
      subst h
      exact ⟨by simp [push_collected_value_loop, hk], hk, by simp⟩
    · have hd : decide (m1.key = cid) = false := by simp [hk]
      simp only [hd] at h
      obtain ⟨h1, h2, h3⟩ := ih L h
      refine ⟨?_, h2, by simp [h3]⟩
      rw [← h1]
      simp [push_collected_value_loop, hk]

/-- Retrieval reads the location named by the newest entry for the collector
id: the current value of the upvalue slot of a live function, or the raw lookup
of the copied key in a live table. -/
theorem push_collected_value_newest (cb : callbacks) (H : Host) (idx : Int) (ot : Nat)
    (L : lua_State) (c : upvalue_cache) (cid : Nat) (m : collector_mapping)
    (hinv : Inv idx ot L c) (hn : newest c cid = some m) :
    (∀ n, m.value_key = .number n → (getClosure L m.object_id).isSome →
      ∃ cl u v, getClosure L m.object_id = some cl ∧ nth1 cl.upvals n = some u ∧
        getUpval L u = some v ∧
        push_collected_value cb H L c idx cid = .ok (push L v, c)) ∧
    (∀ T, getTable L m.object_id = some T →
      ∃ k, m.value_key.image = some k ∧
        push_collected_value cb H L c idx cid = .ok (push L (rawgetE T.entries k), c)) := by
  have hcw := cache_with_idx c idx hinv.cidx
  obtain ⟨hskip, hkey, hmem⟩ := push_collected_value_loop_skip cb H c cid m c.collector_map L hn
  have hfetch := fetch_object_eq c L idx ot m.object_id hinv.cidx hinv.pos hinv.le hinv.at_idx
    hinv.host
  have hpc : push_collected_value cb H L c idx cid =
      push_collected_value_loop cb H c cid [m] L := by
    unfold push_collected_value
    simp only [hcw]
    exact hskip
  have hcoll := hinv.colls m hmem
  constructor
  · intro n hvk hcl
    rcases hcoll with ⟨hf, n1, hvk1, cl, u, hcl1, hu, hw⟩ | ⟨hf, hT, -⟩
    · rw [hvk] at hvk1
      simp only [svalue.number.injEq] at hvk1
      subst hvk1
      obtain ⟨v, hv⟩ := Option.isSome_iff_exists.mp hw
      refine ⟨cl, u, v, hcl1, hu, hv, ?_⟩
      rw [hpc]
      have hgu : lua_getupvalue (push L (.function m.object_id)) (-1) n =
          (true, push (push L (.function m.object_id)) v) := by
        have hcl2 : getClosure (push L (.function m.object_id)) m.object_id = some cl := hcl1
        have hv2 : getUpval (push L (.function m.object_id)) u = some v := hv
        rw [lua_getupvalue_top _ m.object_id L.stack cl n rfl hcl2, hu]
        simp only [hv2]
      simp only [push_collected_value_loop, hkey, ne_eq, not_true_eq_false, if_false, hfetch, hf,
        bind, Except.bind, hvk]
      have hif : lua_isfunction (push L (.function m.object_id)) (-1) = true := by
        simp [lua_isfunction, lua_type, push, TValue.type]
      simp only [hif, if_true, hgu, pure, Except.pure]
      simp [push, lua_remove, index2adr]
    · obtain ⟨T, hT⟩ := Option.isSome_iff_exists.mp hT
      obtain ⟨cl, hcl⟩ := Option.isSome_iff_exists.mp hcl
      rw [getTable_some] at hT
      rw [getClosure_some, hT] at hcl
      cases hcl
  · intro T hT
    rcases hcoll with ⟨hf, n1, hvk1, cl, u, hcl1, hu, hw⟩ | ⟨hf, -, hprim⟩
    · rw [getTable_some] at hT
      rw [getClosure_some, hT] at hcl1
      cases hcl1
    · have hif : lua_isfunction ⟨.table m.object_id :: L.stack, L.heap⟩ (-1) = false := by
        simp [lua_isfunction, lua_type, TValue.type, LUA_TTABLE, LUA_TFUNCTION]
      have hit : lua_istable ⟨.table m.object_id :: L.stack, L.heap⟩ (-1) = true := by
        simp [lua_istable, lua_type, TValue.type]
      have hT2 : ∀ k, getTable ⟨k :: .table m.object_id :: L.stack, L.heap⟩ m.object_id =
          some T := fun _ => hT
      rw [hpc]
      cases hk : m.value_key with
      | boolean b =>
        refine ⟨_, rfl, ?_⟩
        simp only [push_collected_value_loop, hkey, ne_eq, not_true_eq_false, if_false, hfetch,
          hf, bind, Except.bind, hif, hit, if_true, Bool.false_eq_true, hk, push_object,
          lua_pushboolean, push, lua_rawget, index_m2, hT2, pure, Except.pure]
        simp [hif, hit, lua_remove, index2adr]
      | number x =>
        refine ⟨_, rfl, ?_⟩
        simp only [push_collected_value_loop, hkey, ne_eq, not_true_eq_false, if_false, hfetch,
          hf, bind, Except.bind, hif, hit, if_true, Bool.false_eq_true, hk, push_object,
          lua_pushnumber, push, lua_rawget, index_m2, hT2, pure, Except.pure]
        simp [hif, hit, lua_remove, index2adr]
      | string s =>
        refine ⟨_, rfl, ?_⟩
        simp only [push_collected_value_loop, hkey, ne_eq, not_true_eq_false, if_false, hfetch,
          hf, bind, Except.bind, hif, hit, if_true, Bool.false_eq_true, hk, push_object,
          lua_pushstring, push, lua_rawget, index_m2, hT2, pure, Except.pure]
        simp [hif, hit, lua_remove, index2adr]
      | other x => rw [hk] at hprim; cases hprim
      | function x => rw [hk] at hprim; cases hprim
      | table x => rw [hk] at hprim; cases hprim

/-- C5 (as amended): let `cid`, not `NULL`, be the identity of a collector
wrapper that marks exactly one record of a value tree.
(1) If that record is a first-seen upvalue record, slot `n`, of a function that
`push_function` (hence `deserialize_function`) rebuilds as `fid`, then in every
later state of the campaign in which `fid` is still a function and no newer
entry for `cid` was added, `push_collected_value` returns and pushes the value
currently held by the cell of slot `n` of `fid`.
(2) If that record is an entry with key `key` of a table that `push_table`
rebuilds, then `key` is a boolean, number or string, the rebuilt table is left
on top of the stack, and in every later state in which it is still a table and
no newer entry for `cid` was added, `push_collected_value` returns and pushes
the raw lookup of the key in that table.
(3) Deserializing a value or a function whose tree does not carry `cid` adds
no entry for `cid`.
A wrapper that marks two locations is bound to the one deserialized last. -/
theorem collector_binding (cb : callbacks) (H : Host) (idx : Int) (ot : Nat) (cid : Nat)
    (hc : cid ≠ 0) :
    (∀ (f : sfunction) (L : lua_State) (c : upvalue_cache) (r : Int) (fid : Nat)
        (L1 : lua_State) (c1 : upvalue_cache) (id : Nat) (n : Int),
      push_function cb H f L c = .ok (r, some fid, L1, c1) →
      (id, n, cid) ∈ f.upvalues.marks → f.collectorIds.count cid = 1 →
      f.upvalueIds.count id = 1 → lookup_upvalue c id = none →
      ∀ (L2 : lua_State) (c2 : upvalue_cache), Inv idx ot L2 c2 →
        (∃ pre, c2.collector_map = pre ++ c1.collector_map ∧ ∀ m ∈ pre, m.key ≠ cid) →
        (getClosure L2 fid).isSome →
        ∃ cl u v, getClosure L2 fid = some cl ∧ nth1 cl.upvals n = some u ∧
          getUpval L2 u = some v ∧
          push_collected_value cb H L2 c2 idx cid = .ok (push L2 v, c2)) ∧
    (∀ (t : stable) (L : lua_State) (c : upvalue_cache) (L1 : lua_State) (c1 : upvalue_cache)
        (key : svalue),
      Inv idx ot L c → push_table cb H t L c = .ok (L1, c1) →
      (key, cid) ∈ t.entries.marks → t.collectorIds.count cid = 1 →
      ∃ k, key.image = some k ∧ L1.stack = .table (L.heap.length + 1) :: L.stack ∧
        ∀ (L2 : lua_State) (c2 : upvalue_cache) (T : Table), Inv idx ot L2 c2 →
          (∃ pre, c2.collector_map = pre ++ c1.collector_map ∧ ∀ m ∈ pre, m.key ≠ cid) →
          getTable L2 (L.heap.length + 1) = some T →
          push_collected_value cb H L2 c2 idx cid =
            .ok (push L2 (rawgetE T.entries k), c2)) ∧
    (∀ (sv : svalue) (L : lua_State) (c : upvalue_cache) (L1 : lua_State) (c1 : upvalue_cache),
      push_object cb H sv L c = .ok (L1, c1) → cid ∉ sv.collectorIds →
      ∃ pre, c1.collector_map = pre ++ c.collector_map ∧ ∀ m ∈ pre, m.key ≠ cid) ∧
    (∀ (f : sfunction) (L : lua_State) (c : upvalue_cache) (r : Int) (key : Option Nat)
        (L1 : lua_State) (c1 : upvalue_cache),
      push_function cb H f L c = .ok (r, key, L1, c1) → cid ∉ f.collectorIds →
      ∃ pre, c1.collector_map = pre ++ c.collector_map ∧ ∀ m ∈ pre, m.key ≠ cid) := by
  refine ⟨?_, ?_, ?_, ?_⟩
  · intro f L c r fid L1 c1 id n h hm hcc hcu hl L2 c2 hinv2 hext hcl
    have hn1 := push_function_newest cb H f L c r fid L1 c1 id n cid h hm hc hcc hcu hl
    obtain ⟨pre, hpre, hk⟩ := hext
    have hn2 : newest c2 cid = some ⟨cid, fid, .number n⟩ := by
      rw [newest_append pre c1 c2 cid hpre hk]; exact hn1
    exact (push_collected_value_newest cb H idx ot L2 c2 cid _ hinv2 hn2).1 n rfl hcl
  · intro t L c L1 c1 key hinv h hm hcc
    obtain ⟨vk, hvk, hs1, hn1⟩ := push_table_newest cb H idx ot t L c L1 c1 key cid hinv h hm hc hcc
    obtain ⟨k, hk1, hk2⟩ := copy_value_image key vk hvk
    refine ⟨k, hk1, hs1, ?_⟩
    intro L2 c2 T hinv2 hext hT
    obtain ⟨pre, hpre, hk⟩ := hext
    have hn2 : newest c2 cid = some ⟨cid, L.heap.length + 1, vk⟩ := by
      rw [newest_append pre c1 c2 cid hpre hk]; exact hn1
    obtain ⟨k2, hk3, hres⟩ :=
      (push_collected_value_newest cb H idx ot L2 c2 cid _ hinv2 hn2).2 T hT
    simp only at hk3
    rw [hk2] at hk3
    cases hk3
    exact hres
  · intro sv L c L1 c1 h hnot
    obtain ⟨⟨pre, e, k⟩, -⟩ := push_object_tracks cb H sv L c L1 c1 h
    exact ⟨pre, e, fun m hm hmk => hnot (hmk ▸ k m hm)⟩
  · intro f L c r key L1 c1 h hnot
    obtain ⟨⟨pre, e, k⟩, -⟩ := push_function_tracks cb H f L c r key L1 c1 h
    exact ⟨pre, e, fun m hm hmk => hnot (hmk ▸ k m hm)⟩

theorem collected_inv : Inv 1 1 collected_state collected_cache := by
  have hslot : SlotOK collected_state 3 1 := ⟨⟨some [1], [2]⟩, 2, by decide, by decide, by decide⟩
  refine ⟨by decide, by decide, by decide, by decide, rfl, ?_, ?_, ?_⟩
  · intro m hm
    simp only [collected_cache, List.mem_singleton] at hm
    subst hm
    exact Or.inr ⟨by decide, by decide⟩
  · intro m hm
    simp only [collected_cache, List.mem_singleton] at hm
    subst hm
    exact ⟨by decide, hslot⟩
  · intro m hm
    simp only [collected_cache, List.mem_singleton] at hm
    subst hm
    exact Or.inl ⟨by decide, 1, rfl, hslot⟩

theorem collector_binding_witness :
    (3 : Nat) ≠ 0 ∧
    ∃ cl u v, getClosure collected_state 3 = some cl ∧ nth1 cl.upvals 1 = some u ∧
      getUpval collected_state u = some v ∧
      push_collected_value ⟨false⟩ (accepting 1) collected_state collected_cache 1 3 =
        .ok (push collected_state v, collected_cache) :=
  ⟨by decide,
    (collector_binding ⟨false⟩ (accepting 1) 1 1 3 (by decide)).1
      (.mk 1 [1] (.node .null 2 1 (.number 0) 3)) empty_target
      { upvalue_cache_new with object_tbl_idx := 1 } 0 3
      ⟨[.function 3, .table 1],
        [.table ⟨[(.lightuserdata 3, .function 3)], 0⟩, .upval (.number 0),
          .closure ⟨some [1], [2]⟩]⟩
      collected_cache 2 1 (by decide) (by decide) (by decide) (by decide) (by decide)
      collected_state collected_cache collected_inv ⟨[], rfl, by simp⟩ (by decide)⟩

/-- C5 (as stated) fails when one wrapper marks two locations: the function is
round-tripped, the rebuilt script assigns 7 to the variable of slot 2, and
`push_collected_value` with the wrapper's identity pushes 0, the value of slot
1, while slot 2 holds 7. -/
theorem push_collected_value_two_locations :
    (do
      let (sf, _) ← serialize_function ⟨false⟩ 10 twice_wrapped_source
      let (_, _, L1, c1) ←
        deserialize_function ⟨false⟩ (accepting 2) empty_target upvalue_cache_new 1 sf
      let L2 := (lua_setupvalue (push L1 (.number 7)) (-2) 2).2
      let (L3, _) ← push_collected_value ⟨false⟩ (accepting 2) L2 c1 1 4
      pure ((lua_getupvalue L2 (-1) 2).2.stack.head?, L3.stack.head?)) =
    .ok (some (.number 7), some (.number 0)) := by
  decide

/-! ## Kinds accepted by `serialize_value` -/

/-- C11: `serialize_value` on a top-level nil, thread, userdata or light
userdata fails its assertion (for every recursion bound no value tree is
produced), and on a boolean, a number or a string it returns the corresponding
node (the string as a C string), leaving the interpreter as it was. -/
theorem serialize_value_kinds (cb : callbacks) (h : List Obj) (rest : List TValue) (v : TValue)
    (n : Nat) :
    match v with
    | .nil | .thread _ | .userdata _ | .lightuserdata _ =>
      serialize_value cb (n + 1) ⟨v :: rest, h⟩ = .error .fatal ∧
      serialize_value cb 0 ⟨v :: rest, h⟩ = .error .fuel
    | .boolean b => serialize_value cb (n + 1) ⟨v :: rest, h⟩ = .ok (.boolean b, ⟨v :: rest, h⟩)
    | .number x => serialize_value cb (n + 1) ⟨v :: rest, h⟩ = .ok (.number x, ⟨v :: rest, h⟩)
    | .string s =>
      serialize_value cb (n + 1) ⟨v :: rest, h⟩ = .ok (.string (cstr s), ⟨v :: rest, h⟩)
    | .table _ | .function _ => True := by
  cases v <;>
    simp [serialize_value, serialize_object, lua_toboolean, lua_tonumber, lua_tostring]

theorem Appends_refl (c : upvalue_cache) : Appends c c :=
  ⟨⟨[], rfl⟩, ⟨[], rfl⟩, ⟨[], rfl⟩⟩

theorem Appends_trans {c c1 c2 : upvalue_cache} (h1 : Appends c c1) (h2 : Appends c1 c2) :
    Appends c c2 := by
  obtain ⟨⟨p1, e1⟩, ⟨q1, f1⟩, ⟨r1, g1⟩⟩ := h1
  obtain ⟨⟨p2, e2⟩, ⟨q2, f2⟩, ⟨r2, g2⟩⟩ := h2
  exact ⟨⟨p2 ++ p1, by rw [e2, e1, List.append_assoc]⟩,
    ⟨q2 ++ q1, by rw [f2, f1, List.append_assoc]⟩,
    ⟨r2 ++ r1, by rw [g2, g1, List.append_assoc]⟩⟩

theorem Appends_map_object (c : upvalue_cache) (key oid : Nat) :
    Appends c (map_object c key oid) :=
  ⟨⟨[_], rfl⟩, ⟨[], rfl⟩, ⟨[], rfl⟩⟩

theorem Appends_map_upvalue (c : upvalue_cache) (id : Nat) (n : Int) (f : Nat) :
    Appends c (map_upvalue c id n f) :=
  ⟨⟨[], rfl⟩, ⟨[_], rfl⟩, ⟨[], rfl⟩⟩

theorem Appends_map_collector (c c1 : upvalue_cache) (key oid : Nat) (vk : svalue)
    (h : map_collector c key oid vk = .ok c1) : Appends c c1 := by
  simp only [map_collector, bind_ok, pure_ok] at h
  obtain ⟨v, -, rfl⟩ := h
  exact ⟨⟨[], rfl⟩, ⟨[], rfl⟩, ⟨[_], rfl⟩⟩

theorem Appends_with_idx (c : upvalue_cache) (idx : Int) :
    Appends c { c with object_tbl_idx := idx } :=
  ⟨⟨[], rfl⟩, ⟨[], rfl⟩, ⟨[], rfl⟩⟩

theorem set_shared_upvalue_appends
    (push_value : lua_State → upvalue_cache → Res (lua_State × upvalue_cache))
    (hpv : ∀ L c L1 c1, push_value L c = .ok (L1, c1) → Appends c c1)
    (fid uid : Nat) (number : Int) (cid : Nat) (L : lua_State) (c : upvalue_cache)
    (La : lua_State) (ca : upvalue_cache)
    (h : set_shared_upvalue push_value fid uid number cid L c = .ok (La, ca)) :
    Appends c ca := by
  unfold set_shared_upvalue at h
  split at h
  · simp only [bind_ok, pure_ok, Prod.mk.injEq] at h
    obtain ⟨_, -, _, -, _, -, -, rfl⟩ := h
    exact Appends_refl _
  · simp only [bind_ok] at h
    obtain ⟨⟨Lb, cb1⟩, h3, h4⟩ := h
    simp only [set_upvalue, bind_ok] at h3
    obtain ⟨⟨Lc, cc⟩, h5, h6⟩ := h3
    have t0 := hpv L c Lc cc h5
    have hcc : cb1 = cc := by
      simp only at h6
      split at h6
      · simp only [pure_ok, Prod.mk.injEq] at h6; exact h6.2.symm
      · cases h6
    subst hcc
    have tm := Appends_map_upvalue cb1 uid number fid
    simp only at h4
    by_cases hc : cid ≠ 0
    · rw [if_pos hc] at h4
      simp only [bind_ok, pure_ok, Prod.mk.injEq] at h4
      obtain ⟨c3, h7, -, rfl⟩ := h4
      exact Appends_trans (Appends_trans t0 tm) (Appends_map_collector _ _ _ _ _ h7)
    · rw [if_neg hc, pure_ok, Prod.mk.injEq] at h4
      obtain ⟨-, rfl⟩ := h4
      exact Appends_trans t0 tm

mutual
theorem push_object_appends (cb : callbacks) (H : Host) :
    ∀ (sv : svalue) (L : lua_State) (c : upvalue_cache) (L1 : lua_State) (c1 : upvalue_cache),
      push_object cb H sv L c = .ok (L1, c1) → Appends c c1
  | .other _, L, c, L1, c1, h => by simp [push_object] at h
  | .boolean _, L, c, L1, c1, h => by
    simp only [push_object, Except.ok.injEq, Prod.mk.injEq] at h
    obtain ⟨-, rfl⟩ := h
    exact Appends_refl _
  | .number _, L, c, L1, c1, h => by
    simp only [push_object, Except.ok.injEq, Prod.mk.injEq] at h
    obtain ⟨-, rfl⟩ := h
    exact Appends_refl _
  | .string _, L, c, L1, c1, h => by
    simp only [push_object, Except.ok.injEq, Prod.mk.injEq] at h
    obtain ⟨-, rfl⟩ := h
    exact Appends_refl _
  | .function f, L, c, L1, c1, h => by
    simp only [push_object, bind_ok] at h
    obtain ⟨⟨found, La⟩, -, h2⟩ := h
    cases found with
    | true =>
      simp only [if_true, pure_ok, Prod.mk.injEq] at h2
      obtain ⟨-, rfl⟩ := h2
      exact Appends_refl _
    | false =>
      simp only [Bool.false_eq_true, if_false, bind_ok, pure_ok] at h2
      obtain ⟨⟨r, key, Lb, cb1⟩, h3, h4⟩ := h2
      simp only [Prod.mk.injEq] at h4
      obtain ⟨-, rfl⟩ := h4
      exact push_function_appends cb H f La c r key Lb cb1 h3
  | .table t, L, c, L1, c1, h => by
    simp only [push_object, bind_ok] at h
    obtain ⟨⟨found, La⟩, -, h2⟩ := h
    cases found with
    | true =>
      simp only [if_true, pure_ok, Prod.mk.injEq] at h2
      obtain ⟨-, rfl⟩ := h2
      exact Appends_refl _
    | false =>
      simp only [Bool.false_eq_true, if_false] at h2
      exact push_table_appends cb H t La c L1 c1 h2
theorem push_table_appends (cb : callbacks) (H : Host) :
    ∀ (t : stable) (L : lua_State) (c : upvalue_cache) (L1 : lua_State) (c1 : upvalue_cache),
      push_table cb H t L c = .ok (L1, c1) → Appends c c1
  | .mk tbl_id es, L, c, L1, c1, h => by
    simp only [push_table, bind_ok] at h
    obtain ⟨⟨tid, L2⟩, -, h2⟩ := h
    exact Appends_trans (Appends_map_object c tbl_id tid)
      (push_table_entries_appends cb H es tid L2 (map_object c tbl_id tid) L1 c1 h2)
theorem push_table_entries_appends (cb : callbacks) (H : Host) :
    ∀ (es : stable_entry) (tid : Nat) (L : lua_State) (c : upvalue_cache) (L1 : lua_State)
      (c1 : upvalue_cache),
      push_table_entries cb H es tid L c = .ok (L1, c1) → Appends c c1
  | .null, tid, L, c, L1, c1, h => by
    simp only [push_table_entries, Except.ok.injEq, Prod.mk.injEq] at h
    obtain ⟨-, rfl⟩ := h
    exact Appends_refl _
  | .node next key value cid, tid, L, c, L1, c1, h => by
    simp only [push_table_entries, bind_ok] at h
    obtain ⟨⟨La, ca⟩, h1, ⟨Lb, cb1⟩, h2, Lc, -, cd, h4, h5⟩ := h
    have t1 := push_object_appends cb H key L c La ca h1
    have t2 := push_object_appends cb H value La ca Lb cb1 h2
    have t3 : Appends cb1 cd := by
      by_cases hc : cid ≠ 0
      · rw [if_pos hc] at h4
        exact Appends_map_collector _ _ _ _ _ h4
      · rw [if_neg hc, pure_ok] at h4
        subst h4
        exact Appends_refl _
    have t4 := push_table_entries_appends cb H next tid Lc cd L1 c1 h5
    exact Appends_trans (Appends_trans (Appends_trans t1 t2) t3) t4
theorem push_function_upvalues_appends (cb : callbacks) (H : Host) :
    ∀ (ups : supvalue) (fid : Nat) (L : lua_State) (c : upvalue_cache) (L1 : lua_State)
      (c1 : upvalue_cache),
      push_function_upvalues cb H fid ups L c = .ok (L1, c1) → Appends c c1
  | .null, fid, L, c, L1, c1, h => by
    simp only [push_function_upvalues, Except.ok.injEq, Prod.mk.injEq] at h
    obtain ⟨-, rfl⟩ := h
    exact Appends_refl _
  | .node next uid number value cid, fid, L, c, L1, c1, h => by
    simp only [push_function_upvalues, bind_ok] at h
    obtain ⟨⟨La, ca⟩, h1, h2⟩ := h
    have t2 := push_function_upvalues_appends cb H next fid La ca L1 c1 h2
    have t1 := set_shared_upvalue_appends (push_object cb H value)
      (fun L c L1 c1 hp => push_object_appends cb H value L c L1 c1 hp)
      fid uid number cid L c La ca h1
    exact Appends_trans t1 t2
theorem push_function_appends (cb : callbacks) (H : Host) :
    ∀ (f : sfunction) (L : lua_State) (c : upvalue_cache) (r : Int) (key : Option Nat)
      (L1 : lua_State) (c1 : upvalue_cache),
      push_function cb H f L c = .ok (r, key, L1, c1) → Appends c c1
  | .mk fn_id code ups, L, c, r, key, L1, c1, h => by
    simp only [push_function, bind_ok] at h
    obtain ⟨⟨err, La⟩, -, h2⟩ := h
    simp only at h2
    by_cases he : err ≠ 0
    · rw [if_pos he, pure_ok] at h2
      simp only [Prod.mk.injEq] at h2
      obtain ⟨-, -, -, rfl⟩ := h2
      exact Appends_refl _
    · rw [if_neg he] at h2
      simp only [bind_ok, pure_ok, Prod.mk.injEq] at h2
      obtain ⟨⟨fid, Lb⟩, -, ⟨Lc, cc⟩, h4, -, -, -, rfl⟩ := h2
      exact Appends_trans (Appends_map_object c fn_id fid)
        (push_function_upvalues_appends cb H ups fid Lb (map_object c fn_id fid) Lc cc h4)
end

theorem push_collected_value_loop_appends (cb : callbacks) (H : Host) (cache : upvalue_cache)
    (cid : Nat) :
    ∀ (ms : List collector_mapping) (L L1 : lua_State) (c1 : upvalue_cache),
      push_collected_value_loop cb H cache cid ms L = .ok (L1, c1) → Appends cache c1 := by
  intro ms
  induction ms with
  | nil =>
    intro L L1 c1 h
    simp only [push_collected_value_loop, Except.ok.injEq, Prod.mk.injEq] at h
    obtain ⟨-, rfl⟩ := h
    exact Appends_refl _
  | cons m ms ih =>
    intro L L1 c1 h
    by_cases hk : m.key ≠ cid
    · simp only [push_collected_value_loop, if_pos hk] at h
      exact ih L L1 c1 h
    · simp only [push_collected_value_loop, if_neg hk, bind_ok] at h
      obtain ⟨La, -, h2⟩ := h
      by_cases hf : lua_isfunction La (-1) = true
      · simp only [hf, if_true] at h2
        split at h2
        · split at h2
          · rename_i n L2 hgu
            simp only [bind, Except.bind, pure, Except.pure] at h2
            cases hr : lua_remove L2 (-2) with
            | error e => rw [hr] at h2; cases h2
            | ok L3 =>
              rw [hr] at h2
              simp only [Except.ok.injEq, Prod.mk.injEq] at h2
              obtain ⟨-, rfl⟩ := h2
              exact Appends_refl _
          · simp [bind, Except.bind] at h2
        · simp [bind, Except.bind] at h2
      · simp only [hf, if_false] at h2
        by_cases ht : lua_istable La (-1) = true
        · simp only [ht, if_true, bind, Except.bind, pure, Except.pure] at h2
          cases hpo : push_object cb H m.value_key La cache with
          | error e => rw [hpo] at h2; cases h2
          | ok r =>
            obtain ⟨Ld, cd⟩ := r
            rw [hpo] at h2
            simp only at h2
            cases hrg : lua_rawget Ld (-2) with
            | error e => rw [hrg] at h2; cases h2
            | ok Le =>
              rw [hrg] at h2
              simp only at h2
              cases hr : lua_remove Le (-2) with
              | error e => rw [hr] at h2; cases h2
              | ok L3 =>
                rw [hr] at h2
                simp only [Except.ok.injEq, Prod.mk.injEq] at h2
                obtain ⟨-, rfl⟩ := h2
                exact push_object_appends cb H _ _ _ _ _ hpo
        · simp only [ht, if_false, bind, Except.bind, pure, Except.pure] at h2
          cases hlf : LOG_FATAL cb with
          | error e => rw [hlf] at h2; cases h2
          | ok u =>
            rw [hlf] at h2
            simp only at h2
            cases hr : lua_remove La (-2) with
            | error e => rw [hr] at h2; cases h2
            | ok L3 =>
              rw [hr] at h2
              simp only [Except.ok.injEq, Prod.mk.injEq] at h2
              obtain ⟨-, rfl⟩ := h2
              exact Appends_refl _

/-- C20: each of `deserialize_value`, `deserialize_function` and
`push_collected_value`, when it returns, leaves every entry of the object-map,
the upvalue-map and the collector-map in place: each map after the call is the
map before the call with the new entries put in front of it. -/
theorem cache_append_only (cb : callbacks) (H : Host) :
    (∀ (L : lua_State) (c : upvalue_cache) (idx : Int) (sv : svalue) (L1 : lua_State)
        (c1 : upvalue_cache),
      deserialize_value cb H L c idx sv = .ok (L1, c1) → Appends c c1) ∧
    (∀ (L : lua_State) (c : upvalue_cache) (idx : Int) (f : sfunction) (r : Int)
        (key : Option Nat) (L1 : lua_State) (c1 : upvalue_cache),
      deserialize_function cb H L c idx f = .ok (r, key, L1, c1) → Appends c c1) ∧
    (∀ (L : lua_State) (c : upvalue_cache) (idx : Int) (cid : Nat) (L1 : lua_State)
        (c1 : upvalue_cache),
      push_collected_value cb H L c idx cid = .ok (L1, c1) → Appends c c1) := by
  refine ⟨?_, ?_, ?_⟩
  · intro L c idx sv L1 c1 h
    exact Appends_trans (Appends_with_idx c idx) (push_object_appends cb H sv L _ L1 c1 h)
  · intro L c idx f r key L1 c1 h
    exact Appends_trans (Appends_with_idx c idx) (push_function_appends cb H f L _ r key L1 c1 h)
  · intro L c idx cid L1 c1 h
    exact Appends_trans (Appends_with_idx c idx)
      (push_collected_value_loop_appends cb H _ cid _ L L1 c1 h)

theorem cache_append_only_witness :
    Appends collected_cache
      { upvalue_map := [{ key := 2, function_id := 3, upvalue_num := 1 }],
        object_map := [{ key := 9, object_id := 4 }, { key := 1, object_id := 3 }],
        collector_map := [{ key := 3, object_id := 3, value_key := .number 1 }],
        object_tbl_idx := 1 } :=
  (cache_append_only ⟨false⟩ (accepting 0)).1
    ⟨[.function 3, .table 1],
      [.table ⟨[(.lightuserdata 3, .function 3)], 0⟩, .upval (.number 0),
        .closure ⟨some [1], [2]⟩]⟩
    collected_cache 1 (.table (.mk 9 .null))
    ⟨[.table 4, .function 3, .table 1],
      [.table ⟨[(.lightuserdata 3, .function 3), (.lightuserdata 4, .table 4)], 0⟩,
        .upval (.number 0), .closure ⟨some [1], [2]⟩, .table ⟨[], 0⟩]⟩
    _ (by decide)

theorem entriesOf_toList (f : TValue → svalue) :
    ∀ (es : List (TValue × TValue)) (head : stable_entry),
      (entriesOf f es head).toList =
        (es.map (fun e => (f e.1, f e.2, 0))).reverse ++ head.toList := by
  intro es
  induction es with
  | nil => intro head; simp [entriesOf]
  | cons e es ih =>
    intro head
    obtain ⟨k, v⟩ := e
    simp [entriesOf, ih, stable_entry.toList]

theorem BuiltEntries_forall2 (lo : Nat) (L : lua_State) :
    ∀ (es : stable_entry) (l : List (TValue × TValue)), BuiltEntries lo L es l →
      List.Forall₂ (fun e w => Built lo L e.1 w.1 ∧ Built lo L e.2.1 w.2) es.toList l
  | .null, l, h => by
    simp only [BuiltEntries] at h
    subst h
    exact List.Forall₂.nil
  | .node next key value cid, l, h => by
    simp only [BuiltEntries] at h
    obtain ⟨kw, vw, l1, rfl, hk, hv, hn⟩ := h
    exact List.Forall₂.cons ⟨hk, hv⟩ (BuiltEntries_forall2 lo L next l1 hn)

theorem forall2_imp_mem {α β : Type} {R S : α → β → Prop} :
    ∀ {l1 : List α} {l2 : List β}, List.Forall₂ R l1 l2 →
      (∀ a ∈ l1, ∀ b, R a b → S a b) → List.Forall₂ S l1 l2 := by
  intro l1 l2 h
  induction h with
  | nil => intro _; exact List.Forall₂.nil
  | cons hab _ ih =>
    intro himp
    exact List.Forall₂.cons (himp _ (by simp) _ hab)
      (ih (fun a ha b hr => himp a (by simp [ha]) b hr))

theorem serialize_table_plain (cb : callbacks) (h : List Obj) (d p : Nat) (t : Table)
    (hplain : plainTree h (d + 1) (.table p) = true) (ht : getTable ⟨[], h⟩ p = some t) :
    ∃ N, ∀ fuel, N ≤ fuel → ∀ rest,
      serialize_table cb fuel ⟨.table p :: rest, h⟩ =
        .ok (.mk p (entriesOf (treeOf h d) t.entries .null), ⟨.table p :: rest, h⟩) := by
  obtain ⟨N, hN⟩ := serialize_object_plain cb h (d + 1) (.table p) hplain
  refine ⟨N, fun fuel hf rest => ?_⟩
  have h1 := hN (fuel + 1) (by omega) rest
  rw [treeOf_table h d p t ht] at h1
  simp only [serialize_object, index_m1, bind_ok, pure_ok, Prod.mk.injEq, svalue.table.injEq] at h1
  obtain ⟨⟨st, L1⟩, h2, rfl, rfl⟩ := h1
  exact h2

/-- C19 (as amended): for a plain, tree-shaped live table `p`, with enough
recursion depth `serialize_table` returns an entry list that holds the entries
of `p` in the reverse of the order in which `lua_next` yields them (every new
entry is put in front of the list), and `push_table` inserts the entries into
the rebuilt table in the order of that list: the entries of the rebuilt table,
in insertion order, are the entries of `p` in reverse iteration order. -/
theorem table_entry_order (cb : callbacks) (H : Host) (hs : List Obj) (rest : List TValue)
    (d p : Nat) (t : Table) (hplain : plainTree hs (d + 1) (.table p) = true)
    (ht : getTable ⟨[], hs⟩ p = some t)
    (htree : (tableAddrs hs (d + 1) (.table p)).Nodup)
    (Lt : lua_State) (cache : upvalue_cache) (idx : Int) (ot : Nat)
    (hinv : Inv idx ot Lt cache)
    (hnew : ∀ i ∈ tableAddrs hs (d + 1) (.table p), lookup_object cache i = none) :
    ∃ N, ∀ fuel, N ≤ fuel → ∃ st L1 c1 q T,
      serialize_table cb fuel ⟨.table p :: rest, hs⟩ = .ok (st, ⟨.table p :: rest, hs⟩) ∧
      st.entries.toList =
        (t.entries.map (fun e => (treeOf hs d e.1, treeOf hs d e.2, 0))).reverse ∧
      push_table cb H st Lt cache = .ok (L1, c1) ∧
      L1.stack = .table q :: Lt.stack ∧ getTable L1 q = some T ∧
      List.Forall₂ (fun e w => SameValue hs L1 d e.1 w.1 ∧ SameValue hs L1 d e.2 w.2)
        t.entries.reverse T.entries := by
  obtain ⟨N, hN⟩ := serialize_table_plain cb hs d p t hplain ht
  refine ⟨N, fun fuel hf => ?_⟩
  have hperm := treeOf_tableIds hs (d + 1) (.table p)
  have hpl := treeOf_plain hs (d + 1) (.table p) hplain
  rw [treeOf_table hs d p t ht] at hperm hpl
  simp only [svalue.tableIds] at hperm
  simp only [svalue.plain] at hpl
  obtain ⟨L1, c1, w, h1, hs1, hB, -⟩ := push_table_plain cb H idx ot
    (.mk p (entriesOf (treeOf hs d) t.entries .null)) Lt cache hinv hpl
    (hperm.nodup_iff.mpr htree) (fun i hi => hnew i (hperm.mem_iff.mp hi))
  simp only [BuiltTable] at hB
  obtain ⟨q, T, rfl, -, hT, -, hBE⟩ := hB
  have hall := (plainTree_table hs d p hplain)
  obtain ⟨t1, ht1, -, hall⟩ := hall
  rw [ht] at ht1
  cases ht1
  have hf2 := BuiltEntries_forall2 _ L1 _ _ hBE
  rw [entriesOf_toList] at hf2
  simp only [stable_entry.toList, List.append_nil, ← List.map_reverse] at hf2
  rw [List.forall₂_map_left_iff] at hf2
  refine ⟨_, L1, c1, q, T, hN fuel hf rest, ?_, h1, hs1, hT, ?_⟩
  · simp only [stable.entries, entriesOf_toList, stable_entry.toList, List.append_nil]
  · refine forall2_imp_mem hf2 ?_
    intro e he w hw
    have hmem : e ∈ t.entries := List.mem_reverse.mp he
    exact ⟨Built_treeOf _ hs L1 d e.1 w.1 (hall e hmem).1 hw.1,
      Built_treeOf _ hs L1 d e.2 w.2 (hall e hmem).2.1 hw.2⟩

theorem table_entry_order_witness :
    ∃ N, ∀ fuel, N ≤ fuel → ∃ st L1 c1 q T,
      serialize_table ⟨false⟩ fuel ⟨.table 1 :: [], two_entries_heap⟩ =
        .ok (st, ⟨.table 1 :: [], two_entries_heap⟩) ∧
      st.entries.toList =
        ((Table.mk [(.number 1, .boolean true), (.number 2, .boolean false)] 0).entries.map
          (fun e => (treeOf two_entries_heap 0 e.1, treeOf two_entries_heap 0 e.2, 0))).reverse ∧
      push_table ⟨false⟩ (accepting 0) st empty_target
        { upvalue_cache_new with object_tbl_idx := 1 } = .ok (L1, c1) ∧
      L1.stack = .table q :: empty_target.stack ∧ getTable L1 q = some T ∧
      List.Forall₂
        (fun e w => SameValue two_entries_heap L1 0 e.1 w.1 ∧ SameValue two_entries_heap L1 0 e.2 w.2)
        (Table.mk [(.number 1, .boolean true), (.number 2, .boolean false)] 0).entries.reverse
        T.entries :=
  table_entry_order ⟨false⟩ (accepting 0) two_entries_heap [] 0 1
    ⟨[(.number 1, .boolean true), (.number 2, .boolean false)], 0⟩ (by decide) (by decide)
    (by decide) empty_target { upvalue_cache_new with object_tbl_idx := 1 } 1 1
    (Inv_new 1 1 empty_target (by decide) (by decide) (by decide) (by decide)) (by decide)

/-- C19 (as stated) fails: for the table whose iteration yields `[1] = true`
and then `[2] = false`, the emitted entry list starts with the entry of key 2. -/
theorem serialize_table_reverses :
    serialize_table ⟨false⟩ 10 ⟨[.table 1], two_entries_heap⟩ =
      .ok (.mk 1 (.node (.node .null (.number 1) (.boolean true) 0) (.number 2) (.boolean false) 0),
        ⟨[.table 1], two_entries_heap⟩) := by
  decide

/-! ## Event dispatch -/

theorem events_from_spec (branch : Nat → Option Hook) (t : thread) :
    ∀ (evs : List epoll_event) (i : Nat),
      (events_from branch t i evs).1 =
        (if evs.any (fun e => e.data.fd = t.stop_efd) then { t with stop := 1 } else t) ∧
      (events_from branch t i evs).2 =
        ((evs.takeWhile (fun e => e.data.fd ≠ t.stop_efd)).enumFrom i).map
          (fun ie => .hook ie.1 (branch ie.2.events)) := by
  intro evs
  induction evs with
  | nil => intro i; simp [events_from]
  | cons e es ih =>
    intro i
    by_cases hfd : e.data.fd = t.stop_efd
    · simp [events_from, hfd]
    · obtain ⟨h1, h2⟩ := ih (i + 1)
      constructor
      · simp [events_from, hfd, h1]
      · simp [events_from, hfd, h2, List.enumFrom_cons]

/-- C12 (as amended): for an event that does not refer to the stop
descriptor exactly one branch is taken, the first that matches: in
`client_events` the mask is inspected in the order output, input, priority, in
`server_events` in the order input, output, priority; an event with none of
the three takes no branch. In particular an event with both input and output
readiness takes the sendmsg branch in the client and the recvmsg branch in the
server. -/
theorem event_branch_order (t : thread) (e : epoll_event) (hfd : e.data.fd ≠ t.stop_efd) :
    (∃ b, client_events t [e] 1 = (t, [.hook 0 b]) ∧
      (e.events &&& EPOLLOUT ≠ 0 → b = some .sendmsg) ∧
      (e.events &&& EPOLLOUT = 0 → e.events &&& EPOLLIN ≠ 0 → b = some .recvmsg) ∧
      (e.events &&& EPOLLOUT = 0 → e.events &&& EPOLLIN = 0 → e.events &&& EPOLLPRI ≠ 0 →
        b = some .recverr) ∧
      (e.events &&& EPOLLOUT = 0 → e.events &&& EPOLLIN = 0 → e.events &&& EPOLLPRI = 0 →
        b = none)) ∧
    (∃ b, server_events t [e] 1 = (t, [.hook 0 b]) ∧
      (e.events &&& EPOLLIN ≠ 0 → b = some .recvmsg) ∧
      (e.events &&& EPOLLIN = 0 → e.events &&& EPOLLOUT ≠ 0 → b = some .sendmsg) ∧
      (e.events &&& EPOLLIN = 0 → e.events &&& EPOLLOUT = 0 → e.events &&& EPOLLPRI ≠ 0 →
        b = some .recverr) ∧
      (e.events &&& EPOLLIN = 0 → e.events &&& EPOLLOUT = 0 → e.events &&& EPOLLPRI = 0 →
        b = none)) := by
  constructor
  · refine ⟨client_branch e.events, by simp [client_events, events_from, hfd], ?_, ?_, ?_, ?_⟩
    · intro h1; simp [client_branch, h1]
    · intro h1 h2; simp [client_branch, h1, h2]
    · intro h1 h2 h3; simp [client_branch, h1, h2, h3]
    · intro h1 h2 h3; simp [client_branch, h1, h2, h3]
  · refine ⟨server_branch e.events, by simp [server_events, events_from, hfd], ?_, ?_, ?_, ?_⟩
    · intro h1; simp [server_branch, h1]
    · intro h1 h2; simp [server_branch, h1, h2]
    · intro h1 h2 h3; simp [server_branch, h1, h2, h3]
    · intro h1 h2 h3; simp [server_branch, h1, h2, h3]

theorem event_branch_order_witness :
    (∃ b, client_events ⟨3, 0⟩ [⟨EPOLLIN ||| EPOLLOUT, ⟨7⟩⟩] 1 = (⟨3, 0⟩, [.hook 0 b]) ∧
      ((EPOLLIN ||| EPOLLOUT) &&& EPOLLOUT ≠ 0 → b = some .sendmsg) ∧
      ((EPOLLIN ||| EPOLLOUT) &&& EPOLLOUT = 0 → (EPOLLIN ||| EPOLLOUT) &&& EPOLLIN ≠ 0 →
        b = some .recvmsg) ∧
      ((EPOLLIN ||| EPOLLOUT) &&& EPOLLOUT = 0 → (EPOLLIN ||| EPOLLOUT) &&& EPOLLIN = 0 →
        (EPOLLIN ||| EPOLLOUT) &&& EPOLLPRI ≠ 0 → b = some .recverr) ∧
      ((EPOLLIN ||| EPOLLOUT) &&& EPOLLOUT = 0 → (EPOLLIN ||| EPOLLOUT) &&& EPOLLIN = 0 →
        (EPOLLIN ||| EPOLLOUT) &&& EPOLLPRI = 0 → b = none)) ∧
    (∃ b, server_events ⟨3, 0⟩ [⟨EPOLLIN ||| EPOLLOUT, ⟨7⟩⟩] 1 = (⟨3, 0⟩, [.hook 0 b]) ∧
      ((EPOLLIN ||| EPOLLOUT) &&& EPOLLIN ≠ 0 → b = some .recvmsg) ∧
      ((EPOLLIN ||| EPOLLOUT) &&& EPOLLIN = 0 → (EPOLLIN ||| EPOLLOUT) &&& EPOLLOUT ≠ 0 →
        b = some .sendmsg) ∧
      ((EPOLLIN ||| EPOLLOUT) &&& EPOLLIN = 0 → (EPOLLIN ||| EPOLLOUT) &&& EPOLLOUT = 0 →
        (EPOLLIN ||| EPOLLOUT) &&& EPOLLPRI ≠ 0 → b = some .recverr) ∧
      ((EPOLLIN ||| EPOLLOUT) &&& EPOLLIN = 0 → (EPOLLIN ||| EPOLLOUT) &&& EPOLLOUT = 0 →
        (EPOLLIN ||| EPOLLOUT) &&& EPOLLPRI = 0 → b = none)) :=
  event_branch_order ⟨3, 0⟩ ⟨EPOLLIN ||| EPOLLOUT, ⟨7⟩⟩ (by decide)

/-- C12 (as stated) fails in the client: an event with both input and output
readiness, on a flow other than the stop flow, takes the sendmsg branch of
`client_events`, not the recvmsg branch. -/
theorem client_events_output_first :
    client_events ⟨3, 0⟩ [⟨EPOLLIN ||| EPOLLOUT, ⟨7⟩⟩] 1 = (⟨3, 0⟩, [.hook 0 (some .sendmsg)]) := by
  decide

/-- C13: `client_events` and `server_events` handle the first `nfds` events of
the array in order. The stop flag is set exactly when one of them refers to a
flow whose descriptor is the stop eventfd (otherwise the thread record is
unchanged); the events before the first such event are dispatched, one branch
each, in order, and no event at or after it is dispatched. -/
theorem events_batch (t : thread) (events : List epoll_event) (nfds : Int) :
    (client_events t events nfds).1 =
      (if (events.take nfds.toNat).any (fun e => e.data.fd = t.stop_efd)
        then { t with stop := 1 } else t) ∧
    (client_events t events nfds).2 =
      (((events.take nfds.toNat).takeWhile (fun e => e.data.fd ≠ t.stop_efd)).enum).map
        (fun ie => .hook ie.1 (client_branch ie.2.events)) ∧
    (server_events t events nfds).1 =
      (if (events.take nfds.toNat).any (fun e => e.data.fd = t.stop_efd)
        then { t with stop := 1 } else t) ∧
    (server_events t events nfds).2 =
      (((events.take nfds.toNat).takeWhile (fun e => e.data.fd ≠ t.stop_efd)).enum).map
        (fun ie => .hook ie.1 (server_branch ie.2.events)) := by
  obtain ⟨h1, h2⟩ := events_from_spec client_branch t (events.take nfds.toNat) 0
  obtain ⟨h3, h4⟩ := events_from_spec server_branch t (events.take nfds.toNat) 0
  exact ⟨h1, h2, h3, h4⟩

/-! ## The main loop -/

/-- C14: in the main loop of `run_client` and of `run_server`, with the stop
flag clear, a wait that returns -1 with `errno` `EINTR` is followed by the next
iteration from the same thread record and the same array of events, nothing
being dispatched; a wait that returns -1 with another `errno` is followed by
the `PLOG_FATAL` diagnostic, nothing being dispatched, and the worker ends
there (the sink of `PLOG_FATAL` ending the process). -/
theorem main_loop_wait_failure (cb : callbacks) (opts : options) (queue : List WaitResult)
    (events : List epoll_event) (t : thread) (errno : Int)
    (hstop : t.stop = 0) (hmax : 0 < opts.maxevents) (hsink : cb.log_fatal_returns = false)
    (herr : errno ≠ EINTR) :
    main_loop client_events cb opts (.failed EINTR :: queue) events t =
      Run.after [.epoll_wait opts.maxevents (if opts.nonblocking then 10 else -1)]
        (main_loop client_events cb opts queue events t) ∧
    main_loop server_events cb opts (.failed EINTR :: queue) events t =
      Run.after [.epoll_wait opts.maxevents (if opts.nonblocking then 10 else -1)]
        (main_loop server_events cb opts queue events t) ∧
    main_loop client_events cb opts (.failed errno :: queue) events t =
      ⟨t, [.epoll_wait opts.maxevents (if opts.nonblocking then 10 else -1),
        .plog_fatal .epoll_wait], .fatal⟩ ∧
    main_loop server_events cb opts (.failed errno :: queue) events t =
      ⟨t, [.epoll_wait opts.maxevents (if opts.nonblocking then 10 else -1),
        .plog_fatal .epoll_wait], .fatal⟩ := by
  have hm : ¬ ¬ 0 < opts.maxevents := not_not.mpr hmax
  refine ⟨?_, ?_, ?_, ?_⟩ <;>
    simp [main_loop, hstop, hmax, herr, PLOG_FATAL, LOG_FATAL, hsink]

theorem main_loop_wait_failure_witness :
    main_loop client_events ⟨false⟩ ⟨10, 1000, 1, 1, true, 1, 1, 65536, 128, 1, 0, 0, none, false⟩
        (.failed EINTR :: []) [] ⟨3, 0⟩ =
      Run.after [.epoll_wait 1000 (if false then 10 else -1)]
        (main_loop client_events ⟨false⟩
          ⟨10, 1000, 1, 1, true, 1, 1, 65536, 128, 1, 0, 0, none, false⟩ [] [] ⟨3, 0⟩) ∧
    main_loop server_events ⟨false⟩ ⟨10, 1000, 1, 1, true, 1, 1, 65536, 128, 1, 0, 0, none, false⟩
        (.failed EINTR :: []) [] ⟨3, 0⟩ =
      Run.after [.epoll_wait 1000 (if false then 10 else -1)]
        (main_loop server_events ⟨false⟩
          ⟨10, 1000, 1, 1, true, 1, 1, 65536, 128, 1, 0, 0, none, false⟩ [] [] ⟨3, 0⟩) ∧
    main_loop client_events ⟨false⟩ ⟨10, 1000, 1, 1, true, 1, 1, 65536, 128, 1, 0, 0, none, false⟩
        (.failed 9 :: []) [] ⟨3, 0⟩ =
      ⟨⟨3, 0⟩, [.epoll_wait 1000 (if false then 10 else -1), .plog_fatal .epoll_wait], .fatal⟩ ∧
    main_loop server_events ⟨false⟩ ⟨10, 1000, 1, 1, true, 1, 1, 65536, 128, 1, 0, 0, none, false⟩
        (.failed 9 :: []) [] ⟨3, 0⟩ =
      ⟨⟨3, 0⟩, [.epoll_wait 1000 (if false then 10 else -1), .plog_fatal .epoll_wait], .fatal⟩ :=
  main_loop_wait_failure ⟨false⟩ ⟨10, 1000, 1, 1, true, 1, 1, 65536, 128, 1, 0, 0, none, false⟩
    [] [] ⟨3, 0⟩ 9 rfl (by decide) rfl (by decide)

theorem handle_no_wait (branch : Nat → Option Hook) (t : thread) :
    ∀ (evs : List epoll_event) (i : Nat) (m ms : Int),
      Action.epoll_wait m ms ∉ (events_from branch t i evs).2 := by
  intro evs i m ms
  rw [(events_from_spec branch t evs i).2]
  simp

theorem main_loop_waits (handle : thread → List epoll_event → Int → thread × List Action)
    (hh : ∀ t evs n m ms, Action.epoll_wait m ms ∉ (handle t evs n).2)
    (cb : callbacks) (opts : options) :
    ∀ (queue : List WaitResult) (events : List epoll_event) (t : thread) (m ms : Int),
      Action.epoll_wait m ms ∈ (main_loop handle cb opts queue events t).trace →
      m = opts.maxevents ∧ ms = (if opts.nonblocking then 10 else -1) := by
  intro queue
  induction queue with
  | nil =>
    intro events t m ms h
    simp only [main_loop] at h
    split at h
    · simp at h
    · split at h <;> simpa using h
  | cons r queue ih =>
    intro events t m ms h
    simp only [main_loop] at h
    split at h
    · simp at h
    · split at h
      · simpa using h
      · split at h
        · split at h
          · simp only [Run.after, List.singleton_append, List.mem_cons, Action.epoll_wait.injEq] at h
            rcases h with h | h
            · exact h
            · exact ih _ _ _ _ h
          · split at h
            · simpa using h
            · simp only [Run.after, List.cons_append, List.mem_cons, Action.epoll_wait.injEq,
                List.mem_append, reduceCtorEq, false_or] at h
              rcases h with h | h | h
              · exact h
              · exact absurd h (hh _ _ _ _ _)
              · exact ih _ _ _ _ h
        · simp only [Run.after, List.cons_append, List.mem_cons, Action.epoll_wait.injEq,
            List.mem_append] at h
          rcases h with h | h | h
          · exact h
          · exact absurd h (hh _ _ _ _ _)
          · exact ih _ _ _ _ h

/-- C15: every multiplexer wait in a run of `run_client` or of `run_server`
is given the configured `maxevents` as the capacity of the array of events
and, as its timeout, 10 milliseconds when `nonblocking` is set and -1
(infinite) otherwise. -/
theorem wait_arguments (cb : callbacks) (opts : options) (flows : Nat) (epfd : Int)
    (queue : List WaitResult) (t : thread) (m ms : Int)
    (h : Action.epoll_wait m ms ∈ (run_client cb opts flows epfd queue t).trace ∨
      Action.epoll_wait m ms ∈ (run_server cb opts epfd queue t).trace) :
    m = opts.maxevents ∧ ms = (if opts.nonblocking then 10 else -1) := by
  have hc : ∀ t evs n m ms, Action.epoll_wait m ms ∉ (client_events t evs n).2 :=
    fun t evs n m ms => handle_no_wait client_branch t _ 0 m ms
  have hs : ∀ t evs n m ms, Action.epoll_wait m ms ∉ (server_events t evs n).2 :=
    fun t evs n m ms => handle_no_wait server_branch t _ 0 m ms
  have key : ∀ handle, (∀ t evs n m ms, Action.epoll_wait m ms ∉ (handle t evs n).2) →
      ∀ connects, (∀ a ∈ connects, a = Action.script_init_hook (-1)) →
      Action.epoll_wait m ms ∈ (run_worker handle cb opts connects epfd queue t).trace →
      m = opts.maxevents ∧ ms = (if opts.nonblocking then 10 else -1) := by
    intro handle hh connects hcon hmem
    have hml := main_loop_waits handle hh cb opts queue
      (List.replicate opts.maxevents.toNat ⟨0, ⟨0⟩⟩) t m ms
    unfold run_worker at hmem
    simp only at hmem
    split at hmem
    · simp at hmem
    · split at hmem
      · simp only [Run.after, List.mem_append, List.mem_cons, List.mem_singleton, reduceCtorEq,
          List.not_mem_nil, or_false, false_or] at hmem
        rcases hmem with (h1 | h1) | h1
        · split at h1 <;> simp at h1
        · have := hcon _ h1; cases this
        · exact hml h1
      · simp only [Run.after, List.mem_append, List.mem_cons, List.mem_singleton, reduceCtorEq,
          List.not_mem_nil, or_false, false_or] at hmem
        rcases hmem with (h1 | h1) | h1
        · split at h1 <;> simp at h1
        · have := hcon _ h1; cases this
        · exact hml h1
  rcases h with h | h
  · exact key client_events hc _ (fun a ha => List.eq_of_mem_replicate ha) h
  · unfold run_server at h
    split at h
    · simp at h
    · simp only [Run.after, List.singleton_append, List.mem_cons, reduceCtorEq, false_or] at h
      exact key server_events hs [] (by simp) h

theorem wait_arguments_witness :
    (1000 : Int) = (options.mk 10 1000 1 1 true 1 1 65536 128 1 0 0 none true).maxevents ∧
      (10 : Int) =
        (if (options.mk 10 1000 1 1 true 1 1 65536 128 1 0 0 none true).nonblocking
          then 10 else -1) :=
  wait_arguments ⟨false⟩ ⟨10, 1000, 1, 1, true, 1, 1, 65536, 128, 1, 0, 0, none, true⟩ 1 5
    [.ready [⟨EPOLLIN, ⟨3⟩⟩]] ⟨3, 0⟩ 1000 10 (Or.inl (by decide))

theorem CHECK_true (cb : callbacks) (c : Bool) (h : c = true) : CHECK cb c = .ok () := by
  simp [CHECK, h]

theorem CHECK_false (cb : callbacks) (c : Bool) (hs : cb.log_fatal_returns = false)
    (h : c = false) : CHECK cb c = .error .fatal := by
  simp [CHECK, h, LOG_FATAL, hs]

theorem CHECK_ok_iff (cb : callbacks) (c : Bool) (hs : cb.log_fatal_returns = false) :
    CHECK cb c = .ok () ↔ c = true := by
  cases c <;> simp [CHECK, LOG_FATAL, hs]

theorem bind_unit_ok (x : Res Unit) (f : Unit → Res Unit) :
    (x >>= f) = .ok () ↔ x = .ok () ∧ f () = .ok () := by
  cases x with
  | error e => simp [bind, Except.bind]
  | ok u => simp [bind, Except.bind]

theorem res_unit_cases (x : Res Unit) (cb : callbacks) (hs : cb.log_fatal_returns = false)
    (c : Bool) (h : x = CHECK cb c) : x = .ok () ∨ x = .error .fatal := by
  subst h
  cases c
  · exact Or.inr (CHECK_false cb false hs rfl)
  · exact Or.inl (CHECK_true cb true rfl)

/-- With a sink of `LOG_FATAL` that ends the process, `check_options` returns
exactly for the valid records; the `int` `min_rto` lies in the range of `int`. -/
theorem check_options_ok_iff (cb : callbacks) (opts : options) (somaxconn : Int)
    (hs : cb.log_fatal_returns = false) (hint : opts.min_rto < 2 ^ 31) :
    check_options cb opts somaxconn = .ok () ↔ options_valid opts somaxconn := by
  have hcl : (if opts.client then CHECK cb (decide (opts.num_flows ≥ opts.num_threads))
      else pure ()) = .ok () ↔ (opts.client = true → opts.num_flows ≥ opts.num_threads) := by
    cases hc : opts.client
    · simp [pure, Except.pure]
    · simp [CHECK_ok_iff cb _ hs]
  have hrto : opts.min_rto ≥ 0 →
      (opts.min_rto % 2 ^ 32 < (2 ^ 31 % 2 ^ 32) / 1000000 ↔ opts.min_rto < 2147) := by
    intro h0
    rw [Int.emod_eq_of_lt h0 (by omega)]
    norm_num
  unfold check_options options_valid other_rules flows_rule backlog_rule pacing_rule
  simp only [bind_unit_ok, CHECK_ok_iff cb _ hs, decide_eq_true_eq, Bool.or_eq_true,
    Option.isNone_iff_eq_none, UINT32_MAX]
  constructor
  · rintro ⟨h1, h2, h3, h4, h5, h6, h7, h8, h9, h10, h11, h12, h13, h14, h15⟩
    exact ⟨⟨h1, h2, h3, h4, h6, h7, h8, h9, (hrto h9).mp h10, h13, h14⟩, hcl.mp h5, h15, h11,
      by omega⟩
  · rintro ⟨⟨h1, h2, h3, h4, h6, h7, h8, h9, h10, h13, h14⟩, h5, h15, h11, h12⟩
    exact ⟨h1, h2, h3, h4, hcl.mpr h5, h6, h7, h8, h9, (hrto h9).mpr h10, h11, by omega, h13, h14,
      h15⟩

/-- C17: the flag defaults defined in `main` pass `check_options`, with
`client` unset and with `client` set, whenever `SOMAXCONN` is at least 128. -/
theorem defaults_accepted (cb : callbacks) (client : Bool) (somaxconn : Int)
    (h : 128 ≤ somaxconn) :
    check_options cb (default_options client) somaxconn = .ok () := by
  cases client <;>
    simp [check_options, default_options, CHECK, UINT32_MAX, h, bind, Except.bind, pure,
      Except.pure]

theorem defaults_accepted_witness :
    check_options ⟨false⟩ (default_options false) 128 = .ok () ∧
    check_options ⟨false⟩ (default_options true) 128 = .ok () :=
  ⟨defaults_accepted ⟨false⟩ false 128 (by decide), defaults_accepted ⟨false⟩ true 128 (by decide)⟩

theorem evaluate_log (script : List statement) :
    ∀ (se se1 : script_engine) (i : Nat) (log : List script_event),
      evaluate se i script = .ok (se1, log) →
      log = (List.range script.length).map (fun k => script_event.evaluated (i + k)) := by
  induction script with
  | nil =>
    intro se se1 i log h
    simp [evaluate] at h
    simp [h.2]
  | cons s rest ih =>
    intro se se1 i log h
    simp only [evaluate] at h
    cases hs : eval_statement se s with
    | error e => simp [hs] at h
    | ok sa =>
      simp only [hs] at h
      cases hr : evaluate sa (i + 1) rest with
      | error e => simp [hr] at h
      | ok r =>
        obtain ⟨sb, lg⟩ := r
        simp only [hr, Except.ok.injEq, Prod.mk.injEq] at h
        rw [← h.2, ih sa sb (i + 1) lg hr]
        simp only [List.length_cons, List.range_succ_eq_map, List.map_cons, List.map_map,
          Nat.add_zero, List.cons.injEq, true_and]
        apply List.map_congr_left
        intro k _
        simp only [Function.comp, script_event.evaluated.injEq]
        omega

/-- C18: for every script that evaluates successfully, `script_engine_run_string`
and `script_engine_run_file` return 0 after invoking the wait callback exactly
once with the caller's argument: the caller's state is the callback's result on
that argument, and the log of the run is the evaluation of every statement
followed by a single wait. With the empty script and the callback that sets a
flag, the flag is true when `script_engine_run_string` returns. -/
theorem wait_callback_once {α σ : Type} (files : List Byte → Option (List statement))
    (se se1 : script_engine) (script : List statement) (log : List script_event)
    (f : α → σ → σ) (data : α) (w : σ) (path : List Byte)
    (hev : evaluate se 0 script = .ok (se1, log))
    (hfile : files path = some script) :
    (script_engine_run_string se script (some f) data w).ret = 0 ∧
    (script_engine_run_string se script (some f) data w).world = f data w ∧
    (script_engine_run_string se script (some f) data w).log =
      (List.range script.length).map script_event.evaluated ++ [script_event.wait] ∧
    (script_engine_run_string se script (some f) data w).log.count script_event.wait = 1 ∧
    script_engine_run_file files se path (some f) data w =
      script_engine_run_string se script (some f) data w ∧
    (script_engine_run_string se [] (some wait_func) () false).world = true := by
  have hlog := evaluate_log script se se1 0 log hev
  simp only [Nat.zero_add] at hlog
  have hfun : (fun k => script_event.evaluated k) = script_event.evaluated := rfl
  rw [hfun] at hlog
  refine ⟨?_, ?_, ?_, ?_, ?_, ?_⟩
  · simp [script_engine_run_string, hev]
  · simp [script_engine_run_string, hev, call_wait]
  · simp [script_engine_run_string, hev, hlog]
  · simp only [script_engine_run_string, hev, hlog, List.count_append]
    have : List.count script_event.wait
        (List.map script_event.evaluated (List.range script.length)) = 0 := by
      rw [List.count_eq_zero]
      intro hmem
      simp at hmem
    rw [this]
    rfl
  · simp [script_engine_run_file, hfile]
  · rfl

theorem wait_callback_once_witness :
    (script_engine_run_string (script_engine_create true) [] (some wait_func) () false).ret = 0 ∧
    (script_engine_run_string (script_engine_create true) [] (some wait_func) () false).world =
      wait_func () false ∧
    (script_engine_run_string (script_engine_create true) [] (some wait_func) () false).log =
      (List.range ([] : List statement).length).map script_event.evaluated ++
        [script_event.wait] ∧
    (script_engine_run_string (script_engine_create true) [] (some wait_func) () false).log.count
      script_event.wait = 1 ∧
    script_engine_run_file (fun _ => some []) (script_engine_create true) []
        (some wait_func) () false =
      script_engine_run_string (script_engine_create true) [] (some wait_func) () false ∧
    (script_engine_run_string (script_engine_create true) [] (some wait_func) () false).world =
      true :=
  wait_callback_once (fun _ => some []) (script_engine_create true) (script_engine_create true)
    [] [] wait_func () false [] rfl rfl

theorem main_loop_stopped (handle : thread → List epoll_event → Int → thread × List Action)
    (cb : callbacks) (opts : options) (queue : List WaitResult) (events : List epoll_event)
    (t : thread) (h : t.stop ≠ 0) :
    main_loop handle cb opts queue events t = ⟨t, [], .stopped⟩ := by
  cases queue <;> simp [main_loop, h]

theorem main_loop_ready (handle : thread → List epoll_event → Int → thread × List Action)
    (cb : callbacks) (opts : options) (queue : List WaitResult) (events evs : List epoll_event)
    (t : thread) (hstop : t.stop = 0) (hmax : 0 < opts.maxevents) :
    main_loop handle cb opts (.ready evs :: queue) events t =
      Run.after (.epoll_wait opts.maxevents (if opts.nonblocking then 10 else -1) ::
          (handle t (written events evs) evs.length).2)
        (main_loop handle cb opts queue (written events evs)
          (handle t (written events evs) evs.length).1) := by
  simp [main_loop, hstop, hmax]

theorem events_from_keeps_stop (branch : Nat → Option Hook) (t : thread)
    (evs : List epoll_event) (i : Nat) (h : t.stop ≠ 0) :
    (events_from branch t i evs).1.stop ≠ 0 := by
  rw [(events_from_spec branch t evs i).1]
  split
  · simp
  · exact h

/-- A main loop that is left normally is left with the stop flag set. -/
theorem main_loop_exit_stopped (handle : thread → List epoll_event → Int → thread × List Action)
    (cb : callbacks) (opts : options) :
    ∀ (queue : List WaitResult) (events : List epoll_event) (t : thread),
      (main_loop handle cb opts queue events t).exit = .stopped →
      (main_loop handle cb opts queue events t).t.stop ≠ 0 := by
  intro queue
  induction queue with
  | nil =>
    intro events t h
    simp only [main_loop] at h ⊢
    split
    · assumption
    · rename_i hs
      rw [if_neg hs] at h
      split at h <;> simp at h
  | cons r queue ih =>
    intro events t h
    simp only [main_loop] at h ⊢
    split
    · assumption
    · rename_i hs
      rw [if_neg hs] at h
      split
      · rename_i hm
        rw [if_pos hm] at h
        simp at h
      · rename_i hm
        rw [if_neg hm] at h
        cases r with
        | ready evs =>
          simp only [Run.after] at h ⊢
          exact ih _ _ h
        | failed errno =>
          simp only at h ⊢
          split
          · rename_i he
            rw [if_pos he] at h
            simp only [Run.after] at h ⊢
            exact ih _ _ h
          · rename_i he
            rw [if_neg he] at h
            cases hp : PLOG_FATAL cb with
            | error e =>
              rw [hp] at h
              simp at h
            | ok u =>
              rw [hp] at h
              simp only [Run.after] at h ⊢
              exact ih _ _ h

/-- The trace of a worker is a prelude that holds the wait on the barrier and
no multiplexer wait, followed by the rest, unless it holds no multiplexer wait
at all. -/
theorem run_worker_prelude (handle : thread → List epoll_event → Int → thread × List Action)
    (cb : callbacks) (opts : options) (connects : List Action) (epfd : Int)
    (queue : List WaitResult) (t : thread)
    (hcon : ∀ a ∈ connects, ∀ m ms, a ≠ Action.epoll_wait m ms) :
    (∀ m ms, Action.epoll_wait m ms ∉ (run_worker handle cb opts connects epfd queue t).trace) ∨
    ∃ P R, (run_worker handle cb opts connects epfd queue t).trace = P ++ R ∧
      Action.barrier_wait ∈ P ∧ ∀ m ms, Action.epoll_wait m ms ∉ P := by
  unfold run_worker
  simp only
  split
  · left
    intro m ms
    simp
  · right
    split
    · refine ⟨_, _, rfl, by simp, ?_⟩
      intro m ms hmem
      simp only [List.mem_append, List.mem_cons, List.mem_singleton, reduceCtorEq,
        List.not_mem_nil, or_false, false_or] at hmem
      rcases hmem with h1 | h1
      · split at h1 <;> simp at h1
      · exact hcon _ h1 m ms rfl
    · refine ⟨_, _, rfl, by simp, ?_⟩
      intro m ms hmem
      simp only [List.mem_append, List.mem_cons, List.mem_singleton, reduceCtorEq,
        List.not_mem_nil, or_false, false_or] at hmem
      rcases hmem with h1 | h1
      · split at h1 <;> simp at h1
      · exact hcon _ h1 m ms rfl

theorem mem_prefix_of_split (P R pre post : List Action) (a b : Action)
    (ha : a ∉ P) (hb : b ∈ P) (h : P ++ R = pre ++ a :: post) : b ∈ pre := by
  rw [List.append_eq_append_iff] at h
  rcases h with ⟨a1, h1, -⟩ | ⟨c1, h1, h2⟩
  · rw [h1]
    exact List.mem_append_left _ hb
  · cases c1 with
    | nil =>
      simp only [List.append_nil] at h1
      rw [← h1]
      exact hb
    | cons x c2 =>
      simp only [List.cons_append, List.cons.injEq] at h2
      exfalso
      apply ha
      rw [h1, h2.1]
      simp

/-- C23: in the trace of `run_client` and of `run_server`, whatever the
multiplexer returns, every multiplexer wait comes after the wait on the ready
barrier: the actions before any `epoll_wait` include `barrier_wait`. -/
theorem barrier_before_wait (cb : callbacks) (opts : options) (flows : Nat) (epfd : Int)
    (queue : List WaitResult) (t : thread) (pre post : List Action) (m ms : Int)
    (h : (run_client cb opts flows epfd queue t).trace = pre ++ Action.epoll_wait m ms :: post ∨
      (run_server cb opts epfd queue t).trace = pre ++ Action.epoll_wait m ms :: post) :
    Action.barrier_wait ∈ pre := by
  rcases h with h | h
  · unfold run_client at h
    rcases run_worker_prelude client_events cb opts
        (List.replicate flows (.script_init_hook (-1))) epfd queue t
        (fun a ha m ms e => by
          rw [List.eq_of_mem_replicate ha] at e
          cases e) with hno | ⟨P, R, hPR, hb, hw⟩
    · exfalso
      apply hno m ms
      rw [h]
      simp
    · rw [hPR] at h
      exact mem_prefix_of_split P R pre post _ _ (hw m ms) hb h
  · unfold run_server at h
    split at h
    · cases pre <;> simp at h
    · rcases run_worker_prelude server_events cb opts [] epfd queue t
          (fun a ha => by cases ha) with hno | ⟨P, R, hPR, hb, hw⟩
      · exfalso
        have hmem : Action.epoll_wait m ms ∈
            (Run.after [Action.script_init_hook (-1)]
              (run_worker server_events cb opts [] epfd queue t)).trace := by
          rw [h]
          simp
        simp only [Run.after, List.singleton_append, List.mem_cons, reduceCtorEq,
          false_or] at hmem
        exact hno m ms hmem
      · simp only [Run.after, hPR] at h
        have h2 : (Action.script_init_hook (-1) :: P) ++ R =
            pre ++ Action.epoll_wait m ms :: post := by
          simpa using h
        exact mem_prefix_of_split _ R pre post _ _
          (by
            intro hmem
            simp only [List.mem_cons, reduceCtorEq, false_or] at hmem
            exact hw m ms hmem)
          (List.mem_cons_of_mem _ hb) h2

theorem barrier_before_wait_witness :
    (run_client ⟨false⟩ ⟨10, 4, 1, 1, true, 1, 1, 65536, 128, 1, 0, 0, none, false⟩ 0 5
        [.ready [⟨EPOLLIN, ⟨3⟩⟩]] ⟨3, 0⟩).trace =
      [.epoll_create1, .addflow_lite 5 3 EPOLLIN, .calloc_events 4, .barrier_wait] ++
        Action.epoll_wait 4 (-1) :: [.free_events, .free_stop_fl, .do_close 5] ∧
    Action.barrier_wait ∈
      [Action.epoll_create1, Action.addflow_lite 5 3 EPOLLIN, Action.calloc_events 4,
        Action.barrier_wait] :=
  ⟨by decide,
    barrier_before_wait ⟨false⟩ ⟨10, 4, 1, 1, true, 1, 1, 65536, 128, 1, 0, 0, none, false⟩ 0 5
      [.ready [⟨EPOLLIN, ⟨3⟩⟩]] ⟨3, 0⟩
      [.epoll_create1, .addflow_lite 5 3 EPOLLIN, .calloc_events 4, .barrier_wait]
      [.free_events, .free_stop_fl, .do_close 5] 4 (-1) (Or.inl (by decide))⟩

/-- C30: in the main loop of `run_client` and of `run_server`: with the stop
flag set the loop is left at once, without a multiplexer wait and without a
dispatch, whatever the multiplexer would return; a batch whose handling sets
the flag is therefore the last one (the run consists of its wait and its
dispatches); `client_events` and `server_events` never clear a flag that is
set; and a loop that is left normally is left with the flag set. -/
theorem stop_flag_ends_loop (cb : callbacks) (opts : options) (queue : List WaitResult)
    (events evs : List epoll_event) (t : thread) (hstop : t.stop = 0)
    (hmax : 0 < opts.maxevents) :
    (∀ t0 : thread, t0.stop ≠ 0 →
      main_loop client_events cb opts queue events t0 = ⟨t0, [], .stopped⟩ ∧
      main_loop server_events cb opts queue events t0 = ⟨t0, [], .stopped⟩) ∧
    ((client_events t (written events evs) evs.length).1.stop ≠ 0 →
      main_loop client_events cb opts (.ready evs :: queue) events t =
        ⟨(client_events t (written events evs) evs.length).1,
          .epoll_wait opts.maxevents (if opts.nonblocking then 10 else -1) ::
            (client_events t (written events evs) evs.length).2, .stopped⟩) ∧
    ((server_events t (written events evs) evs.length).1.stop ≠ 0 →
      main_loop server_events cb opts (.ready evs :: queue) events t =
        ⟨(server_events t (written events evs) evs.length).1,
          .epoll_wait opts.maxevents (if opts.nonblocking then 10 else -1) ::
            (server_events t (written events evs) evs.length).2, .stopped⟩) ∧
    (∀ (t0 : thread) (evs0 : List epoll_event) (n : Int), t0.stop ≠ 0 →
      (client_events t0 evs0 n).1.stop ≠ 0 ∧ (server_events t0 evs0 n).1.stop ≠ 0) ∧
    ((main_loop client_events cb opts queue events t).exit = .stopped →
      (main_loop client_events cb opts queue events t).t.stop ≠ 0) ∧
    ((main_loop server_events cb opts queue events t).exit = .stopped →
      (main_loop server_events cb opts queue events t).t.stop ≠ 0) := by
  refine ⟨?_, ?_, ?_, ?_, ?_, ?_⟩
  · intro t0 h0
    exact ⟨main_loop_stopped _ cb opts queue events t0 h0,
      main_loop_stopped _ cb opts queue events t0 h0⟩
  · intro h1
    rw [main_loop_ready client_events cb opts queue events evs t hstop hmax,
      main_loop_stopped _ cb opts queue _ _ h1]
    simp [Run.after]
  · intro h1
    rw [main_loop_ready server_events cb opts queue events evs t hstop hmax,
      main_loop_stopped _ cb opts queue _ _ h1]
    simp [Run.after]
  · intro t0 evs0 n h0
    exact ⟨events_from_keeps_stop client_branch t0 _ 0 h0,
      events_from_keeps_stop server_branch t0 _ 0 h0⟩
  · exact main_loop_exit_stopped client_events cb opts queue events t
  · exact main_loop_exit_stopped server_events cb opts queue events t

theorem stop_flag_ends_loop_witness :
    main_loop client_events ⟨false⟩ ⟨10, 4, 1, 1, true, 1, 1, 65536, 128, 1, 0, 0, none, false⟩
        (.ready [⟨EPOLLIN, ⟨3⟩⟩] :: [.ready [⟨EPOLLIN, ⟨7⟩⟩]]) [] ⟨3, 0⟩ =
      ⟨(client_events ⟨3, 0⟩ (written [] [⟨EPOLLIN, ⟨3⟩⟩])
          ([⟨EPOLLIN, ⟨3⟩⟩] : List epoll_event).length).1,
        .epoll_wait 4 (if false then 10 else -1) ::
          (client_events ⟨3, 0⟩ (written [] [⟨EPOLLIN, ⟨3⟩⟩])
            ([⟨EPOLLIN, ⟨3⟩⟩] : List epoll_event).length).2, .stopped⟩ :=
  (stop_flag_ends_loop ⟨false⟩ ⟨10, 4, 1, 1, true, 1, 1, 65536, 128, 1, 0, 0, none, false⟩
    [.ready [⟨EPOLLIN, ⟨7⟩⟩]] [] [⟨EPOLLIN, ⟨3⟩⟩] ⟨3, 0⟩ rfl (by decide)).2.1 (by decide)

/-- C29: `check_options` departs at one value from the rule that the message
of its own `CHECK` states ("TCP_MIN_RTO * 1,000,000 must be less than 2^31").
Among option records satisfying all other rules, with a `LOG_FATAL` sink that
ends the process, `check_options` accepts `min_rto` exactly when
`0 <= min_rto < 2147`, 2147 being the truncated quotient of 2^31 by 1,000,000
(the accepted values are those with
`(min_rto + 1) * 1,000,000 <= 2,147,000,000`); every accepted value has
`min_rto * 1,000,000 < 2^31`; and the records that satisfy the rule of the
message (non-negative, product less than 2^31, computed without overflow) but
are rejected are exactly those with `min_rto = 2147`. -/
theorem min_rto_bound (cb : callbacks) (opts : options) (somaxconn : Int)
    (hs : cb.log_fatal_returns = false) (hint : opts.min_rto < 2 ^ 31)
    (hrules : rules_besides_min_rto opts somaxconn) :
    (check_options cb opts somaxconn = .ok () ↔ (0 ≤ opts.min_rto ∧ opts.min_rto < 2147)) ∧
    (check_options cb opts somaxconn = .ok () ↔
      (0 ≤ opts.min_rto ∧ (opts.min_rto + 1) * 1000000 ≤ 2147000000)) ∧
    (check_options cb opts somaxconn = .ok () → opts.min_rto * 1000000 < 2 ^ 31) ∧
    ((0 ≤ opts.min_rto ∧ opts.min_rto * 1000000 < 2 ^ 31 ∧
        check_options cb opts somaxconn ≠ .ok ()) ↔ opts.min_rto = 2147) := by
  have hiff := check_options_ok_iff cb opts somaxconn hs hint
  obtain ⟨h1, h2, h3, h4, h5, h6, h7, h8, h9, h10, h11, h12⟩ := hrules
  have key : check_options cb opts somaxconn = .ok () ↔
      (0 ≤ opts.min_rto ∧ opts.min_rto < 2147) := by
    rw [hiff]
    constructor
    · intro hv
      exact ⟨hv.1.2.2.2.2.2.2.2.1, hv.1.2.2.2.2.2.2.2.2.1⟩
    · intro hm
      exact ⟨⟨h1, h2, h3, h4, h5, h6, h7, hm.1, hm.2, h8, h9⟩, h10, h11, h12⟩
  refine ⟨key, ?_, ?_, ?_⟩
  · rw [key]
    constructor
    · intro hm
      exact ⟨hm.1, by omega⟩
    · intro hm
      exact ⟨hm.1, by omega⟩
  · intro h
    have hm := key.mp h
    omega
  · rw [Ne, key]
    constructor
    · rintro ⟨h0, hp, hn⟩
      by_contra hne
      apply hn
      exact ⟨h0, by omega⟩
    · intro he
      rw [he]
      exact ⟨by norm_num, by norm_num, by omega⟩

theorem min_rto_bound_witness :
    (check_options ⟨false⟩ (default_options true) 128 = .ok () ↔
      (0 ≤ (default_options true).min_rto ∧ (default_options true).min_rto < 2147)) ∧
    (check_options ⟨false⟩ (default_options true) 128 = .ok () ↔
      (0 ≤ (default_options true).min_rto ∧
        ((default_options true).min_rto + 1) * 1000000 ≤ 2147000000)) ∧
    (check_options ⟨false⟩ (default_options true) 128 = .ok () →
      (default_options true).min_rto * 1000000 < 2 ^ 31) ∧
    ((0 ≤ (default_options true).min_rto ∧ (default_options true).min_rto * 1000000 < 2 ^ 31 ∧
        check_options ⟨false⟩ (default_options true) 128 ≠ .ok ()) ↔
      (default_options true).min_rto = 2147) :=
  min_rto_bound ⟨false⟩ (default_options true) 128 rfl (by decide)
    (by
      simp only [rules_besides_min_rto, flows_rule, backlog_rule, pacing_rule, default_options]
      norm_num)

/-- C29, the failing input: the defaults with `min_rto = 2147`. The other
rules hold, the value is non-negative and 2147 * 1,000,000 = 2,147,000,000 is
less than 2^31 = 2,147,483,648, as the message of the `CHECK` requires, yet
`check_options` rejects the record. -/
theorem min_rto_2147_rejected :
    rules_besides_min_rto min_rto_2147 128 ∧
    0 ≤ min_rto_2147.min_rto ∧ min_rto_2147.min_rto * 1000000 < 2 ^ 31 ∧
    check_options ⟨false⟩ min_rto_2147 128 = .error .fatal := by
  refine ⟨?_, by decide, by decide, ?_⟩
  · simp only [rules_besides_min_rto, flows_rule, backlog_rule, pacing_rule, min_rto_2147,
      default_options]
    norm_num
  · simp [check_options, min_rto_2147, default_options, CHECK, LOG_FATAL, UINT32_MAX, bind,
      Except.bind, pure, Except.pure]

theorem isCollector_table (h : List Obj) (v : TValue) (hc : isCollector h v = true) :
    ∃ p T mt w, v = .table p ∧ getTable ⟨[], h⟩ p = some T ∧ p ≠ 0 ∧
      getTable ⟨[], h⟩ T.metatable = some mt ∧
      rawgetE mt.entries (.string (cstr collector_name)) = w ∧ w ≠ .nil := by
  unfold isCollector luaL_getmetafield metatableOf at hc
  simp only [index_m1] at hc
  cases v with
  | table p =>
    have e1 : ∀ q, getTable ⟨[TValue.table p], h⟩ q = getTable ⟨[], h⟩ q := fun _ => rfl
    simp only [e1] at hc
    cases hT : getTable ⟨[], h⟩ p with
    | none =>
      rw [hT] at hc
      simp [getTable, deref] at hc
    | some T =>
      simp only [hT] at hc
      have hp : p ≠ 0 := by
        intro e
        subst e
        simp [getTable, deref] at hT
      cases hmt : getTable ⟨[], h⟩ T.metatable with
      | none => simp [hmt] at hc
      | some mt =>
        simp only [hmt] at hc
        refine ⟨p, T, mt, _, rfl, hT, hp, hmt, rfl, ?_⟩
        intro hw
        rw [hw] at hc
        simp at hc
  | _ => simp [getTable, deref] at hc

theorem unwrap_collector_maybe_eq (h : List Obj) (v : TValue) (rest : List TValue) :
    unwrap_collector_maybe ⟨v :: rest, h⟩ =
      .ok ((unwrapped h v).1, ⟨(unwrapped h v).2 :: rest, h⟩) := by
  cases hc : isCollector h v with
  | false =>
    rw [unwrap_collector_maybe_plain h v rest hc]
    simp [unwrapped, hc]
  | true =>
    obtain ⟨p, T, mt, w, rfl, hT, hp, hmt, hw, hwn⟩ := isCollector_table h v hc
    have e1 : ∀ (s : List TValue) q, getTable ⟨s, h⟩ q = getTable ⟨[], h⟩ q := fun _ _ => rfl
    have hm : luaL_getmetafield ⟨.table p :: rest, h⟩ (-1) collector_name =
        (true, push ⟨.table p :: rest, h⟩ w) := by
      unfold luaL_getmetafield metatableOf
      simp only [index_m1, e1, hT, hmt, hw]
    unfold unwrap_collector_maybe
    rw [hm]
    simp only [unwrapped, hc, if_true, hT]
    simp only [push, lua_pop_one, bind, Except.bind, pure, Except.pure, lua_rawgeti, index_m1, e1,
      hT, lua_topointer, lua_remove_m2]

/-- C26: what the serializer records for the value `v` of an upvalue or of a
table entry. `unwrap_collector_maybe` always returns; when `v` carries the
collector mark, `v` is a table, the collector id is its address (not 0) and the
value handed to `serialize_object` is the wrapper's first indexed cell; when
`v` does not carry the mark, the collector id is 0 and the value handed to
`serialize_object` is `v` itself. `serialize_upvalue` records that collector
id with the serialization of that value, and so does the loop of
`dump_table_entries` for the value of the entry that `lua_next` yields. -/
theorem collector_unwrapped (cb : callbacks) (n : Nat) (h : List Obj) (v k kprev : TValue)
    (rest : List TValue) (id : Nat) (number : Int) (head : stable_entry) (q : Nat) (t : Table)
    (suf : List (TValue × TValue))
    (ht : getTable ⟨[], h⟩ q = some t)
    (hn : (if kprev = .nil then some t.entries else afterKey t.entries kprev) =
      some ((k, v) :: suf)) :
    unwrap_collector_maybe ⟨v :: rest, h⟩ =
      .ok ((unwrapped h v).1, ⟨(unwrapped h v).2 :: rest, h⟩) ∧
    (isCollector h v = true → ∃ p T, v = .table p ∧ p ≠ 0 ∧ getTable ⟨[], h⟩ p = some T ∧
      unwrapped h v = (p, rawgetE T.entries (.number 1))) ∧
    (isCollector h v = false → unwrapped h v = (0, v)) ∧
    serialize_upvalue cb (n + 1) ⟨v :: rest, h⟩ id number =
      (match serialize_object cb n ⟨(unwrapped h v).2 :: rest, h⟩ with
        | .ok (value, L1) => .ok (.node .null id number value (unwrapped h v).1, L1)
        | .error e => .error e) ∧
    dump_table_entries_loop cb (n + 1) head ⟨kprev :: .table q :: rest, h⟩ =
      (match serialize_object cb n ⟨(unwrapped h v).2 :: k :: .table q :: rest, h⟩ with
        | .ok (value, _) =>
          match serialize_object cb n ⟨k :: .table q :: rest, h⟩ with
          | .ok (key, _) =>
            dump_table_entries_loop cb n (.node head key value (unwrapped h v).1)
              ⟨k :: .table q :: rest, h⟩
          | .error e => .error e
        | .error e => .error e) := by
  refine ⟨unwrap_collector_maybe_eq h v rest, ?_, ?_, ?_, ?_⟩
  · intro hc
    obtain ⟨p, T, mt, w, rfl, hT, hp, -, -, -⟩ := isCollector_table h v hc
    exact ⟨p, T, rfl, hp, hT, by simp [unwrapped, hc, hT]⟩
  · intro hc
    simp [unwrapped, hc]
  · simp only [serialize_upvalue, unwrap_collector_maybe_eq, bind, Except.bind, pure, Except.pure]
    cases hso : serialize_object cb n ⟨(unwrapped h v).2 :: rest, h⟩ with
    | error e => rfl
    | ok r => rfl
  · simp only [dump_table_entries_loop, lua_next_top h kprev q rest t ((k, v) :: suf) ht hn,
      unwrap_collector_maybe_eq, bind, Except.bind, if_true]
    cases hso : serialize_object cb n ⟨(unwrapped h v).2 :: k :: .table q :: rest, h⟩ with
    | error e => rfl
    | ok r =>
      obtain ⟨value, L3⟩ := r
      have e3 := (serialize_neutral cb n).1 _ _ _ hso
      subst e3
      simp only [lua_pop_one]
      cases hsk : serialize_object cb n ⟨k :: .table q :: rest, h⟩ with
      | error e => rfl
      | ok r2 =>
        obtain ⟨key, L5⟩ := r2
        have e5 := (serialize_neutral cb n).1 _ _ _ hsk
        subst e5
        rfl

theorem collector_unwrapped_witness :
    unwrap_collector_maybe ⟨.table 3 :: [], wrapped_heap⟩ =
      .ok ((unwrapped wrapped_heap (.table 3)).1,
        ⟨(unwrapped wrapped_heap (.table 3)).2 :: [], wrapped_heap⟩) ∧
    (isCollector wrapped_heap (.table 3) = true → ∃ p T, TValue.table 3 = .table p ∧ p ≠ 0 ∧
      getTable ⟨[], wrapped_heap⟩ p = some T ∧
      unwrapped wrapped_heap (.table 3) = (p, rawgetE T.entries (.number 1))) ∧
    (isCollector wrapped_heap (.table 3) = false → unwrapped wrapped_heap (.table 3) =
      (0, .table 3)) ∧
    serialize_upvalue ⟨false⟩ (3 + 1) ⟨.table 3 :: [], wrapped_heap⟩ 2 1 =
      (match serialize_object ⟨false⟩ 3
          ⟨(unwrapped wrapped_heap (.table 3)).2 :: [], wrapped_heap⟩ with
        | .ok (value, L1) => .ok (.node .null 2 1 value (unwrapped wrapped_heap (.table 3)).1, L1)
        | .error e => .error e) ∧
    dump_table_entries_loop ⟨false⟩ (3 + 1) .null ⟨.nil :: .table 5 :: [], wrapped_heap⟩ =
      (match serialize_object ⟨false⟩ 3
          ⟨(unwrapped wrapped_heap (.table 3)).2 :: .number 1 :: .table 5 :: [],
            wrapped_heap⟩ with
        | .ok (value, _) =>
          match serialize_object ⟨false⟩ 3 ⟨.number 1 :: .table 5 :: [], wrapped_heap⟩ with
          | .ok (key, _) =>
            dump_table_entries_loop ⟨false⟩ 3
              (.node .null key value (unwrapped wrapped_heap (.table 3)).1)
              ⟨.number 1 :: .table 5 :: [], wrapped_heap⟩
          | .error e => .error e
        | .error e => .error e) :=
  collector_unwrapped ⟨false⟩ 3 wrapped_heap (.table 3) (.number 1) .nil [] 2 1 .null 5
    ⟨[(.number 1, .table 3)], 0⟩ [] (by decide) (by decide)

/-- The wrapper of `wrapped_heap` is recorded with its address, 3, and the
serialization of its first cell, 7, for the upvalue as for the table entry. -/
theorem wrapped_heap_serialized :
    unwrapped wrapped_heap (.table 3) = (3, .number 7) ∧
    serialize_function ⟨false⟩ 10 ⟨[.function 1], wrapped_heap⟩ =
      .ok (.mk 1 [1] (.node .null 2 1 (.number 7) 3), ⟨[.function 1], wrapped_heap⟩) ∧
    serialize_table ⟨false⟩ 10 ⟨[.table 5], wrapped_heap⟩ =
      .ok (.mk 5 (.node .null (.number 1) (.number 7) 3), ⟨[.table 5], wrapped_heap⟩) := by
  decide

/-! ## Upvalues that hold nil -/

theorem serialize_upvalue_nil (cb : callbacks) (n : Nat) (rest : List TValue) (h : List Obj)
    (id : Nat) (number : Int) (r : supvalue × lua_State) :
    serialize_upvalue cb n ⟨.nil :: rest, h⟩ id number ≠ .ok r := by
  intro hr
  cases n with
  | zero => simp [serialize_upvalue] at hr
  | succ n =>
    rw [serialize_upvalue, unwrap_collector_maybe_eq] at hr
    have hu : unwrapped h .nil = (0, .nil) := by
      simp [unwrapped, isCollector, luaL_getmetafield, metatableOf, getTable, deref]
    rw [hu] at hr
    cases n with
    | zero => simp [serialize_object, bind, Except.bind] at hr
    | succ n => simp [serialize_object, bind, Except.bind] at hr

/-- A loop of `serialize_upvalues` that returns has met no cell holding nil. -/
theorem serialize_upvalues_loop_no_nil (cb : callbacks) : ∀ (n : Nat) (i : Int) (list : supvalue)
    (L : lua_State) (p : Nat) (rest : List TValue) (c : Closure) (pre us : List Nat)
    (l1 : supvalue) (L1 : lua_State),
    L.stack = .function p :: rest → getClosure L p = some c → c.upvals = pre ++ us →
    (pre.length : Int) + 1 = i → (∀ u ∈ us, (getUpval L u).isSome) →
    serialize_upvalues_loop cb n i list L = .ok (l1, L1) →
    ∀ u ∈ us, getUpval L u ≠ some .nil := by
  intro n
  induction n with
  | zero =>
    intro i list L p rest c pre us l1 L1 _ _ _ _ _ h
    simp [serialize_upvalues_loop] at h
  | succ n ih =>
    intro i list L p rest c pre us l1 L1 hs hc hups hi hcells h
    simp only [serialize_upvalues_loop] at h
    rw [lua_getupvalue_top L p rest c i hs hc] at h
    have hnth : nth1 c.upvals i = us.head? := by
      unfold nth1
      rw [if_pos (by omega), hups]
      have e : i.toNat - 1 = pre.length := by omega
      rw [e]
      cases us with
      | nil => simp
      | cons u us =>
        rw [List.getElem?_append_right (le_refl _)]
        simp
    rw [hnth] at h
    cases us with
    | nil => intro u hu; cases hu
    | cons u us =>
      obtain ⟨v, hv⟩ := Option.isSome_iff_exists.mp (hcells u (by simp))
      simp only [List.head?_cons, hv, bind_ok] at h
      obtain ⟨⟨rec, L2⟩, h1, list1, h2, L3, h3, h4⟩ := h
      obtain ⟨x1, hx1⟩ := (serialize_neutral cb n).2.2.2.2.1 _ _ _ _ _ h1
      subst hx1
      simp only [push_stack, List.tail_cons, lua_pop_one, Except.ok.injEq] at h3
      subst h3
      have hrest := ih (i + 1) _ ⟨L.stack, (push L v).heap⟩ p rest c (pre ++ [u]) us l1 L1 hs hc
        (by simp [hups]) (by simp; omega) (fun w hw => hcells w (by simp [hw])) h4
      intro w hw
      rcases List.mem_cons.mp hw with rfl | hw
      · intro hnil
        rw [hv] at hnil
        cases hnil
        obtain ⟨stack, heap⟩ := L
        simp only at hs
        subst hs
        exact serialize_upvalue_nil cb n _ _ _ _ _ h1
      · exact hrest w hw

/-- C25 (as amended): a closure one of whose upvalue cells holds nil is not
serialized: whatever the recursion bound, `serialize_function` does not return
a value tree, the assertion of `serialize_object` on nil being met for an
upvalue as for a top-level value. On the other side, `push_object` rejects a
payload that is not a boolean, a number, a string, a function or a table, and
so does `set_shared_upvalue` for an upvalue record with such a payload. -/
theorem nil_upvalue_rejected (cb : callbacks) (H : Host) (fuel : Nat) (L : lua_State) (p : Nat)
    (rest : List TValue) (c : Closure) (i : Int) (u : Nat)
    (hs : L.stack = .function p :: rest) (hc : getClosure L p = some c)
    (hcells : ∀ x ∈ c.upvals, (getUpval L x).isSome)
    (hi : nth1 c.upvals i = some u) (hnil : getUpval L u = some .nil) :
    (∀ r, serialize_function cb fuel L ≠ .ok r) ∧
    (∀ (type : Int) (Lt : lua_State) (cache : upvalue_cache),
      push_object cb H (.other type) Lt cache = .error .fatal) ∧
    (∀ (type : Int) (func_id id : Nat) (number : Int) (cid : Nat) (Lt : lua_State)
      (cache : upvalue_cache), lookup_upvalue cache id = none →
      set_shared_upvalue (push_object cb H (.other type)) func_id id number cid Lt cache =
        .error .fatal) := by
  refine ⟨?_, ?_, ?_⟩
  · intro r hr
    obtain ⟨f, L1⟩ := r
    cases fuel with
    | zero => simp [serialize_function] at hr
    | succ n =>
      simp only [serialize_function, bind_ok, pure_ok] at hr
      obtain ⟨⟨code, L2⟩, h1, ⟨ups, L3⟩, h2, -⟩ := hr
      obtain ⟨rfl, -⟩ := dump_function_bytecode_state cb L code L2 h1
      cases n with
      | zero => simp [serialize_upvalues] at h2
      | succ n =>
        simp only [serialize_upvalues] at h2
        have hmem : u ∈ c.upvals := by
          unfold nth1 at hi
          split at hi
          · exact List.mem_iff_getElem?.mpr ⟨_, hi⟩
          · cases hi
        exact serialize_upvalues_loop_no_nil cb n 1 .null L2 p rest c [] c.upvals ups L3 hs hc
          rfl rfl hcells h2 u hmem hnil
  · intro type Lt cache
    rfl
  · intro type func_id id number cid Lt cache hl
    simp [set_shared_upvalue, hl, set_upvalue, push_object, bind, Except.bind]

theorem nil_upvalue_rejected_witness :
    (∀ r, serialize_function ⟨false⟩ 10 ⟨[.function 1], nil_upvalue_heap⟩ ≠ .ok r) ∧
    (∀ (type : Int) (Lt : lua_State) (cache : upvalue_cache),
      push_object ⟨false⟩ (accepting 1) (.other type) Lt cache = .error .fatal) ∧
    (∀ (type : Int) (func_id id : Nat) (number : Int) (cid : Nat) (Lt : lua_State)
      (cache : upvalue_cache), lookup_upvalue cache id = none →
      set_shared_upvalue (push_object ⟨false⟩ (accepting 1) (.other type)) func_id id number cid
        Lt cache = .error .fatal) :=
  nil_upvalue_rejected ⟨false⟩ (accepting 1) 10 ⟨[.function 1], nil_upvalue_heap⟩ 1 []
    ⟨some [1], [2]⟩ 1 2 rfl (by decide) (by decide) (by decide) (by decide)

/-- C25 (as stated) fails: for the closure whose one upvalue holds nil,
`serialize_function` ends in the assertion of `serialize_object`, whatever the
`LOG_FATAL` sink does; and `deserialize_function` applied to a value tree that
records that upvalue with a nil payload ends in the assertion of
`push_object`. -/
theorem serialize_function_nil_upvalue :
    serialize_function ⟨true⟩ 10 ⟨[.function 1], nil_upvalue_heap⟩ = .error .fatal ∧
    serialize_function ⟨false⟩ 10 ⟨[.function 1], nil_upvalue_heap⟩ = .error .fatal ∧
    deserialize_function ⟨true⟩ (accepting 1) empty_target upvalue_cache_new 1
      (.mk 1 [1] (.node .null 2 1 (.other LUA_TNIL) 0)) = .error .fatal := by
  decide

theorem serialize_object_keyOf (cb : callbacks) (n : Nat) (k : TValue) (rest : List TValue)
    (h : List Obj) (sk : svalue) (L1 : lua_State)
    (hs : serialize_object cb n ⟨k :: rest, h⟩ = .ok (sk, L1)) :
    sk.keyOf = some (cutKey k) ∧ k ≠ .nil := by
  cases n with
  | zero => simp [serialize_object] at hs
  | succ n =>
    simp only [serialize_object, index_m1] at hs
    cases k with
    | nil => simp at hs
    | boolean b =>
      simp only [Except.ok.injEq, Prod.mk.injEq] at hs
      rw [← hs.1]
      simp [svalue.keyOf, cutKey, lua_toboolean]
    | number x =>
      simp only [Except.ok.injEq, Prod.mk.injEq] at hs
      rw [← hs.1]
      simp [svalue.keyOf, cutKey, lua_tonumber]
    | string s =>
      simp only [lua_tostring, index_m1, Except.ok.injEq, Prod.mk.injEq] at hs
      rw [← hs.1]
      simp [svalue.keyOf, cutKey]
    | table p =>
      simp only [bind_ok, pure_ok] at hs
      obtain ⟨⟨t, L2⟩, h1, h2⟩ := hs
      simp only [Prod.mk.injEq] at h2
      rw [← h2.1]
      cases n with
      | zero => simp [serialize_table] at h1
      | succ n =>
        simp only [serialize_table, bind_ok, pure_ok] at h1
        obtain ⟨⟨es, L3⟩, -, h3⟩ := h1
        simp only [Prod.mk.injEq] at h3
        rw [← h3.1]
        simp [svalue.keyOf, cutKey, stable.id, lua_topointer]
    | function p =>
      simp only [bind_ok, pure_ok] at hs
      obtain ⟨⟨f, L2⟩, h1, h2⟩ := hs
      simp only [Prod.mk.injEq] at h2
      rw [← h2.1]
      cases n with
      | zero => simp [serialize_function] at h1
      | succ n =>
        simp only [serialize_function, bind_ok, pure_ok] at h1
        obtain ⟨⟨code, L3⟩, -, ⟨ups, L4⟩, -, h3⟩ := h1
        simp only [Prod.mk.injEq] at h3
        rw [← h3.1]
        simp [svalue.keyOf, cutKey, sfunction.id, lua_topointer]
    | lightuserdata p => simp at hs
    | userdata p => simp at hs
    | thread p => simp at hs

/-- The keys of the entry list that the loop of `dump_table_entries` returns:
those of the entries still to be visited, last first, in front of the keys of
the list built so far. -/
theorem dump_table_entries_loop_keys (cb : callbacks) (h : List Obj) (p : Nat) (t : Table)
    (ht : getTable ⟨[], h⟩ p = some t) (hnd : (t.entries.map Prod.fst).Nodup) :
    ∀ (suf pre : List (TValue × TValue)) (n : Nat) (head : stable_entry) (kprev : TValue)
      (rest : List TValue) (st : stable_entry) (L1 : lua_State),
      t.entries = pre ++ suf →
      (if kprev = .nil then some t.entries else afterKey t.entries kprev) = some suf →
      dump_table_entries_loop cb n head ⟨kprev :: .table p :: rest, h⟩ = .ok (st, L1) →
      st.toList.map (fun r => r.1.keyOf) =
        (suf.map (fun e => some (cutKey e.1))).reverse ++ head.toList.map (fun r => r.1.keyOf) := by
  intro suf
  induction suf with
  | nil =>
    intro pre n head kprev rest st L1 _ hn hl
    cases n with
    | zero => simp [dump_table_entries_loop] at hl
    | succ n =>
      simp only [dump_table_entries_loop, lua_next_top h kprev p rest t [] ht hn, bind,
        Except.bind, Bool.false_eq_true, if_false, pure, Except.pure, Except.ok.injEq,
        Prod.mk.injEq] at hl
      rw [← hl.1]
      simp
  | cons e suf ih =>
    intro pre n head kprev rest st L1 hsplit hn hl
    obtain ⟨k, v⟩ := e
    cases n with
    | zero => simp [dump_table_entries_loop] at hl
    | succ n =>
      simp only [dump_table_entries_loop, lua_next_top h kprev p rest t ((k, v) :: suf) ht hn,
        unwrap_collector_maybe_eq, bind_ok, if_true] at hl
      obtain ⟨⟨more, La⟩, h0, hl⟩ := hl
      simp only [Except.ok.injEq, Prod.mk.injEq] at h0
      obtain ⟨rfl, rfl⟩ := h0
      simp only [if_true, bind_ok] at hl
      obtain ⟨⟨cid, L2⟩, h3, ⟨value, L3⟩, h4, L4, h5, ⟨key, L5⟩, h6, h7⟩ := hl
      rw [unwrap_collector_maybe_eq, Except.ok.injEq, Prod.mk.injEq] at h3
      obtain ⟨rfl, rfl⟩ := h3
      have e4 := (serialize_neutral cb n).1 _ _ _ h4
      subst e4
      simp only [lua_pop_one, Except.ok.injEq] at h5
      subst h5
      have e6 := (serialize_neutral cb n).1 _ _ _ h6
      subst e6
      obtain ⟨hkey, hk⟩ := serialize_object_keyOf cb n k _ h key _ h6
      have hn1 : (if k = .nil then some t.entries else afterKey t.entries k) = some suf := by
        rw [if_neg hk, hsplit]
        exact afterKey_of_split pre suf k v (by rw [← hsplit]; exact hnd)
      have := ih (pre ++ [(k, v)]) n _ k rest st L1 (by rw [hsplit]; simp) hn1 h7
      rw [this]
      simp [stable_entry.toList, hkey]

/-- In a list whose images under `f` are pairwise distinct, exactly one
element has a given image that occurs. -/
theorem filter_length_one_of_nodup {α β : Type} [DecidableEq α] (f : β → α) :
    ∀ (l : List β) (a : α), (l.map f).Nodup → a ∈ l.map f →
      (l.filter (fun r => decide (f r = a))).length = 1
  | [], a, _, hm => by simp at hm
  | x :: l, a, hnd, hm => by
    simp only [List.map_cons, List.nodup_cons] at hnd
    by_cases hx : f x = a
    · have hno : ∀ r ∈ l, f r ≠ a := by
        intro r hr e
        apply hnd.1
        rw [hx, ← e]
        exact List.mem_map_of_mem f hr
      have : l.filter (fun r => decide (f r = a)) = [] := by
        rw [List.filter_eq_nil_iff]
        intro r hr
        simpa using hno r hr
      simp [List.filter_cons, hx, this]
    · have hm2 : a ∈ l.map f := by
        simp only [List.map_cons, List.mem_cons] at hm
        rcases hm with e | hm
        · exact absurd e.symm hx
        · exact hm
      simp [List.filter_cons, hx, filter_length_one_of_nodup f l a hnd.2 hm2]

theorem cutKey_of_no_nul (k : TValue) (h : ∀ s, k = .string s → (0 : Byte) ∉ s) :
    cutKey k = k := by
  cases k with
  | string s =>
    simp only [cutKey, TValue.string.injEq]
    exact cstr_of_not_mem s (h s rfl)
  | _ => rfl

/-- C21 (as amended): for a live table `p` whose keys are pairwise distinct,
the `stable` that `serialize_table` returns carries the address of `p` and one
entry per entry of `p`, last entry first, the key of each being the live key
with a string cut at its first NUL byte. When no string key of `p` holds a NUL
byte, the keys of the serialized entries are therefore the keys of `p`: they
are pairwise distinct, as many as the keys of `p`, and every key of `p` is the
key of exactly one serialized entry. -/
theorem serialized_table_keys (cb : callbacks) (n : Nat) (h : List Obj) (p : Nat)
    (rest : List TValue) (t : Table) (st : stable) (L1 : lua_State)
    (ht : getTable ⟨[], h⟩ p = some t) (hnd : (t.entries.map Prod.fst).Nodup)
    (hser : serialize_table cb n ⟨.table p :: rest, h⟩ = .ok (st, L1)) :
    st.id = p ∧
    st.entries.toList.map (fun r => r.1.keyOf) =
      (t.entries.map (fun e => some (cutKey e.1))).reverse ∧
    ((∀ e ∈ t.entries, ∀ s, e.1 = .string s → (0 : Byte) ∉ s) →
      st.entries.toList.map (fun r => r.1.keyOf) = (t.entries.map (fun e => some e.1)).reverse ∧
      (st.entries.toList.map (fun r => r.1)).Nodup ∧
      st.entries.toList.length = t.entries.length ∧
      ∀ k ∈ t.entries.map Prod.fst,
        (st.entries.toList.filter (fun r => decide (r.1.keyOf = some k))).length = 1) := by
  cases n with
  | zero => simp [serialize_table] at hser
  | succ n =>
    simp only [serialize_table, bind_ok, pure_ok] at hser
    obtain ⟨⟨es, L2⟩, h1, h2⟩ := hser
    simp only [Prod.mk.injEq] at h2
    obtain ⟨rfl, -⟩ := h2
    cases n with
    | zero => simp [dump_table_entries] at h1
    | succ n =>
      simp only [dump_table_entries, lua_pushnil, push] at h1
      have hkeys := dump_table_entries_loop_keys cb h p t ht hnd t.entries [] n .null .nil rest
        es L2 rfl (by simp) h1
      simp only [stable_entry.toList, List.map_nil, List.append_nil] at hkeys
      refine ⟨by simp [stable.id, lua_topointer], hkeys, ?_⟩
      intro hnul
      have hcut : t.entries.map (fun e => some (cutKey e.1)) =
          t.entries.map (fun e => some e.1) := by
        apply List.map_congr_left
        intro e he
        rw [cutKey_of_no_nul e.1 (hnul e he)]
      have hk2 : es.toList.map (fun r => r.1.keyOf) =
          (t.entries.map (fun e => some e.1)).reverse := by
        rw [← hcut]; exact hkeys
      have hnd2 : (es.toList.map (fun r => r.1.keyOf)).Nodup := by
        rw [hk2, List.nodup_reverse]
        have : t.entries.map (fun e => some e.1) = (t.entries.map Prod.fst).map some := by
          simp
        rw [this]
        exact hnd.map (Option.some_injective _)
      refine ⟨hk2, ?_, ?_, ?_⟩
      · have : es.toList.map (fun r => r.1.keyOf) =
            (es.toList.map (fun r => r.1)).map svalue.keyOf := by simp
        rw [this] at hnd2
        exact hnd2.of_map _
      · have := congrArg List.length hk2
        simpa using this
      · intro k hk
        apply filter_length_one_of_nodup _ _ _ hnd2
        rw [hk2, List.mem_reverse]
        simp only [List.mem_map] at hk ⊢
        obtain ⟨e, he, rfl⟩ := hk
        exact ⟨e, he, rfl⟩

theorem serialized_table_keys_witness :
    (stable.mk 1 (.node (.node .null (.number 1) (.boolean true) 0) (.number 2)
      (.boolean false) 0)).id = 1 ∧
    (stable.mk 1 (.node (.node .null (.number 1) (.boolean true) 0) (.number 2)
      (.boolean false) 0)).entries.toList.map (fun r => r.1.keyOf) =
      ((Table.mk [(.number 1, .boolean true), (.number 2, .boolean false)] 0).entries.map
        (fun e => some (cutKey e.1))).reverse ∧
    ((∀ e ∈ (Table.mk [(.number 1, .boolean true), (.number 2, .boolean false)] 0).entries,
        ∀ s, e.1 = .string s → (0 : Byte) ∉ s) →
      (stable.mk 1 (.node (.node .null (.number 1) (.boolean true) 0) (.number 2)
        (.boolean false) 0)).entries.toList.map (fun r => r.1.keyOf) =
        ((Table.mk [(.number 1, .boolean true), (.number 2, .boolean false)] 0).entries.map
          (fun e => some e.1)).reverse ∧
      ((stable.mk 1 (.node (.node .null (.number 1) (.boolean true) 0) (.number 2)
        (.boolean false) 0)).entries.toList.map (fun r => r.1)).Nodup ∧
      (stable.mk 1 (.node (.node .null (.number 1) (.boolean true) 0) (.number 2)
        (.boolean false) 0)).entries.toList.length =
        (Table.mk [(.number 1, .boolean true), (.number 2, .boolean false)] 0).entries.length ∧
      ∀ k ∈ (Table.mk [(.number 1, .boolean true), (.number 2, .boolean false)] 0).entries.map
          Prod.fst,
        ((stable.mk 1 (.node (.node .null (.number 1) (.boolean true) 0) (.number 2)
          (.boolean false) 0)).entries.toList.filter
            (fun r => decide (r.1.keyOf = some k))).length = 1) :=
  serialized_table_keys ⟨false⟩ 10 two_entries_heap 1 []
    ⟨[(.number 1, .boolean true), (.number 2, .boolean false)], 0⟩
    (.mk 1 (.node (.node .null (.number 1) (.boolean true) 0) (.number 2) (.boolean false) 0))
    ⟨[.table 1], two_entries_heap⟩ (by decide) (by decide) (by decide)

/-- C21 (as stated) fails: the two keys "a\0" and "a" of the table of
`nul_keys_heap` are distinct, and both serialized entries have the key "a". -/
theorem serialize_table_nul_keys_collide :
    TValue.string [97, 0] ≠ TValue.string [97] ∧
    serialize_table ⟨false⟩ 10 ⟨[.table 1], nul_keys_heap⟩ =
      .ok (.mk 1 (.node (.node .null (.string [97]) (.number 1) 0) (.string [97]) (.number 2) 0),
        ⟨[.table 1], nul_keys_heap⟩) := by
  decide

theorem slotList_length : ∀ (us : List Nat) (i : Int), (slotList i us).length = us.length := by
  intro us i
  have := congrArg List.length (slotList_fst us i)
  simpa using this

theorem mem_slotList_iff (us : List Nat) (n : Int) (u : Nat) :
    (u, n) ∈ slotList 1 us ↔ nth1 us n = some u := by
  constructor
  · intro h
    obtain ⟨h1, h2, h3⟩ := slotList_nth1 us 1 (u, n) h
    simp only at h1 h2 h3
    unfold nth1
    rw [if_pos h1]
    have : n.toNat - 1 = (n - 1).toNat := by omega
    rw [this]
    exact h3
  · exact mem_slotList_one us n u

/-- C28: (a) the upvalue list that `serialize_function` returns for a live
function with the upvalue cells `c.upvals` holds one record per slot, last
slot first, each with the slot's number and the address of the slot's cell
(what `lua_upvalueid` returns); (b) after `push_function` on any function
record whose slot numbers are pairwise different, for every record the slot
whose number it carries refers to the cell that the cache records for the
record's upvalue id; (c) two upvalue lists with the same records in different
orders (plain values, ids not yet in the cache) give the same function address
and the same upvalue cells, and every slot holds the value of the record that
names it, equal in both results when the value is a boolean, a number or a
string. -/
theorem upvalue_records_by_slot (cb : callbacks) (H : Host) (fuel : Nat) (Ls : lua_State)
    (p : Nat) (rest : List TValue) (c : Closure) (sf : sfunction) (Ls1 : lua_State)
    (hs : Ls.stack = .function p :: rest) (hc : getClosure Ls p = some c)
    (hcells : ∀ u ∈ c.upvals, (getUpval Ls u).isSome)
    (hser : serialize_function cb fuel Ls = .ok (sf, Ls1))
    (idx : Int) (ot : Nat) (Lt : lua_State) (cache : upvalue_cache) (f : sfunction)
    (key : Option Nat) (L1 : lua_State) (c1 : upvalue_cache)
    (hinv : Inv idx ot Lt cache) (hnum : f.upvalues.numbers.Nodup)
    (hpush : push_function cb H f Lt cache = .ok (0, key, L1, c1))
    (id : Nat) (code : List Byte) (nups : Nat) (ups1 ups2 : supvalue)
    (hload : H.load code = .proto nups)
    (h1 : ups1.rebuildable cache nups id) (h2 : ups2.rebuildable cache nups id)
    (hperm : ∀ r, r ∈ ups1.records ↔ r ∈ ups2.records) :
    (sf.upvalues.slots = (slotList 1 c.upvals).reverse ∧
      sf.upvalues.slots.length = c.upvals.length ∧ sf.upvalues.numbers.Nodup ∧
      ∀ i u, (u, i) ∈ sf.upvalues.slots ↔ nth1 c.upvals i = some u) ∧
    (∃ fid cr, key = some fid ∧ getClosure L1 fid = some cr ∧
      ∀ s ∈ f.upvalues.slots, Shares L1 c1 fid s.2 s.1) ∧
    (∃ La ca Lb cb1,
      push_function cb H (.mk id code ups1) Lt cache =
        .ok (0, some (Lt.heap.length + nups + 1), La, ca) ∧
      push_function cb H (.mk id code ups2) Lt cache =
        .ok (0, some (Lt.heap.length + nups + 1), Lb, cb1) ∧
      getClosure La (Lt.heap.length + nups + 1) =
        some ⟨some code, List.range' (Lt.heap.length + 1) nups⟩ ∧
      getClosure Lb (Lt.heap.length + nups + 1) =
        some ⟨some code, List.range' (Lt.heap.length + 1) nups⟩ ∧
      ∀ r ∈ ups1.records, ∃ u wa wb,
        nth1 (List.range' (Lt.heap.length + 1) nups) r.1 = some u ∧
        getUpval La u = some wa ∧ getUpval Lb u = some wb ∧
        Built Lt.heap.length La r.2 wa ∧ Built Lt.heap.length Lb r.2 wb ∧
        (r.2.isPrimitive = true → wa = wb)) := by
  refine ⟨?_, ?_, ?_⟩
  · obtain ⟨-, -, hsl⟩ := serialize_function_slots cb fuel Ls p rest c sf Ls1 hs hc hcells hser
    refine ⟨hsl, ?_, ?_, ?_⟩
    · rw [hsl, List.length_reverse, slotList_length]
    · rw [supvalue_numbers_eq, hsl, List.map_reverse]
      exact List.nodup_reverse.mpr (slotList_nodup 1 c.upvals)
    · intro i u
      rw [hsl, List.mem_reverse]
      exact mem_slotList_iff c.upvals i u
  · obtain ⟨-, -, h0, -⟩ := push_function_inv cb H idx ot f Lt cache 0 key L1 c1 hinv hpush
    obtain ⟨n1, fid, cr, -, hkey, -, -, hcr, -, -, hsh⟩ := h0 rfl
    exact ⟨fid, cr, hkey, hcr, hsh hnum⟩
  · obtain ⟨hp1, hnn1, hr1, hid1, hlu1, htn1, hlo1, hnot1⟩ := h1
    obtain ⟨hp2, hnn2, hr2, hid2, hlu2, htn2, hlo2, hnot2⟩ := h2
    obtain ⟨La, ca, hpa, -, hca, hra⟩ := push_function_plain cb H idx ot id code ups1 nups Lt cache
      hinv hload hp1 hnn1 hr1 hid1 hlu1 htn1 hlo1 hnot1
    obtain ⟨Lb, cb1, hpb, -, hcb, hrb⟩ := push_function_plain cb H idx ot id code ups2 nups Lt
      cache hinv hload hp2 hnn2 hr2 hid2 hlu2 htn2 hlo2 hnot2
    refine ⟨La, ca, Lb, cb1, hpa, hpb, hca, hcb, ?_⟩
    intro r hr
    obtain ⟨u, wa, hu, hwa, hBa⟩ := hra r hr
    obtain ⟨u2, wb, hu2, hwb, hBb⟩ := hrb r ((hperm r).mp hr)
    rw [hu] at hu2
    cases hu2
    refine ⟨u, wa, wb, hu, hwa, hwb, hBa, hBb, ?_⟩
    intro hprim
    rcases Built_cases _ _ _ _ hBa with ⟨hia, -⟩ | ⟨hia, -⟩
    · rcases Built_cases _ _ _ _ hBb with ⟨hib, -⟩ | ⟨hib, -⟩
      · rw [hia] at hib
        exact Option.some.inj hib
      · rw [hia] at hib
        cases hib
    · cases hv : r.2 <;> simp [hv, svalue.isPrimitive, svalue.image] at hprim hia

theorem upvalue_records_by_slot_witness :
    ((sfunction.mk 1 [1] (.node .null 3 1 (.number 0) 0)).upvalues.slots =
        (slotList 1 (Closure.mk (some [1]) [3]).upvals).reverse ∧
      (sfunction.mk 1 [1] (.node .null 3 1 (.number 0) 0)).upvalues.slots.length =
        (Closure.mk (some [1]) [3]).upvals.length ∧
      (sfunction.mk 1 [1] (.node .null 3 1 (.number 0) 0)).upvalues.numbers.Nodup ∧
      ∀ i u, (u, i) ∈ (sfunction.mk 1 [1] (.node .null 3 1 (.number 0) 0)).upvalues.slots ↔
        nth1 (Closure.mk (some [1]) [3]).upvals i = some u) ∧
    (∃ fid cr, some 4 = some fid ∧ getClosure two_records_rebuilt fid = some cr ∧
      ∀ s ∈ (sfunction.mk 1 [1] two_records).upvalues.slots,
        Shares two_records_rebuilt two_records_cache fid s.2 s.1) ∧
    (∃ La ca Lb cb1,
      push_function ⟨false⟩ (accepting 2) (.mk 1 [1] two_records) counter_target fresh_cache =
        .ok (0, some (counter_target.heap.length + 2 + 1), La, ca) ∧
      push_function ⟨false⟩ (accepting 2) (.mk 1 [1] two_records_swapped) counter_target
          fresh_cache =
        .ok (0, some (counter_target.heap.length + 2 + 1), Lb, cb1) ∧
      getClosure La (counter_target.heap.length + 2 + 1) =
        some ⟨some [1], List.range' (counter_target.heap.length + 1) 2⟩ ∧
      getClosure Lb (counter_target.heap.length + 2 + 1) =
        some ⟨some [1], List.range' (counter_target.heap.length + 1) 2⟩ ∧
      ∀ r ∈ two_records.records, ∃ u wa wb,
        nth1 (List.range' (counter_target.heap.length + 1) 2) r.1 = some u ∧
        getUpval La u = some wa ∧ getUpval Lb u = some wb ∧
        Built counter_target.heap.length La r.2 wa ∧
        Built counter_target.heap.length Lb r.2 wb ∧
        (r.2.isPrimitive = true → wa = wb)) :=
  upvalue_records_by_slot ⟨false⟩ (accepting 2) 5 (push counter_source (.function 1)) 1 []
    ⟨some [1], [3]⟩ (.mk 1 [1] (.node .null 3 1 (.number 0) 0))
    (push counter_source (.function 1)) rfl (by decide) (by decide) (by decide)
    1 1 counter_target fresh_cache (.mk 1 [1] two_records) (some 4) two_records_rebuilt
    two_records_cache
    (Inv_new 1 1 counter_target (by decide) (by decide) (by decide) (by decide))
    (by decide) (by decide)
    1 [1] 2 two_records two_records_swapped rfl
    ⟨by decide, by decide, by decide, by decide, by decide, by decide, by decide, by decide⟩
    ⟨by decide, by decide, by decide, by decide, by decide, by decide, by decide, by decide⟩
    (by
      intro r
      simp only [two_records, two_records_swapped, supvalue.records, List.mem_cons,
        List.mem_singleton, List.not_mem_nil, or_false]
      exact or_comm)

theorem primitive_plain (key : svalue) (h : key.isPrimitive = true) :
    key.plain = true ∧ key.tableIds = [] := by
  cases key <;> simp [svalue.isPrimitive] at h <;> simp [svalue.plain, svalue.tableIds]

theorem map_collector_primitive (c : upvalue_cache) (cid tid : Nat) (key : svalue)
    (h : key.isPrimitive = true) :
    map_collector c cid tid key =
      .ok { c with collector_map := ⟨cid, tid, key.copied⟩ :: c.collector_map } := by
  cases key <;> simp [svalue.isPrimitive] at h <;>
    simp [map_collector, copy_value, svalue.copied, bind, Except.bind, pure, Except.pure]

theorem map_collector_not_primitive (c : upvalue_cache) (cid tid : Nat) (key : svalue)
    (h : key.isPrimitive = false) : map_collector c cid tid key = .error .fatal := by
  cases key <;> simp [svalue.isPrimitive] at h <;>
    simp [map_collector, copy_value, bind, Except.bind]

theorem push_table_entries_marked (cb : callbacks) (H : Host) (idx : Int) (ot : Nat) :
    ∀ (es : stable_entry) (tid : Nat) (L : lua_State) (cache : upvalue_cache)
      (rest : List TValue),
      Inv idx ot L cache → L.stack = .table tid :: rest → tid ≠ ot →
      Fetch L ot tid = .table tid → (getTable L tid).isSome →
      es.marked = true → es.tableIds.Nodup →
      (∀ i ∈ es.tableIds, lookup_object cache i = none) →
      ∃ L1 c1, push_table_entries cb H es tid L cache = .ok (L1, c1) ∧
        c1.collector_map = (es.collected tid).reverse ++ cache.collector_map
  | .null, tid, L, cache, rest, _, _, _, _, _, _, _, _ =>
    ⟨L, cache, rfl, by simp [stable_entry.collected]⟩
  | .node next key value cid, tid, L, cache, rest, hinv, hs, hne, hf, hT, hm, hnd, hl => by
    simp only [stable_entry.marked, Bool.and_eq_true] at hm
    obtain ⟨⟨hkp, hpv⟩, hmn⟩ := hm
    obtain ⟨hpk1, hkt⟩ := primitive_plain key hkp
    simp only [stable_entry.tableIds, hkt, List.nil_append, List.nodup_append,
      List.mem_append] at hnd hl
    obtain ⟨hndv, hndn, hdn⟩ := hnd
    have hotle := getTable_isSome_le L ot hinv.host
    have htle := getTable_isSome_le L tid hT
    obtain ⟨T0, hT0⟩ := Option.isSome_iff_exists.mp hT
    -- the key
    obtain ⟨La, ca, kw, hk, hsa, hBk, hck, -, hlk⟩ := push_object_plain cb H idx ot key L cache
      hinv hpk1 (by simp [hkt]) (by simp [hkt])
    obtain ⟨-, stA⟩ := push_object_inv cb H idx ot key L cache La ca hinv hk
    -- the value
    obtain ⟨Lb, cb1, vw, hv, hsb, hBv, hcv, -, hlv⟩ := push_object_plain cb H idx ot value La ca
      stA.inv hpv hndv (fun i hi => hck i (by simp [hkt]) (hl i (Or.inl hi)))
    obtain ⟨-, stB⟩ := push_object_inv cb H idx ot value La ca Lb cb1 stA.inv hv
    have hlenA := stA.mono.len
    have hlenB := stB.mono.len
    have hTb : getTable Lb tid = some T0 := by
      rw [stB.tbls tid (by omega) hne, stA.tbls tid htle hne]; exact hT0
    have hsb2 : Lb.stack = vw :: kw :: .table tid :: rest := by rw [hsb, hsa, hs]
    obtain ⟨Lc, hr⟩ := lua_rawset_m3_ok Lb vw kw tid _ rest hsb2 hTb
      (Built_ne_nil _ _ key kw hBk)
    have hfb : Fetch Lb ot tid = .table tid := by
      rw [stB.mono.fetch tid (by omega), stA.mono.fetch tid htle]; exact hf
    have hle : idx.toNat ≤ (TValue.table tid :: rest).length := by rw [← hs]; exact hinv.le
    have hidx : ∀ L1 : lua_State, L1.stack = .table tid :: rest →
        index L1 idx = some (.table ot) := fun L1 h1 => by
      rw [index_congr L L1 idx (by rw [h1, hs])]; exact hinv.at_idx
    have hcd : ∃ cd, (if cid ≠ 0 then map_collector cb1 cid tid key else pure cb1) = .ok cd ∧
        cd.collector_map =
          (if cid ≠ 0 then [⟨cid, tid, key.copied⟩] else []) ++ cb1.collector_map ∧
        cd.object_map = cb1.object_map := by
      by_cases hc : cid ≠ 0
      · refine ⟨{ cb1 with collector_map := ⟨cid, tid, key.copied⟩ :: cb1.collector_map },
          ?_, ?_, ?_⟩
        · rw [if_pos hc]
          exact map_collector_primitive cb1 cid tid key hkp
        · simp [hc]
        · rfl
      · exact ⟨cb1, by rw [if_neg hc]; rfl, by simp [hc], rfl⟩
    obtain ⟨cd, hcd1, hcd2, hcd3⟩ := hcd
    obtain ⟨hsc, -, ⟨T, hTb1, hTc⟩, -, stC⟩ := entry_commit (stable_entry.numsOK next = true) vw kw
      tid rest key cid stB.inv hsb2 hne hfb hle hidx hr hcd1
    have hlenC := stC.mono.len
    have hfc : Fetch Lc ot tid = .table tid := by
      rw [stC.mono.fetch tid (by omega)]; exact hfb
    have hlcd : ∀ i, lookup_object cd i = lookup_object cb1 i := by
      intro i
      simp [lookup_object, hcd3]
    obtain ⟨L1, c1, hn, hcm⟩ :=
      push_table_entries_marked cb H idx ot next tid Lc cd rest stC.inv hsc hne hfc
        (by simp [hTc]) hmn hndn
        (fun i hi => by
          rw [hlcd i]
          exact hcv i (fun hiv => hdn hiv hi) (hck i (by simp [hkt]) (hl i (Or.inr hi))))
    refine ⟨L1, c1, ?_, ?_⟩
    · simp only [push_table_entries, hk, hv, hr, hcd1, bind, Except.bind]
      exact hn
    · rw [hcm, hcd2, hlv, hlk]
      simp only [stable_entry.collected, List.reverse_append, List.append_assoc]
      by_cases hc : cid ≠ 0 <;> simp [hc]

theorem push_table_marked (cb : callbacks) (H : Host) (idx : Int) (ot : Nat) (id : Nat)
    (es : stable_entry) (L : lua_State) (cache : upvalue_cache) (hinv : Inv idx ot L cache)
    (hm : es.marked = true) (hnd : (id :: es.tableIds).Nodup)
    (hl : ∀ i ∈ id :: es.tableIds, lookup_object cache i = none) :
    ∃ L1 c1, push_table cb H (.mk id es) L cache = .ok (L1, c1) ∧
      c1.collector_map = (es.collected (L.heap.length + 1)).reverse ++ cache.collector_map := by
  simp only [List.nodup_cons] at hnd
  simp only [List.mem_cons, forall_eq_or_imp] at hl
  obtain ⟨hs0, hlen0, hd0⟩ := lua_newtable_spec L
  have hT0 : getTable (lua_newtable L) (L.heap.length + 1) = some ⟨[], 0⟩ := by
    simp [getTable, hd0]
  obtain ⟨L2, h1, hst2, hlen2, hne2, hfetch2, hstep2⟩ :=
    cache_new_object (stable.numsOK (.mk id es) = true) hinv (lua_newtable L)
      (.table (L.heap.length + 1)) (L.heap.length + 1)
      (Or.inl ⟨rfl, by simp [hT0]⟩) (by omega) hs0 (by omega)
      (fun q hq => by rw [hd0 q, if_neg (by omega)]) id
  have hotle := getTable_isSome_le L ot hinv.host
  have hne : L.heap.length + 1 ≠ ot := by omega
  have hT2 : getTable L2 (L.heap.length + 1) = some ⟨[], 0⟩ := by
    rw [getTable_eq_of_deref (lua_newtable L) L2 _ (hne2 _ hne)]; exact hT0
  obtain ⟨L1, c1, h2, hcm⟩ :=
    push_table_entries_marked cb H idx ot es (L.heap.length + 1) L2
      (map_object cache id (L.heap.length + 1)) L.stack hstep2.inv
      (by rw [hst2, hs0]) hne hfetch2 (by simp [hT2]) hm hnd.2
      (fun i hi => lookup_object_map_object_ne cache id _ i
        (fun e => hnd.1 (e ▸ hi)) (hl.2 i hi))
  refine ⟨L1, c1, ?_, by rw [hcm]; rfl⟩
  simp only [push_table, h1, bind, Except.bind]
  exact h2

theorem mem_collected (tid : Nat) : ∀ (es : stable_entry) (r : svalue × svalue × Nat),
    r ∈ es.toList → r.2.2 ≠ 0 → ⟨r.2.2, tid, r.1.copied⟩ ∈ es.collected tid
  | .null, r, hr, _ => by simp [stable_entry.toList] at hr
  | .node next key value cid, r, hr, hc => by
    simp only [stable_entry.toList, List.mem_cons] at hr
    simp only [stable_entry.collected, List.mem_append]
    rcases hr with rfl | hr
    · left
      simp only at hc
      simp [hc]
    · right
      exact mem_collected tid next r hr hc

/-- C27 (as amended): for a serialized table whose keys are booleans, numbers
or strings and whose values are plain value trees (with table ids that are new
to the cache), whichever entries carry a collector id, `push_table` returns,
and the collector map it leaves is the former one with, in front, one mapping
from the collector id to the live table and a copy of the key for every entry
that carries a collector id, the last such entry first. An entry that carries
a collector id under a key of another kind (a table or a function) makes the
loop of `push_table` end in the assertion of `copy_value`. -/
theorem collector_key_recorded (cb : callbacks) (H : Host) (idx : Int) (ot : Nat) (id : Nat)
    (es : stable_entry) (L : lua_State) (cache : upvalue_cache) (hinv : Inv idx ot L cache)
    (hm : es.marked = true) (hnd : (id :: es.tableIds).Nodup)
    (hl : ∀ i ∈ id :: es.tableIds, lookup_object cache i = none) :
    (∃ L1 c1, push_table cb H (.mk id es) L cache = .ok (L1, c1) ∧
      c1.collector_map = (es.collected (L.heap.length + 1)).reverse ++ cache.collector_map ∧
      ∀ r ∈ es.toList, r.2.2 ≠ 0 →
        (⟨r.2.2, L.heap.length + 1, r.1.copied⟩ : collector_mapping) ∈ c1.collector_map) ∧
    (∀ (next : stable_entry) (key value : svalue) (cid tid : Nat) (Lx : lua_State)
      (cx : upvalue_cache), cid ≠ 0 → key.isPrimitive = false →
      ∀ r, push_table_entries cb H (.node next key value cid) tid Lx cx ≠ .ok r) := by
  constructor
  · obtain ⟨L1, c1, h1, h2⟩ := push_table_marked cb H idx ot id es L cache hinv hm hnd hl
    refine ⟨L1, c1, h1, h2, ?_⟩
    intro r hr hc
    rw [h2]
    exact List.mem_append_left _ (List.mem_reverse.mpr (mem_collected _ es r hr hc))
  · intro next key value cid tid Lx cx hc hk r hr
    simp only [push_table_entries, bind_ok] at hr
    obtain ⟨⟨La, ca⟩, -, ⟨Lb, cb1⟩, -, Lc, -, cd, h4, -⟩ := hr
    rw [if_pos hc, map_collector_not_primitive cb1 cid tid key hk] at h4
    cases h4

theorem collector_key_recorded_witness :
    (∃ L1 c1, push_table ⟨false⟩ (accepting 0) (.mk 2 marked_entries) empty_target fresh_cache =
        .ok (L1, c1) ∧
      c1.collector_map =
        (marked_entries.collected (empty_target.heap.length + 1)).reverse ++
          fresh_cache.collector_map ∧
      ∀ r ∈ marked_entries.toList, r.2.2 ≠ 0 →
        (⟨r.2.2, empty_target.heap.length + 1, r.1.copied⟩ : collector_mapping) ∈
          c1.collector_map) ∧
    (∀ (next : stable_entry) (key value : svalue) (cid tid : Nat) (Lx : lua_State)
      (cx : upvalue_cache), cid ≠ 0 → key.isPrimitive = false →
      ∀ r, push_table_entries ⟨false⟩ (accepting 0) (.node next key value cid) tid Lx cx ≠
        .ok r) :=
  collector_key_recorded ⟨false⟩ (accepting 0) 1 1 2 marked_entries empty_target fresh_cache
    (Inv_new 1 1 empty_target (by decide) (by decide) (by decide) (by decide))
    (by decide) (by decide) (by decide)

/-- C27 (as stated) fails: an entry that carries the collector id 7 under a
key that is a table, or a function, makes `push_table` end in the assertion of
`copy_value`; the same entries without a collector id are rebuilt. -/
theorem push_table_collector_table_key :
    push_table ⟨false⟩ (accepting 0) (.mk 2 (.node .null (.table (.mk 3 .null)) (.number 5) 7))
      empty_target fresh_cache = .error .fatal ∧
    push_table ⟨true⟩ (accepting 0)
      (.mk 2 (.node .null (.function (.mk 3 [1] .null)) (.number 5) 7))
      empty_target fresh_cache = .error .fatal ∧
    (push_table ⟨false⟩ (accepting 0) (.mk 2 (.node .null (.table (.mk 3 .null)) (.number 5) 0))
      empty_target fresh_cache).toOption.isSome = true := by
  decide

/-- The order of `set_shared_upvalue`, which enters an upvalue id in the
upvalue map only after `set_upvalue` has pushed the value, shows on a tree in
which a record lies inside the value of a record with the same id.
`nested_outer` is such a tree; it is not consistent (its two records of id 9
hold different values), and the serializer returns no tree of this shape, as
it does not return from a structure that reaches itself.
`deserialize_function` rebuilds `nested_outer` at address 3 and `nested_inner`
at address 5, and slot 1 of the outer function refers to the cell at address 2
while slot 1 of the inner function refers to the cell at address 4. -/
theorem nested_equal_ids_not_joined :
    deserialize_function ⟨false⟩ (accepting 1) empty_target upvalue_cache_new 1 nested_outer =
      .ok (0, some 3,
        ⟨[.function 3, .table 1],
          [.table ⟨[(.lightuserdata 3, .function 3), (.lightuserdata 5, .function 5)], 0⟩,
            .upval (.function 5), .closure ⟨some [1], [2]⟩,
            .upval (.number 0), .closure ⟨some [2], [4]⟩]⟩,
        { upvalue_map := [{ key := 9, function_id := 3, upvalue_num := 1 },
            { key := 9, function_id := 5, upvalue_num := 1 }],
          object_map := [{ key := 6, object_id := 5 }, { key := 5, object_id := 3 }],
          collector_map := [], object_tbl_idx := 1 }) ∧
    nth1 (Closure.mk (some [1]) [2]).upvals 1 = some 2 ∧
    nth1 (Closure.mk (some [2]) [4]).upvals 1 = some 4 := by
  decide

/-! ## The stack after a call, and the soundness of the collector map -/

/-- Under the invariant of a campaign, `push_collected_value` returns for
every collector id, with one value pushed and the cache unchanged. -/
theorem push_collected_value_total (cb : callbacks) (H : Host) (idx : Int) (ot : Nat)
    (L : lua_State) (c : upvalue_cache) (hinv : Inv idx ot L c) (cid : Nat) :
    ∃ v, push_collected_value cb H L c idx cid = .ok (push L v, c) := by
  cases hn : newest c cid with
  | none =>
    refine ⟨.nil, ?_⟩
    unfold push_collected_value
    simp only [cache_with_idx c idx hinv.cidx]
    have hall : ∀ m ∈ c.collector_map, m.key ≠ cid := by
      intro m hm hk
      unfold newest at hn
      rw [List.find?_eq_none] at hn
      exact hn m hm (by simp [hk])
    rw [push_collected_value_loop_unknown cb H c cid c.collector_map L hall]
    rfl
  | some m =>
    obtain ⟨hfun, htbl⟩ := push_collected_value_newest cb H idx ot L c cid m hinv hn
    obtain ⟨-, -, hmem⟩ := push_collected_value_loop_skip cb H c cid m c.collector_map L hn
    rcases hinv.colls m hmem with ⟨-, n, hvk, cl, u, hcl, -, -⟩ | ⟨-, hT, -⟩
    · obtain ⟨cl1, u1, v, -, -, -, hp⟩ := hfun n hvk (by simp [hcl])
      exact ⟨v, hp⟩
    · obtain ⟨T, hT⟩ := Option.isSome_iff_exists.mp hT
      obtain ⟨k, -, hp⟩ := htbl T hT
      exact ⟨_, hp⟩

/-- C31: in a campaign whose host-side object table is the table at the
absolute stack index `idx`: whenever `deserialize_value` returns, the stack is
the old stack with one value on top; it does return, so, for every plain value
tree whose table ids are new to the cache and for every function record with
plain upvalues whose bytecode loads; and `push_collected_value` returns for
every collector id, known or not, with the old stack below one new value and
the heap untouched. -/
theorem stack_one_taller (cb : callbacks) (H : Host) (idx : Int) (ot : Nat) (L : lua_State)
    (c0 : upvalue_cache) (hinv : Inv idx ot L { c0 with object_tbl_idx := idx }) :
    (∀ sv L1 c1, deserialize_value cb H L c0 idx sv = .ok (L1, c1) →
      ∃ v, L1.stack = v :: L.stack) ∧
    (∀ sv : svalue, sv.plain = true → sv.tableIds.Nodup →
      (∀ i ∈ sv.tableIds, lookup_object c0 i = none) →
      ∃ L1 c1 v, deserialize_value cb H L c0 idx sv = .ok (L1, c1) ∧
        L1.stack = v :: L.stack) ∧
    (∀ (id : Nat) (code : List Byte) (ups : supvalue) (nups : Nat),
      H.load code = .proto nups → ups.rebuildable c0 nups id → lookup_object c0 id = none →
      ∃ L1 c1 v, deserialize_value cb H L c0 idx (.function (.mk id code ups)) = .ok (L1, c1) ∧
        L1.stack = v :: L.stack) ∧
    (∀ cid, ∃ v, push_collected_value cb H L c0 idx cid =
      .ok (⟨v :: L.stack, L.heap⟩, { c0 with object_tbl_idx := idx })) := by
  refine ⟨?_, ?_, ?_, ?_⟩
  · intro sv L1 c1 h
    unfold deserialize_value at h
    obtain ⟨⟨v, -, hv⟩, -⟩ := push_object_inv cb H idx ot sv L _ L1 c1 hinv h
    exact ⟨v, hv⟩
  · intro sv hp hnd hl
    obtain ⟨L1, c1, w, h1, h2, -⟩ := push_object_plain cb H idx ot sv L _ hinv hp hnd hl
    exact ⟨L1, c1, w, h1, h2⟩
  · intro id code ups nups hload hr hid
    obtain ⟨hp1, hnn1, hr1, hid1, hlu1, htn1, hlo1, hnot1⟩ := hr
    obtain ⟨L1, c1, hpush, hs1, -⟩ := push_function_plain cb H idx ot id code ups nups L
      { c0 with object_tbl_idx := idx } hinv hload hp1 hnn1 hr1 hid1 hlu1 htn1 hlo1 hnot1
    refine ⟨L1, c1, _, ?_, hs1⟩
    unfold deserialize_value
    have hlf := lookup_and_fetch_object_eq { c0 with object_tbl_idx := idx } L idx ot id
      hinv.cidx hinv.pos hinv.le hinv.at_idx hinv.host
    have hid2 : lookup_object { c0 with object_tbl_idx := idx } id = none := hid
    rw [hid2] at hlf
    simp only [push_object, sfunction.id, hlf, hpush, bind, Except.bind, pure, Except.pure,
      Bool.false_eq_true, if_false]
  · intro cid
    obtain ⟨v, hv⟩ := push_collected_value_total cb H idx ot L { c0 with object_tbl_idx := idx }
      hinv cid
    exact ⟨v, hv⟩

theorem stack_one_taller_witness :
    (∀ sv L1 c1, deserialize_value ⟨false⟩ (accepting 1) collected_state collected_cache 1 sv =
        .ok (L1, c1) → ∃ v, L1.stack = v :: collected_state.stack) ∧
    (∀ sv : svalue, sv.plain = true → sv.tableIds.Nodup →
      (∀ i ∈ sv.tableIds, lookup_object collected_cache i = none) →
      ∃ L1 c1 v, deserialize_value ⟨false⟩ (accepting 1) collected_state collected_cache 1 sv =
          .ok (L1, c1) ∧ L1.stack = v :: collected_state.stack) ∧
    (∀ (id : Nat) (code : List Byte) (ups : supvalue) (nups : Nat),
      (accepting 1).load code = .proto nups → ups.rebuildable collected_cache nups id →
      lookup_object collected_cache id = none →
      ∃ L1 c1 v, deserialize_value ⟨false⟩ (accepting 1) collected_state collected_cache 1
          (.function (.mk id code ups)) = .ok (L1, c1) ∧
        L1.stack = v :: collected_state.stack) ∧
    (∀ cid, ∃ v, push_collected_value ⟨false⟩ (accepting 1) collected_state collected_cache 1
        cid =
      .ok (⟨v :: collected_state.stack, collected_state.heap⟩,
        { collected_cache with object_tbl_idx := 1 })) :=
  stack_one_taller ⟨false⟩ (accepting 1) 1 1 collected_state collected_cache
    (by
      rw [cache_with_idx collected_cache 1 rfl]
      exact collected_inv)

/-- C32: a campaign starts from a fresh cache and a table at the absolute
stack index `idx`, where the invariant holds; `deserialize_function`,
`deserialize_value` and `push_collected_value`, given that index, keep it when
they return. Under the invariant every entry of the collector map names an
object that is stored under its id in the host-side table and is either a live
function, the entry's key being the number of one of its upvalue slots, whose
cell exists, or a live table, the key being a boolean, a number or a string.
Hence `push_collected_value` returns for every collector id, whatever the
`LOG_FATAL` sink does: neither the branch "Expected function or table object"
nor a failing assertion is reached. -/
theorem collector_map_sound (cb : callbacks) (H : Host) (idx : Int) (ot : Nat) (L : lua_State)
    (c0 : upvalue_cache) (hinv : Inv idx ot L { c0 with object_tbl_idx := idx }) :
    (∀ L0 : lua_State, 0 < idx → idx.toNat ≤ L0.stack.length →
      index L0 idx = some (.table ot) → (getTable L0 ot).isSome →
      Inv idx ot L0 { upvalue_cache_new with object_tbl_idx := idx }) ∧
    (∀ m ∈ c0.collector_map,
      (Fetch L ot m.object_id = .function m.object_id ∧
        ∃ n cl u, m.value_key = .number n ∧ getClosure L m.object_id = some cl ∧
          nth1 cl.upvals n = some u ∧ (getUpval L u).isSome) ∨
      (Fetch L ot m.object_id = .table m.object_id ∧ (getTable L m.object_id).isSome ∧
        m.value_key.isPrimitive = true)) ∧
    (∀ cid, ∃ v, push_collected_value cb H L c0 idx cid =
        .ok (push L v, { c0 with object_tbl_idx := idx }) ∧
      Inv idx ot (push L v) { c0 with object_tbl_idx := idx }) ∧
    (∀ sv L1 c1, deserialize_value cb H L c0 idx sv = .ok (L1, c1) →
      Inv idx ot L1 { c1 with object_tbl_idx := idx }) ∧
    (∀ sf r key L1 c1, deserialize_function cb H L c0 idx sf = .ok (r, key, L1, c1) →
      Inv idx ot L1 { c1 with object_tbl_idx := idx }) := by
  refine ⟨?_, ?_, ?_, ?_, ?_⟩
  · intro L0 h0 hle hidx hT
    exact Inv_new idx ot L0 h0 hle hidx hT
  · intro m hm
    rcases hinv.colls m hm with ⟨hf, n, hvk, cl, u, hcl, hu, hw⟩ | ⟨hf, hT, hp⟩
    · exact Or.inl ⟨hf, n, cl, u, hvk, hcl, hu, hw⟩
    · exact Or.inr ⟨hf, hT, hp⟩
  · intro cid
    obtain ⟨v, hv⟩ := push_collected_value_total cb H idx ot L { c0 with object_tbl_idx := idx }
      hinv cid
    exact ⟨v, hv, (Step_push (fun _ => False) (fun _ => False) (fun _ => False) True hinv v).inv⟩
  · intro sv L1 c1 h
    unfold deserialize_value at h
    obtain ⟨-, hstep⟩ := push_object_inv cb H idx ot sv L _ L1 c1 hinv h
    rw [cache_with_idx c1 idx hstep.inv.cidx]
    exact hstep.inv
  · intro sf r key L1 c1 h
    unfold deserialize_function at h
    obtain ⟨-, hstep, -⟩ := push_function_inv cb H idx ot sf L _ r key L1 c1 hinv h
    rw [cache_with_idx c1 idx hstep.inv.cidx]
    exact hstep.inv

theorem collector_map_sound_witness :
    (∀ L0 : lua_State, 0 < (1 : Int) → (1 : Int).toNat ≤ L0.stack.length →
      index L0 1 = some (.table 1) → (getTable L0 1).isSome →
      Inv 1 1 L0 { upvalue_cache_new with object_tbl_idx := 1 }) ∧
    (∀ m ∈ collected_cache.collector_map,
      (Fetch collected_state 1 m.object_id = .function m.object_id ∧
        ∃ n cl u, m.value_key = .number n ∧ getClosure collected_state m.object_id = some cl ∧
          nth1 cl.upvals n = some u ∧ (getUpval collected_state u).isSome) ∨
      (Fetch collected_state 1 m.object_id = .table m.object_id ∧
        (getTable collected_state m.object_id).isSome ∧ m.value_key.isPrimitive = true)) ∧
    (∀ cid, ∃ v, push_collected_value ⟨false⟩ (accepting 1) collected_state collected_cache 1
          cid =
        .ok (push collected_state v, { collected_cache with object_tbl_idx := 1 }) ∧
      Inv 1 1 (push collected_state v) { collected_cache with object_tbl_idx := 1 }) ∧
    (∀ sv L1 c1, deserialize_value ⟨false⟩ (accepting 1) collected_state collected_cache 1 sv =
        .ok (L1, c1) → Inv 1 1 L1 { c1 with object_tbl_idx := 1 }) ∧
    (∀ sf r key L1 c1,
      deserialize_function ⟨false⟩ (accepting 1) collected_state collected_cache 1 sf =
        .ok (r, key, L1, c1) → Inv 1 1 L1 { c1 with object_tbl_idx := 1 }) :=
  collector_map_sound ⟨false⟩ (accepting 1) 1 1 collected_state collected_cache
    (by
      rw [cache_with_idx collected_cache 1 rfl]
      exact collected_inv)

theorem lookup_object_ext (c c1 : upvalue_cache) (h : ObjExt c c1) (id : Nat)
    (m : object_mapping) (hm : lookup_object c id = some m) : lookup_object c1 id = some m := by
  obtain ⟨pre, hpre, hnone⟩ := h
  unfold lookup_object at hm ⊢
  rw [hpre, List.find?_append]
  have : List.find? (fun m => decide (m.key = id)) pre = none := by
    rw [List.find?_eq_none]
    intro m1 hm1 hk
    simp only [decide_eq_true_eq] at hk
    have := hnone m1 hm1
    rw [hk] at this
    unfold lookup_object at this
    rw [this] at hm
    cases hm
  rw [this]
  exact hm

theorem ObjExt_mapped {c c1 : upvalue_cache} (h : ObjExt c c1) (id : Nat)
    (hm : (lookup_object c id).isSome) : (lookup_object c1 id).isSome := by
  obtain ⟨m, hm⟩ := Option.isSome_iff_exists.mp hm
  rw [lookup_object_ext c c1 h id m hm]
  rfl

theorem ObjExt_refl (c : upvalue_cache) : ObjExt c c := ⟨[], rfl, by simp⟩

theorem ObjExt_of_eq {c c1 : upvalue_cache} (h : c1.object_map = c.object_map) : ObjExt c c1 :=
  ⟨[], by simp [h], by simp⟩

theorem lookup_object_none_of_ext {c c1 : upvalue_cache} (h : ObjExt c c1) (id : Nat)
    (hn : lookup_object c1 id = none) : lookup_object c id = none := by
  cases hl : lookup_object c id with
  | none => rfl
  | some m =>
    rw [lookup_object_ext c c1 h id m hl] at hn
    cases hn

theorem ObjExt_trans {c c1 c2 : upvalue_cache} (h1 : ObjExt c c1) (h2 : ObjExt c1 c2) :
    ObjExt c c2 := by
  obtain ⟨p1, e1, n1⟩ := h1
  obtain ⟨p2, e2, n2⟩ := h2
  refine ⟨p2 ++ p1, by rw [e2, e1, List.append_assoc], ?_⟩
  intro m hm
  rcases List.mem_append.mp hm with h | h
  · exact lookup_object_none_of_ext ⟨p1, e1, n1⟩ _ (n2 m h)
  · exact n1 m h

theorem ObjExt_mem {c c1 : upvalue_cache} (h : ObjExt c c1) (m : object_mapping)
    (hm : m ∈ c.object_map) : m ∈ c1.object_map := by
  obtain ⟨pre, e, -⟩ := h
  rw [e]
  exact List.mem_append_right _ hm

theorem lookup_object_map_object (c : upvalue_cache) (id q k : Nat) :
    lookup_object (map_object c id q) k =
      if id = k then some ⟨id, q⟩ else lookup_object c k := by
  unfold lookup_object map_object
  simp only [List.find?_cons]
  by_cases h : id = k
  · simp [h]
  · simp [h]

theorem ObjExt_map_object (c : upvalue_cache) (id q : Nat) (h : lookup_object c id = none) :
    ObjExt c (map_object c id q) :=
  ⟨[⟨id, q⟩], rfl, by simpa using h⟩

theorem Shares_congr {L L1 : lua_State} {c c1 : upvalue_cache} {fid uid : Nat} {n : Int}
    (h : Shares L c fid n uid) (hu : c1.upvalue_map = c.upvalue_map)
    (hself : ∀ cl u, getClosure L fid = some cl → nth1 cl.upvals n = some u →
      ∃ cl1, getClosure L1 fid = some cl1 ∧ nth1 cl1.upvals n = some u)
    (hmapped : ∀ m ∈ c.upvalue_map, ∀ cl u, getClosure L m.function_id = some cl →
      nth1 cl.upvals m.upvalue_num = some u →
      ∃ cl1, getClosure L1 m.function_id = some cl1 ∧ nth1 cl1.upvals m.upvalue_num = some u) :
    Shares L1 c1 fid n uid :=
  Shares_stable h ⟨[], by simp [hu], by simp⟩ hself hmapped

/-- The facts recorded by `Joins` are kept by a step that leaves the object
map and the upvalue map as they are and keeps the slots of the functions that
are mapped and not under construction and the slots that the upvalue map
refers to. -/
theorem Joins_state {trees : List svalue} {opn : List Nat} {L L1 : lua_State} {c c1 : upvalue_cache}
    (hG : Joins trees opn L c) (hobj : c1.object_map = c.object_map)
    (hupv : c1.upvalue_map = c.upvalue_map)
    (hk1 : ∀ f : sfunction, svalue.function f ∈ campaign_objects trees → f.id ∉ opn →
      ∀ m, lookup_object c f.id = some m → ∀ cl, getClosure L m.object_id = some cl →
      getClosure L1 m.object_id = some cl)
    (hk2 : ∀ m ∈ c.upvalue_map, ∀ cl u, getClosure L m.function_id = some cl →
      nth1 cl.upvals m.upvalue_num = some u →
      ∃ cl1, getClosure L1 m.function_id = some cl1 ∧ nth1 cl1.upvals m.upvalue_num = some u) :
    Joins trees opn L1 c1 := by
  have hlo : ∀ k, lookup_object c1 k = lookup_object c k := fun k => by
    unfold lookup_object; rw [hobj]
  have hlu : ∀ k, lookup_upvalue c1 k = lookup_upvalue c k := fun k => by
    unfold lookup_upvalue; rw [hupv]
  refine ⟨?_, ?_, ?_, ?_⟩
  · rw [hobj]; exact hG.inj
  · intro f hf hfo m hm s hs
    rw [hlo] at hm
    refine Shares_congr (hG.done f hf hfo m hm s hs) hupv ?_ hk2
    intro cl u hcl hu
    exact ⟨cl, hk1 f hf hfo m hm cl hcl, hu⟩
  · intro a ha hao hm b hb
    rw [hlo] at hm ⊢
    exact hG.sub a ha hao hm b hb
  · intro r hr hm b hb
    rw [hlu] at hm
    rw [hlo]
    exact hG.vals r hr hm b hb

/-- The same, for a step that keeps every closure that existed before. -/
theorem Joins_same {trees : List svalue} {opn : List Nat} {L L1 : lua_State} {c c1 : upvalue_cache}
    (hG : Joins trees opn L c) (hobj : c1.object_map = c.object_map)
    (hupv : c1.upvalue_map = c.upvalue_map)
    (hclos : ∀ p, p ≤ L.heap.length → getClosure L1 p = getClosure L p) :
    Joins trees opn L1 c1 := by
  refine Joins_state hG hobj hupv ?_ ?_
  · intro f _ _ m _ cl hcl
    rw [hclos _ (getClosure_isSome_le L _ (by simp [hcl]))]
    exact hcl
  · intro m _ cl u hcl hu
    exact ⟨cl, by rw [hclos _ (getClosure_isSome_le L _ (by simp [hcl]))]; exact hcl, hu⟩

/-- A record enters construction: its id is mapped to a new live object. -/
theorem Joins_open {trees : List svalue} {opn : List Nat} {L : lua_State} {c : upvalue_cache}
    (hG : Joins trees opn L c) (id q : Nat) (hq : ∀ m ∈ c.object_map, m.object_id ≠ q) :
    Joins trees (id :: opn) L (map_object c id q) := by
  refine ⟨?_, ?_, ?_, ?_⟩
  · intro m1 hm1 m2 hm2 hk1 hk2 he
    simp only [map_object, List.mem_cons] at hm1 hm2
    rcases hm1 with rfl | hm1 <;> rcases hm2 with rfl | hm2
    · rfl
    · exact absurd he.symm (hq m2 hm2)
    · exact absurd he (hq m1 hm1)
    · exact hG.inj m1 hm1 m2 hm2 hk1 hk2 he
  · intro f hf hfo m hm s hs
    simp only [List.mem_cons, not_or] at hfo
    rw [lookup_object_map_object, if_neg (Ne.symm hfo.1)] at hm
    exact hG.done f hf hfo.2 m hm s hs
  · intro a ha hao hm b hb
    simp only [List.mem_cons, not_or] at hao
    rw [lookup_object_map_object, if_neg (Ne.symm hao.1)] at hm
    have := hG.sub a ha hao.2 hm b hb
    rw [lookup_object_map_object]
    split
    · rfl
    · exact this
  · intro r hr hm b hb
    have := hG.vals r hr hm b hb
    rw [lookup_object_map_object]
    split
    · rfl
    · exact this

/-- A record leaves construction. -/
theorem Joins_close {trees : List svalue} {opn : List Nat} {L : lua_State} {c : upvalue_cache}
    (id : Nat) (hG : Joins trees (id :: opn) L c) (hcons : campaign_consistent trees) (a0 : svalue)
    (ha0 : a0 ∈ campaign_objects trees) (hid : a0.objId = id)
    (hdone : ∀ f : sfunction, a0 = .function f → ∀ m, lookup_object c id = some m →
      ∀ s ∈ f.upvalues.slots, Shares L c m.object_id s.2 s.1)
    (hsub : ∀ b ∈ a0.objects, (lookup_object c b.objId).isSome) :
    Joins trees opn L c := by
  refine ⟨hG.inj, ?_, ?_, hG.vals⟩
  · intro f hf hfo m hm s hs
    by_cases he : f.id = id
    · have : a0 = .function f := hcons.1 a0 ha0 _ hf (by rw [hid, svalue.objId, he])
      rw [he] at hm
      exact hdone f this m hm s hs
    · exact hG.done f hf (by simp [he, hfo]) m hm s hs
  · intro a ha hao hm b hb
    by_cases he : a.objId = id
    · have : a0 = a := hcons.1 a0 ha0 a ha (by rw [hid, he])
      subst this
      exact hsub b hb
    · exact hG.sub a ha (by simp [he, hao]) hm b hb

/-- An upvalue id is mapped after its value has been pushed. -/
theorem Joins_map_upvalue {trees : List svalue} {opn : List Nat} {L : lua_State}
    {c c1 : upvalue_cache} (hG : Joins trees opn L c) (uid : Nat) (m0 : upvalue_mapping)
    (hm0 : m0.key = uid)
    (hnone : lookup_upvalue c uid = none)
    (hval : ∀ r ∈ campaign_cells trees, r.1 = uid → ∀ b ∈ r.2.objects, (lookup_object c b.objId).isSome)
    (hobj : c1.object_map = c.object_map)
    (hupv : c1.upvalue_map = m0 :: c.upvalue_map) :
    Joins trees opn L c1 := by
  have hlo : ∀ k, lookup_object c1 k = lookup_object c k := fun k => by
    unfold lookup_object; rw [hobj]
  refine ⟨?_, ?_, ?_, ?_⟩
  · rw [hobj]; exact hG.inj
  · intro f hf hfo m hm s hs
    rw [hlo] at hm
    refine Shares_stable (hG.done f hf hfo m hm s hs) ⟨[m0], by simp [hupv], ?_⟩
      (fun cl u hcl hu => ⟨cl, hcl, hu⟩) (fun _ _ cl u hcl hu => ⟨cl, hcl, hu⟩)
    intro m1 hm1
    simp only [List.mem_singleton] at hm1
    rw [hm1, hm0]
    exact hnone
  · intro a ha hao hm b hb
    rw [hlo] at hm ⊢
    exact hG.sub a ha hao hm b hb
  · intro r hr hm b hb
    rw [hlo]
    by_cases he : r.1 = uid
    · exact hval r hr he b hb
    · refine hG.vals r hr ?_ b hb
      unfold lookup_upvalue at hm ⊢
      rw [hupv, List.find?_cons] at hm
      have : decide (m0.key = r.1) = false := by
        rw [hm0]; simpa using Ne.symm he
      rw [this] at hm
      exact hm

theorem supvalue_numsOK_nodup : ∀ ups : supvalue, ups.numsOK = true → ups.numbers.Nodup
  | .null, _ => by simp [supvalue.numbers]
  | .node next _ number value _, h => by
    simp only [supvalue.numsOK, Bool.and_eq_true, decide_eq_true_eq] at h
    simp only [supvalue.numbers, List.nodup_cons]
    exact ⟨h.1.2, supvalue_numsOK_nodup next h.2⟩

theorem map_collector_maps (c c1 : upvalue_cache) (key oid : Nat) (vk : svalue)
    (h : map_collector c key oid vk = .ok c1) :
    c1.object_map = c.object_map ∧ c1.upvalue_map = c.upvalue_map := by
  simp only [map_collector, bind_ok, pure_ok] at h
  obtain ⟨vk1, -, rfl⟩ := h
  exact ⟨rfl, rfl⟩

mutual
theorem push_object_joins (cb : callbacks) (H : Host) (idx : Int) (ot : Nat) (trees : List svalue)
    (hs : cb.log_fatal_returns = false) (hcons : campaign_consistent trees) :
    ∀ (sv : svalue) (L : lua_State) (c : upvalue_cache) (L1 : lua_State) (c1 : upvalue_cache)
      (opn : List Nat),
      Inv idx ot L c → Joins trees opn L c →
      (∀ a ∈ sv.objects, a ∈ campaign_objects trees) → (∀ r ∈ sv.cells, r ∈ campaign_cells trees) →
      sv.numsOK = true → sv.unnested = true → (∀ a ∈ sv.objects, a.objId ∉ opn) →
      push_object cb H sv L c = .ok (L1, c1) →
      Joins trees opn L1 c1 ∧ ObjExt c c1 ∧
        ∀ a ∈ sv.objects, (lookup_object c1 a.objId).isSome
  | .other _, L, c, L1, c1, opn, hinv, hG, hO, hC, hn, hu, hop, h => by
    simp [push_object] at h
  | .boolean b, L, c, L1, c1, opn, hinv, hG, hO, hC, hn, hu, hop, h => by
    simp only [push_object, Except.ok.injEq, Prod.mk.injEq] at h
    obtain ⟨rfl, rfl⟩ := h
    exact ⟨Joins_same hG rfl rfl (fun _ _ => rfl), ObjExt_refl _, by simp [svalue.objects]⟩
  | .number n, L, c, L1, c1, opn, hinv, hG, hO, hC, hn, hu, hop, h => by
    simp only [push_object, Except.ok.injEq, Prod.mk.injEq] at h
    obtain ⟨rfl, rfl⟩ := h
    exact ⟨Joins_same hG rfl rfl (fun _ _ => rfl), ObjExt_refl _, by simp [svalue.objects]⟩
  | .string s, L, c, L1, c1, opn, hinv, hG, hO, hC, hn, hu, hop, h => by
    simp only [push_object, Except.ok.injEq, Prod.mk.injEq] at h
    obtain ⟨rfl, rfl⟩ := h
    exact ⟨Joins_same hG rfl rfl (fun _ _ => rfl), ObjExt_refl _, by simp [svalue.objects]⟩
  | .function f, L, c, L1, c1, opn, hinv, hG, hO, hC, hn, hu, hop, h => by
    simp only [push_object, bind_ok] at h
    obtain ⟨⟨found, La⟩, h1, h2⟩ := h
    rw [lookup_and_fetch_object_eq c L idx ot f.id hinv.cidx hinv.pos hinv.le hinv.at_idx
      hinv.host] at h1
    simp only [svalue.objects] at hO hop ⊢
    simp only [svalue.cells] at hC
    simp only [svalue.numsOK] at hn
    simp only [svalue.unnested] at hu
    have hfo : svalue.function f ∈ f.objects := by
      cases f; simp [sfunction.objects]
    cases hl : lookup_object c f.id with
    | some m =>
      rw [hl] at h1
      simp only [Except.ok.injEq, Prod.mk.injEq] at h1
      obtain ⟨rfl, rfl⟩ := h1
      simp only [if_true, pure_ok, Prod.mk.injEq] at h2
      obtain ⟨rfl, rfl⟩ := h2
      refine ⟨Joins_same hG rfl rfl (fun _ _ => rfl), ObjExt_refl _, ?_⟩
      intro a ha
      exact hG.sub (.function f) (hO _ hfo) (hop _ hfo) (by simp [svalue.objId, hl]) a
        (by simpa [svalue.objects] using ha)
    | none =>
      rw [hl] at h1
      simp only [Except.ok.injEq, Prod.mk.injEq] at h1
      obtain ⟨rfl, rfl⟩ := h1
      simp only [Bool.false_eq_true, if_false, bind_ok, pure_ok] at h2
      obtain ⟨⟨r, key, L2, c2⟩, h3, h4⟩ := h2
      simp only [Prod.mk.injEq] at h4
      obtain ⟨rfl, rfl⟩ := h4
      obtain ⟨hJ, hE, hM, -⟩ := push_function_joins cb H idx ot trees hs hcons f L c r key L2 c2
        opn hinv hG hl hO hC hn hu hop h3
      exact ⟨hJ, hE, hM⟩
  | .table t, L, c, L1, c1, opn, hinv, hG, hO, hC, hn, hu, hop, h => by
    simp only [push_object, bind_ok] at h
    obtain ⟨⟨found, La⟩, h1, h2⟩ := h
    rw [lookup_and_fetch_object_eq c L idx ot t.id hinv.cidx hinv.pos hinv.le hinv.at_idx
      hinv.host] at h1
    simp only [svalue.objects] at hO hop ⊢
    simp only [svalue.cells] at hC
    simp only [svalue.numsOK] at hn
    simp only [svalue.unnested] at hu
    have hfo : svalue.table t ∈ t.objects := by
      cases t; simp [stable.objects]
    cases hl : lookup_object c t.id with
    | some m =>
      rw [hl] at h1
      simp only [Except.ok.injEq, Prod.mk.injEq] at h1
      obtain ⟨rfl, rfl⟩ := h1
      simp only [if_true, pure_ok, Prod.mk.injEq] at h2
      obtain ⟨rfl, rfl⟩ := h2
      refine ⟨Joins_same hG rfl rfl (fun _ _ => rfl), ObjExt_refl _, ?_⟩
      intro a ha
      exact hG.sub (.table t) (hO _ hfo) (hop _ hfo) (by simp [svalue.objId, hl]) a
        (by simpa [svalue.objects] using ha)
    | none =>
      rw [hl] at h1
      simp only [Except.ok.injEq, Prod.mk.injEq] at h1
      obtain ⟨rfl, rfl⟩ := h1
      simp only [Bool.false_eq_true, if_false] at h2
      exact push_table_joins cb H idx ot trees hs hcons t L c L1 c1 opn hinv hG hl hO hC hn hu
        hop h2
theorem push_table_joins (cb : callbacks) (H : Host) (idx : Int) (ot : Nat) (trees : List svalue)
    (hs : cb.log_fatal_returns = false) (hcons : campaign_consistent trees) :
    ∀ (t : stable) (L : lua_State) (c : upvalue_cache) (L1 : lua_State) (c1 : upvalue_cache)
      (opn : List Nat),
      Inv idx ot L c → Joins trees opn L c → lookup_object c t.id = none →
      (∀ a ∈ t.objects, a ∈ campaign_objects trees) → (∀ r ∈ t.cells, r ∈ campaign_cells trees) →
      t.numsOK = true → t.unnested = true → (∀ a ∈ t.objects, a.objId ∉ opn) →
      push_table cb H t L c = .ok (L1, c1) →
      Joins trees opn L1 c1 ∧ ObjExt c c1 ∧
        ∀ a ∈ t.objects, (lookup_object c1 a.objId).isSome
  | .mk tbl_id entries, L, c, L1, c1, opn, hinv, hG, hl, hO, hC, hn, hu, hop, h => by
    simp only [push_table, bind_ok] at h
    obtain ⟨⟨tid, L2⟩, h1, h2⟩ := h
    simp only at h2
    simp only [stable.id] at hl
    obtain ⟨hs0, hlen0, hd0⟩ := lua_newtable_spec L
    obtain ⟨L2', h1', hst2, hlen2, hne2, hfetch2, hstep2⟩ :=
      cache_new_object True hinv (lua_newtable L)
        (.table (L.heap.length + 1)) (L.heap.length + 1)
        (Or.inl ⟨rfl, by simp [getTable, hd0]⟩) (by omega) hs0 (by omega)
        (fun q hq => by rw [hd0 q, if_neg (by omega)]) tbl_id
    rw [h1'] at h1
    simp only [Except.ok.injEq, Prod.mk.injEq] at h1
    obtain ⟨rfl, rfl⟩ := h1
    have hto : L.heap.length + 1 ≠ ot := by
      have := getTable_isSome_le L ot hinv.host
      omega
    have htl : (getTable L2' (L.heap.length + 1)).isSome := by
      rw [getTable_eq_of_deref _ L2' _ (hne2 _ hto)]
      simp [getTable, hd0]
    have hJ1 : Joins trees opn L2' c :=
      Joins_same hG rfl rfl (fun p hp => hstep2.clos p hp (fun e => e))
    have hfresh : ∀ m ∈ c.object_map, m.object_id ≠ L.heap.length + 1 := by
      intro m hm
      have := LiveObj_le L ot _ (hinv.objs m hm)
      omega
    have hJ2 := Joins_open hJ1 tbl_id (L.heap.length + 1) hfresh
    simp only [stable.objects, List.mem_cons] at hO hop
    simp only [stable.cells] at hC
    simp only [stable.numsOK] at hn
    simp only [stable.unnested, Bool.and_eq_true, decide_eq_true_eq, List.mem_map, not_exists,
      not_and] at hu
    obtain ⟨hJ3, hE3, hM3⟩ := push_table_entries_joins cb H idx ot trees hs hcons entries
      (L.heap.length + 1) L2' (map_object c tbl_id (L.heap.length + 1)) L1 c1 L.stack
      (tbl_id :: opn) hstep2.inv (by rw [hst2, hs0]) hto hfetch2 htl hJ2
      (fun a ha => hO a (Or.inr ha)) hC hn hu.2
      (fun a ha => by
        simp only [List.mem_cons, not_or]
        exact ⟨fun e => hu.1 a ha e, hop a (Or.inr ha)⟩) h2
    have hmap : lookup_object c1 tbl_id = some ⟨tbl_id, L.heap.length + 1⟩ :=
      lookup_object_ext _ _ hE3 _ _ (by rw [lookup_object_map_object, if_pos rfl])
    have hall : ∀ b ∈ (svalue.table (.mk tbl_id entries)).objects,
        (lookup_object c1 b.objId).isSome := by
      intro b hb
      simp only [svalue.objects, stable.objects, List.mem_cons] at hb
      rcases hb with rfl | hb
      · simp [svalue.objId, stable.id, hmap]
      · exact hM3 b hb
    refine ⟨Joins_close tbl_id hJ3 hcons (.table (.mk tbl_id entries)) (hO _ (Or.inl rfl)) rfl
      (by intro f hf; cases hf) hall,
      ObjExt_trans (ObjExt_map_object c tbl_id _ hl) hE3, ?_⟩
    intro b hb
    exact hall b (by simpa [svalue.objects] using hb)
theorem push_table_entries_joins (cb : callbacks) (H : Host) (idx : Int) (ot : Nat)
    (trees : List svalue) (hs : cb.log_fatal_returns = false) (hcons : campaign_consistent trees) :
    ∀ (es : stable_entry) (tid : Nat) (L : lua_State) (c : upvalue_cache) (L1 : lua_State)
      (c1 : upvalue_cache) (rest : List TValue) (opn : List Nat),
      Inv idx ot L c → L.stack = .table tid :: rest → tid ≠ ot →
      Fetch L ot tid = .table tid → (getTable L tid).isSome →
      Joins trees opn L c →
      (∀ a ∈ es.objects, a ∈ campaign_objects trees) → (∀ r ∈ es.cells, r ∈ campaign_cells trees) →
      es.numsOK = true → es.unnested = true → (∀ a ∈ es.objects, a.objId ∉ opn) →
      push_table_entries cb H es tid L c = .ok (L1, c1) →
      Joins trees opn L1 c1 ∧ ObjExt c c1 ∧
        ∀ a ∈ es.objects, (lookup_object c1 a.objId).isSome
  | .null, tid, L, c, L1, c1, rest, opn, hinv, hst, hne, hf, htl, hG, hO, hC, hn, hu, hop, h => by
    simp only [push_table_entries, Except.ok.injEq, Prod.mk.injEq] at h
    obtain ⟨rfl, rfl⟩ := h
    exact ⟨hG, ObjExt_refl _, by simp [stable_entry.objects]⟩
  | .node next key value cid, tid, L, c, L1, c1, rest, opn, hinv, hst, hne, hf, htl, hG, hO, hC,
      hn, hu, hop, h => by
    simp only [push_table_entries, bind_ok] at h
    obtain ⟨⟨La, ca⟩, h1, ⟨Lb, cb1⟩, h2, Lc, h3, cd, h4, h5⟩ := h
    have hN : key.numsOK = true ∧ value.numsOK = true ∧ next.numsOK = true := by
      simpa [stable_entry.numsOK, and_assoc] using hn
    have hU : key.unnested = true ∧ value.unnested = true ∧ next.unnested = true := by
      simpa [stable_entry.unnested, and_assoc] using hu
    simp only [stable_entry.objects, List.mem_append] at hO hop
    simp only [stable_entry.cells, List.mem_append] at hC
    obtain ⟨⟨k, hk, hsa⟩, hstepa⟩ := push_object_inv cb H idx ot key L c La ca hinv h1
    obtain ⟨⟨v, hv, hsb⟩, hstepb⟩ :=
      push_object_inv cb H idx ot value La ca Lb cb1 hstepa.inv h2
    have hsb1 : Lb.stack = v :: k :: .table tid :: rest := by rw [hsb, hsa, hst]
    have htle := getTable_isSome_le L tid htl
    have hfb : Fetch Lb ot tid = .table tid := by
      rw [hstepb.mono.fetch tid (le_trans htle hstepa.mono.len), hstepa.mono.fetch tid htle]
      exact hf
    obtain ⟨hsc, -, ⟨T, hT, hTc⟩, -, hstepc⟩ :=
      entry_commit True v k tid rest key cid
        hstepb.inv hsb1 hne hfb (by rw [← hst]; exact hinv.le)
        (fun L2 h2 => by rw [index_congr L L2 idx (by rw [h2, hst])]; exact hinv.at_idx) h3 h4
    have hfc : Fetch Lc ot tid = .table tid := by
      rw [hstepc.mono.fetch tid (getTable_isSome_le Lb tid (by simp [hT]))]; exact hfb
    obtain ⟨hJa, hEa, hMa⟩ := push_object_joins cb H idx ot trees hs hcons key L c La ca opn
      hinv hG (fun a ha => hO a (Or.inl (Or.inl ha))) (fun r hr => hC r (Or.inl (Or.inl hr)))
      hN.1 hU.1 (fun a ha => hop a (Or.inl (Or.inl ha))) h1
    obtain ⟨hJb, hEb, hMb⟩ := push_object_joins cb H idx ot trees hs hcons value La ca Lb cb1
      opn hstepa.inv hJa (fun a ha => hO a (Or.inl (Or.inr ha)))
      (fun r hr => hC r (Or.inl (Or.inr hr)))
      hN.2.1 hU.2.1 (fun a ha => hop a (Or.inl (Or.inr ha))) h2
    have hmaps : cd.object_map = cb1.object_map ∧ cd.upvalue_map = cb1.upvalue_map := by
      by_cases hcid : cid ≠ 0
      · rw [if_pos hcid] at h4
        exact map_collector_maps _ _ _ _ _ h4
      · rw [if_neg hcid, pure_ok] at h4
        subst h4
        exact ⟨rfl, rfl⟩
    have hJc : Joins trees opn Lc cd :=
      Joins_same hJb hmaps.1 hmaps.2 (fun p hp => hstepc.clos p hp (fun e => e))
    obtain ⟨hJn, hEn, hMn⟩ := push_table_entries_joins cb H idx ot trees hs hcons next tid Lc cd
      L1 c1 rest opn hstepc.inv hsc hne hfc (by simp [hTc]) hJc
      (fun a ha => hO a (Or.inr ha)) (fun r hr => hC r (Or.inr hr))
      hN.2.2 hU.2.2 (fun a ha => hop a (Or.inr ha)) h5
    have hEc : ObjExt cb1 cd := ObjExt_of_eq hmaps.1
    refine ⟨hJn, ObjExt_trans (ObjExt_trans (ObjExt_trans hEa hEb) hEc) hEn, ?_⟩
    intro a ha
    simp only [stable_entry.objects, List.mem_append] at ha
    rcases ha with (ha | ha) | ha
    · exact ObjExt_mapped (ObjExt_trans (ObjExt_trans hEb hEc) hEn) _ (hMa a ha)
    · exact ObjExt_mapped (ObjExt_trans hEc hEn) _ (hMb a ha)
    · exact hMn a ha
theorem push_function_joins (cb : callbacks) (H : Host) (idx : Int) (ot : Nat) (trees : List svalue)
    (hs : cb.log_fatal_returns = false) (hcons : campaign_consistent trees) :
    ∀ (f : sfunction) (L : lua_State) (c : upvalue_cache) (r : Int) (key : Option Nat)
      (L1 : lua_State) (c1 : upvalue_cache) (opn : List Nat),
      Inv idx ot L c → Joins trees opn L c → lookup_object c f.id = none →
      (∀ a ∈ f.objects, a ∈ campaign_objects trees) → (∀ r ∈ f.cells, r ∈ campaign_cells trees) →
      f.numsOK = true → f.unnested = true → (∀ a ∈ f.objects, a.objId ∉ opn) →
      push_function cb H f L c = .ok (r, key, L1, c1) →
      Joins trees opn L1 c1 ∧ ObjExt c c1 ∧
        (∀ a ∈ f.objects, (lookup_object c1 a.objId).isSome) ∧
        r = 0 ∧ ∃ fid, key = some fid ∧ lookup_object c1 f.id = some ⟨f.id, fid⟩
  | .mk fn_id code upvalues, L, c, r, key, L1, c1, opn, hinv, hG, hl, hO, hC, hn, hu, hop,
      h => by
    have hwhole := push_function_inv cb H idx ot (.mk fn_id code upvalues) L c r key L1 c1
      hinv h
    simp only [push_function, bind_ok] at h
    obtain ⟨⟨err, La⟩, h1, h2⟩ := h
    simp only [sfunction.id] at hl ⊢
    cases hld : H.load code with
    | failure cc msg =>
      rw [load_function_bytecode_failure cb H L code cc msg hld] at h1
      simp [hs] at h1
    | proto nups =>
      rw [load_function_bytecode_proto cb H L code nups hld] at h1
      obtain ⟨L0, hlb, hs0, hlen0, hsame0, hcells0, hcl0⟩ :=
        luaL_loadbuffer_proto_spec H L code nups hld
      rw [hlb] at h1
      simp only [Except.ok.injEq, Prod.mk.injEq] at h1
      obtain ⟨rfl, rfl⟩ := h1
      simp only [ne_eq, not_true_eq_false, if_false, bind_ok, pure_ok, Prod.mk.injEq] at h2
      obtain ⟨⟨func_id, Lb⟩, h3, ⟨Lc, cc⟩, h4, rfl, rfl, rfl, rfl⟩ := h2
      simp only at h4
      obtain ⟨Lb1, h3a, hstb, hlenb, hneb, hfetchb, hstepb⟩ :=
        cache_new_object True hinv L0
          (.function (L.heap.length + nups + 1)) (L.heap.length + nups + 1)
          (Or.inr ⟨rfl, by simp [getClosure, hcl0]⟩) (by omega) hs0 (by omega) hsame0 fn_id
      rw [h3a] at h3
      simp only [Except.ok.injEq, Prod.mk.injEq] at h3
      obtain ⟨rfl, rfl⟩ := h3
      have hfo : L.heap.length + nups + 1 ≠ ot := by
        have := getTable_isSome_le L ot hinv.host
        omega
      have hclb : getClosure Lb1 (L.heap.length + nups + 1) =
          some ⟨some code, List.range' (L.heap.length + 1) nups⟩ := by
        rw [getClosure_eq_of_deref L0 Lb1 _ (hneb _ hfo)]
        simp [getClosure, hcl0]
      have hJ1 : Joins trees opn Lb1 c :=
        Joins_same hG rfl rfl (fun p hp => hstepb.clos p hp (fun e => e))
      have hfresh : ∀ m ∈ c.object_map, m.object_id ≠ L.heap.length + nups + 1 := by
        intro m hm
        have := LiveObj_le L ot _ (hinv.objs m hm)
        omega
      have hJ2 := Joins_open hJ1 fn_id (L.heap.length + nups + 1) hfresh
      simp only [sfunction.objects, List.mem_cons] at hO hop
      simp only [sfunction.cells] at hC
      simp only [sfunction.numsOK] at hn
      simp only [sfunction.unnested, Bool.and_eq_true, decide_eq_true_eq, List.mem_map,
        not_exists, not_and] at hu
      have hroot : fn_id ∈ (campaign_objects trees).map svalue.objId :=
        List.mem_map.mpr ⟨_, hO _ (Or.inl rfl), rfl⟩
      obtain ⟨hJ3, hE3, hM3⟩ := push_function_upvalues_joins cb H idx ot trees hs hcons upvalues
        (L.heap.length + nups + 1) Lb1 (map_object c fn_id (L.heap.length + nups + 1)) Lc cc
        L.stack _ (fn_id :: opn) hstepb.inv (by rw [hstb, hs0]) hclb hfetchb hJ2
        ⟨fn_id, List.mem_cons_self _ _, hroot, List.mem_cons_self _ _⟩
        (by
          intro m hm hmf
          exfalso
          have := SlotOK_le L _ _ (hinv.upvs m hm).2
          omega)
        (fun a ha => hO a (Or.inr ha)) hC hn hu.2
        (fun a ha => by
          simp only [List.mem_cons, not_or]
          exact ⟨fun e => hu.1 a ha e, hop a (Or.inr ha)⟩) h4
      have hmap : lookup_object cc fn_id = some ⟨fn_id, L.heap.length + nups + 1⟩ :=
        lookup_object_ext _ _ hE3 _ _ (by rw [lookup_object_map_object, if_pos rfl])
      have hall : ∀ b ∈ (svalue.function (.mk fn_id code upvalues)).objects,
          (lookup_object cc b.objId).isSome := by
        intro b hb
        simp only [svalue.objects, sfunction.objects, List.mem_cons] at hb
        rcases hb with rfl | hb
        · simp [svalue.objId, sfunction.id, hmap]
        · exact hM3 b hb
      obtain ⟨-, -, h0, -⟩ := hwhole
      obtain ⟨nups1, fid, cl1, -, hkey, -, -, -, -, -, hsh⟩ := h0 rfl
      simp only [Option.some.injEq] at hkey
      subst hkey
      refine ⟨Joins_close fn_id hJ3 hcons (.function (.mk fn_id code upvalues))
        (hO _ (Or.inl rfl)) rfl ?_ hall,
        ObjExt_trans (ObjExt_map_object c fn_id _ hl) hE3, ?_, rfl, _, rfl, hmap⟩
      · intro f hf m hm s hs1
        simp only [svalue.function.injEq] at hf
        subst hf
        rw [hmap] at hm
        cases hm
        exact hsh (supvalue_numsOK_nodup _ hn) s hs1
      · intro b hb
        exact hall b (by simpa [svalue.objects] using hb)
theorem push_function_upvalues_joins (cb : callbacks) (H : Host) (idx : Int) (ot : Nat)
    (trees : List svalue) (hs : cb.log_fatal_returns = false) (hcons : campaign_consistent trees) :
    ∀ (ups : supvalue) (func_id : Nat) (L : lua_State) (c : upvalue_cache) (L1 : lua_State)
      (c1 : upvalue_cache) (rest : List TValue) (cl : Closure) (opn : List Nat),
      Inv idx ot L c → L.stack = .function func_id :: rest →
      getClosure L func_id = some cl → Fetch L ot func_id = .function func_id →
      Joins trees opn L c →
      (∃ k ∈ opn, k ∈ (campaign_objects trees).map svalue.objId ∧
        (⟨k, func_id⟩ : object_mapping) ∈ c.object_map) →
      (∀ m ∈ c.upvalue_map, m.function_id = func_id → m.upvalue_num ∉ ups.numbers) →
      (∀ a ∈ ups.objects, a ∈ campaign_objects trees) → (∀ r ∈ ups.cells, r ∈ campaign_cells trees) →
      ups.numsOK = true → ups.unnested = true → (∀ a ∈ ups.objects, a.objId ∉ opn) →
      push_function_upvalues cb H func_id ups L c = .ok (L1, c1) →
      Joins trees opn L1 c1 ∧ ObjExt c c1 ∧
        ∀ a ∈ ups.objects, (lookup_object c1 a.objId).isSome
  | .null, func_id, L, c, L1, c1, rest, cl, opn, hinv, hst, hc, hf, hG, hfm, hPn, hO, hC, hn,
      hu, hop, h => by
    simp only [push_function_upvalues, Except.ok.injEq, Prod.mk.injEq] at h
    obtain ⟨rfl, rfl⟩ := h
    exact ⟨hG, ObjExt_refl _, by simp [supvalue.objects]⟩
  | .node next uid number value cid, func_id, L, c, L1, c1, rest, cl, opn, hinv, hst, hc, hf,
      hG, hfm, hPn, hO, hC, hn, hu, hop, h => by
    simp only [push_function_upvalues, bind_ok] at h
    obtain ⟨⟨La, ca⟩, h1, h2⟩ := h
    simp only at h2
    have hN : value.numsOK = true ∧ number ∉ next.numbers ∧ next.numsOK = true := by
      simpa [supvalue.numsOK, and_assoc] using hn
    have hU : uid ∉ value.upvalueIds ∧ value.unnested = true ∧ next.unnested = true := by
      simpa [supvalue.unnested, and_assoc] using hu
    simp only [supvalue.objects, List.mem_append] at hO hop
    simp only [supvalue.cells, List.mem_cons, List.mem_append] at hC
    obtain ⟨hsa, hstepa, ⟨ca1, hca1, hchunka, hlena, hslotsa⟩, hsharea, hmapsa⟩ :=
      set_shared_upvalue_inv idx ot (value.numsOK = true) (push_object cb H value)
        (fun L cache L1 cache1 hi hp => push_object_inv cb H idx ot value L cache L1 cache1 hi hp)
        func_id uid number cid L c La ca rest cl hinv hst hc hf h1
    have hfl : func_id ≤ L.heap.length := getClosure_isSome_le L func_id (by simp [hc])
    have hfa : Fetch La ot func_id = .function func_id := by
      rw [hstepa.mono.fetch func_id hfl]; exact hf
    have hJa : Joins trees opn La ca ∧ ObjExt c ca ∧
        ∀ a ∈ value.objects, (lookup_object ca a.objId).isSome := by
      cases hm : lookup_upvalue c uid with
      | some m =>
        have hca : ca = c := by
          simp only [set_shared_upvalue, hm, bind_ok, pure_ok] at h1
          obtain ⟨_, _, _, _, _, _, h4⟩ := h1
          simp only [Prod.mk.injEq] at h4
          exact h4.2.symm
        subst hca
        refine ⟨Joins_state hG rfl rfl ?_ ?_, ObjExt_refl _, ?_⟩
        · intro f hf1 hfo m1 hm1 cl1 hcl1
          obtain ⟨k, hko, hkr, hkm⟩ := hfm
          obtain ⟨hmem, hkey⟩ := lookup_object_mem _ _ _ hm1
          have hne : m1.object_id ≠ func_id := by
            intro he
            have hk := hG.inj m1 hmem ⟨k, func_id⟩ hkm
              (by rw [hkey]; exact List.mem_map.mpr ⟨_, hf1, rfl⟩) hkr he
            apply hfo
            rw [← hkey, hk]
            exact hko
          rw [hstepa.clos _ (getClosure_isSome_le L _ (by simp [hcl1])) hne]
          exact hcl1
        · intro m1 hm1 cl1 u hcl1 hu1
          by_cases hmf : m1.function_id = func_id
          · rw [hmf] at hcl1 ⊢
            rw [hc] at hcl1
            cases hcl1
            have hnum : m1.upvalue_num ≠ number := by
              have := hPn m1 hm1 hmf
              simp only [supvalue.numbers, List.mem_cons, not_or] at this
              exact this.1
            exact ⟨ca1, hca1, by rw [hslotsa _ hnum]; exact hu1⟩
          · exact ⟨cl1, by
              rw [hstepa.clos _ (getClosure_isSome_le L _ (by simp [hcl1])) hmf]
              exact hcl1, hu1⟩
        · intro a ha
          exact hG.vals (uid, value) (hC _ (Or.inl rfl)) (by simp [hm]) a ha
      | none =>
        simp only [set_shared_upvalue, hm, bind_ok] at h1
        obtain ⟨⟨Lu, cu⟩, hsu, hrest⟩ := h1
        simp only [set_upvalue, bind_ok] at hsu
        obtain ⟨⟨Lv, cv⟩, hpv, hsv⟩ := hsu
        simp only at hsv hrest
        obtain ⟨⟨v, hv, hsvst⟩, hstepv⟩ := push_object_inv cb H idx ot value L c Lv cv hinv hpv
        obtain ⟨hJv, hEv, hMv⟩ := push_object_joins cb H idx ot trees hs hcons value L c Lv cv
          opn hinv hG (fun a ha => hO a (Or.inl ha)) (fun r hr => hC r (Or.inr (Or.inl hr)))
          hN.1 hU.2.1 (fun a ha => hop a (Or.inl ha)) hpv
        rcases hsu2 : lua_setupvalue Lv (-2) number with ⟨name, L2⟩
        rw [hsu2] at hsv
        cases name with
        | false => simp at hsv
        | true =>
          simp only [if_true, pure_ok, Prod.mk.injEq] at hsv
          obtain ⟨rfl, rfl⟩ := hsv
          obtain ⟨fid, c1', u, w, hf', hc1', hu', hw, hst2, hlen2, hd2⟩ :=
            lua_setupvalue_m2_inv Lv L2 v (.function func_id) rest number
              (by rw [hsvst, hst]) hsu2
          have hclos2 : ∀ p, getClosure L2 p = getClosure Lv p := by
            intro p
            by_cases hp : p = u
            · subst hp
              have : getClosure Lv p = none := by
                simp [getClosure, (getUpval_some Lv p w).mp hw]
              rw [this]
              simp [getClosure, hd2 p]
            · exact getClosure_eq_of_deref Lv L2 p (by rw [hd2 p, if_neg hp])
          have hJ2 : Joins trees opn L2 cv := Joins_same hJv rfl rfl (fun p _ => hclos2 p)
          have hnone : lookup_upvalue cv uid = none := by
            rw [lookup_upvalue_tracks (push_object_tracks cb H value L c Lv cv hpv) uid hU.1]
            exact hm
          have hcaches : La = L2 ∧ ca.object_map = cv.object_map ∧
              ca.upvalue_map = ⟨uid, func_id, number⟩ :: cv.upvalue_map := by
            by_cases hcid : cid ≠ 0
            · rw [if_pos hcid] at hrest
              simp only [bind_ok, pure_ok, Prod.mk.injEq] at hrest
              obtain ⟨c3, hmc, rfl, rfl⟩ := hrest
              obtain ⟨e1, e2⟩ := map_collector_maps _ _ _ _ _ hmc
              exact ⟨rfl, by rw [e1]; rfl, by rw [e2]; rfl⟩
            · rw [if_neg hcid] at hrest
              simp only [pure_ok, Prod.mk.injEq] at hrest
              obtain ⟨rfl, rfl⟩ := hrest
              exact ⟨rfl, rfl, rfl⟩
          obtain ⟨rfl, ho, hup⟩ := hcaches
          refine ⟨Joins_map_upvalue hJ2 uid ⟨uid, func_id, number⟩ rfl hnone ?_ ho hup,
            ObjExt_trans hEv (ObjExt_of_eq ho), ?_⟩
          · intro r hr he b hb
            have : r.2 = value := hcons.2 r hr (uid, value) (hC _ (Or.inl rfl)) he
            rw [this] at hb
            exact hMv b hb
          · intro a ha
            have := hMv a ha
            unfold lookup_object at this ⊢
            rw [ho]
            exact this
    obtain ⟨hJa1, hEa, hMa⟩ := hJa
    have hPn1 : ∀ m ∈ ca.upvalue_map, m.function_id = func_id →
        m.upvalue_num ∉ next.numbers := by
      intro m hm hmf
      rcases hmapsa m hm hmf with h | h
      · have := hPn m h hmf
        simp only [supvalue.numbers, List.mem_cons, not_or] at this
        exact this.2
      · rw [h]; exact hN.2.1
    have hfm1 : ∃ k ∈ opn, k ∈ (campaign_objects trees).map svalue.objId ∧
        (⟨k, func_id⟩ : object_mapping) ∈ ca.object_map := by
      obtain ⟨k, h1, h2, h3⟩ := hfm
      exact ⟨k, h1, h2, ObjExt_mem hEa _ h3⟩
    obtain ⟨hJn, hEn, hMn⟩ := push_function_upvalues_joins cb H idx ot trees hs hcons next
      func_id La ca L1 c1 rest ca1 opn hstepa.inv (by rw [hsa, hst]) hca1 hfa hJa1 hfm1 hPn1
      (fun a ha => hO a (Or.inr ha)) (fun r hr => hC r (Or.inr (Or.inr hr)))
      hN.2.2 hU.2.2 (fun a ha => hop a (Or.inr ha)) h2
    refine ⟨hJn, ObjExt_trans hEa hEn, ?_⟩
    intro a ha
    simp only [supvalue.objects, List.mem_append] at ha
    rcases ha with ha | ha
    · exact ObjExt_mapped hEn _ (hMa a ha)
    · exact hMn a ha
end

mutual
theorem svalue_objects_size : ∀ (sv b : svalue), b ∈ sv.objects → sizeOf b ≤ sizeOf sv
  | .other _, b, h => by simp [svalue.objects] at h
  | .boolean _, b, h => by simp [svalue.objects] at h
  | .number _, b, h => by simp [svalue.objects] at h
  | .string _, b, h => by simp [svalue.objects] at h
  | .function f, b, h => by
    simp only [svalue.objects] at h
    rcases sfunction_objects_size f b h with rfl | h1
    · exact le_refl _
    · simp only [svalue.function.sizeOf_spec]
      omega
  | .table t, b, h => by
    simp only [svalue.objects] at h
    rcases stable_objects_size t b h with rfl | h1
    · exact le_refl _
    · simp only [svalue.table.sizeOf_spec]
      omega
theorem supvalue_objects_size : ∀ (ups : supvalue) (b : svalue), b ∈ ups.objects →
    sizeOf b < sizeOf ups
  | .null, b, h => by simp [supvalue.objects] at h
  | .node next id number value cid, b, h => by
    simp only [supvalue.objects, List.mem_append] at h
    simp only [supvalue.node.sizeOf_spec]
    rcases h with h | h
    · have := svalue_objects_size value b h
      omega
    · have := supvalue_objects_size next b h
      omega
theorem stable_entry_objects_size : ∀ (es : stable_entry) (b : svalue), b ∈ es.objects →
    sizeOf b < sizeOf es
  | .null, b, h => by simp [stable_entry.objects] at h
  | .node next key value cid, b, h => by
    simp only [stable_entry.objects, List.mem_append] at h
    simp only [stable_entry.node.sizeOf_spec]
    rcases h with (h | h) | h
    · have := svalue_objects_size key b h
      omega
    · have := svalue_objects_size value b h
      omega
    · have := stable_entry_objects_size next b h
      omega
theorem stable_objects_size : ∀ (t : stable) (b : svalue), b ∈ t.objects →
    b = .table t ∨ sizeOf b < sizeOf t
  | .mk id entries, b, h => by
    simp only [stable.objects, List.mem_cons] at h
    rcases h with h | h
    · exact Or.inl h
    · right
      have := stable_entry_objects_size entries b h
      simp only [stable.mk.sizeOf_spec]
      omega
theorem sfunction_objects_size : ∀ (f : sfunction) (b : svalue), b ∈ f.objects →
    b = .function f ∨ sizeOf b < sizeOf f
  | .mk id code upvalues, b, h => by
    simp only [sfunction.objects, List.mem_cons] at h
    rcases h with h | h
    · exact Or.inl h
    · right
      have := supvalue_objects_size upvalues b h
      simp only [sfunction.mk.sizeOf_spec]
      omega
end

mutual
theorem svalue_cells_size : ∀ (sv : svalue) (r : Nat × svalue), r ∈ sv.cells →
    sizeOf r.2 < sizeOf sv
  | .other _, r, h => by simp [svalue.cells] at h
  | .boolean _, r, h => by simp [svalue.cells] at h
  | .number _, r, h => by simp [svalue.cells] at h
  | .string _, r, h => by simp [svalue.cells] at h
  | .function f, r, h => by
    simp only [svalue.cells] at h
    have := sfunction_cells_size f r h
    simp only [svalue.function.sizeOf_spec]
    omega
  | .table t, r, h => by
    simp only [svalue.cells] at h
    have := stable_cells_size t r h
    simp only [svalue.table.sizeOf_spec]
    omega
theorem supvalue_cells_size : ∀ (ups : supvalue) (r : Nat × svalue), r ∈ ups.cells →
    sizeOf r.2 < sizeOf ups
  | .null, r, h => by simp [supvalue.cells] at h
  | .node next id number value cid, r, h => by
    simp only [supvalue.cells, List.mem_cons, List.mem_append] at h
    simp only [supvalue.node.sizeOf_spec]
    rcases h with rfl | h | h
    · simp only
      omega
    · have := svalue_cells_size value r h
      omega
    · have := supvalue_cells_size next r h
      omega
theorem stable_entry_cells_size : ∀ (es : stable_entry) (r : Nat × svalue), r ∈ es.cells →
    sizeOf r.2 < sizeOf es
  | .null, r, h => by simp [stable_entry.cells] at h
  | .node next key value cid, r, h => by
    simp only [stable_entry.cells, List.mem_append] at h
    simp only [stable_entry.node.sizeOf_spec]
    rcases h with (h | h) | h
    · have := svalue_cells_size key r h
      omega
    · have := svalue_cells_size value r h
      omega
    · have := stable_entry_cells_size next r h
      omega
theorem stable_cells_size : ∀ (t : stable) (r : Nat × svalue), r ∈ t.cells →
    sizeOf r.2 < sizeOf t
  | .mk id entries, r, h => by
    simp only [stable.cells] at h
    have := stable_entry_cells_size entries r h
    simp only [stable.mk.sizeOf_spec]
    omega
theorem sfunction_cells_size : ∀ (f : sfunction) (r : Nat × svalue), r ∈ f.cells →
    sizeOf r.2 < sizeOf f
  | .mk id code upvalues, r, h => by
    simp only [sfunction.cells] at h
    have := supvalue_cells_size upvalues r h
    simp only [sfunction.mk.sizeOf_spec]
    omega
end

mutual
theorem svalue_upvalueIds_cells : ∀ sv : svalue, sv.upvalueIds = sv.cells.map Prod.fst
  | .other _ => by simp [svalue.upvalueIds, svalue.cells]
  | .boolean _ => by simp [svalue.upvalueIds, svalue.cells]
  | .number _ => by simp [svalue.upvalueIds, svalue.cells]
  | .string _ => by simp [svalue.upvalueIds, svalue.cells]
  | .function f => by
    simp only [svalue.upvalueIds, svalue.cells]
    exact sfunction_upvalueIds_cells f
  | .table t => by
    simp only [svalue.upvalueIds, svalue.cells]
    exact stable_upvalueIds_cells t
theorem supvalue_upvalueIds_cells : ∀ ups : supvalue, ups.upvalueIds = ups.cells.map Prod.fst
  | .null => by simp [supvalue.upvalueIds, supvalue.cells]
  | .node next id number value cid => by
    simp only [supvalue.upvalueIds, supvalue.cells, List.map_cons, List.map_append]
    rw [svalue_upvalueIds_cells value, supvalue_upvalueIds_cells next]
theorem stable_entry_upvalueIds_cells :
    ∀ es : stable_entry, es.upvalueIds = es.cells.map Prod.fst
  | .null => by simp [stable_entry.upvalueIds, stable_entry.cells]
  | .node next key value cid => by
    simp only [stable_entry.upvalueIds, stable_entry.cells, List.map_append]
    rw [svalue_upvalueIds_cells key, svalue_upvalueIds_cells value,
      stable_entry_upvalueIds_cells next]
theorem stable_upvalueIds_cells : ∀ t : stable, t.upvalueIds = t.cells.map Prod.fst
  | .mk id entries => by
    simp only [stable.upvalueIds, stable.cells]
    exact stable_entry_upvalueIds_cells entries
theorem sfunction_upvalueIds_cells : ∀ f : sfunction, f.upvalueIds = f.cells.map Prod.fst
  | .mk id code upvalues => by
    simp only [sfunction.upvalueIds, sfunction.cells]
    exact supvalue_upvalueIds_cells upvalues
end

mutual
/-- In a tree whose records with one id are copies of one another, no record
lies inside a record with the same id. -/
theorem svalue_unnested (trees : List svalue) (hcons : campaign_consistent trees) :
    ∀ sv : svalue, (∀ a ∈ sv.objects, a ∈ campaign_objects trees) → (∀ r ∈ sv.cells, r ∈ campaign_cells trees) →
      sv.unnested = true
  | .other _, _, _ => rfl
  | .boolean _, _, _ => rfl
  | .number _, _, _ => rfl
  | .string _, _, _ => rfl
  | .function f, hO, hC => by
    simp only [svalue.objects] at hO
    simp only [svalue.cells] at hC
    simp only [svalue.unnested]
    exact sfunction_unnested trees hcons f hO hC
  | .table t, hO, hC => by
    simp only [svalue.objects] at hO
    simp only [svalue.cells] at hC
    simp only [svalue.unnested]
    exact stable_unnested trees hcons t hO hC
theorem supvalue_unnested (trees : List svalue) (hcons : campaign_consistent trees) :
    ∀ ups : supvalue, (∀ a ∈ ups.objects, a ∈ campaign_objects trees) →
      (∀ r ∈ ups.cells, r ∈ campaign_cells trees) → ups.unnested = true
  | .null, _, _ => rfl
  | .node next id number value cid, hO, hC => by
    simp only [supvalue.objects, List.mem_append] at hO
    simp only [supvalue.cells, List.mem_cons, List.mem_append] at hC
    simp only [supvalue.unnested, Bool.and_eq_true, decide_eq_true_eq]
    refine ⟨⟨?_, svalue_unnested trees hcons value (fun a ha => hO a (Or.inl ha))
      (fun r hr => hC r (Or.inr (Or.inl hr)))⟩,
      supvalue_unnested trees hcons next (fun a ha => hO a (Or.inr ha))
        (fun r hr => hC r (Or.inr (Or.inr hr)))⟩
    intro hmem
    rw [svalue_upvalueIds_cells, List.mem_map] at hmem
    obtain ⟨r, hr, hid⟩ := hmem
    have he := hcons.2 r (hC r (Or.inr (Or.inl hr))) (id, value) (hC _ (Or.inl rfl)) hid
    have := svalue_cells_size value r hr
    rw [he] at this
    simp only at this
    omega
theorem stable_entry_unnested (trees : List svalue) (hcons : campaign_consistent trees) :
    ∀ es : stable_entry, (∀ a ∈ es.objects, a ∈ campaign_objects trees) →
      (∀ r ∈ es.cells, r ∈ campaign_cells trees) → es.unnested = true
  | .null, _, _ => rfl
  | .node next key value cid, hO, hC => by
    simp only [stable_entry.objects, List.mem_append] at hO
    simp only [stable_entry.cells, List.mem_append] at hC
    simp only [stable_entry.unnested, Bool.and_eq_true]
    exact ⟨⟨svalue_unnested trees hcons key (fun a ha => hO a (Or.inl (Or.inl ha)))
        (fun r hr => hC r (Or.inl (Or.inl hr))),
      svalue_unnested trees hcons value (fun a ha => hO a (Or.inl (Or.inr ha)))
        (fun r hr => hC r (Or.inl (Or.inr hr)))⟩,
      stable_entry_unnested trees hcons next (fun a ha => hO a (Or.inr ha))
        (fun r hr => hC r (Or.inr hr))⟩
theorem stable_unnested (trees : List svalue) (hcons : campaign_consistent trees) :
    ∀ t : stable, (∀ a ∈ t.objects, a ∈ campaign_objects trees) →
      (∀ r ∈ t.cells, r ∈ campaign_cells trees) → t.unnested = true
  | .mk id entries, hO, hC => by
    simp only [stable.objects, List.mem_cons] at hO
    simp only [stable.cells] at hC
    simp only [stable.unnested, Bool.and_eq_true, decide_eq_true_eq, List.mem_map, not_exists,
      not_and]
    refine ⟨?_, stable_entry_unnested trees hcons entries (fun a ha => hO a (Or.inr ha)) hC⟩
    intro b hb hid
    have he := hcons.1 b (hO b (Or.inr hb)) (.table (.mk id entries)) (hO _ (Or.inl rfl))
      (by rw [hid]; rfl)
    have := stable_entry_objects_size entries b hb
    rw [he] at this
    simp only [svalue.table.sizeOf_spec, stable.mk.sizeOf_spec] at this
    omega
theorem sfunction_unnested (trees : List svalue) (hcons : campaign_consistent trees) :
    ∀ f : sfunction, (∀ a ∈ f.objects, a ∈ campaign_objects trees) →
      (∀ r ∈ f.cells, r ∈ campaign_cells trees) → f.unnested = true
  | .mk id code upvalues, hO, hC => by
    simp only [sfunction.objects, List.mem_cons] at hO
    simp only [sfunction.cells] at hC
    simp only [sfunction.unnested, Bool.and_eq_true, decide_eq_true_eq, List.mem_map,
      not_exists, not_and]
    refine ⟨?_, supvalue_unnested trees hcons upvalues (fun a ha => hO a (Or.inr ha)) hC⟩
    intro b hb hid
    have he := hcons.1 b (hO b (Or.inr hb)) (.function (.mk id code upvalues))
      (hO _ (Or.inl rfl)) (by rw [hid]; rfl)
    have := supvalue_objects_size upvalues b hb
    rw [he] at this
    simp only [svalue.function.sizeOf_spec, sfunction.mk.sizeOf_spec] at this
    omega
end

mutual
theorem svalue_numsOK_of_objects : ∀ sv : svalue,
    (∀ f, svalue.function f ∈ sv.objects → f.upvalues.numbers.Nodup) → sv.numsOK = true
  | .other _, _ => by simp [svalue.numsOK]
  | .boolean _, _ => by simp [svalue.numsOK]
  | .number _, _ => by simp [svalue.numsOK]
  | .string _, _ => by simp [svalue.numsOK]
  | .function f, h => by
    simp only [svalue.numsOK]
    exact sfunction_numsOK_of_objects f (fun g hg => h g (by simpa [svalue.objects] using hg))
  | .table t, h => by
    simp only [svalue.numsOK]
    exact stable_numsOK_of_objects t (fun g hg => h g (by simpa [svalue.objects] using hg))
theorem supvalue_numsOK_of_objects : ∀ ups : supvalue, ups.numbers.Nodup →
    (∀ f, svalue.function f ∈ ups.objects → f.upvalues.numbers.Nodup) → ups.numsOK = true
  | .null, _, _ => by simp [supvalue.numsOK]
  | .node next id number value cid, hn, h => by
    simp only [supvalue.numbers, List.nodup_cons] at hn
    simp only [supvalue.numsOK, Bool.and_eq_true, decide_eq_true_eq]
    refine ⟨⟨?_, hn.1⟩, ?_⟩
    · exact svalue_numsOK_of_objects value
        (fun g hg => h g (by simp [supvalue.objects, hg]))
    · exact supvalue_numsOK_of_objects next hn.2
        (fun g hg => h g (by simp [supvalue.objects, hg]))
theorem stable_entry_numsOK_of_objects : ∀ es : stable_entry,
    (∀ f, svalue.function f ∈ es.objects → f.upvalues.numbers.Nodup) → es.numsOK = true
  | .null, _ => by simp [stable_entry.numsOK]
  | .node next key value cid, h => by
    simp only [stable_entry.numsOK, Bool.and_eq_true]
    refine ⟨⟨?_, ?_⟩, ?_⟩
    · exact svalue_numsOK_of_objects key
        (fun g hg => h g (by simp [stable_entry.objects, hg]))
    · exact svalue_numsOK_of_objects value
        (fun g hg => h g (by simp [stable_entry.objects, hg]))
    · exact stable_entry_numsOK_of_objects next
        (fun g hg => h g (by simp [stable_entry.objects, hg]))
theorem stable_numsOK_of_objects : ∀ t : stable,
    (∀ f, svalue.function f ∈ t.objects → f.upvalues.numbers.Nodup) → t.numsOK = true
  | .mk id entries, h => by
    simp only [stable.numsOK]
    exact stable_entry_numsOK_of_objects entries
      (fun g hg => h g (by simp [stable.objects, hg]))
theorem sfunction_numsOK_of_objects : ∀ f : sfunction,
    (∀ g, svalue.function g ∈ f.objects → g.upvalues.numbers.Nodup) → f.numsOK = true
  | .mk id code upvalues, h => by
    simp only [sfunction.numsOK]
    refine supvalue_numsOK_of_objects upvalues ?_
      (fun g hg => h g (by simp [sfunction.objects, hg]))
    have := h (.mk id code upvalues) (by simp [sfunction.objects])
    simpa [sfunction.upvalues] using this
end

end Rushit
